import Mathlib

/-!
MueLu hierarchy construction: a verification development.

A shallow embedding of `MueLu_Hierarchy_def.hpp` (chain management and the staged
`Setup` protocol).  Level objects live in a heap addressed by `LevelPtr` (the target of
an `RCP<Level>`); the hierarchy owns the array `Levels_` of such pointers.  Every
operation is a state transformer returning an outcome, the state it leaves (also when it
fails) and the trace of the observable calls it made.
-/

namespace MueLu

/-- Identity of a `FactoryManagerBase` object; a nullable `Teuchos::Ptr` to one is an
`Option Manager`. -/
abbrev Manager := Nat

/-- Identity of a `Level` object, the target of a non-null `RCP<Level>`. -/
abbrev LevelPtr := Nat

/-- The part of an `Xpetra::Matrix` the hierarchy engine looks at. -/
structure Matrix where
  /-- Value of `getRowMap()->getGlobalNumElements()`. -/
  rowMapGlobalNumElements : Nat
  /-- Value of `getGlobalNumEntries()`. -/
  globalNumEntries : Nat
deriving DecidableEq, Repr

/-- The top-level producers constructed by `Setup`: `TopRAPFactory(fine, coarse)` and
`TopSmootherFactory(manager, varName)`. -/
inductive TopFactory where
  | TopRAPFactory (fineLevelManager coarseLevelManager : Manager)
  | TopSmootherFactory (manager : Manager) (varName : String)
deriving DecidableEq, Repr

/-- A value stored on a level: an `RCP<Matrix>` (possibly null) or a smoother handle. -/
inductive Value where
  | matrix (m : Option Matrix)
  | smoother (id : Nat)
deriving DecidableEq, Repr

/-- Key of an artifact slot: the artifact name and the optional producer identity. -/
structure Key where
  name : String
  producer : Option TopFactory
deriving DecidableEq, Repr

/-- One artifact slot: the value (absent until produced), the number of outstanding
requests and the keep flag. -/
structure Slot where
  value : Option Value
  requestCount : Nat
  keep : Bool
deriving DecidableEq, Repr

/-- Modelled from the spec: the class `Level` (`MueLu_Level.hpp`) is missing from the
sources.  A level carries its `levelID` (`-1` while unset), the back-reference
`previousLevel` (null for the finest level) and the keyed artifact store. -/
@[ext]
structure Level where
  levelID : Int
  previousLevel : Option LevelPtr
  store : Key → Slot

/-- Modelled from the spec: a slot that was never requested nor produced. -/
def Slot.empty : Slot := ⟨none, 0, false⟩

/-- Modelled from the spec: the constructor `Level()` of the missing class: no ID, no
parent, nothing stored. -/
def Level.new : Level := ⟨-1, none, fun _ => Slot.empty⟩

/-- Modelled from the spec: `Level::SetLevelID` of the missing class. -/
def Level.SetLevelID (l : Level) (levelID : Int) : Level := { l with levelID := levelID }

/-- Modelled from the spec: `Level::SetPreviousLevel` of the missing class. -/
def Level.SetPreviousLevel (l : Level) (previousLevel : Option LevelPtr) : Level :=
  { l with previousLevel := previousLevel }

/-- Modelled from the spec: `Level::Build` of the missing class derives a new empty
level from an existing one; it carries no ID, no parent and no artifact. -/
def Level.Build (_l : Level) : Level := Level.new

/-- Modelled from the spec: `Request(name, producerRef)` of the missing class `Level`
increments the outstanding-need counter of the slot and computes nothing. -/
def Level.Request (l : Level) (k : Key) : Level :=
  { l with store := (Function.update l.store k
      ⟨(l.store k).value, (l.store k).requestCount + 1, (l.store k).keep⟩) }

/-- Modelled from the spec: `Release(name, producerRef)` of the missing class `Level`
decrements the counter; when it reaches zero and the slot is not flagged keep, the
stored value is freed. -/
def Level.Release (l : Level) (k : Key) : Level :=
  { l with store := (Function.update l.store k
      ⟨if (l.store k).requestCount - 1 = 0 ∧ (l.store k).keep = false then none
        else (l.store k).value,
       (l.store k).requestCount - 1, (l.store k).keep⟩) }

/-- Modelled from the spec: `IsAvailable(name)` of the missing class `Level`, the
non-throwing existence check. -/
def Level.IsAvailable (l : Level) (name : String) : Bool := (l.store ⟨name, none⟩).value.isSome

/-- Modelled from the spec: `Set(name, value)` of the missing class `Level` stores a
value directly. -/
def Level.Set (l : Level) (name : String) (v : Value) : Level :=
  { l with store := (Function.update l.store ⟨name, none⟩
      ⟨some v, (l.store ⟨name, none⟩).requestCount, (l.store ⟨name, none⟩).keep⟩) }

/-- Modelled from the spec: the slot addressed by `Level::Request(const FactoryBase&)`
and `Level::Release(const FactoryBase&)` of the missing class `Level`: the coarse
operator "A" for the RAP producer, the variable name for a smoother producer. -/
def TopFactory.key : TopFactory → Key
  | .TopRAPFactory f c => ⟨"A", some (.TopRAPFactory f c)⟩
  | .TopSmootherFactory m v => ⟨v, some (.TopSmootherFactory m v)⟩

/-- Ways a call can stop without returning. -/
inductive Failure where
  /-- An `Exceptions::RuntimeError` raised by `TEUCHOS_TEST_FOR_EXCEPTION`. -/
  | RuntimeError (msg : String)
  /-- The expression `Levels_[i]` evaluated with `i` outside the array: the source
  raises no exception there. -/
  | outOfBounds
  /-- A null `RCP` was dereferenced. -/
  | nullPointer
  /-- The error of `Level::Get` on an artifact that was never produced. -/
  | NotAvailable
  /-- The value stored under a name has another type than the one `Get` asks for. -/
  | badCast
  /-- An exception raised inside a producer's `Build`. -/
  | producer (msg : String)
  /-- An `Exceptions::Incompatible` raised by `Iterate` on level `startLevel`; the text
  thrown is "Level " followed by the level number, ": " and `msg`. -/
  | Incompatible (startLevel : Int) (msg : String)
deriving DecidableEq, Repr

deriving instance DecidableEq for Except

/-- Whether a failure is an `Exceptions::RuntimeError`. -/
def Failure.isRuntimeError : Failure → Bool
  | .RuntimeError _ => true
  | _ => false

/-- Observable calls recorded in the trace of an operation.  `enterSetup` and
`returnSetup` mark the entry and the normal return of a per-level `Setup` call. -/
inductive Event where
  | warning (msg : String)
  | enterSetup (coarseLevelID : Int) (fineLevelManager coarseLevelManager nextLevelManager : Option Manager)
  | request (level : LevelPtr) (factory : TopFactory)
  | release (level : LevelPtr) (factory : TopFactory)
  | build (factory : TopFactory) (level : LevelPtr)
  | returnSetup (coarseLevelID : Int) (isLastLevel : Bool)
deriving DecidableEq, Repr

/-- The heap of level objects together with the members of one `Hierarchy`. -/
@[ext]
structure HState where
  heap : LevelPtr → Level
  /-- Address the next `new Level()` returns; every live object lies below it. -/
  nextFree : LevelPtr
  Levels_ : List LevelPtr
  maxCoarseSize_ : Nat
  implicitTranspose_ : Bool
  isPreconditioner_ : Bool
  isDumpingEnabled_ : Bool
  dumpLevel_ : Int

/-- Replace the heap. -/
def HState.setHeap (s : HState) (heap : LevelPtr → Level) : HState := { s with heap := heap }

/-- Replace the array `Levels_`. -/
def HState.setLevels (s : HState) (levels : List LevelPtr) : HState := { s with Levels_ := levels }

/-- Replace the allocation mark. -/
def HState.setNextFree (s : HState) (nextFree : LevelPtr) : HState :=
  { s with nextFree := nextFree }

/-- Modelled from the spec: the producers `TopRAPFactory::Build` and
`TopSmootherFactory::Build` (`MueLu_HierarchyHelpers.hpp`) are missing from the
sources.  A producer may read every level; it returns the artifact store it leaves on
every level and possibly an exception.  It cannot touch `levelID`, `previousLevel` or
the private array `Levels_` (side effects are local to artifact stores). -/
structure Producers where
  BuildRAP : Manager → Manager → LevelPtr → LevelPtr → (LevelPtr → Level) →
    Option String × (LevelPtr → Key → Slot)
  BuildSmoother : Manager → String → LevelPtr → (LevelPtr → Level) →
    Option String × (LevelPtr → Key → Slot)

/-- Result of running an operation: outcome, state left behind, trace of calls. -/
structure Res (α : Type) where
  out : Except Failure α
  st : HState
  tr : List Event

/-- An operation on the heap and the hierarchy. -/
def Act (α : Type) : Type := HState → Res α

/-- Return a value without touching the state. -/
def Act.pure {α : Type} (a : α) : Act α := fun s => ⟨.ok a, s, []⟩

/-- Sequencing: a failure stops the run and keeps the state reached so far. -/
def Act.bind {α β : Type} (x : Act α) (f : α → Act β) : Act β := fun s =>
  match x s with
  | ⟨.ok a, s1, t1⟩ =>
    match f a s1 with
    | ⟨o, s2, t2⟩ => ⟨o, s2, t1 ++ t2⟩
  | ⟨.error e, s1, t1⟩ => ⟨.error e, s1, t1⟩

instance : Monad Act where
  pure := Act.pure
  bind := Act.bind

/-- Raise a failure. -/
def raise {α : Type} (e : Failure) : Act α := fun s => ⟨.error e, s, []⟩

/-- Record an event in the trace. -/
def emit (e : Event) : Act Unit := fun s => ⟨.ok (), s, [e]⟩

/-- Read the current state. -/
def getState : Act HState := fun s => ⟨.ok s, s, []⟩

/-- Replace the level object a pointer refers to. -/
def modifyLevel (p : LevelPtr) (f : Level → Level) : Act Unit := fun s =>
  ⟨.ok (), s.setHeap (Function.update s.heap p (f (s.heap p))), []⟩

/-- Dereference a level pointer. -/
def deref (p : LevelPtr) : Act Level := fun s => ⟨.ok (s.heap p), s, []⟩

/-- Allocation `rcp(new Level(...))`: the object is placed at a fresh address. -/
def allocLevel (l : Level) : Act LevelPtr := fun s =>
  ⟨.ok s.nextFree, (s.setHeap (Function.update s.heap s.nextFree l)).setNextFree (s.nextFree + 1), []⟩

/-- The array access `Levels_[i]`; outside the array there is no defined result. -/
def LevelsAt (i : Int) : Act LevelPtr := fun s =>
  if 0 ≤ i then
    match s.Levels_[i.toNat]? with
    | some p => ⟨.ok p, s, []⟩
    | none => ⟨.error .outOfBounds, s, []⟩
  else ⟨.error .outOfBounds, s, []⟩

namespace Hierarchy

/-- `Hierarchy::LastLevelID`: `Levels_.size() - 1`. -/
def LastLevelID (s : HState) : Int := (s.Levels_.length : Int) - 1

/-- `Hierarchy::GetNumLevels`: `Levels_.size()`. -/
def GetNumLevels (s : HState) : Int := (s.Levels_.length : Int)

/-- `Hierarchy::SetMaxCoarseSize`. -/
def SetMaxCoarseSize (maxCoarseSize : Nat) : Act Unit := fun s =>
  ⟨.ok (), { s with maxCoarseSize_ := maxCoarseSize }, []⟩

/-- `Levels_.push_back(level)`. -/
def pushBack (level : LevelPtr) : Act Unit := fun s =>
  ⟨.ok (), s.setLevels (s.Levels_ ++ [level]), []⟩

/-- `Hierarchy::AddLevel`. -/
def AddLevel (level : LevelPtr) : Act Unit := do
  let s ← getState
  let levelID : Int := LastLevelID s + 1
  let l ← deref level
  (if l.levelID ≠ -1 ∧ l.levelID ≠ levelID then
    emit (.warning "Hierarchy::AddLevel(): Level ID have been redefined")
  else pure ())
  pushBack level
  modifyLevel level (fun l => l.SetLevelID levelID)
  if levelID = 0 then
    modifyLevel level (fun l => l.SetPreviousLevel none)
  else do
    let s1 ← getState
    let prev ← LevelsAt (LastLevelID s1 - 1)
    modifyLevel level (fun l => l.SetPreviousLevel (some prev))

/-- `Hierarchy::AddNewLevel`. -/
def AddNewLevel : Act Unit := do
  let s ← getState
  let last ← LevelsAt (LastLevelID s)
  let l ← deref last
  let newLevel ← allocLevel l.Build
  AddLevel newLevel

/-- `Hierarchy::GetLevel`. -/
def GetLevel (levelID : Int) : Act LevelPtr := do
  let s ← getState
  if levelID < 0 ∨ levelID > LastLevelID s then
    raise (.RuntimeError "MueLu::Hierarchy::GetLevel(): invalid input parameter value")
  else LevelsAt levelID

/-- `Hierarchy::CheckLevel`. -/
def CheckLevel (level : LevelPtr) (levelID : Int) : Act Unit := do
  let l ← deref level
  if l.levelID ≠ levelID then
    raise (.RuntimeError "MueLu::Hierarchy::CheckLevel(): wrong level ID")
  else if levelID ≠ 0 then do
    let parent ← LevelsAt (levelID - 1)
    if l.previousLevel ≠ some parent then
      raise (.RuntimeError "MueLu::Hierarchy::Setup(): wrong level parent")
    else pure ()
  else pure ()

/-- `Levels_[i]->Request(factory)`. -/
def Request (level : LevelPtr) (factory : TopFactory) : Act Unit := do
  emit (.request level factory)
  modifyLevel level (fun l => l.Request factory.key)

/-- `Levels_[i]->Release(factory)`. -/
def Release (level : LevelPtr) (factory : TopFactory) : Act Unit := do
  emit (.release level factory)
  modifyLevel level (fun l => l.Release factory.key)

/-- Install the artifact stores a producer returns, leaving `levelID` and
`previousLevel` of every level as they are. -/
def installStores (r : Option String × (LevelPtr → Key → Slot)) : Act Unit := fun s =>
  ⟨match r.1 with
    | none => .ok ()
    | some msg => .error (.producer msg),
   s.setHeap (fun q => { s.heap q with store := r.2 q }), []⟩

/-- `TopRAPFactory(fine, coarse).Build(fineLevel, coarseLevel)`. -/
def BuildRAP (P : Producers) (fineLevelManager coarseLevelManager : Manager)
    (fineLevel coarseLevel : LevelPtr) : Act Unit := do
  emit (.build (.TopRAPFactory fineLevelManager coarseLevelManager) coarseLevel)
  let s ← getState
  installStores (P.BuildRAP fineLevelManager coarseLevelManager fineLevel coarseLevel s.heap)

/-- `TopSmootherFactory(manager, varName).Build(level)`. -/
def BuildSmoother (P : Producers) (manager : Manager) (varName : String)
    (level : LevelPtr) : Act Unit := do
  emit (.build (.TopSmootherFactory manager varName) level)
  let s ← getState
  installStores (P.BuildSmoother manager varName level s.heap)

/-- `Levels_.pop_back()`. -/
def popBack : Act Unit := fun s => ⟨.ok (), s.setLevels s.Levels_.dropLast, []⟩

/-- Modelled from the spec: `level.Get<RCP<Matrix> >("A")` of the missing class
`Level`: it fails with `NotAvailable` when "A" was never produced. -/
def GetMatrix (level : LevelPtr) (name : String) : Act (Option Matrix) := do
  let l ← deref level
  match (l.store ⟨name, none⟩).value with
  | some (.matrix m) => pure m
  | some (.smoother _) => raise .badCast
  | none => raise .NotAvailable

/-- The operator `Ac` fetched at lines 229-234 of the per-level `Setup`: the value of
"A" when it is available, the null handle otherwise. -/
def fetchAc (level : LevelPtr) : Act (Option Matrix) := do
  let l ← deref level
  if l.IsAvailable "A" then GetMatrix level "A" else pure none

/-- The termination test of line 236:
`Ac.is_null() || Ac->getRowMap()->getGlobalNumElements() <= maxCoarseSize_`. -/
def coarseEnough (Ac : Option Matrix) (maxCoarseSize : Nat) : Bool :=
  match Ac with
  | none => true
  | some A => decide (A.rowMapGlobalNumElements ≤ maxCoarseSize)

/-- Lines 148-177 of the per-level `Hierarchy::Setup`: the argument checks and the
attachment of the managers.  It returns the coarse manager and the pointer
`Levels_[coarseLevelID]`. -/
def SetupInit (coarseLevelID : Int)
    (fineLevelManager coarseLevelManager nextLevelManager : Option Manager) :
    Act (Manager × LevelPtr) := do
  emit (.enterSetup coarseLevelID fineLevelManager coarseLevelManager nextLevelManager)
  match coarseLevelManager with
  | none => raise (.RuntimeError "MueLu::Hierarchy::Setup(): argument coarseLevelManager cannot be null")
  | some coarseMgr => do
    let s ← getState
    if LastLevelID s < coarseLevelID then
      raise (.RuntimeError "MueLu::Hierarchy:Setup(): level (specified by coarseLevelID argument) must be build before calling this function.")
    else do
      let level ← LevelsAt coarseLevelID
      CheckLevel level coarseLevelID
      -- isFinestLevel is (fineLevelManager == null), isLastLevel is (nextLevelManager == null)
      match fineLevelManager with
      | some _ => do
        -- SFMFine = SetFactoryManager(Levels_[coarseLevelID-1], rcpfineLevelManager)
        let _ ← LevelsAt (coarseLevelID - 1)
        pure (coarseMgr, level)
      | none => pure (coarseMgr, level)

/-- Lines 183-186: the requests for the finest level. -/
def SetupRequestsFinest (fineLevelManager : Option Manager) (coarseMgr : Manager)
    (level : LevelPtr) : Act Unit :=
  match fineLevelManager with
  | none => do
    Request level (.TopSmootherFactory coarseMgr "Smoother")
    Request level (.TopSmootherFactory coarseMgr "CoarseSolver")
  | some _ => pure ()

/-- Lines 195-207: the requests for the next coarse level, which is appended to the
chain when `nextLevelID > LastLevelID()`.  It returns the next manager with the
pointer `Levels_[nextLevelID]`, or nothing when `isLastLevel` starts as true. -/
def SetupRequestsNext (coarseLevelID : Int) (coarseMgr : Manager)
    (nextLevelManager : Option Manager) : Act (Option (Manager × LevelPtr)) :=
  match nextLevelManager with
  | none => pure none
  | some nextMgr => do
    -- nextLevelID is coarseLevelID + 1
    let s ← getState
    (if coarseLevelID + 1 > LastLevelID s then AddNewLevel else pure ())
    let nextLevel ← LevelsAt (coarseLevelID + 1)
    CheckLevel nextLevel (coarseLevelID + 1)
    Request nextLevel (.TopRAPFactory coarseMgr nextMgr)
    Request nextLevel (.TopSmootherFactory nextMgr "Smoother")
    Request nextLevel (.TopSmootherFactory nextMgr "CoarseSolver")
    pure (some (nextMgr, nextLevel))

/-- Lines 215-223: the RAP step, skipped on the finest level. -/
def SetupBuildRAP (P : Producers) (fineLevelManager : Option Manager) (coarseMgr : Manager)
    (level : LevelPtr) : Act Unit :=
  match fineLevelManager with
  | none => pure ()
  | some fineMgr => do
    let l ← deref level
    match l.previousLevel with
    | none => raise .nullPointer
    | some fineLevel => do
      BuildRAP P fineMgr coarseMgr fineLevel level
      Release level (.TopRAPFactory fineMgr coarseMgr)

/-- Lines 143-226 of the per-level `Hierarchy::Setup`: everything up to and including
the RAP step.  The pointers `Levels_[coarseLevelID]` and `Levels_[nextLevelID]` are read
once each: until the end of this part the array only grows at its end, so every later
read of the same index in the source yields the same pointer.  Timers, printing, the
attachment of the managers to the levels and the graph dump are left out: they change
neither the chain nor the levels. -/
def SetupThroughRAP (P : Producers) (coarseLevelID : Int)
    (fineLevelManager coarseLevelManager nextLevelManager : Option Manager) :
    Act (Manager × LevelPtr × Option (Manager × LevelPtr)) := do
  let cl ← SetupInit coarseLevelID fineLevelManager coarseLevelManager nextLevelManager
  SetupRequestsFinest fineLevelManager cl.1 cl.2
  let next ← SetupRequestsNext coarseLevelID cl.1 nextLevelManager
  SetupBuildRAP P fineLevelManager cl.1 cl.2
  pure (cl.1, cl.2, next)

/-- Lines 236-246: the termination test.  When it fires and a next level was requested,
the three requests on it are released and the chain loses its last entry.  It returns
the final value of `isLastLevel`; `next` is `none` exactly when `isLastLevel` was
initialised to true. -/
def SetupTruncate (coarseMgr : Manager) (next : Option (Manager × LevelPtr))
    (Ac : Option Matrix) : Act Bool := do
  let s ← getState
  if coarseEnough Ac s.maxCoarseSize_ then
    match next with
    | some (nextMgr, nextLevel) => do
      Release nextLevel (.TopRAPFactory coarseMgr nextMgr)
      Release nextLevel (.TopSmootherFactory nextMgr "Smoother")
      Release nextLevel (.TopSmootherFactory nextMgr "CoarseSolver")
      popBack
      pure true
    | none => pure true
  else pure next.isNone

/-- Lines 248-258: the smoother of a level that is not the last one, the coarse solver
of a last level that has an operator. -/
def SetupSmoother (P : Producers) (coarseMgr : Manager) (level : LevelPtr)
    (isLastLevel : Bool) (Ac : Option Matrix) : Act Unit :=
  if !isLastLevel then do
    BuildSmoother P coarseMgr "Smoother" level
    Release level (.TopSmootherFactory coarseMgr "Smoother")
  else if Ac.isSome then do
    BuildSmoother P coarseMgr "CoarseSolver" level
    Release level (.TopSmootherFactory coarseMgr "CoarseSolver")
  else pure ()

/-- Lines 228-260 of the per-level `Hierarchy::Setup`. -/
def SetupFinish (P : Producers) (coarseMgr : Manager) (level : LevelPtr)
    (next : Option (Manager × LevelPtr)) : Act Bool := do
  let Ac ← fetchAc level
  let isLastLevel ← SetupTruncate coarseMgr next Ac
  SetupSmoother P coarseMgr level isLastLevel Ac
  pure isLastLevel

/-- The per-level `Hierarchy::Setup(coarseLevelID, fineLevelManager, coarseLevelManager,
nextLevelManager)`; it returns `isLastLevel`, and the return is recorded in the trace. -/
def Setup (P : Producers) (coarseLevelID : Int)
    (fineLevelManager coarseLevelManager nextLevelManager : Option Manager) : Act Bool := do
  let r ← SetupThroughRAP P coarseLevelID fineLevelManager coarseLevelManager nextLevelManager
  let isLastLevel ← SetupFinish P r.1 r.2.1 r.2.2
  emit (.returnSetup coarseLevelID isLastLevel)
  pure isLastLevel

/-- The loop `for (iLevel = startLevel + 1; iLevel < lastLevel; iLevel++)` of the outer
`Setup`, by recursion on the number `lastLevel - iLevel` of iterations still to run.  It
returns `bIsLastLevel` and the value of `iLevel` when the loop is left. -/
def SetupLoop (P : Producers) (manager : Manager) : Nat → Int → Act (Bool × Int)
  | 0, iLevel => pure (false, iLevel)
  | n + 1, iLevel => do
    let bIsLastLevel ← Setup P iLevel (some manager) (some manager) (some manager)
    if bIsLastLevel then pure (true, iLevel) else SetupLoop P manager n (iLevel + 1)

/-- Lines 288-297 of the outer `Setup`: the per-level calls.  It returns the value of
`iLevel` after them. -/
def SetupCalls (P : Producers) (manager : Manager) (startLevel lastLevel : Int) : Act Int := do
  let bIsLastLevel ← Setup P startLevel none (some manager) (some manager)
  if bIsLastLevel = false then do
    let bi ← SetupLoop P manager (lastLevel - (startLevel + 1)).toNat (startLevel + 1)
    if bi.1 = false then do
      let _ ← Setup P lastLevel (some manager) (some manager) none
      pure bi.2
    else pure bi.2
  else pure 0

/-- The outer `Hierarchy::Setup(manager, startLevel, numDesiredLevels)`.  The C++ `int`
values are taken in `Int`: none of the sums is assumed to leave the range of `int`.  The
closing `manager.Clean()` acts on the manager only and is left out. -/
def SetupLevels (P : Producers) (manager : Manager) (startLevel numDesiredLevels : Int) :
    Act Unit := do
  if numDesiredLevels < 2 then
    raise (.RuntimeError "MueLu::Hierarchy::Setup(): numDesiredLevels < 2")
  else do
    let start ← LevelsAt startLevel
    let l ← deref start
    if !l.IsAvailable "A" then
      raise (.RuntimeError "MueLu::Hierarchy::Setup(): no fine level matrix A! Set fine level matrix A using Level.Set()")
    else do
      -- lastLevel is startLevel + numDesiredLevels - 1
      let iLevel ← SetupCalls P manager startLevel (startLevel + numDesiredLevels - 1)
      let s ← getState
      if (s.Levels_.length : Int) ≠ iLevel + 1 then
        raise (.RuntimeError "MueLu::Hierarchy::Setup(): number of level")
      else pure ()

/-- Memory in which a hierarchy is constructed: the member initialisers of both public
constructors (`maxCoarseSize_(50)`, `implicitTranspose_(false)`,
`isPreconditioner_(true)`, `isDumpingEnabled_(false)`, `dumpLevel_(-1)`) over an empty
array `Levels_`, in a heap that may already hold other level objects. -/
def members (heap : LevelPtr → Level) (nextFree : LevelPtr) : HState :=
  { heap := heap, nextFree := nextFree, Levels_ := [], maxCoarseSize_ := 50,
    implicitTranspose_ := false, isPreconditioner_ := true, isDumpingEnabled_ := false,
    dumpLevel_ := -1 }

/-- The default constructor `Hierarchy::Hierarchy()`. -/
def construct : Act Unit := do
  let level ← allocLevel Level.new
  AddLevel level

/-- The constructor `Hierarchy::Hierarchy(const RCP<Matrix> & A)`. -/
def constructA (A : Option Matrix) : Act Unit := do
  let Finest ← allocLevel Level.new
  AddLevel Finest
  modifyLevel Finest (fun l => l.Set "A" (.matrix A))

end Hierarchy

/-- The transpose modes `Teuchos::NO_TRANS` and `Teuchos::TRANS` that `Iterate` passes to
`apply`. -/
inductive ETransp where
  | NO_TRANS
  | TRANS
deriving DecidableEq, Repr

/-- A non-null `RCP<Matrix>` as `Iterate` holds it: the matrix object found in the plain
slot `name` of the level `level`.  `Iterate` stores nothing on a level, so a slot names
one matrix object during a whole call. -/
structure MatrixRef where
  level : LevelPtr
  name : String
deriving DecidableEq, Repr

/-- Modelled from the spec: the linear-algebra capability (`Xpetra::Matrix`,
`Xpetra::MultiVector`, `Xpetra::Map`, `MultiVectorFactory`, `MueLu::Utils`) and the
smoothers (`MueLu_SmootherBase.hpp`) are missing from the sources; `Iterate` consumes them
as an opaque capability.  `SC` is the scalar type, `V` the type of multivectors (values and
map), `Map` the type of maps.  Every operation that writes into one of its arguments
returns the new value of that argument; none of them raises. -/
structure LinAlg (SC V Map : Type) where
  /-- Value of `Teuchos::ScalarTraits<SC>::one()`. -/
  one : SC
  /-- Value of `Teuchos::ScalarTraits<SC>::zero()`. -/
  zero : SC
  /-- `M->getDomainMap()`. -/
  getDomainMap : MatrixRef → Map
  /-- `M->getRangeMap()`. -/
  getRangeMap : MatrixRef → Map
  /-- `M->apply(X, Y, mode, alpha, beta)`: the new value of `Y`. -/
  apply : MatrixRef → V → V → ETransp → SC → SC → V
  /-- `X.getMap()`. -/
  getMap : V → Map
  /-- `X.getNumVectors()`. -/
  getNumVectors : V → Nat
  /-- `m1->isCompatible(*m2)`. -/
  isCompatible : Map → Map → Bool
  /-- `MultiVectorFactory::Build(map, numVectors)`. -/
  Build : Map → Nat → V
  /-- `X->replaceMap(map)`: the new value of `X`. -/
  replaceMap : V → Map → V
  /-- `X->putScalar(alpha)`: the new value of `X`. -/
  putScalar : V → SC → V
  /-- `X.update(alpha, A, beta)`: the new value of `X`. -/
  update : V → SC → V → SC → V
  /-- `Utils::Residual(A, X, B)`. -/
  Residual : MatrixRef → V → V → V
  /-- `smoother->Apply(X, B, InitialGuessIsZero)` for the smoother with the given handle:
  the new value of `X`. -/
  Apply : Nat → V → V → Bool → V

/-- Modelled from the spec: the enumeration `CycleType` (`MueLu_Types.hpp`) is missing
from the sources.  A cycle type is taken by the integer it converts to in the test
`Cycle > 1`; the spec reads that test as "the cycle type indicates a W-cycle (more than
one recursive application)". -/
abbrev CycleType := Int

/-- Calls `Iterate` makes on its collaborators, recorded in the trace of a run. -/
inductive IterEvent (V : Type) where
  /-- Entry of a call `Iterate(B, nIts, X, InitialGuessIsZero, Cycle, startLevel)`. -/
  | enterIterate (startLevel : Int) (B : V) (nIts : Int) (X : V) (InitialGuessIsZero : Bool)
      (Cycle : CycleType)
  /-- `level->Get<...>(name)`. -/
  | get (level : LevelPtr) (name : String)
  /-- `Utils::ResidualNorm(A, X, B)`, printed as residual of iteration `iter`. -/
  | residualNorm (A : MatrixRef) (X B : V) (iter : Int)
  /-- `A->getDomainMap()->isCompatible(*(X.getMap()))` on level `startLevel`. -/
  | checkDomainMap (startLevel : Int)
  /-- `A->getRangeMap()->isCompatible(*(B.getMap()))` on level `startLevel`. -/
  | checkRangeMap (startLevel : Int)
  /-- `smoother->Apply(X, B, InitialGuessIsZero)` with the smoother fetched from slot
  `name` of `level`. -/
  | smootherApply (level : LevelPtr) (name : String) (smoother : Nat) (X B : V)
      (InitialGuessIsZero : Bool)
  /-- The line "Warning: No coarse grid solver". -/
  | warning (msg : String)
  /-- A line "Warning: Level " followed by the level number and `msg`. -/
  | levelWarning (startLevel : Int) (msg : String)
  /-- `Utils::Residual(A, X, B)`. -/
  | residual (A : MatrixRef) (X B : V)
  /-- `M->apply(X, Y, mode, one, zero)`. -/
  | apply (M : MatrixRef) (X : V) (mode : ETransp)
  /-- `v->replaceMap(...)` on the vector with the value `v`. -/
  | replaceMap (v : V)
  /-- `v->putScalar(0.)` on the vector with the value `v`. -/
  | putScalar (v : V)
  /-- `X.update(one, correction, one)`. -/
  | update (X correction : V)
deriving DecidableEq, Repr

/-- Result of running a part of `Iterate`: outcome, the value the solution vector `X`
holds at the end (also when the run fails), and the trace of calls. -/
structure IterRes (V α : Type) where
  out : Except Failure α
  X : V
  tr : List (IterEvent V)
deriving DecidableEq

/-- A part of `Iterate`, acting on the in-out argument `X`. -/
def IterAct (V α : Type) : Type := V → IterRes V α

/-- Return a value, leaving `X` as it is. -/
def IterAct.pure {V α : Type} (a : α) : IterAct V α := fun X => ⟨.ok a, X, []⟩

/-- Sequencing: a failure stops the run and leaves `X` as it is at that point. -/
def IterAct.bind {V α β : Type} (x : IterAct V α) (f : α → IterAct V β) : IterAct V β := fun X =>
  match x X with
  | ⟨.ok a, X1, t1⟩ =>
    match f a X1 with
    | ⟨o, X2, t2⟩ => ⟨o, X2, t1 ++ t2⟩
  | ⟨.error e, X1, t1⟩ => ⟨.error e, X1, t1⟩

instance {V : Type} : Monad (IterAct V) where
  pure := IterAct.pure
  bind := IterAct.bind

/-- Raise a failure. -/
def IterAct.raise {V α : Type} (e : Failure) : IterAct V α := fun X => ⟨.error e, X, []⟩

/-- Record a call in the trace. -/
def IterAct.emit {V : Type} (e : IterEvent V) : IterAct V Unit := fun X => ⟨.ok (), X, [e]⟩

/-- Read the current value of `X`. -/
def IterAct.getX {V : Type} : IterAct V V := fun X => ⟨.ok X, X, []⟩

/-- Run a call on another vector, here the local `coarseX`, and return the value that
vector holds afterwards; `X` itself is not touched. -/
def IterAct.onVector {V : Type} (v : V) (x : IterAct V Unit) : IterAct V V := fun X =>
  match x v with
  | ⟨.ok _, v1, t1⟩ => ⟨.ok v1, X, t1⟩
  | ⟨.error e, _, t1⟩ => ⟨.error e, X, t1⟩

/-- The array access `Levels_[i]` inside `Iterate`. -/
def IterAct.LevelsAt {V : Type} (s : HState) (i : Int) : IterAct V LevelPtr :=
  if 0 ≤ i then
    match s.Levels_[i.toNat]? with
    | some p => pure p
    | none => IterAct.raise .outOfBounds
  else IterAct.raise .outOfBounds

/-- Modelled from the spec: `level->Get< RCP<Matrix> >(name)` of the missing class
`Level`, as a handle on the matrix object: null when the null handle is stored,
`NotAvailable` when nothing was ever stored under the name. -/
def IterAct.GetMatrix {V : Type} (s : HState) (level : LevelPtr) (name : String) :
    IterAct V (Option MatrixRef) := do
  IterAct.emit (.get level name)
  match ((s.heap level).store ⟨name, none⟩).value with
  | some (.matrix (some _)) => pure (some ⟨level, name⟩)
  | some (.matrix none) => pure none
  | some (.smoother _) => IterAct.raise .badCast
  | none => IterAct.raise .NotAvailable

/-- Modelled from the spec: `level->Get< RCP<SmootherBase> >(name)` of the missing class
`Level`: the handle of the stored smoother. -/
def IterAct.GetSmoother {V : Type} (s : HState) (level : LevelPtr) (name : String) :
    IterAct V Nat := do
  IterAct.emit (.get level name)
  match ((s.heap level).store ⟨name, none⟩).value with
  | some (.smoother smoo) => pure smoo
  | some (.matrix _) => IterAct.raise .badCast
  | none => IterAct.raise .NotAvailable

namespace Hierarchy

section iterate
variable {SC V Map : Type}

/-- The call `smoo->Apply(X, B, zeroGuess)` on the smoother fetched from slot `name`. -/
def ApplySmoother (E : LinAlg SC V Map) (level : LevelPtr) (name : String) (smoo : Nat) (B : V)
    (zeroGuess : Bool) : IterAct V Unit := fun X =>
  ⟨.ok (), E.Apply smoo X B zeroGuess, [.smootherApply level name smoo X B zeroGuess]⟩

/-- The residual report of lines 337-347 and 448-457, made when
`startLevel == 0 && IsPrint(Statistics1) && !isPreconditioner_`; `IsPrint(Statistics1)` is
the verbosity setting of the object. -/
def PrintResidual (IsPrintStatistics1 : Bool) (s : HState) (startLevel : Int) (A : MatrixRef)
    (B : V) (iter : Int) : IterAct V Unit := fun X =>
  if startLevel = 0 ∧ IsPrintStatistics1 = true ∧ s.isPreconditioner_ = false then
    ⟨.ok (), X, [.residualNorm A X B iter]⟩
  else ⟨.ok (), X, []⟩

/-- Lines 352-362: the two compatibility checks of an outer iteration. -/
def CheckMaps (E : LinAlg SC V Map) (startLevel : Int) (A : MatrixRef) (B : V) :
    IterAct V Unit := fun X =>
  if E.isCompatible (E.getDomainMap A) (E.getMap X) = false then
    ⟨.error (.Incompatible startLevel "level A's domain map is not compatible with X"), X,
      [.checkDomainMap startLevel]⟩
  else if E.isCompatible (E.getRangeMap A) (E.getMap B) = false then
    ⟨.error (.Incompatible startLevel "level A's range map is not compatible with B"), X,
      [.checkDomainMap startLevel, .checkRangeMap startLevel]⟩
  else ⟨.ok (), X, [.checkDomainMap startLevel, .checkRangeMap startLevel]⟩

/-- Lines 368-373: the pre-smoother on the coarsest level.  It returns the values of
`zeroGuess` and `emptySolve` after the block. -/
def CoarsestPre (E : LinAlg SC V Map) (s : HState) (Fine : LevelPtr) (B : V) (zeroGuess : Bool) :
    IterAct V (Bool × Bool) :=
  if (s.heap Fine).IsAvailable "PreSmoother" then do
    let preSmoo ← IterAct.GetSmoother s Fine "PreSmoother"
    ApplySmoother E Fine "PreSmoother" preSmoo B zeroGuess
    pure (false, false)
  else pure (zeroGuess, true)

/-- Lines 374-378: the post-smoother on the coarsest level.  It returns the value of
`emptySolve` after the block. -/
def CoarsestPost (E : LinAlg SC V Map) (s : HState) (Fine : LevelPtr) (B : V)
    (zeroGuess emptySolve : Bool) : IterAct V Bool :=
  if (s.heap Fine).IsAvailable "PostSmoother" then do
    let postSmoo ← IterAct.GetSmoother s Fine "PostSmoother"
    ApplySmoother E Fine "PostSmoother" postSmoo B zeroGuess
    pure false
  else pure emptySolve

/-- Lines 365-381: one outer iteration on the coarsest level. -/
def IterateCoarsest (E : LinAlg SC V Map) (s : HState) (Fine : LevelPtr) (B : V)
    (zeroGuess : Bool) : IterAct V Unit := do
  let ze ← CoarsestPre E s Fine B zeroGuess
  let emptySolve ← CoarsestPost E s Fine B ze.1 ze.2
  if emptySolve = true then IterAct.emit (.warning "Warning: No coarse grid solver")
  else pure ()

/-- Lines 386-391: the pre-smoother on an intermediate level. -/
def CyclePre (E : LinAlg SC V Map) (s : HState) (Fine : LevelPtr) (startLevel : Int) (B : V)
    (zeroGuess : Bool) : IterAct V Unit :=
  if (s.heap Fine).IsAvailable "PreSmoother" then do
    let preSmoo ← IterAct.GetSmoother s Fine "PreSmoother"
    ApplySmoother E Fine "PreSmoother" preSmoo B zeroGuess
  else IterAct.emit (.levelWarning startLevel ": No PreSmoother!")

/-- Line 393: `Utils::Residual(*A, X, B)`. -/
def CycleResidual (E : LinAlg SC V Map) (A : MatrixRef) (B : V) : IterAct V V := fun X =>
  ⟨.ok (E.Residual A X B), X, [.residual A X B]⟩

/-- Lines 395-410: the prolongator is fetched and the residual is restricted, with the
transpose of `P` when `implicitTranspose_` is set and with `R` otherwise.  It returns
`P`, `coarseRhs`, `coarseX` and `origMap`.  Calling a method on a null `P` or `R` is the
failure `nullPointer`. -/
def CycleRestrict (E : LinAlg SC V Map) (s : HState) (Coarse : LevelPtr) (residual : V) :
    IterAct V (MatrixRef × V × V × Map) := do
  let P ← IterAct.GetMatrix s Coarse "P"
  let X ← IterAct.getX
  match P with
  | none => IterAct.raise .nullPointer
  | some P =>
    if s.implicitTranspose_ then do
      -- origMap is P->getDomainMap()
      IterAct.emit (.apply P residual .TRANS)
      pure (P,
        E.apply P residual (E.Build (E.getDomainMap P) (E.getNumVectors X)) .TRANS E.one E.zero,
        E.Build (E.getDomainMap P) (E.getNumVectors X), E.getDomainMap P)
    else do
      let R ← IterAct.GetMatrix s Coarse "R"
      match R with
      | none => IterAct.raise .nullPointer
      | some R => do
        -- origMap is R->getRangeMap()
        IterAct.emit (.apply R residual .NO_TRANS)
        pure (P,
          E.apply R residual (E.Build (E.getRangeMap R) (E.getNumVectors X)) .NO_TRANS E.one
            E.zero,
          E.Build (E.getRangeMap R) (E.getNumVectors X), E.getRangeMap R)

/-- Lines 418-428, for a non-null `Ac`: `coarseX` is set to zero, then one recursive call
with a zero initial guess and, when `Cycle > 1`, a second one without.  `coarseX` was
built just before, so the test `coarseX != Teuchos::null` holds.  It returns the value of
`coarseX` after the calls. -/
def CycleDescend (E : LinAlg SC V Map) (Cycle : CycleType)
    (Iterate : V → Int → Bool → Int → IterAct V Unit) (startLevel : Int)
    (coarseRhs coarseX : V) : IterAct V V := do
  IterAct.emit (.putScalar coarseX)
  let c1 ← IterAct.onVector (E.putScalar coarseX E.zero) (Iterate coarseRhs 1 true (startLevel + 1))
  if Cycle > 1 then IterAct.onVector c1 (Iterate coarseRhs 1 false (startLevel + 1))
  else pure c1

/-- Lines 413-430: the coarse operator is fetched; when it is not null the coarse vectors
are moved to its maps, the recursive calls are made and `coarseX` is moved back to
`origMap`.  It returns the value of `coarseX` after the block. -/
def CycleRecurse (E : LinAlg SC V Map) (s : HState) (Cycle : CycleType)
    (Iterate : V → Int → Bool → Int → IterAct V Unit) (Coarse : LevelPtr) (startLevel : Int)
    (coarseRhs coarseX : V) (origMap : Map) : IterAct V V := do
  let Ac ← IterAct.GetMatrix s Coarse "A"
  match Ac with
  | none => pure coarseX
  | some Ac => do
    IterAct.emit (.replaceMap coarseRhs)
    IterAct.emit (.replaceMap coarseX)
    let c ← CycleDescend E Cycle Iterate startLevel (E.replaceMap coarseRhs (E.getRangeMap Ac))
      (E.replaceMap coarseX (E.getDomainMap Ac))
    IterAct.emit (.replaceMap c)
    pure (E.replaceMap c origMap)

/-- Lines 432-436: `correction = P * coarseX` into a fresh vector, then `X += correction`. -/
def CycleCorrect (E : LinAlg SC V Map) (P : MatrixRef) (coarseX : V) : IterAct V Unit := fun X =>
  ⟨.ok (),
   E.update X E.one
     (E.apply P coarseX (E.Build (E.getRangeMap P) (E.getNumVectors X)) .NO_TRANS E.one E.zero)
     E.one,
   [.apply P coarseX .NO_TRANS,
    .update X
      (E.apply P coarseX (E.Build (E.getRangeMap P) (E.getNumVectors X)) .NO_TRANS E.one E.zero)]⟩

/-- Lines 438-444: the post-smoother on an intermediate level. -/
def CyclePost (E : LinAlg SC V Map) (s : HState) (Fine : LevelPtr) (startLevel : Int) (B : V) :
    IterAct V Unit :=
  if (s.heap Fine).IsAvailable "PostSmoother" then do
    let postSmoo ← IterAct.GetSmoother s Fine "PostSmoother"
    ApplySmoother E Fine "PostSmoother" postSmoo B false
  else IterAct.emit (.levelWarning startLevel ": No PostSmoother!")

/-- Lines 383-444: one outer iteration on an intermediate level.  The per-level timers
are left out. -/
def IterateCycle (E : LinAlg SC V Map) (s : HState) (Cycle : CycleType)
    (Iterate : V → Int → Bool → Int → IterAct V Unit) (Fine : LevelPtr) (A : MatrixRef)
    (startLevel : Int) (B : V) (zeroGuess : Bool) : IterAct V Unit := do
  let Coarse ← IterAct.LevelsAt s (startLevel + 1)
  CyclePre E s Fine startLevel B zeroGuess
  let residual ← CycleResidual E A B
  let r ← CycleRestrict E s Coarse residual
  let coarseX ← CycleRecurse E s Cycle Iterate Coarse startLevel r.2.1 r.2.2.1 r.2.2.2
  CycleCorrect E r.1 coarseX
  CyclePost E s Fine startLevel B

/-- Lines 350-459: the body of the loop `for (LO i = 1; i <= nIts; i++)`; the assignment
`zeroGuess = false` that ends it is made by the loop below. -/
def IterateBody (E : LinAlg SC V Map) (IsPrintStatistics1 : Bool) (s : HState) (Cycle : CycleType)
    (Iterate : V → Int → Bool → Int → IterAct V Unit) (Fine : LevelPtr) (A : MatrixRef)
    (startLevel : Int) (B : V) (i : Int) (zeroGuess : Bool) : IterAct V Unit := do
  CheckMaps E startLevel A B
  (if startLevel = (s.Levels_.length : Int) - 1 then IterateCoarsest E s Fine B zeroGuess
   else IterateCycle E s Cycle Iterate Fine A startLevel B zeroGuess)
  PrintResidual IsPrintStatistics1 s startLevel A B i

/-- The loop `for (LO i = 1; i <= nIts; i++)`, by recursion on the number of iterations
still to run; every iteration after the first starts with `zeroGuess = false`. -/
def IterateLoop (body : Int → Bool → IterAct V Unit) : Nat → Int → Bool → IterAct V Unit
  | 0, _, _ => pure ()
  | n + 1, i, zeroGuess => do
    body i zeroGuess
    IterateLoop body n (i + 1) false

/-- The body of `Hierarchy::Iterate`, with the recursive calls made through the argument
`Iterate`.  The timers are left out. -/
def IterateCall (E : LinAlg SC V Map) (IsPrintStatistics1 : Bool) (s : HState) (Cycle : CycleType)
    (Iterate : V → Int → Bool → Int → IterAct V Unit) (B : V) (nIts : Int)
    (InitialGuessIsZero : Bool) (startLevel : Int) : IterAct V Unit := do
  let X ← IterAct.getX
  IterAct.emit (.enterIterate startLevel B nIts X InitialGuessIsZero Cycle)
  let Fine ← IterAct.LevelsAt s startLevel
  let A ← IterAct.GetMatrix s Fine "A"
  match A with
  | none => pure ()
  | some A => do
    PrintResidual IsPrintStatistics1 s startLevel A B 0
    IterateLoop (IterateBody E IsPrintStatistics1 s Cycle Iterate Fine A startLevel B) nIts.toNat 1
      InitialGuessIsZero

/-- `Hierarchy::Iterate` with its recursion on `startLevel + 1` written as a recursion on
the number of levels that follow `startLevel` in the chain.  When none follows, the level
is the coarsest one or `Levels_[startLevel]` lies outside the array, and no recursive
call can be reached. -/
def IterateAt (E : LinAlg SC V Map) (IsPrintStatistics1 : Bool) (s : HState) (Cycle : CycleType) :
    Nat → V → Int → Bool → Int → IterAct V Unit
  | 0 => IterateCall E IsPrintStatistics1 s Cycle (fun _ _ _ _ => IterAct.raise .outOfBounds)
  | levels + 1 =>
    IterateCall E IsPrintStatistics1 s Cycle (IterateAt E IsPrintStatistics1 s Cycle levels)

/-- `Hierarchy::Iterate(B, nIts, X, InitialGuessIsZero, Cycle, startLevel)` on the hierarchy
`s`, acting on `X`. -/
def Iterate (E : LinAlg SC V Map) (IsPrintStatistics1 : Bool) (s : HState) (B : V) (nIts : Int)
    (InitialGuessIsZero : Bool) (Cycle : CycleType) (startLevel : Int) : IterAct V Unit :=
  IterateAt E IsPrintStatistics1 s Cycle (s.Levels_.length - 1 - startLevel.toNat) B nIts
    InitialGuessIsZero startLevel

end iterate


/-- `Hierarchy::SetImplicitTranspose`. -/
def SetImplicitTranspose (implicit : Bool) : Act Unit := fun s =>
  ⟨.ok (), { s with implicitTranspose_ := implicit }, []⟩
end Hierarchy

/-- Modelled from the spec: a producer stores the value it computed in the slot of its
artifact (`Set(name, value, producerRef)` of the missing class `Level`): the value becomes
available, the request counter and the keep flag stay as they are. -/
def Level.Produce (l : Level) (k : Key) (v : Value) : Level :=
  { l with store := (Function.update l.store k
      ⟨some v, (l.store k).requestCount, (l.store k).keep⟩) }

namespace Hierarchy

/-- One call `Utils::Write(fileName, Op)`: the name of the file and the matrix written. -/
structure FileWrite where
  fileName : String
  Op : Matrix
deriving DecidableEq, Repr

/-- Result of `Write`: the outcome and the files written, in order, also when the call
fails. -/
structure WriteRes where
  out : Except Failure Unit
  files : List FileWrite
deriving DecidableEq

/-- Sequencing of file output: a failure stops the run and keeps the files written so
far. -/
def WriteRes.andThen (r : WriteRes) (next : Unit → WriteRes) : WriteRes :=
  match r.out with
  | .ok _ => ⟨(next ()).out, r.files ++ (next ()).files⟩
  | .error e => ⟨.error e, r.files⟩

/-- Modelled from the spec: the expression `*(level->Get< RCP<Matrix> >(name))` over the
missing class `Level`: `Get` fails with `NotAvailable` when the artifact was never
produced, and a null handle cannot be dereferenced. -/
def derefMatrix (s : HState) (level : LevelPtr) (name : String) : Except Failure Matrix :=
  match ((s.heap level).store ⟨name, none⟩).value with
  | some (.matrix (some M)) => .ok M
  | some (.matrix none) => .error .nullPointer
  | some (.smoother _) => .error .badCast
  | none => .error .NotAvailable

/-- The statement `Utils::Write(fileName, *(Levels_[i]->Get< RCP<Matrix> >(name)))`. -/
def WriteMatrix (s : HState) (i : Int) (name fileName : String) : WriteRes :=
  if 0 ≤ i then
    match s.Levels_[i.toNat]? with
    | some level =>
      match derefMatrix s level name with
      | .ok M => ⟨.ok (), [⟨fileName, M⟩]⟩
      | .error e => ⟨.error e, []⟩
    | none => ⟨.error .outOfBounds, []⟩
  else ⟨.error .outOfBounds, []⟩

/-- Lines 476-489: the body of the loop of `Write` for the level `i`; `buf.str()` is the
decimal text of `i`. -/
def WriteBody (s : HState) (startLevel i : Int) : WriteRes :=
  (WriteMatrix s i "A" ("A_" ++ toString i ++ ".m")).andThen fun _ =>
    if i > startLevel then
      (WriteMatrix s i "P" ("P_" ++ toString i ++ ".m")).andThen fun _ =>
        if !s.implicitTranspose_ then WriteMatrix s i "R" ("R_" ++ toString i ++ ".m")
        else ⟨.ok (), []⟩
    else ⟨.ok (), []⟩

/-- The loop `for (LO i = startLevel; i < endLevel+1; ++i)` of `Write`, by recursion on
the number of iterations still to run. -/
def WriteLoop (s : HState) (startLevel : Int) : Nat → Int → WriteRes
  | 0, _ => ⟨.ok (), []⟩
  | n + 1, i => (WriteBody s startLevel i).andThen fun _ => WriteLoop s startLevel n (i + 1)

/-- `Hierarchy::Write(start, end)`. -/
def Write (s : HState) (start end_ : Int) : WriteRes :=
  let startLevel : Int := if start = -1 then 0 else start
  let endLevel : Int := if end_ = -1 then (s.Levels_.length : Int) - 1 else end_
  if startLevel > endLevel then
    ⟨.error (.RuntimeError "MueLu::Hierarchy::Write : startLevel must be <= endLevel"), []⟩
  else if startLevel < 0 ∨ endLevel ≥ (s.Levels_.length : Int) then
    ⟨.error (.RuntimeError "MueLu::Hierarchy::Write bad start or end level"), []⟩
  else WriteLoop s startLevel (endLevel + 1 - startLevel).toNat startLevel

/-- The `Teuchos::ParameterList` returned by `print`: the entries "number of levels" and
"complexity".  The quotient of the `double` division is taken in exact arithmetic; with
a divisor 0, where the `double` is infinite or not a number, the value here carries no
meaning. -/
structure Status where
  numberOfLevels : Int
  complexity : ℚ
deriving DecidableEq

/-- Lines 544-556 of `print`: the loop that adds up `getGlobalNumEntries()` over the
levels, from the level at position `i`; it raises when "A" is not available on a level
and stops at the first level whose "A" is null. -/
def printTotalNnz (s : HState) : List LevelPtr → Int → Nat → Except Failure Nat
  | [], _, totalNnz => .ok totalNnz
  | level :: rest, i, totalNnz =>
    if (s.heap level).IsAvailable "A" = false then
      .error (.RuntimeError
        ("Operator complexity cannot be calculated because A is unavailable on level " ++
          toString i))
    else
      match ((s.heap level).store ⟨"A", none⟩).value with
      | some (.matrix (some A)) => printTotalNnz s rest (i + 1) (totalNnz + A.globalNumEntries)
      | some (.matrix none) => .ok totalNnz
      | some (.smoother _) => .error .badCast
      | none => .error .NotAvailable

/-- Lines 581-585 of `print` for one level: the smoothers are fetched when they are
available; a value of another type stored under their names makes `Get` fail. -/
def printSmoothers (s : HState) : List LevelPtr → Except Failure Unit
  | [] => .ok ()
  | level :: rest =>
    match ((s.heap level).store ⟨"PreSmoother", none⟩).value with
    | some (.matrix _) => .error .badCast
    | _ =>
      match ((s.heap level).store ⟨"PostSmoother", none⟩).value with
      | some (.matrix _) => .error .badCast
      | _ => printSmoothers s rest

/-- `Hierarchy::print(out, verbLevel)`: the status it returns.  `Parameters1` is the bit
`verbLevel & Parameters1`.  The text sent to the stream and `Level::print` of the missing
class `Level` are left out. -/
def print (s : HState) (Parameters1 : Bool) : Except Failure Status := do
  let totalNnz ← printTotalNnz s s.Levels_ 0 0
  let finest ← (match s.Levels_[0]? with
    | some level => derefMatrix s level "A"
    | none => .error .outOfBounds)
  (if Parameters1 then printSmoothers s s.Levels_ else pure ())
  pure ⟨GetNumLevels s, (totalNnz : ℚ) / (finest.globalNumEntries : ℚ)⟩

end Hierarchy

end MueLu

namespace ROL

/-- The exception `std::invalid_argument` raised by `TEUCHOS_TEST_FOR_EXCEPTION`. -/
inductive Failure where
  | invalid_argument (msg : String)
deriving DecidableEq, Repr

/-- The part of the interface `ROL::Objective` the derivative checks call: `value(x, tol)`,
`gradient(g, x, tol)` returning `g`, and `hessVec(hv, v, x, tol)` returning `hv`.  The hook
`update` is left out: it changes no vector. -/
structure Objective (K V : Type) where
  value : V → K → K
  gradient : V → K → V
  hessVec : V → V → K → V

/-- The operations of `ROL::Vector` the derivative checks use besides the linear ones
(`set`, `axpy`, `scale`), which are those of a module over the scalars.  The class is
not part of the sources; the operations are taken as given. -/
structure VectorOps (K V : Type) where
  dot : V → V → K
  dual : V → V
  norm : V → K

/-- The table `steps[4][4]` of `checkGradient` and `checkHessVec`: finite difference
steps in axpy form.  Both functions declare the same table. -/
def steps : List (List Int) :=
  [[1, 0, 0, 0],    -- First order
   [-1, 2, 0, 0],   -- Second order
   [-1, 2, 1, 0],   -- Third order
   [-1, -1, 3, 1]]  -- Fourth order

/-- The table `weights[4][5]` of `checkGradient` and `checkHessVec`: finite difference
weights, in exact arithmetic.  Both functions declare the same table. -/
def weights (K : Type) [Field K] : List (List K) :=
  [[-1, 1, 0, 0, 0],                     -- First order
   [0, -1 / 2, 1 / 2, 0, 0],             -- Second order
   [-1 / 2, -1 / 3, 1, -1 / 6, 0],       -- Third order
   [0, -2 / 3, 1 / 12, 2 / 3, -1 / 12]]  -- Fourth order

/-- The entry `steps[r][c]`. -/
def stepsAt (r c : Nat) : Int := (steps.getD r []).getD c 0

/-- The entry `weights[r][c]`. -/
def weightsAt (K : Type) [Field K] (r c : Nat) : K := ((weights K).getD r []).getD c 0

section checks
variable {K V : Type} [LinearOrderedField K] [AddCommGroup V] [Module K V]

/-- One pass of the loop `for(int j=0; j<order; ++j)` of `checkGradient`, on the pair of
`xnew` and `gCheck[i][2]`: `xnew->axpy(eta*steps[order-1][j], d)`, then the weighted value
is added when the weight is nonzero. -/
def gradientStep (obj : Objective K V) (tol : K) (d : V) (eta : K) (order : Nat)
    (st : V × K) (j : Nat) : V × K :=
  let xnew := st.1 + (eta * ((stepsAt (order - 1) j : Int) : K)) • d
  if weightsAt K (order - 1) (j + 1) ≠ 0 then
    (xnew, st.2 + weightsAt K (order - 1) (j + 1) * obj.value xnew tol)
  else (xnew, st.2)

/-- The value `gCheck[i][2]` computed by one iteration of the outer loop of
`checkGradient` with step size `eta`. -/
def gradientFD (obj : Objective K V) (tol : K) (x d : V) (eta : K) (order : Nat) : K :=
  ((List.range order).foldl (gradientStep obj tol d eta order)
    (x, weightsAt K (order - 1) 0 * obj.value x tol)).2 / eta

/-- The outer loop `for (int i=0; i<numSteps; i++)` of `checkGradient`, by recursion on
the number of iterations still to run; `eta` is multiplied by `eta_factor = 1e-1` after
each row. -/
def gradientRows (obj : Objective K V) (tol : K) (x d : V) (dtg : K) (order : Nat) :
    Nat → K → List (List K)
  | 0, _ => []
  | n + 1, eta =>
    [eta, dtg, gradientFD obj tol x d eta order,
      |gradientFD obj tol x d eta order - dtg|] ::
      gradientRows obj tol x d dtg order n (eta * (1 / 10))

/-- `Objective::checkGradient(x, g, d, printToStream, outStream, numSteps, order)` in
exact arithmetic.  `tol` stands for `std::sqrt(ROL_EPSILON)`, a constant that is not in
the sources; `g` is only cloned; printing is left out. -/
def checkGradient (obj : Objective K V) (ops : VectorOps K V) (tol : K) (x _g d : V)
    (numSteps : Nat) (order : Int) : Except Failure (List (List K)) :=
  if order < 1 ∨ order > 4 then
    .error (.invalid_argument "Error: finite difference order must be 1,2,3, or 4")
  else
    let gtmp := obj.gradient x tol
    let dtg := ops.dot d (ops.dual gtmp)
    .ok (gradientRows obj tol x d dtg order.toNat numSteps 1)

/-- One pass of the loop `for(int j=0; j<order; ++j)` of `checkHessVec`, on the pair of
`xnew` and `gdif`. -/
def hessVecStep (obj : Objective K V) (tol : K) (v : V) (eta : K) (order : Nat)
    (st : V × V) (j : Nat) : V × V :=
  let xnew := st.1 + (eta * ((stepsAt (order - 1) j : Int) : K)) • v
  if weightsAt K (order - 1) (j + 1) ≠ 0 then
    (xnew, st.2 + weightsAt K (order - 1) (j + 1) • obj.gradient xnew tol)
  else (xnew, st.2)

/-- The vector `gdif` after `gdif->scale(1.0/eta)` in one iteration of the outer loop of
`checkHessVec` with step size `eta`. -/
def hessVecFD (obj : Objective K V) (tol : K) (x v : V) (eta : K) (order : Nat) : V :=
  (1 / eta) • ((List.range order).foldl (hessVecStep obj tol v eta order)
    (x, weightsAt K (order - 1) 0 • obj.gradient x tol)).2

/-- The outer loop of `checkHessVec`. -/
def hessVecRows (obj : Objective K V) (ops : VectorOps K V) (tol : K) (x v Hv : V)
    (order : Nat) : Nat → K → List (List K)
  | 0, _ => []
  | n + 1, eta =>
    [eta, ops.norm Hv, ops.norm (hessVecFD obj tol x v eta order),
      ops.norm (hessVecFD obj tol x v eta order + (-1 : K) • Hv)] ::
      hessVecRows obj ops tol x v Hv order n (eta * (1 / 10))

/-- `Objective::checkHessVec(x, hv, v, printToStream, outStream, numSteps, order)` in
exact arithmetic; `hv` is only cloned. -/
def checkHessVec (obj : Objective K V) (ops : VectorOps K V) (tol : K) (x _hv v : V)
    (numSteps : Nat) (order : Int) : Except Failure (List (List K)) :=
  if order < 1 ∨ order > 4 then
    .error (.invalid_argument "Error: finite difference order must be 1,2,3, or 4")
  else
    let Hv := obj.hessVec v x tol
    .ok (hessVecRows obj ops tol x v Hv order.toNat numSteps 1)

end checks

end ROL

namespace Example

/-- A row view of a sparse matrix (`row_view_type`): the stored entries of the row in
storage order, each with its column index (`Col(i)`) and its value (`Value(i)`). -/
abbrev Row (K : Type) := List (Nat × K)

/-- A sparse matrix view (`CrsMatViewType`): its rows; `NumRows()` is the length. -/
abbrev CrsMat (K : Type) := List (Row K)

section gemm
variable {K : Type} [CommRing K]

/-- The loop `for (j=0; j<nnz_b && (idx > -2); ++j)` of `Gemm::invoke`, on the entries of
`b` still to visit, the current `idx` and the row `c`.  `Index` is the member
`row_view_type::Index(col, prev)` applied to the column indices of `c`; the class is a
template parameter and not part of the sources.  A write `c.Value(idx)` outside the row
has no defined result. -/
def gemmRow (Index : List Nat → Nat → Int → Int) (alpha val_at_i : K) :
    Row K → Int → Row K → Option (Row K)
  | [], _, c => some c
  | (col_at_j, val_at_j) :: rest, idx, c =>
    if idx > -2 then
      if Index (c.map Prod.fst) col_at_j idx ≥ 0 then
        match (c)[(Index (c.map Prod.fst) col_at_j idx).toNat]? with
        | some e =>
          gemmRow Index alpha val_at_i rest (Index (c.map Prod.fst) col_at_j idx)
            (c.set (Index (c.map Prod.fst) col_at_j idx).toNat
              (e.1, e.2 + alpha * val_at_i * val_at_j))
        | none => none
      else gemmRow Index alpha val_at_i rest (Index (c.map Prod.fst) col_at_j idx) c
    else some c

/-- The loop `for (i=0; i<nnz_a; ++i)` of `Gemm::invoke`, on the entries of `a` still to
visit: the row `C.RowView(row_at_i)` is updated with `conj(a.Value(i))`.  A row view
outside `C` has no defined result. -/
def gemmCols (Index : List Nat → Nat → Int → Int) (conj : K → K) (alpha : K) (b : Row K) :
    Row K → CrsMat K → Option (CrsMat K)
  | [], C => some C
  | (row_at_i, val) :: rest, C =>
    match C[row_at_i]? with
    | none => none
    | some c =>
      match gemmRow Index alpha (conj val) b 0 c with
      | none => none
      | some c1 => gemmCols Index conj alpha b rest (C.set row_at_i c1)

/-- The loop `for (k=0; k<A.NumRows(); ++k)` of `Gemm::invoke`, on the rows of `A` still to
visit and the current `k`.  A row view outside `B` has no defined result. -/
def gemmLoop (Index : List Nat → Nat → Int → Int) (conj : K → K) (alpha : K) (B : CrsMat K) :
    List (Row K) → Nat → CrsMat K → Option (CrsMat K)
  | [], _, C => some C
  | a :: rest, k, C =>
    match B[k]? with
    | none => none
    | some b =>
      match gemmCols Index conj alpha b a C with
      | none => none
      | some C1 => gemmLoop Index conj alpha B rest (k + 1) C1

/-- `Gemm<Trans::ConjTranspose,Trans::NoTranspose,AlgoGemm::ForRightBlocked>::invoke(alpha,
A, B, beta, C)`: the matrix left in `C` and the value returned.  The function `scale`, the
member `Index` and the scalar function `conj` are not part of the sources and are taken as
given. -/
def invoke (scale : K → CrsMat K → CrsMat K) (Index : List Nat → Nat → Int → Int)
    (conj : K → K) (alpha : K) (A B : CrsMat K) (beta : K) (C : CrsMat K) :
    Option (CrsMat K × Int) :=
  match gemmLoop Index conj alpha B A 0 (scale beta C) with
  | none => none
  | some C1 => some (C1, 0)

end gemm

end Example

namespace MueLu

open Hierarchy

/-- The result of running `x` from `s` satisfies `Q`. -/
def Post {α : Type} (x : Act α) (s : HState)
    (Q : Except Failure α → HState → List Event → Prop) : Prop :=
  Q (x s).out (x s).st (x s).tr

/-- State left by `AddLevel level`: the level is appended, it gets the old chain length
as its ID and the old chain tail (if any) as its parent. -/
def addLevelState (level : LevelPtr) (s : HState) : HState :=
  (s.setLevels (s.Levels_ ++ [level])).setHeap (Function.update s.heap level
      ⟨(s.Levels_.length : Int), s.Levels_.getLast?, (s.heap level).store⟩)

/-- State left by a successful `AddNewLevel`: a fresh empty level is allocated and
appended. -/
def addNewLevelState (s : HState) : HState :=
  addLevelState s.nextFree
    ((s.setHeap (Function.update s.heap s.nextFree Level.new)).setNextFree (s.nextFree + 1))

/-- Chain well-formedness: the level at position `i` carries `levelID = i` and, for
`i > 0`, its `previousLevel` is the level at position `i - 1`. -/
def WellFormed (s : HState) : Prop :=
  ∀ (i : Nat) (p : LevelPtr), s.Levels_[i]? = some p →
    (s.heap p).levelID = (i : Int) ∧ (0 < i → (s.heap p).previousLevel = s.Levels_[i - 1]?)

/-- Every level of the chain is an allocated object. -/
def Allocated (s : HState) : Prop := ∀ p ∈ s.Levels_, p < s.nextFree

/-- The operation `x` keeps the state property `I`, whatever its outcome. -/
structure Preserves {α : Type} (I : HState → Prop) (x : Act α) : Prop where
  run : ∀ s, I s → I (x s).st

/-- A matrix with 1000 rows, used in the examples. -/
def bigMatrix : Matrix := ⟨1000, 5000⟩

/-- A matrix with 10 rows, below the default `maxCoarseSize_` of 50. -/
def smallMatrix : Matrix := ⟨10, 30⟩

/-- Example producers: the RAP producer stores on the coarse level an operator with half
the rows of the fine operator; the smoother producers store nothing. -/
def halving : Producers where
  BuildRAP := fun _ _ fine coarse heap =>
    (none, fun q => if q = coarse then
        match ((heap fine).store ⟨"A", none⟩).value with
        | some (.matrix (some A)) =>
          ((heap q).Set "A" (.matrix (some ⟨A.rowMapGlobalNumElements / 2, A.globalNumEntries / 2⟩))).store
        | _ => (heap q).store
      else (heap q).store)
  BuildSmoother := fun _ _ _ heap => (none, fun q => (heap q).store)

/-- Empty memory. -/
def emptyHeap : LevelPtr → Level := fun _ => Level.new

/-- Example: the hierarchy `Hierarchy(A)` over a 1000-row operator. -/
def bigHierarchy : HState := (constructA (some bigMatrix) (members emptyHeap 0)).st

/-- Example: the hierarchy `Hierarchy(A)` over a 10-row operator. -/
def smallHierarchy : HState := (constructA (some smallMatrix) (members emptyHeap 0)).st

/-- Example: the hierarchy `Hierarchy()` without operator. -/
def bareHierarchy : HState := (construct (members emptyHeap 0)).st

/-- The invariant carried along a construction: the chain is well formed and made of
allocated objects. -/
def Inv (s : HState) : Prop := WellFormed s ∧ Allocated s

/-- The operation `x` never changes the state. -/
structure Unchanged {α : Type} (x : Act α) : Prop where
  run : ∀ s, (x s).st = s

/-- Outcome of `CheckLevel(level, levelID)` as a function of the state. -/
def checkLevelOutcome (s : HState) (level : LevelPtr) (levelID : Int) : Except Failure Unit :=
  if (s.heap level).levelID ≠ levelID then
    .error (.RuntimeError "MueLu::Hierarchy::CheckLevel(): wrong level ID")
  else if levelID = 0 then .ok ()
  else if 0 ≤ levelID - 1 then
    match s.Levels_[(levelID - 1).toNat]? with
    | some parent =>
      if (s.heap level).previousLevel ≠ some parent then
        .error (.RuntimeError "MueLu::Hierarchy::Setup(): wrong level parent")
      else .ok ()
    | none => .error .outOfBounds
  else .error .outOfBounds

/-- Hierarchies reachable from a public constructor by creating level objects, adding
existing level objects that are not in the chain, `AddNewLevel`, and per-level `Setup`
calls that return. -/
inductive Reachable (P : Producers) : HState → Prop where
  | construct (heap : LevelPtr → Level) (nextFree : LevelPtr) :
      Reachable P (construct (members heap nextFree)).st
  | constructA (heap : LevelPtr → Level) (nextFree : LevelPtr) (A : Option Matrix) :
      Reachable P (constructA A (members heap nextFree)).st
  | newLevel {s : HState} (l : Level) : Reachable P s → Reachable P (allocLevel l s).st
  | AddLevel {s : HState} (L : LevelPtr) : Reachable P s → L ∉ s.Levels_ → L < s.nextFree →
      Reachable P (AddLevel L s).st
  | AddNewLevel {s : HState} : Reachable P s → Reachable P (AddNewLevel s).st
  | Setup {s : HState} (coarseLevelID : Int) (fine coarse next : Option Manager) (b : Bool) :
      Reachable P s → (Setup P coarseLevelID fine coarse next s).out = .ok b →
      Reachable P (Setup P coarseLevelID fine coarse next s).st

/-- A state property that no change of the heap can break, as long as the change keeps
`levelID` and `previousLevel` of every level. -/
structure HeapStable (I : HState → Prop) : Prop where
  modify : ∀ (p : LevelPtr) (g : Level → Level),
    (∀ l, (g l).levelID = l.levelID ∧ (g l).previousLevel = l.previousLevel) →
    Preserves I (modifyLevel p g)
  install : ∀ r : Option String × (LevelPtr → Key → Slot), Preserves I (installStores r)

/-- Hierarchies built from a public constructor by creating level objects and by any
`AddLevel`, `AddNewLevel` and per-level `Setup` call, whatever its outcome. -/
inductive Built (P : Producers) : HState → Prop where
  | construct (heap : LevelPtr → Level) (nextFree : LevelPtr) :
      Built P (construct (members heap nextFree)).st
  | constructA (heap : LevelPtr → Level) (nextFree : LevelPtr) (A : Option Matrix) :
      Built P (constructA A (members heap nextFree)).st
  | newLevel {s : HState} (l : Level) : Built P s → Built P (allocLevel l s).st
  | AddLevel {s : HState} (L : LevelPtr) : Built P s → Built P (AddLevel L s).st
  | AddNewLevel {s : HState} : Built P s → Built P (AddNewLevel s).st
  | Setup {s : HState} (coarseLevelID : Int) (fine coarse next : Option Manager) :
      Built P s → Built P (Setup P coarseLevelID fine coarse next s).st

/-- Outcome of the argument checks of the per-level `Setup` (lines 148-177) as a
function of the state. -/
def setupInitOutcome (s : HState) (coarseLevelID : Int)
    (fineLevelManager coarseLevelManager : Option Manager) : Except Failure (Manager × LevelPtr) :=
  match coarseLevelManager with
  | none => .error (.RuntimeError "MueLu::Hierarchy::Setup(): argument coarseLevelManager cannot be null")
  | some coarseMgr =>
    if LastLevelID s < coarseLevelID then
      .error (.RuntimeError "MueLu::Hierarchy:Setup(): level (specified by coarseLevelID argument) must be build before calling this function.")
    else if 0 ≤ coarseLevelID then
      match s.Levels_[coarseLevelID.toNat]? with
      | none => .error .outOfBounds
      | some level =>
        match checkLevelOutcome s level coarseLevelID with
        | .error e => .error e
        | .ok _ =>
          match fineLevelManager with
          | none => .ok (coarseMgr, level)
          | some _ =>
            if 0 ≤ coarseLevelID - 1 then
              match s.Levels_[(coarseLevelID - 1).toNat]? with
              | none => .error .outOfBounds
              | some _ => .ok (coarseMgr, level)
            else .error .outOfBounds
    else .error .outOfBounds

/-- Every event in the trace of `x` satisfies `φ`. -/
structure TrAll {α : Type} (φ : Event → Prop) (x : Act α) : Prop where
  run : ∀ s, ∀ e ∈ (x s).tr, φ e

/-- An event property that holds of all warnings, requests, releases and RAP builds. -/
structure Inner (φ : Event → Prop) : Prop where
  warning : ∀ m, φ (.warning m)
  request : ∀ l f, φ (.request l f)
  release : ∀ l f, φ (.release l f)
  buildRAP : ∀ f c p, φ (.build (.TopRAPFactory f c) p)

/-- The smoother-producer `Build` an event records, if any: manager, variable name and
level. -/
def Event.smootherBuild? : Event → Option (Manager × String × LevelPtr)
  | .build (.TopSmootherFactory m v) p => some (m, v, p)
  | _ => none

/-- The `Build` calls of smoother producers recorded in a trace, in order. -/
def smootherBuilds (tr : List Event) : List (Manager × String × LevelPtr) :=
  tr.filterMap Event.smootherBuild?

/-- The level ID of the per-level `Setup` call an event opens, if any. -/
def Event.call? : Event → Option Int
  | .enterSetup coarseLevelID _ _ _ => some coarseLevelID
  | _ => none

/-- The level ID and result of the per-level `Setup` return an event records, if any. -/
def Event.return? : Event → Option (Int × Bool)
  | .returnSetup coarseLevelID isLastLevel => some (coarseLevelID, isLastLevel)
  | _ => none

/-- The level IDs of the per-level `Setup` calls recorded in a trace, in order. -/
def callsOf (tr : List Event) : List Int := tr.filterMap Event.call?

/-- The returns of per-level `Setup` calls recorded in a trace, in order. -/
def returnsOf (tr : List Event) : List (Int × Bool) := tr.filterMap Event.return?

/-- The smoother-producer builds the per-level `Setup` makes on its current level, as a
function of the returned flag and of the operator fetched after the RAP step. -/
def expectedSmootherBuilds (coarseMgr : Manager) (level : LevelPtr) (isLastLevel : Bool)
    (Ac : Option Matrix) : List (Manager × String × LevelPtr) :=
  if !isLastLevel then [(coarseMgr, "Smoother", level)]
  else if Ac.isSome then [(coarseMgr, "CoarseSolver", level)]
  else []

/-- Example: `Hierarchy(A)` over a 10-row operator followed by two `AddNewLevel` calls,
a chain of three levels. -/
def threeLevelHierarchy : HState := (AddNewLevel (AddNewLevel smallHierarchy).st).st

/-- Example: `Hierarchy(A)` over a 1000-row operator, one `AddNewLevel`, and an operator
set by hand on level 1. -/
def seededHierarchy : HState :=
  (modifyLevel 1 (fun l => l.Set "A" (.matrix (some bigMatrix))) (AddNewLevel bigHierarchy).st).st

/-- The consecutive level IDs `i0, i0 + 1, ..., i0 + n - 1`. -/
def idsFrom (i0 : Int) (n : Nat) : List Int :=
  (List.range n).map (fun (j : Nat) => i0 + (j : Int))

/-- Returns with result false on the level IDs `i0, ..., i0 + n - 1`. -/
def falseReturns (i0 : Int) (n : Nat) : List (Int × Bool) :=
  (List.range n).map (fun (j : Nat) => (i0 + (j : Int), false))

/-- An event is neither the entry nor the return of a per-level `Setup` call. -/
def Event.unmarked (e : Event) : Prop := e.call? = none ∧ e.return? = none

/-- Example: `Hierarchy(A)` over a 1000-row operator, one `AddNewLevel`, and a 10-row
operator set by hand on level 1. -/
def seededSmallHierarchy : HState :=
  (modifyLevel 1 (fun l => l.Set "A" (.matrix (some smallMatrix))) (AddNewLevel bigHierarchy).st).st

/-- The plain slot `name` of level `p` holds the same value in `s1` as in `s`. -/
def SamePlain (p : LevelPtr) (name : String) (s s1 : HState) : Prop :=
  (s1.heap p).store ⟨name, none⟩ = (s.heap p).store ⟨name, none⟩

/-- An example capability in exact arithmetic over a commutative ring `K`: vectors are
families `ι → K` on one single map, every matrix acts as the identity and every smoother
applies the identity as approximate inverse, `Apply(X, B)` replacing `X` by
`X + (B - A X)` with `A = I`. -/
def identityAlgebra (K ι : Type) [CommRing K] : LinAlg K (ι → K) Unit where
  one := 1
  zero := 0
  getDomainMap := fun _ => ()
  getRangeMap := fun _ => ()
  apply := fun _ X Y _ alpha beta => fun i => alpha * X i + beta * Y i
  getMap := fun _ => ()
  getNumVectors := fun _ => 1
  isCompatible := fun _ _ => true
  Build := fun _ _ => fun _ => 0
  replaceMap := fun v _ => v
  putScalar := fun _ alpha => fun _ => alpha
  update := fun X alpha A beta => fun i => alpha * A i + beta * X i
  Residual := fun _ X B => fun i => B i - X i
  Apply := fun _ X B _ => fun i => X i + (B i - X i)

/-- The state in which `value` was stored by `Set(name, value)` on the level `p`. -/
def setOn (p : LevelPtr) (name : String) (value : Value) (s : HState) : HState :=
  (modifyLevel p (fun l => l.Set name value) s).st

/-- Example: a two-level hierarchy with "A", "PreSmoother" and "PostSmoother" on both
levels and "P" and "R" on level 1. -/
def twoLevelHierarchy : HState :=
  setOn 1 "PostSmoother" (.smoother 3) (setOn 1 "PreSmoother" (.smoother 2)
    (setOn 1 "R" (.matrix (some smallMatrix)) (setOn 1 "P" (.matrix (some smallMatrix))
      (setOn 1 "A" (.matrix (some smallMatrix))
        (setOn 0 "PostSmoother" (.smoother 1) (setOn 0 "PreSmoother" (.smoother 0)
          (AddNewLevel smallHierarchy).st))))))

/-- The result of running the part `x` of `Iterate` on the solution vector `X` satisfies
`Q`. -/
def IPost {V α : Type} (x : IterAct V α) (X : V)
    (Q : Except Failure α → V → List (IterEvent V) → Prop) : Prop :=
  Q (x X).out (x X).X (x X).tr

/-- The event is the application of a smoother. -/
def IterEvent.isSmootherApply {V : Type} : IterEvent V → Bool
  | .smootherApply _ _ _ _ _ _ => true
  | _ => false

/-- The event is the entry of an `Iterate` call. -/
def IterEvent.isEnter {V : Type} : IterEvent V → Bool
  | .enterIterate _ _ _ _ _ _ => true
  | _ => false

/-- The event is one of the two map-compatibility checks. -/
def IterEvent.isMapCheck {V : Type} : IterEvent V → Bool
  | .checkDomainMap _ => true
  | .checkRangeMap _ => true
  | _ => false

/-- The event is a residual computation, `Utils::Residual` or `Utils::ResidualNorm`. -/
def IterEvent.isResidual {V : Type} : IterEvent V → Bool
  | .residual _ _ _ => true
  | .residualNorm _ _ _ _ => true
  | _ => false

/-- Outcome of `Get< RCP<Matrix> >` as a function of the stored value. -/
def getMatrixOutcome (s : HState) (level : LevelPtr) (name : String) :
    Except Failure (Option MatrixRef) :=
  match ((s.heap level).store ⟨name, none⟩).value with
  | some (.matrix (some _)) => .ok (some ⟨level, name⟩)
  | some (.matrix none) => .ok none
  | some (.smoother _) => .error .badCast
  | none => .error .NotAvailable

/-- Outcome of `Get< RCP<SmootherBase> >` as a function of the stored value. -/
def getSmootherOutcome (s : HState) (level : LevelPtr) (name : String) : Except Failure Nat :=
  match ((s.heap level).store ⟨name, none⟩).value with
  | some (.smoother smoo) => .ok smoo
  | some (.matrix _) => .error .badCast
  | none => .error .NotAvailable

/-- The trace of the residual report: one `ResidualNorm` when
`startLevel == 0 && IsPrint(Statistics1) && !isPreconditioner_`, nothing otherwise. -/
def printTrace {V : Type} (IsPrintStatistics1 : Bool) (s : HState) (startLevel : Int)
    (A : MatrixRef) (B : V) (iter : Int) (X : V) : List (IterEvent V) :=
  if startLevel = 0 ∧ IsPrintStatistics1 = true ∧ s.isPreconditioner_ = false then
    [.residualNorm A X B iter]
  else []

/-- Example: the hierarchy `Hierarchy(A)` built over a null operator handle. -/
def nullHierarchy : HState := (constructA none (members emptyHeap 0)).st

/-- What an optional smoother does to `X`: when the slot `name` of `level` holds the
smoother `smoo`, the smoother is fetched and applied to `(X, B)` with the flag
`zeroGuess`; when the slot is empty nothing happens.  The result is the new value of `X`
with the trace of the step. -/
def smootherStep {SC V Map : Type} (E : LinAlg SC V Map) (level : LevelPtr) (name : String)
    (smoo : Option Nat) (B : V) (zeroGuess : Bool) (X : V) : V × List (IterEvent V) :=
  match smoo with
  | some h => (E.Apply h X B zeroGuess, [.get level name, .smootherApply level name h X B zeroGuess])
  | none => (X, [])

/-- A walk property of a part `x` of `Iterate`: run from an `X` that satisfies `J`, it
leaves `X` with `J`, it fails only with failures that satisfy `φ`, and it records only
events that satisfy `ψ`. -/
structure Walk {V α : Type} (J : V → Prop) (φ : Failure → Prop) (ψ : IterEvent V → Prop)
    (x : IterAct V α) : Prop where
  run : ∀ X, J X → J (x X).X ∧ (∀ e, (x X).out = .error e → φ e) ∧ ∀ ev ∈ (x X).tr, ψ ev

/-- What a walk asks of the capability and of the properties: smoothers and `update` keep
`J`, the failures of the level store and of the chain satisfy `φ`, and every event other
than the entry of a call satisfies `ψ`. -/
structure WalkHyp {SC V Map : Type} (E : LinAlg SC V Map) (J : V → Prop) (φ : Failure → Prop)
    (ψ : IterEvent V → Prop) : Prop where
  apply_keeps : ∀ h X B z, J X → J (E.Apply h X B z)
  update_keeps : ∀ X a Y b, J X → J (E.update X a Y b)
  outOfBounds : φ .outOfBounds
  nullPointer : φ .nullPointer
  NotAvailable : φ .NotAvailable
  badCast : φ .badCast
  event : ∀ ev, ev.isEnter = false → ψ ev

/-- An example capability whose vectors carry a map: a vector is a pair of a map name and
one entry, two maps are compatible when they are equal, every matrix is the identity on
the map `0`, and every in-place operation leaves the map of its target as it is. -/
def taggedAlgebra : LinAlg Int (Nat × Int) Nat where
  one := 1
  zero := 0
  getDomainMap := fun _ => 0
  getRangeMap := fun _ => 0
  apply := fun _ X Y _ alpha beta => (Y.1, alpha * X.2 + beta * Y.2)
  getMap := fun v => v.1
  getNumVectors := fun _ => 1
  isCompatible := fun m1 m2 => decide (m1 = m2)
  Build := fun m _ => (m, 0)
  replaceMap := fun v m => (m, v.2)
  putScalar := fun v alpha => (v.1, alpha)
  update := fun X alpha A beta => (X.1, alpha * A.2 + beta * X.2)
  Residual := fun _ X B => (B.1, B.2 - X.2)
  Apply := fun _ X B _ => (X.1, X.2 + (B.2 - X.2))

/-- The event is not a smoother application with the zero-initial-guess flag set. -/
def IterEvent.flagFalse {V : Type} : IterEvent V → Prop
  | .smootherApply _ _ _ _ _ f => f = false
  | _ => True

/-- What the smoother step of an intermediate level does to `X`: as `smootherStep`, but
an empty slot gives the warning `warn` for the level. -/
def cycleSmootherStep {SC V Map : Type} (E : LinAlg SC V Map) (level : LevelPtr) (name : String)
    (smoo : Option Nat) (B : V) (zeroGuess : Bool) (startLevel : Int) (warn : String) (X : V) :
    V × List (IterEvent V) :=
  match smoo with
  | some h => (E.Apply h X B zeroGuess, [.get level name, .smootherApply level name h X B zeroGuess])
  | none => (X, [.levelWarning startLevel warn])

/-- The values of `coarseRhs` (after the restriction), `coarseX` (as built) and `origMap`
that lines 398-410 compute from the residual when "P" (and, without implicit transpose,
"R") of the coarse level are not null. -/
def restricted {SC V Map : Type} (E : LinAlg SC V Map) (s : HState) (Coarse : LevelPtr)
    (residual X : V) : V × V × Map :=
  if s.implicitTranspose_ then
    (E.apply ⟨Coarse, "P"⟩ residual (E.Build (E.getDomainMap ⟨Coarse, "P"⟩) (E.getNumVectors X))
        .TRANS E.one E.zero,
      E.Build (E.getDomainMap ⟨Coarse, "P"⟩) (E.getNumVectors X), E.getDomainMap ⟨Coarse, "P"⟩)
  else
    (E.apply ⟨Coarse, "R"⟩ residual (E.Build (E.getRangeMap ⟨Coarse, "R"⟩) (E.getNumVectors X))
        .NO_TRANS E.one E.zero,
      E.Build (E.getRangeMap ⟨Coarse, "R"⟩) (E.getNumVectors X), E.getRangeMap ⟨Coarse, "R"⟩)

/-- The trace of lines 395-410 in the same case: "P" is fetched; then either the
transpose of `P` is applied, or "R" is fetched and applied. -/
def restrictTrace {V : Type} (s : HState) (Coarse : LevelPtr) (residual : V) :
    List (IterEvent V) :=
  if s.implicitTranspose_ then
    [.get Coarse "P", .apply ⟨Coarse, "P"⟩ residual .TRANS]
  else [.get Coarse "P", .get Coarse "R", .apply ⟨Coarse, "R"⟩ residual .NO_TRANS]

/-- The level of the `Iterate` call an event enters, if it is such an entry. -/
def IterEvent.enterLevel? {V : Type} : IterEvent V → Option Int
  | .enterIterate startLevel _ _ _ _ _ => some startLevel
  | _ => none

/-- The entries of `Iterate` calls on level `k` recorded in a trace, in order. -/
def entersAt {V : Type} (k : Int) (tr : List (IterEvent V)) : List (IterEvent V) :=
  tr.filter (fun ev => decide (ev.enterLevel? = some k))

/-- Every run of `x` that returns normally enters `Iterate` on level `k` exactly `n`
times. -/
structure Visits {V α : Type} (k : Int) (n : Nat) (x : IterAct V α) : Prop where
  run : ∀ X a, (x X).out = .ok a → (entersAt k (x X).tr).length = n


/-- Two parts of `Iterate` agree when, run from the same `X`, they have the same outcome
and leave the same `X`; their traces may differ. -/
def Agree {V α : Type} (x1 x2 : IterAct V α) : Prop :=
  ∀ X, (x1 X).out = (x2 X).out ∧ (x1 X).X = (x2 X).X

/-- Example: the two-level hierarchy after `SetImplicitTranspose(true)`. -/
def twoLevelTransposeHierarchy : HState := (SetImplicitTranspose true twoLevelHierarchy).st

/-- The non-null matrix stored under `name` on the level at position `i` of the chain, if
there is one. -/
def matrixAt (s : HState) (i : Int) (name : String) : Option Matrix :=
  if 0 ≤ i then
    match s.Levels_[i.toNat]? with
    | some level =>
      match ((s.heap level).store ⟨name, none⟩).value with
      | some (.matrix (some M)) => some M
      | _ => none
    | none => none
  else none

/-- The files `Write` produces for the level `i` of a range that starts at `startLevel`:
`A_i.m`, then `P_i.m` after the first level of the range, then `R_i.m` unless the
transpose is implicit. -/
def levelFiles (implicitTranspose : Bool) (startLevel : Int) (A P R : Int → Matrix) (i : Int) :
    List FileWrite :=
  [⟨"A_" ++ toString i ++ ".m", A i⟩] ++
    (if i > startLevel then
      [⟨"P_" ++ toString i ++ ".m", P i⟩] ++
        (if implicitTranspose then [] else [⟨"R_" ++ toString i ++ ".m", R i⟩])
     else [])

/-- The files `Write` produces for the `n` levels `i0, i0 + 1, ...` of a range that
starts at `startLevel`. -/
def rangeFiles (implicitTranspose : Bool) (startLevel : Int) (A P R : Int → Matrix) (n : Nat)
    (i0 : Int) : List FileWrite :=
  (List.range n).flatMap
    (fun (j : Nat) => levelFiles implicitTranspose startLevel A P R (i0 + (j : Int)))

/-- The non-null operator "A" of a level, if the level holds one. -/
def levelA (s : HState) (level : LevelPtr) : Option Matrix :=
  match ((s.heap level).store ⟨"A", none⟩).value with
  | some (.matrix (some A)) => some A
  | _ => none

/-- The number of nonzeros of the operators "A" of the leading levels of a list: the sum
stops before the first level that holds no non-null "A". -/
def leadingNnz (s : HState) : List LevelPtr → Nat
  | [] => 0
  | level :: rest =>
    match levelA s level with
    | some A => A.globalNumEntries + leadingNnz s rest
    | none => 0

/-- The number of nonzeros of all the non-null operators "A" held by the levels of a
list. -/
def allNnz (s : HState) (levels : List LevelPtr) : Nat :=
  ((levels.filterMap (levelA s)).map Matrix.globalNumEntries).sum

/-- Example: four levels; a 10-row operator with 30 nonzeros on level 0, a null operator
on level 1, the 30 nonzeros again on level 2 and no operator on level 3. -/
def gappedHierarchy : HState :=
  (AddNewLevel (setOn 2 "A" (.matrix (some smallMatrix))
    (AddNewLevel (setOn 1 "A" (.matrix none) (AddNewLevel smallHierarchy).st)).st)).st

/-- Whether the slot `name` of a level holds a matrix handle, null or not. -/
def holdsMatrix (s : HState) (level : LevelPtr) (name : String) : Bool :=
  match ((s.heap level).store ⟨name, none⟩).value with
  | some (.matrix _) => true
  | _ => false

/-- The event is a remapping or a zeroing of a coarse vector: `replaceMap` or
`putScalar`. -/
def IterEvent.isRemap {V : Type} : IterEvent V → Bool
  | .replaceMap _ => true
  | .putScalar _ => true
  | _ => false

/-- Example: the two-level hierarchy with a null operator "A" on the coarse level. -/
def nullCoarseHierarchy : HState := setOn 1 "A" (.matrix none) twoLevelHierarchy

/-- The arguments of the per-level `Setup` call an event opens, if any: the level ID and
the fine, coarse and next managers. -/
def Event.callArgs? : Event → Option (Int × Option Manager × Option Manager × Option Manager)
  | .enterSetup coarseLevelID fine coarse next => some (coarseLevelID, fine, coarse, next)
  | _ => none

/-- The arguments of the per-level `Setup` calls recorded in a trace, in order. -/
def callArgsOf (tr : List Event) :
    List (Int × Option Manager × Option Manager × Option Manager) :=
  tr.filterMap Event.callArgs?

/-- Calls on the `n` level IDs `i0, i0 + 1, ...`, each with `manager` as fine, coarse and
next manager. -/
def loopArgs (manager : Manager) (i0 : Int) (n : Nat) :
    List (Int × Option Manager × Option Manager × Option Manager) :=
  (List.range n).map (fun (j : Nat) => (i0 + (j : Int), some manager, some manager, some manager))

/-- A matrix with 100 rows. -/
def mediumMatrix : Matrix := ⟨100, 400⟩

/-- Example: the hierarchy `Hierarchy(A)` over a 100-row operator. -/
def mediumHierarchy : HState := (constructA (some mediumMatrix) (members emptyHeap 0)).st

/-- The requests a per-level `Setup` call places on its own level: those of the finest
level, made when no fine manager is given. -/
def finestRequests (fine : Option Manager) (coarseMgr : Manager) (level : LevelPtr) :
    List Event :=
  match fine with
  | none => [.request level (.TopSmootherFactory coarseMgr "Smoother"),
             .request level (.TopSmootherFactory coarseMgr "CoarseSolver")]
  | some _ => []

/-- The requests a per-level `Setup` call places on the next level, when there is one. -/
def nextRequests (coarseMgr : Manager) (next : Option (Manager × LevelPtr)) : List Event :=
  match next with
  | some (nextMgr, nextLevel) =>
    [.request nextLevel (.TopRAPFactory coarseMgr nextMgr),
     .request nextLevel (.TopSmootherFactory nextMgr "Smoother"),
     .request nextLevel (.TopSmootherFactory nextMgr "CoarseSolver")]
  | none => []

/-- The RAP step of a per-level `Setup` call, made when a fine manager is given: the
build on the level and the release of the request. -/
def rapEvents (fine : Option Manager) (coarseMgr : Manager) (level : LevelPtr) : List Event :=
  match fine with
  | some fineMgr => [.build (.TopRAPFactory fineMgr coarseMgr) level,
                     .release level (.TopRAPFactory fineMgr coarseMgr)]
  | none => []

/-- The releases on the next level made by a per-level `Setup` call that returns
`isLastLevel`: the three requests are released when the call returns true. -/
def truncateEvents (coarseMgr : Manager) (next : Option (Manager × LevelPtr))
    (isLastLevel : Bool) : List Event :=
  if isLastLevel then
    match next with
    | some (nextMgr, nextLevel) =>
      [.release nextLevel (.TopRAPFactory coarseMgr nextMgr),
       .release nextLevel (.TopSmootherFactory nextMgr "Smoother"),
       .release nextLevel (.TopSmootherFactory nextMgr "CoarseSolver")]
    | none => []
  else []

/-- The smoother step of a per-level `Setup` call that returns `isLastLevel` on a level
whose operator is `Ac`. -/
def smootherEvents (coarseMgr : Manager) (level : LevelPtr) (isLastLevel : Bool)
    (Ac : Option Matrix) : List Event :=
  if !isLastLevel then
    [.build (.TopSmootherFactory coarseMgr "Smoother") level,
     .release level (.TopSmootherFactory coarseMgr "Smoother")]
  else if Ac.isSome then
    [.build (.TopSmootherFactory coarseMgr "CoarseSolver") level,
     .release level (.TopSmootherFactory coarseMgr "CoarseSolver")]
  else []

/-- The whole trace of a per-level `Setup` call that returns `isLastLevel`. -/
def setupTrace (coarseLevelID : Int) (fine coarse nextManager : Option Manager)
    (coarseMgr : Manager) (level : LevelPtr) (next : Option (Manager × LevelPtr))
    (isLastLevel : Bool) (Ac : Option Matrix) : List Event :=
  [.enterSetup coarseLevelID fine coarse nextManager] ++
    (finestRequests fine coarseMgr level ++
      (nextRequests coarseMgr next ++
        (rapEvents fine coarseMgr level ++
          (truncateEvents coarseMgr next isLastLevel ++
            (smootherEvents coarseMgr level isLastLevel Ac ++
              [.returnSetup coarseLevelID isLastLevel])))))

/-- The level an event acts on, for a request, a release or a build. -/
def Event.level? : Event → Option LevelPtr
  | .request level _ => some level
  | .release level _ => some level
  | .build _ level => some level
  | _ => none

/-- The requests, releases and builds of a trace that act on the level `level`. -/
def eventsOn (level : LevelPtr) (tr : List Event) : List Event :=
  tr.filter (fun e => decide (e.level? = some level))

/-- Example producers: the RAP producer leaves on the coarse level an operator with half
the rows of the fine operator, a null operator when the fine level holds none; the
smoother producers store nothing. -/
def coarsening : Producers where
  BuildRAP := fun _ _ fine coarse heap =>
    (none, fun q => if q = coarse then
        ((heap q).Set "A" (.matrix
          (match ((heap fine).store ⟨"A", none⟩).value with
           | some (.matrix (some A)) =>
             some ⟨A.rowMapGlobalNumElements / 2, A.globalNumEntries / 2⟩
           | _ => none))).store
      else (heap q).store)
  BuildSmoother := fun _ _ _ heap => (none, fun q => (heap q).store)

/-- The event is the request of a smoother producer, "Smoother" or "CoarseSolver", on
`level`. -/
def Event.isSmootherRequestOn (level : LevelPtr) : Event → Bool
  | .request l (.TopSmootherFactory _ _) => decide (l = level)
  | _ => false

/-- The event is the release of a smoother producer, "Smoother" or "CoarseSolver", on
`level`. -/
def Event.isSmootherReleaseOn (level : LevelPtr) : Event → Bool
  | .release l (.TopSmootherFactory _ _) => decide (l = level)
  | _ => false

/-- Number of requests of smoother producers a trace places on `level`. -/
def smootherRequests (level : LevelPtr) (tr : List Event) : Nat :=
  tr.countP (Event.isSmootherRequestOn level)

/-- Number of releases of smoother producers a trace makes on `level`. -/
def smootherReleases (level : LevelPtr) (tr : List Event) : Nat :=
  tr.countP (Event.isSmootherReleaseOn level)

/-- Every request, release and build of the trace acts on a level of the chain. -/
def OnChain (chain : List LevelPtr) (tr : List Event) : Prop :=
  ∀ e ∈ tr, ∀ l, e.level? = some l → l ∈ chain

/-- The smoother requests still to be released before a per-level call on the last level
of the chain: `last` on the last level, at least one on every level before it. -/
def Pending (last : Nat) (chain : List LevelPtr) (tr : List Event) : Prop :=
  ∀ q ∈ chain, smootherReleases q tr + (if chain.getLast? = some q then last else 1) ≤
    smootherRequests q tr

end MueLu

namespace ROL

/-- The evaluation offset `c_j` of the finite difference of order `p`: the sum of
`steps[p-1][0..j]`. -/
def offset (p j : Nat) : Int := ((List.range (j + 1)).map (stepsAt (p - 1))).sum

/-- The sum of `weights[p-1][j+1] * c_j^m` over the evaluation points `j < p`. -/
def moment (K : Type) [Field K] (p m : Nat) : K :=
  ((List.range p).map (fun j => weightsAt K (p - 1) (j + 1) * ((offset p j : Int) : K) ^ m)).sum

/-- Example: the objective `x ↦ x^2` on the rationals, with gradient `2 x`. -/
def square : Objective ℚ ℚ where
  value := fun x _ => x ^ 2
  gradient := fun x _ => 2 * x
  hessVec := fun v _ _ => 2 * v

/-- Example: the rationals as vectors over themselves. -/
def rationalOps : VectorOps ℚ ℚ where
  dot := fun a b => a * b
  dual := fun a => a
  norm := fun a => |a|

end ROL

namespace ROL

/-- The loop body of `checkGradient` seen along the line `x + t d`: the pair of the
offset `t` reached and the weighted sum of the values `f t` of the objective on the
line. -/
def lineStep {K : Type} [Field K] (f : K → K) (eta : K) (order : Nat) (st : K × K)
    (j : Nat) : K × K :=
  (st.1 + eta * ((stepsAt (order - 1) j : Int) : K),
    st.2 + weightsAt K (order - 1) (j + 1) * f (st.1 + eta * ((stepsAt (order - 1) j : Int) : K)))

end ROL

namespace Example

section spec
variable {K : Type} [CommRing K]

/-- The column indices of a row, in storage order. -/
def cols (r : Row K) : List Nat := r.map Prod.fst

/-- The value stored at position `p` of a row, zero outside the row. -/
def valueAt (r : Row K) (p : Nat) : K := ((r[p]?).map Prod.snd).getD 0

/-- The entry of a row in column `col`: the sum of the values stored under that column,
zero when none is stored. -/
def entry (r : Row K) (col : Nat) : K :=
  ((r.filter (fun e => decide (e.1 = col))).map Prod.snd).sum

/-- The entry `(i, j)` of the product of the conjugate transpose of `A` with `B`: the sum
over the rows `k` of `conj(A(k, i)) * B(k, j)`. -/
def product (conj : K → K) (A B : CrsMat K) (i j : Nat) : K :=
  ((List.zip A B).map (fun ab =>
    entry (ab.1.map (fun e => (e.1, conj e.2))) i * entry ab.2 j)).sum

/-- What the scan of the columns `bcols` of a row of `B` over a row of `C` with columns
`ccols` needs from `Index`, along the hints the scan itself passes: a nonnegative answer
is a position of the column in `ccols`, a negative answer means the column is absent, and
an answer `<= -2`, which ends the scan, means that the columns still to come are absent
too. -/
def ScanOk (Index : List Nat → Nat → Int → Int) (ccols : List Nat) : Int → List Nat → Prop
  | _, [] => True
  | idx, col :: rest =>
    (0 ≤ Index ccols col idx → ccols[(Index ccols col idx).toNat]? = some col) ∧
    (Index ccols col idx < 0 → col ∉ ccols) ∧
    (Index ccols col idx ≤ -2 → ∀ c ∈ rest, c ∉ ccols) ∧
    (-2 < Index ccols col idx → ScanOk Index ccols (Index ccols col idx) rest)

/-- Example of `Index`: the position of the column among the columns of the row, `-1`
when it is absent; the hint is not used. -/
def lookupIndex (ccols : List Nat) (col : Nat) (_prev : Int) : Int :=
  if col ∈ ccols then (ccols.indexOf col : Int) else -1

/-- The sparsity pattern of a matrix: the column indices of every row. -/
def pattern (C : CrsMat K) : List (List Nat) := C.map cols

/-- The row `r` of a matrix, empty outside the matrix. -/
def rowAt (C : CrsMat K) (r : Nat) : Row K := (C[r]?).getD []

/-- Example of `scale`: every stored value is multiplied by `beta`. -/
def scaleValues (beta : K) (C : CrsMat K) : CrsMat K :=
  C.map (fun r => r.map (fun e => (e.1, beta * e.2)))

end spec

end Example

namespace MueLu
open Hierarchy

section kit
variable {α β : Type}

@[simp] theorem setHeap_heap (s : HState) (h : LevelPtr → Level) : (s.setHeap h).heap = h := rfl
@[simp] theorem setHeap_Levels (s : HState) (h : LevelPtr → Level) :
    (s.setHeap h).Levels_ = s.Levels_ := rfl
@[simp] theorem setHeap_nextFree (s : HState) (h : LevelPtr → Level) :
    (s.setHeap h).nextFree = s.nextFree := rfl
@[simp] theorem setHeap_maxCoarseSize (s : HState) (h : LevelPtr → Level) :
    (s.setHeap h).maxCoarseSize_ = s.maxCoarseSize_ := rfl
@[simp] theorem setLevels_heap (s : HState) (l : List LevelPtr) : (s.setLevels l).heap = s.heap := rfl
@[simp] theorem setLevels_Levels (s : HState) (l : List LevelPtr) : (s.setLevels l).Levels_ = l := rfl
@[simp] theorem setLevels_nextFree (s : HState) (l : List LevelPtr) :
    (s.setLevels l).nextFree = s.nextFree := rfl
@[simp] theorem setLevels_maxCoarseSize (s : HState) (l : List LevelPtr) :
    (s.setLevels l).maxCoarseSize_ = s.maxCoarseSize_ := rfl
@[simp] theorem setNextFree_heap (s : HState) (n : LevelPtr) : (s.setNextFree n).heap = s.heap := rfl
@[simp] theorem setNextFree_Levels (s : HState) (n : LevelPtr) :
    (s.setNextFree n).Levels_ = s.Levels_ := rfl
@[simp] theorem setNextFree_nextFree (s : HState) (n : LevelPtr) : (s.setNextFree n).nextFree = n := rfl
@[simp] theorem setNextFree_maxCoarseSize (s : HState) (n : LevelPtr) :
    (s.setNextFree n).maxCoarseSize_ = s.maxCoarseSize_ := rfl

@[simp] theorem setHeap_implicitTranspose (s : HState) (h : LevelPtr → Level) :
    (s.setHeap h).implicitTranspose_ = s.implicitTranspose_ := rfl
@[simp] theorem setHeap_isPreconditioner (s : HState) (h : LevelPtr → Level) :
    (s.setHeap h).isPreconditioner_ = s.isPreconditioner_ := rfl
@[simp] theorem setHeap_isDumpingEnabled (s : HState) (h : LevelPtr → Level) :
    (s.setHeap h).isDumpingEnabled_ = s.isDumpingEnabled_ := rfl
@[simp] theorem setHeap_dumpLevel (s : HState) (h : LevelPtr → Level) :
    (s.setHeap h).dumpLevel_ = s.dumpLevel_ := rfl
@[simp] theorem setLevels_implicitTranspose (s : HState) (l : List LevelPtr) :
    (s.setLevels l).implicitTranspose_ = s.implicitTranspose_ := rfl
@[simp] theorem setLevels_isPreconditioner (s : HState) (l : List LevelPtr) :
    (s.setLevels l).isPreconditioner_ = s.isPreconditioner_ := rfl
@[simp] theorem setLevels_isDumpingEnabled (s : HState) (l : List LevelPtr) :
    (s.setLevels l).isDumpingEnabled_ = s.isDumpingEnabled_ := rfl
@[simp] theorem setLevels_dumpLevel (s : HState) (l : List LevelPtr) :
    (s.setLevels l).dumpLevel_ = s.dumpLevel_ := rfl
@[simp] theorem setNextFree_implicitTranspose (s : HState) (n : LevelPtr) :
    (s.setNextFree n).implicitTranspose_ = s.implicitTranspose_ := rfl
@[simp] theorem setNextFree_isPreconditioner (s : HState) (n : LevelPtr) :
    (s.setNextFree n).isPreconditioner_ = s.isPreconditioner_ := rfl
@[simp] theorem setNextFree_isDumpingEnabled (s : HState) (n : LevelPtr) :
    (s.setNextFree n).isDumpingEnabled_ = s.isDumpingEnabled_ := rfl
@[simp] theorem setNextFree_dumpLevel (s : HState) (n : LevelPtr) :
    (s.setNextFree n).dumpLevel_ = s.dumpLevel_ := rfl

theorem bind_eq (x : Act α) (f : α → Act β) : (x >>= f) = Act.bind x f := rfl

theorem pure_eq (a : α) : (pure a : Act α) = Act.pure a := rfl

theorem bind_of_ok {x : Act α} {f : α → Act β} {s : HState} {a : α} (h : (x s).out = .ok a) :
    (x >>= f) s = ⟨(f a (x s).st).out, (f a (x s).st).st, (x s).tr ++ (f a (x s).st).tr⟩ := by
  rw [bind_eq]
  unfold Act.bind
  rcases hx : x s with ⟨o, s1, t1⟩
  rw [hx] at h
  simp only at h
  subst h
  rfl

theorem bind_of_error {x : Act α} {f : α → Act β} {s : HState} {e : Failure}
    (h : (x s).out = .error e) : (x >>= f) s = ⟨.error e, (x s).st, (x s).tr⟩ := by
  rw [bind_eq]
  unfold Act.bind
  rcases hx : x s with ⟨o, s1, t1⟩
  rw [hx] at h
  simp only at h
  subst h
  rfl

theorem Post.mono {x : Act α} {s : HState} {Q R : Except Failure α → HState → List Event → Prop}
    (h : Post x s R) (hQ : ∀ o s1 t1, R o s1 t1 → Q o s1 t1) : Post x s Q := hQ _ _ _ h

theorem Post.bind {x : Act α} {f : α → Act β} {s : HState}
    {Q : Except Failure β → HState → List Event → Prop}
    (R : Except Failure α → HState → List Event → Prop) (hx : Post x s R)
    (hok : ∀ a s1 t1, R (.ok a) s1 t1 → Post (f a) s1 (fun o s2 t2 => Q o s2 (t1 ++ t2)))
    (herr : ∀ e s1 t1, R (.error e) s1 t1 → Q (.error e) s1 t1) : Post (x >>= f) s Q := by
  unfold Post at hx ⊢
  rcases ho : (x s).out with e | a
  · rw [bind_of_error ho]
    rw [ho] at hx
    exact herr _ _ _ hx
  · rw [bind_of_ok ho]
    rw [ho] at hx
    exact hok _ _ _ hx

theorem Post.of_pure {a : α} {s : HState} {Q : Except Failure α → HState → List Event → Prop}
    (h : Q (.ok a) s []) : Post (pure a) s Q := h

theorem Post.of_raise {e : Failure} {s : HState}
    {Q : Except Failure α → HState → List Event → Prop}
    (h : Q (.error e) s []) : Post (raise e) s Q := h

theorem Post.bind_raise {e : Failure} {f : α → Act β} {s : HState}
    {Q : Except Failure β → HState → List Event → Prop}
    (h : Q (.error e) s []) : Post (raise e >>= f) s Q := by
  unfold Post
  rw [bind_of_error (e := e) rfl]
  exact h

theorem Post.bind_pure {a : α} {f : α → Act β} {s : HState}
    {Q : Except Failure β → HState → List Event → Prop}
    (h : Post (f a) s Q) : Post (pure a >>= f) s Q := by
  unfold Post at h ⊢
  rw [bind_of_ok (a := a) rfl]
  simpa [pure_eq, Act.pure] using h

theorem Post.bind_emit {e : Event} {f : Unit → Act β} {s : HState}
    {Q : Except Failure β → HState → List Event → Prop}
    (h : Post (f ()) s (fun o s2 t2 => Q o s2 (e :: t2))) : Post (emit e >>= f) s Q := by
  unfold Post at h ⊢
  rw [bind_of_ok (a := ()) rfl]
  simpa [emit] using h

theorem Post.bind_getState {f : HState → Act β} {s : HState}
    {Q : Except Failure β → HState → List Event → Prop}
    (h : Post (f s) s Q) : Post (getState >>= f) s Q := by
  unfold Post at h ⊢
  rw [bind_of_ok (a := s) rfl]
  simpa [getState] using h

theorem Post.bind_deref {p : LevelPtr} {f : Level → Act β} {s : HState}
    {Q : Except Failure β → HState → List Event → Prop}
    (h : Post (f (s.heap p)) s Q) : Post (deref p >>= f) s Q := by
  unfold Post at h ⊢
  rw [bind_of_ok (a := s.heap p) rfl]
  simpa [deref] using h

theorem Post.bind_modifyLevel {p : LevelPtr} {g : Level → Level} {f : Unit → Act β} {s : HState}
    {Q : Except Failure β → HState → List Event → Prop}
    (h : Post (f ()) (s.setHeap (Function.update s.heap p (g (s.heap p)))) Q) :
    Post (modifyLevel p g >>= f) s Q := by
  unfold Post at h ⊢
  rw [bind_of_ok (a := ()) rfl]
  simpa [modifyLevel] using h

theorem Post.bind_pushBack {p : LevelPtr} {f : Unit → Act β} {s : HState}
    {Q : Except Failure β → HState → List Event → Prop}
    (h : Post (f ()) (s.setLevels (s.Levels_ ++ [p])) Q) :
    Post (pushBack p >>= f) s Q := by
  unfold Post at h ⊢
  rw [bind_of_ok (a := ()) rfl]
  simpa [pushBack] using h

theorem Post.bind_popBack {f : Unit → Act β} {s : HState}
    {Q : Except Failure β → HState → List Event → Prop}
    (h : Post (f ()) (s.setLevels s.Levels_.dropLast) Q) :
    Post (popBack >>= f) s Q := by
  unfold Post at h ⊢
  rw [bind_of_ok (a := ()) rfl]
  simpa [popBack] using h

theorem LevelsAt_run (i : Int) (s : HState) :
    (∃ p, 0 ≤ i ∧ s.Levels_[i.toNat]? = some p ∧ LevelsAt i s = ⟨.ok p, s, []⟩) ∨
    ((i < 0 ∨ s.Levels_.length ≤ i.toNat) ∧ LevelsAt i s = ⟨.error .outOfBounds, s, []⟩) := by
  unfold LevelsAt
  by_cases hi : 0 ≤ i
  · rw [if_pos hi]
    rcases hp : s.Levels_[i.toNat]? with _ | p
    · right
      exact ⟨Or.inr (List.getElem?_eq_none_iff.mp hp), rfl⟩
    · left
      exact ⟨p, hi, rfl, rfl⟩
  · rw [if_neg hi]
    right
    exact ⟨Or.inl (by omega), rfl⟩

theorem Post.of_LevelsAt {i : Int} {s : HState}
    {Q : Except Failure LevelPtr → HState → List Event → Prop}
    (hok : ∀ p, 0 ≤ i → s.Levels_[i.toNat]? = some p → Q (.ok p) s [])
    (herr : (i < 0 ∨ s.Levels_.length ≤ i.toNat) → Q (.error .outOfBounds) s []) :
    Post (LevelsAt i) s Q := by
  unfold Post
  rcases LevelsAt_run i s with ⟨p, h0, hp, hr⟩ | ⟨h, hr⟩
  · rw [hr]
    exact hok p h0 hp
  · rw [hr]
    exact herr h

theorem Post.bind_LevelsAt {i : Int} {f : LevelPtr → Act β} {s : HState}
    {Q : Except Failure β → HState → List Event → Prop}
    (hok : ∀ p, 0 ≤ i → s.Levels_[i.toNat]? = some p → Post (f p) s Q)
    (herr : (i < 0 ∨ s.Levels_.length ≤ i.toNat) → Q (.error .outOfBounds) s []) :
    Post (LevelsAt i >>= f) s Q := by
  apply Post.bind (fun o s1 t1 => s1 = s ∧ t1 = [] ∧
    match o with
    | .ok p => 0 ≤ i ∧ s.Levels_[i.toNat]? = some p
    | .error e => e = .outOfBounds ∧ (i < 0 ∨ s.Levels_.length ≤ i.toNat))
  · apply Post.of_LevelsAt
    · intro p h0 hp
      exact ⟨rfl, rfl, h0, hp⟩
    · intro h
      exact ⟨rfl, rfl, rfl, h⟩
  · rintro a s1 t1 ⟨rfl, rfl, h0, hp⟩
    simpa using hok a h0 hp
  · rintro e s1 t1 ⟨rfl, rfl, rfl, h⟩
    exact herr h

theorem Post.of_eq {x : Act α} {s s1 : HState} {o : Except Failure α} {t1 : List Event}
    {Q : Except Failure α → HState → List Event → Prop}
    (h : x s = ⟨o, s1, t1⟩) (hQ : Q o s1 t1) : Post x s Q := by
  unfold Post
  rw [h]
  exact hQ

theorem Post.bind_of_eq {x : Act α} {f : α → Act β} {s s1 : HState} {a : α} {t1 : List Event}
    {Q : Except Failure β → HState → List Event → Prop}
    (h : x s = ⟨.ok a, s1, t1⟩) (hf : Post (f a) s1 (fun o s2 t2 => Q o s2 (t1 ++ t2))) :
    Post (x >>= f) s Q := by
  unfold Post at hf ⊢
  rw [bind_of_ok (a := a) (by rw [h])]
  rw [h]
  exact hf

theorem Post.bind_allocLevel {l : Level} {f : LevelPtr → Act β} {s : HState}
    {Q : Except Failure β → HState → List Event → Prop}
    (h : Post (f s.nextFree)
      ((s.setHeap (Function.update s.heap s.nextFree l)).setNextFree (s.nextFree + 1)) Q) :
    Post (allocLevel l >>= f) s Q := by
  have hrun : allocLevel l s = ⟨.ok s.nextFree,
      (s.setHeap (Function.update s.heap s.nextFree l)).setNextFree (s.nextFree + 1), []⟩ := rfl
  apply Post.bind_of_eq hrun
  simpa using h

theorem Post.bind_of_eq_error {x : Act α} {f : α → Act β} {s s1 : HState} {e : Failure}
    {t1 : List Event} {Q : Except Failure β → HState → List Event → Prop}
    (h : x s = ⟨.error e, s1, t1⟩) (hQ : Q (.error e) s1 t1) : Post (x >>= f) s Q := by
  unfold Post
  rw [bind_of_error (e := e) (by rw [h])]
  rw [h]
  exact hQ

theorem Post.elim {x : Act α} {s : HState} {Q : Except Failure α → HState → List Event → Prop}
    (h : Post x s Q) : Q (x s).out (x s).st (x s).tr := h

theorem Res.eq_of {r : Res α} {o : Except Failure α} {s1 : HState} {t1 : List Event}
    (h1 : r.out = o) (h2 : r.st = s1) (h3 : r.tr = t1) : r = ⟨o, s1, t1⟩ := by
  cases r
  simp only at h1 h2 h3
  rw [h1, h2, h3]

end kit

theorem AddLevel_run (level : LevelPtr) (s : HState) :
    AddLevel level s = ⟨.ok (), addLevelState level s,
      if (s.heap level).levelID ≠ -1 ∧ (s.heap level).levelID ≠ (s.Levels_.length : Int) then
        [.warning "Hierarchy::AddLevel(): Level ID have been redefined"] else []⟩ := by
  have key : Post (AddLevel level) s (fun o s1 t1 => o = .ok () ∧ s1 = addLevelState level s ∧
      t1 = if (s.heap level).levelID ≠ -1 ∧ (s.heap level).levelID ≠ (s.Levels_.length : Int) then
        [.warning "Hierarchy::AddLevel(): Level ID have been redefined"] else []) := by
    unfold AddLevel
    apply Post.bind_getState
    apply Post.bind_deref
    have hid : LastLevelID s + 1 = (s.Levels_.length : Int) := by simp [LastLevelID]
    simp only [hid]
    have tailStep : ∀ (t0 : List Event), Post
        (do
          pushBack level
          modifyLevel level fun l => l.SetLevelID (s.Levels_.length : Int)
          if (s.Levels_.length : Int) = 0 then modifyLevel level fun l => l.SetPreviousLevel none
          else do
            let s1 ← getState
            let prev ← LevelsAt (LastLevelID s1 - 1)
            modifyLevel level fun l => l.SetPreviousLevel (some prev))
        s (fun o s1 t1 => o = .ok () ∧ s1 = addLevelState level s ∧ t0 ++ t1 = t0) := by
      intro t0
      apply Post.bind_pushBack
      apply Post.bind_modifyLevel
      by_cases h0 : (s.Levels_.length : Int) = 0
      · rw [if_pos h0]
        have hnil : s.Levels_ = [] := by
          apply List.eq_nil_of_length_eq_zero
          exact_mod_cast h0
        refine ⟨rfl, ?_, by simp [modifyLevel]⟩
        apply HState.ext <;> simp [modifyLevel, addLevelState, hnil, Level.SetPreviousLevel, Level.SetLevelID]
      · rw [if_neg h0]
        apply Post.bind_getState
        apply Post.bind_LevelsAt
        · intro p _ hp
          refine ⟨rfl, ?_, by simp [modifyLevel]⟩
          have hlen : 0 < s.Levels_.length := by
            rcases Nat.eq_zero_or_pos s.Levels_.length with h | h
            · exact absurd (by exact_mod_cast h) h0
            · exact h
          have hidx : (LastLevelID ((s.setLevels (s.Levels_ ++ [level])).setHeap
              (Function.update (s.setLevels (s.Levels_ ++ [level])).heap level
                (((s.setLevels (s.Levels_ ++ [level])).heap level).SetLevelID
                  (s.Levels_.length : Int)))) - 1).toNat = s.Levels_.length - 1 := by
            simp [LastLevelID]
          rw [hidx] at hp
          simp only [setHeap_Levels, setLevels_Levels] at hp
          rw [List.getElem?_append_left (by omega)] at hp
          have hlast : s.Levels_.getLast? = some p := by
            rw [List.getLast?_eq_getElem?]
            exact hp
          apply HState.ext <;> simp [modifyLevel, addLevelState, hlast, Level.SetPreviousLevel, Level.SetLevelID]
        · intro hbad
          exfalso
          simp [LastLevelID] at hbad
          rcases hbad with h | h
          · exact h0 (by simp [h])
          · omega
    by_cases hw : (s.heap level).levelID ≠ -1 ∧ (s.heap level).levelID ≠ (s.Levels_.length : Int)
    · rw [if_pos hw, if_pos hw]
      apply Post.bind_emit
      exact Post.mono (tailStep [.warning "Hierarchy::AddLevel(): Level ID have been redefined"])
        (fun o s1 t1 h => ⟨h.1, h.2.1, by simpa using h.2.2⟩)
    · rw [if_neg hw, if_neg hw]
      apply Post.bind_pure
      exact Post.mono (tailStep []) (fun o s1 t1 h => ⟨h.1, h.2.1, by simpa using h.2.2⟩)
  rcases key with ⟨h1, h2, h3⟩
  rcases hr : AddLevel level s with ⟨o, s1, t1⟩
  rw [hr] at h1 h2 h3
  simp only at h1 h2 h3
  rw [h1, h2, h3]


theorem AddNewLevel_run (s : HState) :
    AddNewLevel s = if s.Levels_ = [] then ⟨.error .outOfBounds, s, []⟩
      else ⟨.ok (), addNewLevelState s, []⟩ := by
  have key : Post AddNewLevel s (fun o s1 t1 =>
      if s.Levels_ = [] then o = .error .outOfBounds ∧ s1 = s ∧ t1 = []
      else o = .ok () ∧ s1 = addNewLevelState s ∧ t1 = []) := by
    unfold AddNewLevel
    apply Post.bind_getState
    apply Post.bind_LevelsAt
    · intro p h0 hp
      have hne : s.Levels_ ≠ [] := by
        intro h
        rw [h] at hp
        simp at hp
      simp only [if_neg hne]
      apply Post.bind_deref
      apply Post.bind_allocLevel
      apply Post.of_eq (AddLevel_run _ _)
      refine ⟨rfl, rfl, ?_⟩
      simp [Level.Build, Level.new]
    · intro hbad
      have hnil : s.Levels_ = [] := by
        simp only [LastLevelID] at hbad
        rcases hbad with h | h
        · apply List.eq_nil_of_length_eq_zero
          omega
        · apply List.eq_nil_of_length_eq_zero
          omega
      rw [if_pos hnil]
      exact ⟨rfl, rfl, rfl⟩
  have h := key.elim
  split at h
  · next hnil =>
    rw [if_pos hnil]
    exact Res.eq_of h.1 h.2.1 h.2.2
  · next hne =>
    rw [if_neg hne]
    exact Res.eq_of h.1 h.2.1 h.2.2

/-- C1: for a hierarchy whose chain has `n` levels and a level `L` not in the chain,
`AddLevel(L)` returns normally, the chain becomes the old chain followed by `L` (so it has
`n + 1` levels, `L` sits at position `n`, and every position below `n` holds the same,
unchanged level object), `L` gets `levelID = n` whatever ID it carried before, and its
`previousLevel` is null when `n = 0` and the old chain tail (position `n - 1`)
otherwise. -/
theorem AddLevel_appends_level (s : HState) (L : LevelPtr) (hL : L ∉ s.Levels_) :
    (AddLevel L s).out = .ok () ∧
    (AddLevel L s).st.Levels_ = s.Levels_ ++ [L] ∧
    (AddLevel L s).st.Levels_.length = s.Levels_.length + 1 ∧
    (AddLevel L s).st.Levels_[s.Levels_.length]? = some L ∧
    (∀ i, i < s.Levels_.length → ∃ q, s.Levels_[i]? = some q ∧
      (AddLevel L s).st.Levels_[i]? = some q ∧ (AddLevel L s).st.heap q = s.heap q) ∧
    ((AddLevel L s).st.heap L).levelID = (s.Levels_.length : Int) ∧
    ((AddLevel L s).st.heap L).previousLevel =
      (if s.Levels_.length = 0 then none else s.Levels_[s.Levels_.length - 1]?) := by
  rw [AddLevel_run]
  refine ⟨rfl, rfl, by simp [addLevelState], by simp [addLevelState], ?_, by simp [addLevelState], ?_⟩
  · intro i hi
    refine ⟨s.Levels_[i], List.getElem?_eq_getElem hi, ?_, ?_⟩
    · simp [addLevelState, List.getElem?_append_left hi]
    · have hne : s.Levels_[i] ≠ L := by
        intro h
        exact hL (h ▸ List.getElem_mem hi)
      simp [addLevelState, Function.update_noteq hne]
  · by_cases h0 : s.Levels_.length = 0
    · have hnil : s.Levels_ = [] := List.eq_nil_of_length_eq_zero h0
      simp [addLevelState, hnil]
    · rw [if_neg h0]
      simp [addLevelState, List.getLast?_eq_getElem?]

/-- Witness for C1: adding the level object `1`, which carries the mismatching ID 7, to
the one-level hierarchy over a 1000-row operator. -/
theorem AddLevel_appends_level_witness :
    1 ∉ bigHierarchy.Levels_ ∧
    ((AddLevel 1 (bigHierarchy.setHeap (Function.update bigHierarchy.heap 1
        (Level.new.SetLevelID 7)))).st.heap 1).levelID = 1 :=
  ⟨by decide!, by
    simpa using (AddLevel_appends_level (bigHierarchy.setHeap (Function.update bigHierarchy.heap 1
        (Level.new.SetLevelID 7))) 1 (by decide!)).2.2.2.2.2.1⟩

section preservation
variable {α β : Type}

theorem Preserves.andThen {I : HState → Prop} {x : Act α} {f : α → Act β}
    (hx : Preserves I x) (hf : ∀ a, Preserves I (f a)) : Preserves I (x >>= f) := by
  constructor
  intro s hs
  rcases ho : (x s).out with e | a
  · rw [bind_of_error ho]
    exact hx.run s hs
  · rw [bind_of_ok ho]
    exact (hf a).run _ (hx.run s hs)

theorem Unchanged.andThen_unchanged {x : Act α} {f : α → Act β}
    (hx : Unchanged x) (hf : ∀ a, Unchanged (f a)) : Unchanged (x >>= f) := by
  constructor
  intro s
  rcases ho : (x s).out with e | a
  · rw [bind_of_error ho]
    exact hx.run s
  · rw [bind_of_ok ho]
    show (f a (x s).st).st = s
    rw [hx.run s]
    exact (hf a).run s

theorem Unchanged.preserves {I : HState → Prop} {x : Act α} (hx : Unchanged x) :
    Preserves I x := by
  constructor
  intro s hs
  rw [hx.run s]
  exact hs

theorem Unchanged.pure_unchanged (a : α) : Unchanged (pure a : Act α) := ⟨fun _ => rfl⟩

theorem Unchanged.raise_unchanged (e : Failure) : Unchanged (raise e : Act α) := ⟨fun _ => rfl⟩

theorem Unchanged.emit_unchanged (e : Event) : Unchanged (emit e) := ⟨fun _ => rfl⟩

theorem Unchanged.getState_unchanged : Unchanged getState := ⟨fun _ => rfl⟩

theorem Unchanged.deref_unchanged (p : LevelPtr) : Unchanged (deref p) := ⟨fun _ => rfl⟩

theorem Unchanged.LevelsAt_unchanged (i : Int) : Unchanged (LevelsAt i) := by
  constructor
  intro s
  rcases LevelsAt_run i s with ⟨p, _, _, hr⟩ | ⟨_, hr⟩ <;> rw [hr]

theorem Unchanged.CheckLevel_unchanged (level : LevelPtr) (levelID : Int) :
    Unchanged (CheckLevel level levelID) := by
  unfold CheckLevel
  apply Unchanged.andThen_unchanged (Unchanged.deref_unchanged _)
  intro l
  split
  · exact Unchanged.raise_unchanged _
  · split
    · apply Unchanged.andThen_unchanged (Unchanged.LevelsAt_unchanged _)
      intro parent
      split
      · exact Unchanged.raise_unchanged _
      · exact Unchanged.pure_unchanged _
    · exact Unchanged.pure_unchanged _

theorem Post.bind_preserves {I : HState → Prop} {x : Act α} {f : α → Act β} {s : HState}
    {Q : Except Failure β → HState → List Event → Prop} (hx : Preserves I x) (hs : I s)
    (hok : ∀ a s1 t1, I s1 → Post (f a) s1 (fun o s2 t2 => Q o s2 (t1 ++ t2)))
    (herr : ∀ e s1 t1, I s1 → Q (.error e) s1 t1) : Post (x >>= f) s Q := by
  apply Post.bind (fun _ s1 _ => I s1) (hx.run s hs)
  · intro a s1 t1 h1
    exact hok a s1 t1 h1
  · intro e s1 t1 h1
    exact herr e s1 t1 h1

theorem Post.bind_unchanged {x : Act α} {f : α → Act β} {s : HState}
    {Q : Except Failure β → HState → List Event → Prop} (hx : Unchanged x)
    (hok : ∀ a t1, Post (f a) s (fun o s2 t2 => Q o s2 (t1 ++ t2)))
    (herr : ∀ e t1, Q (.error e) s t1) : Post (x >>= f) s Q := by
  apply Post.bind (fun _ s1 _ => s1 = s) (hx.run s)
  · intro a s1 t1 h1
    rw [h1]
    exact hok a t1
  · intro e s1 t1 h1
    rw [h1]
    exact herr e t1

theorem Post.of_preserves {I : HState → Prop} {x : Act α} {s : HState}
    (hx : Preserves I x) (hs : I s) : Post x s (fun _ s1 _ => I s1) := hx.run s hs

end preservation

theorem CheckLevel_run (level : LevelPtr) (levelID : Int) (s : HState) :
    CheckLevel level levelID s = ⟨checkLevelOutcome s level levelID, s, []⟩ := by
  have key : Post (CheckLevel level levelID) s
      (fun o s1 t1 => o = checkLevelOutcome s level levelID ∧ s1 = s ∧ t1 = []) := by
    unfold CheckLevel checkLevelOutcome
    apply Post.bind_deref
    by_cases hid : (s.heap level).levelID ≠ levelID
    · rw [if_pos hid, if_pos hid]
      exact ⟨rfl, rfl, rfl⟩
    · rw [if_neg hid, if_neg hid]
      by_cases h0 : levelID = 0
      · rw [if_neg (not_not.mpr h0), if_pos h0]
        exact ⟨rfl, rfl, rfl⟩
      · rw [if_pos h0, if_neg h0]
        apply Post.bind_LevelsAt
        · intro parent hi hp
          rw [if_pos hi, hp]
          by_cases hpar : (s.heap level).previousLevel ≠ some parent
          · rw [if_pos hpar]
            simp only [if_pos hpar]
            exact ⟨rfl, rfl, rfl⟩
          · rw [if_neg hpar]
            simp only [if_neg hpar]
            exact ⟨rfl, rfl, rfl⟩
        · intro hbad
          refine ⟨?_, rfl, rfl⟩
          rcases hbad with h | h
          · rw [if_neg (by omega)]
          · by_cases hi : 0 ≤ levelID - 1
            · rw [if_pos hi, List.getElem?_eq_none_iff.mpr h]
            · rw [if_neg hi]
  have h := key.elim
  exact Res.eq_of h.1 h.2.1 h.2.2

theorem Inv.of_sameStruct {s : HState} (h : Inv s) (s1 : HState) (hL : s1.Levels_ = s.Levels_)
    (hn : s.nextFree ≤ s1.nextFree)
    (hh : ∀ q, q ∈ s.Levels_ → (s1.heap q).levelID = (s.heap q).levelID ∧
      (s1.heap q).previousLevel = (s.heap q).previousLevel) : Inv s1 := by
  refine ⟨?_, ?_⟩
  · intro i p hp
    rw [hL] at hp ⊢
    have hmem : p ∈ s.Levels_ := List.getElem?_mem hp
    rw [(hh p hmem).1, (hh p hmem).2]
    exact h.1 i p hp
  · intro p hp
    rw [hL] at hp
    exact lt_of_lt_of_le (h.2 p hp) hn

theorem WellFormed.addLevel {s : HState} {L : LevelPtr} (h : WellFormed s)
    (hL : L ∉ s.Levels_) : WellFormed (addLevelState L s) := by
  intro i p hp
  simp only [MueLu.addLevelState, setHeap_Levels, setLevels_Levels, setHeap_heap,
    setLevels_heap] at hp ⊢
  rcases Nat.lt_trichotomy i s.Levels_.length with hlt | heq | hgt
  · rw [List.getElem?_append_left hlt] at hp
    have hne : p ≠ L := fun hpl => hL (hpl ▸ List.getElem?_mem hp)
    rw [Function.update_noteq hne]
    refine ⟨(h i p hp).1, fun hi => ?_⟩
    rw [(h i p hp).2 hi, List.getElem?_append_left (by omega)]
  · subst heq
    rw [List.getElem?_append_right (le_refl _)] at hp
    simp only [Nat.sub_self, List.getElem?_cons_zero, Option.some.injEq] at hp
    subst hp
    rw [Function.update_same]
    refine ⟨rfl, fun hi => ?_⟩
    show s.Levels_.getLast? = _
    rw [List.getLast?_eq_getElem?, List.getElem?_append_left (by omega)]
  · rw [List.getElem?_append_right (by omega)] at hp
    have : i - s.Levels_.length ≠ 0 := by omega
    rcases hk : i - s.Levels_.length with _ | k
    · omega
    · rw [hk] at hp
      simp at hp

theorem Inv.addLevel_inv {s : HState} {L : LevelPtr} (h : Inv s) (hL : L ∉ s.Levels_)
    (hlt : L < s.nextFree) : Inv (addLevelState L s) := by
  refine ⟨h.1.addLevel hL, ?_⟩
  intro p hp
  simp only [MueLu.addLevelState, setHeap_Levels, setLevels_Levels, setHeap_nextFree,
    setLevels_nextFree, List.mem_append, List.mem_singleton] at hp ⊢
  rcases hp with hp | rfl
  · exact h.2 p hp
  · exact hlt

theorem Inv.alloc {s : HState} (h : Inv s) (l : Level) :
    Inv ((s.setHeap (Function.update s.heap s.nextFree l)).setNextFree (s.nextFree + 1)) := by
  refine h.of_sameStruct
    ((s.setHeap (Function.update s.heap s.nextFree l)).setNextFree (s.nextFree + 1))
    rfl (Nat.le_succ _) ?_
  intro q hq
  have hne : q ≠ s.nextFree := Nat.ne_of_lt (h.2 q hq)
  simp [Function.update_noteq hne]

theorem Inv.addNewLevelState {s : HState} (h : Inv s) : Inv (addNewLevelState s) := by
  unfold MueLu.addNewLevelState
  apply (h.alloc Level.new).addLevel_inv
  · intro hmem
    exact absurd (h.2 _ hmem) (lt_irrefl _)
  · simp

theorem Inv.popBack {s : HState} (h : Inv s) : Inv (s.setLevels s.Levels_.dropLast) := by
  refine ⟨?_, ?_⟩
  · intro i p hp
    simp only [setLevels_Levels, setLevels_heap, List.getElem?_dropLast] at hp ⊢
    split at hp
    · next hi =>
      refine ⟨(h.1 i p hp).1, fun h0 => ?_⟩
      rw [(h.1 i p hp).2 h0, if_pos (by omega)]
    · exact absurd hp (by simp)
  · intro p hp
    exact h.2 p (List.mem_of_mem_dropLast hp)

theorem Preserves.AddNewLevel_keeps : Preserves Inv AddNewLevel := by
  constructor
  intro s hs
  rw [AddNewLevel_run]
  split
  · exact hs
  · exact hs.addNewLevelState

theorem HeapStable.inv_stable : HeapStable Inv := by
  refine ⟨?_, ?_⟩
  · intro p g hg
    constructor
    intro s hs
    apply hs.of_sameStruct (modifyLevel p g s).st rfl (le_refl _)
    intro q _
    show (Function.update s.heap p (g (s.heap p)) q).levelID = (s.heap q).levelID ∧
      (Function.update s.heap p (g (s.heap p)) q).previousLevel = (s.heap q).previousLevel
    by_cases hq : q = p
    · subst hq
      rw [Function.update_same]
      exact hg _
    · rw [Function.update_noteq hq]
      exact ⟨rfl, rfl⟩
  · intro r
    constructor
    intro s hs
    exact hs.of_sameStruct (installStores r s).st rfl (le_refl _) (fun q _ => ⟨rfl, rfl⟩)

theorem HeapStable.of_chain (J : List LevelPtr → Prop) : HeapStable (fun s => J s.Levels_) :=
  ⟨fun _ _ _ => ⟨fun _ hs => hs⟩, fun _ => ⟨fun _ hs => hs⟩⟩

theorem HeapStable.of_maxCoarseSize (J : Nat → Prop) :
    HeapStable (fun s => J s.maxCoarseSize_) :=
  ⟨fun _ _ _ => ⟨fun _ hs => hs⟩, fun _ => ⟨fun _ hs => hs⟩⟩

section walk
variable {I : HState → Prop}

theorem Preserves.Request_keeps (hI : HeapStable I) (level : LevelPtr) (factory : TopFactory) :
    Preserves I (Request level factory) := by
  unfold Request
  apply Preserves.andThen (Unchanged.emit_unchanged _).preserves
  intro _
  exact hI.modify _ _ (fun l => ⟨rfl, rfl⟩)

theorem Preserves.Release_keeps (hI : HeapStable I) (level : LevelPtr) (factory : TopFactory) :
    Preserves I (Release level factory) := by
  unfold Release
  apply Preserves.andThen (Unchanged.emit_unchanged _).preserves
  intro _
  exact hI.modify _ _ (fun l => ⟨rfl, rfl⟩)

theorem Preserves.BuildRAP_keeps (hI : HeapStable I) (P : Producers) (f c : Manager)
    (fine coarse : LevelPtr) : Preserves I (BuildRAP P f c fine coarse) := by
  unfold BuildRAP
  apply Preserves.andThen (Unchanged.emit_unchanged _).preserves
  intro _
  apply Preserves.andThen Unchanged.getState_unchanged.preserves
  intro s
  exact hI.install _

theorem Preserves.BuildSmoother_keeps (hI : HeapStable I) (P : Producers) (m : Manager)
    (v : String) (level : LevelPtr) : Preserves I (BuildSmoother P m v level) := by
  unfold BuildSmoother
  apply Preserves.andThen (Unchanged.emit_unchanged _).preserves
  intro _
  apply Preserves.andThen Unchanged.getState_unchanged.preserves
  intro s
  exact hI.install _

theorem Unchanged.SetupInit_unchanged (coarseLevelID : Int) (fine coarse next : Option Manager) :
    Unchanged (SetupInit coarseLevelID fine coarse next) := by
  unfold SetupInit
  apply Unchanged.andThen_unchanged (Unchanged.emit_unchanged _)
  intro _
  split
  · exact Unchanged.raise_unchanged _
  · apply Unchanged.andThen_unchanged Unchanged.getState_unchanged
    intro s
    split
    · exact Unchanged.raise_unchanged _
    · apply Unchanged.andThen_unchanged (Unchanged.LevelsAt_unchanged _)
      intro level
      apply Unchanged.andThen_unchanged (Unchanged.CheckLevel_unchanged _ _)
      intro _
      split
      · apply Unchanged.andThen_unchanged (Unchanged.LevelsAt_unchanged _)
        intro _
        exact Unchanged.pure_unchanged _
      · exact Unchanged.pure_unchanged _

theorem Preserves.SetupRequestsFinest_keeps (hI : HeapStable I) (fine : Option Manager)
    (coarseMgr : Manager) (level : LevelPtr) :
    Preserves I (SetupRequestsFinest fine coarseMgr level) := by
  unfold SetupRequestsFinest
  split
  · apply Preserves.andThen (Preserves.Request_keeps hI _ _)
    intro _
    exact Preserves.Request_keeps hI _ _
  · exact (Unchanged.pure_unchanged _).preserves

theorem Preserves.SetupRequestsNext_keeps (hI : HeapStable I) (hA : Preserves I AddNewLevel)
    (coarseLevelID : Int) (coarseMgr : Manager) (next : Option Manager) :
    Preserves I (SetupRequestsNext coarseLevelID coarseMgr next) := by
  unfold SetupRequestsNext
  split
  · exact (Unchanged.pure_unchanged _).preserves
  · apply Preserves.andThen Unchanged.getState_unchanged.preserves
    intro s
    apply Preserves.andThen
    · split
      · exact hA
      · exact (Unchanged.pure_unchanged _).preserves
    intro _
    apply Preserves.andThen (Unchanged.LevelsAt_unchanged _).preserves
    intro nextLevel
    apply Preserves.andThen (Unchanged.CheckLevel_unchanged _ _).preserves
    intro _
    apply Preserves.andThen (Preserves.Request_keeps hI _ _)
    intro _
    apply Preserves.andThen (Preserves.Request_keeps hI _ _)
    intro _
    apply Preserves.andThen (Preserves.Request_keeps hI _ _)
    intro _
    exact (Unchanged.pure_unchanged _).preserves

theorem Preserves.SetupBuildRAP_keeps (hI : HeapStable I) (P : Producers) (fine : Option Manager)
    (coarseMgr : Manager) (level : LevelPtr) :
    Preserves I (SetupBuildRAP P fine coarseMgr level) := by
  unfold SetupBuildRAP
  split
  · exact (Unchanged.pure_unchanged _).preserves
  · apply Preserves.andThen (Unchanged.deref_unchanged _).preserves
    intro l
    split
    · exact (Unchanged.raise_unchanged _).preserves
    · apply Preserves.andThen (Preserves.BuildRAP_keeps hI _ _ _ _ _)
      intro _
      exact Preserves.Release_keeps hI _ _

theorem Preserves.SetupThroughRAP_keeps (hI : HeapStable I) (hA : Preserves I AddNewLevel)
    (P : Producers) (coarseLevelID : Int) (fine coarse next : Option Manager) :
    Preserves I (SetupThroughRAP P coarseLevelID fine coarse next) := by
  unfold SetupThroughRAP
  apply Preserves.andThen (Unchanged.SetupInit_unchanged _ _ _ _).preserves
  intro cl
  apply Preserves.andThen (Preserves.SetupRequestsFinest_keeps hI _ _ _)
  intro _
  apply Preserves.andThen (Preserves.SetupRequestsNext_keeps hI hA _ _ _)
  intro nx
  apply Preserves.andThen (Preserves.SetupBuildRAP_keeps hI _ _ _ _)
  intro _
  exact (Unchanged.pure_unchanged _).preserves

theorem Unchanged.GetMatrix_unchanged (level : LevelPtr) (name : String) :
    Unchanged (GetMatrix level name) := by
  unfold GetMatrix
  apply Unchanged.andThen_unchanged (Unchanged.deref_unchanged _)
  intro l
  split
  · exact Unchanged.pure_unchanged _
  · exact Unchanged.raise_unchanged _
  · exact Unchanged.raise_unchanged _

theorem Unchanged.fetchAc_unchanged (level : LevelPtr) : Unchanged (fetchAc level) := by
  unfold fetchAc
  apply Unchanged.andThen_unchanged (Unchanged.deref_unchanged _)
  intro l
  split
  · exact Unchanged.GetMatrix_unchanged _ _
  · exact Unchanged.pure_unchanged _

theorem Preserves.SetupTruncate_keeps (hI : HeapStable I) (hP : Preserves I popBack)
    (coarseMgr : Manager) (next : Option (Manager × LevelPtr)) (Ac : Option Matrix) :
    Preserves I (SetupTruncate coarseMgr next Ac) := by
  unfold SetupTruncate
  apply Preserves.andThen Unchanged.getState_unchanged.preserves
  intro s
  split
  · split
    · apply Preserves.andThen (Preserves.Release_keeps hI _ _)
      intro _
      apply Preserves.andThen (Preserves.Release_keeps hI _ _)
      intro _
      apply Preserves.andThen (Preserves.Release_keeps hI _ _)
      intro _
      apply Preserves.andThen hP
      intro _
      exact (Unchanged.pure_unchanged _).preserves
    · exact (Unchanged.pure_unchanged _).preserves
  · exact (Unchanged.pure_unchanged _).preserves

theorem Preserves.SetupSmoother_keeps (hI : HeapStable I) (P : Producers) (coarseMgr : Manager)
    (level : LevelPtr) (isLastLevel : Bool) (Ac : Option Matrix) :
    Preserves I (SetupSmoother P coarseMgr level isLastLevel Ac) := by
  unfold SetupSmoother
  split
  · apply Preserves.andThen (Preserves.BuildSmoother_keeps hI _ _ _ _)
    intro _
    exact Preserves.Release_keeps hI _ _
  · split
    · apply Preserves.andThen (Preserves.BuildSmoother_keeps hI _ _ _ _)
      intro _
      exact Preserves.Release_keeps hI _ _
    · exact (Unchanged.pure_unchanged _).preserves

theorem Preserves.SetupFinish_keeps (hI : HeapStable I) (hP : Preserves I popBack)
    (P : Producers) (coarseMgr : Manager) (level : LevelPtr)
    (next : Option (Manager × LevelPtr)) : Preserves I (SetupFinish P coarseMgr level next) := by
  unfold SetupFinish
  apply Preserves.andThen (Unchanged.fetchAc_unchanged _).preserves
  intro Ac
  apply Preserves.andThen (Preserves.SetupTruncate_keeps hI hP _ _ _)
  intro b
  apply Preserves.andThen (Preserves.SetupSmoother_keeps hI _ _ _ _ _)
  intro _
  exact (Unchanged.pure_unchanged _).preserves

theorem Preserves.Setup_keeps (hI : HeapStable I) (hA : Preserves I AddNewLevel)
    (hP : Preserves I popBack) (P : Producers) (coarseLevelID : Int)
    (fine coarse next : Option Manager) :
    Preserves I (Setup P coarseLevelID fine coarse next) := by
  unfold Setup
  apply Preserves.andThen (Preserves.SetupThroughRAP_keeps hI hA _ _ _ _ _)
  intro r
  apply Preserves.andThen (Preserves.SetupFinish_keeps hI hP _ _ _ _)
  intro b
  apply Preserves.andThen (Unchanged.emit_unchanged _).preserves
  intro _
  exact (Unchanged.pure_unchanged _).preserves

end walk

theorem Preserves.inv_Setup (P : Producers) (coarseLevelID : Int)
    (fine coarse next : Option Manager) :
    Preserves Inv (Setup P coarseLevelID fine coarse next) :=
  Preserves.Setup_keeps HeapStable.inv_stable Preserves.AddNewLevel_keeps ⟨fun _ hs => hs.popBack⟩ _ _ _ _ _

theorem construct_run (s : HState) : construct s = ⟨.ok (), addNewLevelState s, []⟩ := by
  have key : Post construct s (fun o s1 t1 => o = .ok () ∧ s1 = addNewLevelState s ∧ t1 = []) := by
    unfold construct
    apply Post.bind_allocLevel
    apply Post.of_eq (AddLevel_run _ _)
    refine ⟨rfl, rfl, ?_⟩
    simp [Level.new]
  exact Res.eq_of key.elim.1 key.elim.2.1 key.elim.2.2

theorem constructA_run (A : Option Matrix) (s : HState) :
    constructA A s = ⟨.ok (), (addNewLevelState s).setHeap
      (Function.update (addNewLevelState s).heap s.nextFree
        (((addNewLevelState s).heap s.nextFree).Set "A" (.matrix A))), []⟩ := by
  have key : Post (constructA A) s (fun o s1 t1 => o = .ok () ∧
      s1 = (addNewLevelState s).setHeap (Function.update (addNewLevelState s).heap s.nextFree
        (((addNewLevelState s).heap s.nextFree).Set "A" (.matrix A))) ∧ t1 = []) := by
    unfold constructA
    apply Post.bind_allocLevel
    apply Post.bind_of_eq (AddLevel_run _ _)
    refine ⟨rfl, rfl, ?_⟩
    simp [Level.new, modifyLevel]
  exact Res.eq_of key.elim.1 key.elim.2.1 key.elim.2.2

theorem Inv.members (heap : LevelPtr → Level) (nextFree : LevelPtr) :
    Inv (members heap nextFree) := by
  refine ⟨?_, ?_⟩
  · intro i p hp
    simp [MueLu.Hierarchy.members] at hp
  · intro p hp
    simp [MueLu.Hierarchy.members] at hp

theorem Reachable.inv {P : Producers} {s : HState} (h : Reachable P s) : Inv s := by
  induction h with
  | construct heap nextFree =>
    rw [construct_run]
    exact (Inv.members heap nextFree).addNewLevelState
  | constructA heap nextFree A =>
    rw [constructA_run]
    refine (Inv.members heap nextFree).addNewLevelState.of_sameStruct _ rfl (le_refl _) ?_
    intro q _
    simp only [setHeap_heap]
    by_cases hq : q = (members heap nextFree).nextFree
    · rw [hq, Function.update_same]
      exact ⟨rfl, rfl⟩
    · rw [Function.update_noteq hq]
      exact ⟨rfl, rfl⟩
  | newLevel l _ ih => exact ih.alloc l
  | AddLevel L _ hL hlt ih =>
    rw [AddLevel_run]
    exact ih.addLevel_inv hL hlt
  | AddNewLevel _ ih => exact Preserves.AddNewLevel_keeps.run _ ih
  | Setup coarseLevelID fine coarse next b _ _ ih =>
    exact (Preserves.inv_Setup _ _ _ _ _).run _ ih

/-- C2: on every hierarchy reachable from a public constructor by creating level objects,
`AddLevel` of levels that are not in the chain, `AddNewLevel` and per-level `Setup` calls
that return (with producers that write artifact stores only), the level at position `i`
of the chain has `levelID = i` and, for `i > 0`, its `previousLevel` is the level at
position `i - 1`; hence `CheckLevel(Levels_[i], i)` does not raise.  Moreover, for a
position `i` of the chain and any level object, `CheckLevel` raises a `RuntimeError` as
soon as the level's ID differs from `i`, or `i > 0` and its `previousLevel` is not the
level at position `i - 1`. -/
theorem chain_wellFormed_invariant (P : Producers) (s : HState) (h : Reachable P s) :
    (∀ (i : Nat) (p : LevelPtr), s.Levels_[i]? = some p →
      (s.heap p).levelID = (i : Int) ∧
      (0 < i → (s.heap p).previousLevel = s.Levels_[i - 1]?) ∧
      (CheckLevel p (i : Int) s).out = .ok ()) ∧
    (∀ (i : Nat) (L : LevelPtr), i < s.Levels_.length →
      ((s.heap L).levelID ≠ (i : Int) ∨
        (0 < i ∧ (s.heap L).previousLevel ≠ s.Levels_[i - 1]?)) →
      ∃ msg, (CheckLevel L (i : Int) s).out = .error (.RuntimeError msg)) := by
  have hinv := h.inv
  refine ⟨?_, ?_⟩
  · intro i p hp
    refine ⟨(hinv.1 i p hp).1, (hinv.1 i p hp).2, ?_⟩
    rw [CheckLevel_run]
    show checkLevelOutcome s p (i : Int) = .ok ()
    unfold checkLevelOutcome
    rw [if_neg (not_not.mpr (hinv.1 i p hp).1)]
    rcases Nat.eq_zero_or_pos i with h0 | hpos
    · subst h0
      simp
    · have hi : i < s.Levels_.length := (List.getElem?_eq_some.mp hp).1
      have hne : ¬ ((i : Int) = 0) := by omega
      have hge : (0 : Int) ≤ (i : Int) - 1 := by omega
      have hidx : ((i : Int) - 1).toNat = i - 1 := by omega
      rw [if_neg hne, if_pos hge, hidx, List.getElem?_eq_getElem (by omega)]
      have hprev := (hinv.1 i p hp).2 hpos
      rw [List.getElem?_eq_getElem (by omega)] at hprev
      simp [hprev]
  · intro i L hi hbad
    rw [CheckLevel_run]
    show ∃ msg, checkLevelOutcome s L (i : Int) = .error (.RuntimeError msg)
    unfold checkLevelOutcome
    by_cases hid : (s.heap L).levelID ≠ (i : Int)
    · rw [if_pos hid]
      exact ⟨_, rfl⟩
    · rw [if_neg hid]
      rcases hbad with hb | ⟨hpos, hpar⟩
      · exact absurd hb hid
      · have hne : ¬ ((i : Int) = 0) := by omega
        have hge : (0 : Int) ≤ (i : Int) - 1 := by omega
        have hidx : ((i : Int) - 1).toNat = i - 1 := by omega
        rw [if_neg hne, if_pos hge, hidx, List.getElem?_eq_getElem (by omega)]
        rw [List.getElem?_eq_getElem (by omega)] at hpar
        simp only [if_pos hpar]
        exact ⟨_, rfl⟩

theorem SetupInit_run (coarseLevelID : Int) (fine coarse next : Option Manager) (s : HState) :
    SetupInit coarseLevelID fine coarse next s =
      ⟨setupInitOutcome s coarseLevelID fine coarse, s,
        [.enterSetup coarseLevelID fine coarse next]⟩ := by
  have key : Post (SetupInit coarseLevelID fine coarse next) s (fun o s1 t1 =>
      o = setupInitOutcome s coarseLevelID fine coarse ∧ s1 = s ∧
      t1 = [.enterSetup coarseLevelID fine coarse next]) := by
    unfold SetupInit setupInitOutcome
    apply Post.bind_emit
    cases coarse with
    | none => exact ⟨rfl, rfl, rfl⟩
    | some coarseMgr =>
      simp only []
      apply Post.bind_getState
      by_cases hlast : LastLevelID s < coarseLevelID
      · rw [if_pos hlast, if_pos hlast]
        exact ⟨rfl, rfl, rfl⟩
      · rw [if_neg hlast, if_neg hlast]
        apply Post.bind_LevelsAt
        · intro level h0 hl
          rw [if_pos h0, hl]
          simp only []
          rcases hc : checkLevelOutcome s level coarseLevelID with e | u
          · have hrun := CheckLevel_run level coarseLevelID s
            rw [hc] at hrun
            apply Post.bind_of_eq_error hrun
            exact ⟨rfl, rfl, rfl⟩
          · have hrun := CheckLevel_run level coarseLevelID s
            rw [hc] at hrun
            apply Post.bind_of_eq hrun
            cases fine with
            | none => exact ⟨rfl, rfl, rfl⟩
            | some fineMgr =>
              simp only []
              apply Post.bind_LevelsAt
              · intro q hq0 hq
                rw [if_pos hq0, hq]
                exact ⟨rfl, rfl, rfl⟩
              · intro hbad
                refine ⟨?_, rfl, rfl⟩
                rcases hbad with h | h
                · rw [if_neg (by omega)]
                · by_cases hi : 0 ≤ coarseLevelID - 1
                  · rw [if_pos hi, List.getElem?_eq_none_iff.mpr h]
                  · rw [if_neg hi]
        · intro hbad
          refine ⟨?_, rfl, rfl⟩
          rcases hbad with h | h
          · rw [if_neg (by omega)]
          · by_cases hi : 0 ≤ coarseLevelID
            · rw [if_pos hi, List.getElem?_eq_none_iff.mpr h]
            · rw [if_neg hi]
  exact Res.eq_of key.elim.1 key.elim.2.1 key.elim.2.2

theorem setupInitOutcome_ok {s : HState} {coarseLevelID : Int} {fine coarse : Option Manager}
    {coarseMgr : Manager} {level : LevelPtr}
    (h : setupInitOutcome s coarseLevelID fine coarse = .ok (coarseMgr, level)) :
    coarse = some coarseMgr ∧ 0 ≤ coarseLevelID ∧ s.Levels_[coarseLevelID.toNat]? = some level ∧
    checkLevelOutcome s level coarseLevelID = .ok () ∧ (fine ≠ none → 1 ≤ coarseLevelID) := by
  unfold setupInitOutcome at h
  split at h
  · exact absurd h (by simp)
  · next cm =>
    split at h
    · exact absurd h (by simp)
    · split at h
      · next h0 =>
        split at h
        · exact absurd h (by simp)
        · next lv hlv =>
          split at h
          · exact absurd h (by simp)
          · next u hu =>
            split at h
            · simp only [Except.ok.injEq, Prod.mk.injEq] at h
              rcases h with ⟨rfl, rfl⟩
              exact ⟨rfl, h0, hlv, hu, fun hne => absurd rfl hne⟩
            · split at h
              · next h1 =>
                split at h
                · exact absurd h (by simp)
                · simp only [Except.ok.injEq, Prod.mk.injEq] at h
                  rcases h with ⟨rfl, rfl⟩
                  exact ⟨rfl, h0, hlv, hu, fun _ => by omega⟩
              · exact absurd h (by simp)
      · exact absurd h (by simp)

theorem SetupRequestsNext_ok (coarseLevelID : Int) (coarseMgr : Manager)
    (next : Option Manager) (s : HState) :
    Post (SetupRequestsNext coarseLevelID coarseMgr next) s (fun o s1 _ =>
      ∀ nx, o = .ok nx → (nx = none ↔ next = none) ∧
        ∀ m nl, nx = some (m, nl) →
          next = some m ∧ s1.Levels_[(coarseLevelID + 1).toNat]? = some nl) := by
  unfold SetupRequestsNext
  cases next with
  | none =>
    simp only []
    apply Post.of_pure
    intro nx hnx
    simp only [Except.ok.injEq] at hnx
    subst hnx
    exact ⟨by simp, fun m nl h => absurd h (by simp)⟩
  | some nextMgr =>
    simp only []
    apply Post.bind_getState
    apply Post.bind (fun _ _ _ => True) trivial
    · intro _ s1 _ _
      apply Post.bind_LevelsAt
      · intro nl _ hnl
        apply Post.bind_unchanged (Unchanged.CheckLevel_unchanged _ _)
        · intro _ _
          have hJ := HeapStable.of_chain
            (fun (ch : List LevelPtr) => ch[(coarseLevelID + 1).toNat]? = some nl)
          apply Post.bind_preserves (Preserves.Request_keeps hJ _ _) hnl
          · intro _ s2 _ h2
            apply Post.bind_preserves (Preserves.Request_keeps hJ _ _) h2
            · intro _ s3 _ h3
              apply Post.bind_preserves (Preserves.Request_keeps hJ _ _) h3
              · intro _ s4 _ h4
                apply Post.of_pure
                intro nx hnx
                simp only [Except.ok.injEq] at hnx
                subst hnx
                refine ⟨by simp, fun m nl1 h => ?_⟩
                simp only [Option.some.injEq, Prod.mk.injEq] at h
                rcases h with ⟨rfl, rfl⟩
                exact ⟨rfl, h4⟩
              · intro e s4 _ _ nx hnx
                exact absurd hnx (by simp)
            · intro e s3 _ _ nx hnx
              exact absurd hnx (by simp)
          · intro e s2 _ _ nx hnx
            exact absurd hnx (by simp)
        · intro e _ nx hnx
          exact absurd hnx (by simp)
      · intro _ nx hnx
        exact absurd hnx (by simp)
    · intro e s1 _ _ nx hnx
      exact absurd hnx (by simp)

theorem SetupThroughRAP_ok {P : Producers} {coarseLevelID : Int}
    {fine coarse next : Option Manager} {s : HState} {coarseMgr : Manager} {level : LevelPtr}
    {nx : Option (Manager × LevelPtr)}
    (h : (SetupThroughRAP P coarseLevelID fine coarse next s).out = .ok (coarseMgr, level, nx)) :
    coarse = some coarseMgr ∧ 0 ≤ coarseLevelID ∧ s.Levels_[coarseLevelID.toNat]? = some level ∧
    checkLevelOutcome s level coarseLevelID = .ok () ∧ (fine ≠ none → 1 ≤ coarseLevelID) ∧
    (nx = none ↔ next = none) ∧
    ∀ m nl, nx = some (m, nl) → next = some m ∧
      (SetupThroughRAP P coarseLevelID fine coarse next s).st.Levels_[(coarseLevelID + 1).toNat]? =
        some nl := by
  have key : Post (SetupThroughRAP P coarseLevelID fine coarse next) s (fun o s1 _ =>
      ∀ cm lv nx, o = .ok (cm, lv, nx) →
        coarse = some cm ∧ 0 ≤ coarseLevelID ∧ s.Levels_[coarseLevelID.toNat]? = some lv ∧
        checkLevelOutcome s lv coarseLevelID = .ok () ∧ (fine ≠ none → 1 ≤ coarseLevelID) ∧
        (nx = none ↔ next = none) ∧
        ∀ m nl, nx = some (m, nl) → next = some m ∧
          s1.Levels_[(coarseLevelID + 1).toNat]? = some nl) := by
    unfold SetupThroughRAP
    rcases hinit : setupInitOutcome s coarseLevelID fine coarse with e | cl
    · have hrun := SetupInit_run coarseLevelID fine coarse next s
      rw [hinit] at hrun
      apply Post.bind_of_eq_error hrun
      intro cm lv nx hbad
      exact absurd hbad (by simp)
    · have hrun := SetupInit_run coarseLevelID fine coarse next s
      rw [hinit] at hrun
      apply Post.bind_of_eq hrun
      have hcl := setupInitOutcome_ok
        (show setupInitOutcome s coarseLevelID fine coarse = .ok (cl.1, cl.2) from hinit)
      apply Post.bind (fun _ _ _ => True) trivial
      · intro _ s2 _ _
        apply Post.bind _ (SetupRequestsNext_ok coarseLevelID cl.1 next s2)
        · intro nx1 s3 _ h3
          have hJ := HeapStable.of_chain
            (fun (ch : List LevelPtr) =>
              ∀ m nl, nx1 = some (m, nl) → ch[(coarseLevelID + 1).toNat]? = some nl)
          apply Post.bind_preserves (Preserves.SetupBuildRAP_keeps hJ P fine cl.1 cl.2)
            (fun m nl hmn => ((h3 nx1 rfl).2 m nl hmn).2)
          · intro _ s4 _ h4
            apply Post.of_pure
            intro cm lv nx hres
            simp only [Except.ok.injEq, Prod.mk.injEq] at hres
            rcases hres with ⟨rfl, rfl, rfl⟩
            exact ⟨hcl.1, hcl.2.1, hcl.2.2.1, hcl.2.2.2.1, hcl.2.2.2.2, (h3 nx1 rfl).1,
              fun m nl hmn => ⟨((h3 nx1 rfl).2 m nl hmn).1, h4 m nl hmn⟩⟩
          · intro e s4 _ _ cm lv nx hbad
            exact absurd hbad (by simp)
        · intro e s3 _ _ cm lv nx hbad
          exact absurd hbad (by simp)
      · intro e s2 _ _ cm lv nx hbad
        exact absurd hbad (by simp)
  exact key.elim coarseMgr level nx h

theorem Preserves.length_AddNewLevel (k : Nat) :
    Preserves (fun s => k ≤ s.Levels_.length) AddNewLevel := by
  constructor
  intro s hs
  rw [AddNewLevel_run]
  split
  · exact hs
  · show k ≤ (addNewLevelState s).Levels_.length
    simp only [addNewLevelState, addLevelState, setHeap_Levels, setLevels_Levels,
      setNextFree_Levels, List.length_append, List.length_singleton]
    exact Nat.le_succ_of_le hs

theorem SetupTruncate_chain (coarseMgr : Manager) (next : Option (Manager × LevelPtr))
    (Ac : Option Matrix) (s : HState) :
    Post (SetupTruncate coarseMgr next Ac) s (fun _ s1 _ =>
      s1.Levels_ = s.Levels_ ∨ (next ≠ none ∧ s1.Levels_ = s.Levels_.dropLast)) := by
  unfold SetupTruncate
  apply Post.bind_getState
  split
  · cases next with
    | none => exact Or.inl rfl
    | some nx =>
      simp only []
      have hJ := HeapStable.of_chain (fun (ch : List LevelPtr) => ch = s.Levels_)
      apply Post.bind_preserves (Preserves.Release_keeps hJ _ _) rfl
      · intro _ s1 _ h1
        apply Post.bind_preserves (Preserves.Release_keeps hJ _ _) h1
        · intro _ s2 _ h2
          apply Post.bind_preserves (Preserves.Release_keeps hJ _ _) h2
          · intro _ s3 _ h3
            apply Post.bind_popBack
            apply Post.of_pure
            right
            refine ⟨by simp, ?_⟩
            show s3.Levels_.dropLast = s.Levels_.dropLast
            rw [h3]
          · intro e s3 _ h3
            exact Or.inl h3
        · intro e s2 _ h2
          exact Or.inl h2
      · intro e s1 _ h1
        exact Or.inl h1
  · exact Or.inl rfl

theorem SetupFinish_chain (P : Producers) (coarseMgr : Manager) (level : LevelPtr)
    (next : Option (Manager × LevelPtr)) (s : HState) :
    Post (SetupFinish P coarseMgr level next) s (fun _ s1 _ =>
      s1.Levels_ = s.Levels_ ∨ (next ≠ none ∧ s1.Levels_ = s.Levels_.dropLast)) := by
  unfold SetupFinish
  apply Post.bind_unchanged (Unchanged.fetchAc_unchanged _)
  · intro Ac _
    apply Post.bind _ (SetupTruncate_chain coarseMgr next Ac s)
    · intro b s1 _ h1
      have hJ := HeapStable.of_chain (fun (ch : List LevelPtr) =>
        ch = s.Levels_ ∨ (next ≠ none ∧ ch = s.Levels_.dropLast))
      apply Post.bind_preserves (Preserves.SetupSmoother_keeps hJ P coarseMgr level b Ac) h1
      · intro _ s2 _ h2
        exact h2
      · intro e s2 _ h2
        exact h2
    · intro e s1 _ h1
      exact h1
  · intro e _
    exact Or.inl rfl

theorem Setup_chain_nonempty (P : Producers) (coarseLevelID : Int)
    (fine coarse next : Option Manager) (s : HState) (hs : 1 ≤ s.Levels_.length) :
    1 ≤ (Setup P coarseLevelID fine coarse next s).st.Levels_.length := by
  have key : Post (Setup P coarseLevelID fine coarse next) s
      (fun _ s1 _ => 1 ≤ s1.Levels_.length) := by
    unfold Setup
    have hlen : 1 ≤ (SetupThroughRAP P coarseLevelID fine coarse next s).st.Levels_.length :=
      (Preserves.SetupThroughRAP_keeps (HeapStable.of_chain (fun ch => 1 ≤ ch.length))
        (Preserves.length_AddNewLevel 1) P coarseLevelID fine coarse next).run s hs
    rcases hout : (SetupThroughRAP P coarseLevelID fine coarse next s).out with e | r
    · apply Post.bind_of_eq_error (Res.eq_of hout rfl rfl)
      exact hlen
    · apply Post.bind_of_eq (Res.eq_of hout rfl rfl)
      have hok := SetupThroughRAP_ok
        (show (SetupThroughRAP P coarseLevelID fine coarse next s).out =
          .ok (r.1, r.2.1, r.2.2) from hout)
      apply Post.bind _ (SetupFinish_chain P r.1 r.2.1 r.2.2 _)
      · intro b s2 _ h2
        apply Post.bind_emit
        apply Post.of_pure
        rcases h2 with h2 | ⟨hne, h2⟩
        · rw [h2]
          exact hlen
        · rw [h2, List.length_dropLast]
          rcases hnx : r.2.2 with _ | ⟨m, nl⟩
          · exact absurd hnx hne
          · have hidx := (hok.2.2.2.2.2.2 m nl hnx).2
            have hlt := (List.getElem?_eq_some.mp hidx).1
            have h0 := hok.2.1
            omega
      · intro e s2 _ h2
        rcases h2 with h2 | ⟨hne, h2⟩
        · rw [h2]
          exact hlen
        · rw [h2, List.length_dropLast]
          rcases hnx : r.2.2 with _ | ⟨m, nl⟩
          · exact absurd hnx hne
          · have hidx := (hok.2.2.2.2.2.2 m nl hnx).2
            have hlt := (List.getElem?_eq_some.mp hidx).1
            have h0 := hok.2.1
            omega
  exact key.elim

theorem Built.nonempty {P : Producers} {s : HState} (h : Built P s) : 1 ≤ s.Levels_.length := by
  induction h with
  | construct heap nextFree =>
    rw [construct_run]
    simp [addNewLevelState, addLevelState]
  | constructA heap nextFree A =>
    rw [constructA_run]
    simp [addNewLevelState, addLevelState]
  | newLevel l _ ih => exact ih
  | AddLevel L _ ih =>
    rw [AddLevel_run]
    simp [addLevelState]
  | AddNewLevel _ ih => exact (Preserves.length_AddNewLevel 1).run _ ih
  | Setup coarseLevelID fine coarse next _ ih =>
    exact Setup_chain_nonempty _ _ _ _ _ _ ih

/-- C3: the chain is never empty.  The default constructor leaves exactly one level, with
ID 0 and no parent; the constructor taking a matrix leaves exactly one level, with ID 0
and "A" set to the given matrix; and after any further creation of level objects and any
`AddLevel`, `AddNewLevel` and per-level `Setup` call (whether it returns or fails, the
truncation of a speculative level included) the chain still has a level, so that
`GetNumLevels() >= 1` and `LastLevelID() >= 0`. -/
theorem chain_never_empty (P : Producers) :
    (∀ (heap : LevelPtr → Level) (nextFree : LevelPtr),
      (construct (members heap nextFree)).st.Levels_ = [nextFree] ∧
      ((construct (members heap nextFree)).st.heap nextFree).levelID = 0 ∧
      ((construct (members heap nextFree)).st.heap nextFree).previousLevel = none) ∧
    (∀ (heap : LevelPtr → Level) (nextFree : LevelPtr) (A : Option Matrix),
      (constructA A (members heap nextFree)).st.Levels_ = [nextFree] ∧
      ((constructA A (members heap nextFree)).st.heap nextFree).levelID = 0 ∧
      (((constructA A (members heap nextFree)).st.heap nextFree).store ⟨"A", none⟩).value =
        some (.matrix A)) ∧
    (∀ s : HState, Built P s → 1 ≤ GetNumLevels s ∧ 0 ≤ LastLevelID s) := by
  refine ⟨?_, ?_, ?_⟩
  · intro heap nextFree
    rw [construct_run]
    simp [addNewLevelState, addLevelState, members]
  · intro heap nextFree A
    rw [constructA_run]
    simp [addNewLevelState, addLevelState, members, Level.Set]
  · intro s hs
    have h := hs.nonempty
    unfold GetNumLevels LastLevelID
    omega

section traces
variable {α β : Type} {φ : Event → Prop}

theorem TrAll.andThen_all {x : Act α} {f : α → Act β} (hx : TrAll φ x) (hf : ∀ a, TrAll φ (f a)) :
    TrAll φ (x >>= f) := by
  constructor
  intro s e he
  rcases ho : (x s).out with err | a
  · rw [bind_of_error ho] at he
    exact hx.run s e he
  · rw [bind_of_ok ho] at he
    rcases List.mem_append.mp he with h | h
    · exact hx.run s e h
    · exact (hf a).run _ e h

theorem TrAll.nil_all {x : Act α} (h : ∀ s, (x s).tr = []) : TrAll φ x := by
  constructor
  intro s e he
  rw [h s] at he
  exact absurd he (List.not_mem_nil e)

theorem TrAll.pure_all (a : α) : TrAll φ (pure a : Act α) := TrAll.nil_all (fun _ => rfl)

theorem TrAll.raise_all (e : Failure) : TrAll φ (raise e : Act α) := TrAll.nil_all (fun _ => rfl)

theorem TrAll.emit_all {e : Event} (h : φ e) : TrAll φ (emit e) := by
  constructor
  intro s e1 he
  have h1 : e1 = e := by simpa [emit] using he
  rw [h1]
  exact h

theorem TrAll.getState_all : TrAll φ getState := TrAll.nil_all (fun _ => rfl)

theorem TrAll.deref_all (p : LevelPtr) : TrAll φ (deref p) := TrAll.nil_all (fun _ => rfl)

theorem TrAll.modifyLevel_all (p : LevelPtr) (g : Level → Level) : TrAll φ (modifyLevel p g) :=
  TrAll.nil_all (fun _ => rfl)

theorem TrAll.popBack_all : TrAll φ popBack := TrAll.nil_all (fun _ => rfl)

theorem TrAll.installStores_all (r : Option String × (LevelPtr → Key → Slot)) :
    TrAll φ (installStores r) := TrAll.nil_all (fun _ => rfl)

theorem TrAll.LevelsAt_all (i : Int) : TrAll φ (LevelsAt i) := by
  apply TrAll.nil_all
  intro s
  rcases LevelsAt_run i s with ⟨p, _, _, hr⟩ | ⟨_, hr⟩ <;> rw [hr]

theorem TrAll.CheckLevel_all (level : LevelPtr) (levelID : Int) :
    TrAll φ (CheckLevel level levelID) := by
  apply TrAll.nil_all
  intro s
  rw [CheckLevel_run]

theorem TrAll.AddNewLevel_all : TrAll φ AddNewLevel := by
  apply TrAll.nil_all
  intro s
  rw [AddNewLevel_run]
  split <;> rfl

theorem TrAll.Request_all (hφ : Inner φ) (level : LevelPtr) (factory : TopFactory) :
    TrAll φ (Request level factory) := by
  unfold Request
  apply TrAll.andThen_all (TrAll.emit_all (hφ.request _ _))
  intro _
  exact TrAll.modifyLevel_all _ _

theorem TrAll.Release_all (hφ : Inner φ) (level : LevelPtr) (factory : TopFactory) :
    TrAll φ (Release level factory) := by
  unfold Release
  apply TrAll.andThen_all (TrAll.emit_all (hφ.release _ _))
  intro _
  exact TrAll.modifyLevel_all _ _

theorem TrAll.BuildRAP_all (hφ : Inner φ) (P : Producers) (f c : Manager)
    (fine coarse : LevelPtr) : TrAll φ (BuildRAP P f c fine coarse) := by
  unfold BuildRAP
  apply TrAll.andThen_all (TrAll.emit_all (hφ.buildRAP _ _ _))
  intro _
  apply TrAll.andThen_all TrAll.getState_all
  intro s
  exact TrAll.installStores_all _

theorem TrAll.BuildSmoother_all (P : Producers) (m : Manager) (v : String) (level : LevelPtr)
    (h : φ (.build (.TopSmootherFactory m v) level)) : TrAll φ (BuildSmoother P m v level) := by
  unfold BuildSmoother
  apply TrAll.andThen_all (TrAll.emit_all h)
  intro _
  apply TrAll.andThen_all TrAll.getState_all
  intro s
  exact TrAll.installStores_all _

theorem TrAll.SetupRequestsFinest_all (hφ : Inner φ) (fine : Option Manager)
    (coarseMgr : Manager) (level : LevelPtr) :
    TrAll φ (SetupRequestsFinest fine coarseMgr level) := by
  unfold SetupRequestsFinest
  split
  · apply TrAll.andThen_all (TrAll.Request_all hφ _ _)
    intro _
    exact TrAll.Request_all hφ _ _
  · exact TrAll.pure_all _

theorem TrAll.SetupRequestsNext_all (hφ : Inner φ) (coarseLevelID : Int) (coarseMgr : Manager)
    (next : Option Manager) : TrAll φ (SetupRequestsNext coarseLevelID coarseMgr next) := by
  unfold SetupRequestsNext
  split
  · exact TrAll.pure_all _
  · apply TrAll.andThen_all TrAll.getState_all
    intro s
    apply TrAll.andThen_all
    · split
      · exact TrAll.AddNewLevel_all
      · exact TrAll.pure_all _
    intro _
    apply TrAll.andThen_all (TrAll.LevelsAt_all _)
    intro nextLevel
    apply TrAll.andThen_all (TrAll.CheckLevel_all _ _)
    intro _
    apply TrAll.andThen_all (TrAll.Request_all hφ _ _)
    intro _
    apply TrAll.andThen_all (TrAll.Request_all hφ _ _)
    intro _
    apply TrAll.andThen_all (TrAll.Request_all hφ _ _)
    intro _
    exact TrAll.pure_all _

theorem TrAll.SetupBuildRAP_all (hφ : Inner φ) (P : Producers) (fine : Option Manager)
    (coarseMgr : Manager) (level : LevelPtr) :
    TrAll φ (SetupBuildRAP P fine coarseMgr level) := by
  unfold SetupBuildRAP
  split
  · exact TrAll.pure_all _
  · apply TrAll.andThen_all (TrAll.deref_all _)
    intro l
    split
    · exact TrAll.raise_all _
    · apply TrAll.andThen_all (TrAll.BuildRAP_all hφ _ _ _ _ _)
      intro _
      exact TrAll.Release_all hφ _ _

theorem TrAll.GetMatrix_all (level : LevelPtr) (name : String) :
    TrAll φ (GetMatrix level name) := by
  unfold GetMatrix
  apply TrAll.andThen_all (TrAll.deref_all _)
  intro l
  split
  · exact TrAll.pure_all _
  · exact TrAll.raise_all _
  · exact TrAll.raise_all _

theorem TrAll.fetchAc_all (level : LevelPtr) : TrAll φ (fetchAc level) := by
  unfold fetchAc
  apply TrAll.andThen_all (TrAll.deref_all _)
  intro l
  split
  · exact TrAll.GetMatrix_all _ _
  · exact TrAll.pure_all _

theorem TrAll.SetupTruncate_all (hφ : Inner φ) (coarseMgr : Manager)
    (next : Option (Manager × LevelPtr)) (Ac : Option Matrix) :
    TrAll φ (SetupTruncate coarseMgr next Ac) := by
  unfold SetupTruncate
  apply TrAll.andThen_all TrAll.getState_all
  intro s
  split
  · split
    · apply TrAll.andThen_all (TrAll.Release_all hφ _ _)
      intro _
      apply TrAll.andThen_all (TrAll.Release_all hφ _ _)
      intro _
      apply TrAll.andThen_all (TrAll.Release_all hφ _ _)
      intro _
      apply TrAll.andThen_all TrAll.popBack_all
      intro _
      exact TrAll.pure_all _
    · exact TrAll.pure_all _
  · exact TrAll.pure_all _

theorem TrAll.SetupSmoother_all (hφ : Inner φ)
    (hb : ∀ m v p, φ (.build (.TopSmootherFactory m v) p)) (P : Producers)
    (coarseMgr : Manager) (level : LevelPtr) (isLastLevel : Bool) (Ac : Option Matrix) :
    TrAll φ (SetupSmoother P coarseMgr level isLastLevel Ac) := by
  unfold SetupSmoother
  split
  · apply TrAll.andThen_all (TrAll.BuildSmoother_all _ _ _ _ (hb _ _ _))
    intro _
    exact TrAll.Release_all hφ _ _
  · split
    · apply TrAll.andThen_all (TrAll.BuildSmoother_all _ _ _ _ (hb _ _ _))
      intro _
      exact TrAll.Release_all hφ _ _
    · exact TrAll.pure_all _

theorem TrAll.SetupFinish_all (hφ : Inner φ)
    (hb : ∀ m v p, φ (.build (.TopSmootherFactory m v) p)) (P : Producers)
    (coarseMgr : Manager) (level : LevelPtr) (next : Option (Manager × LevelPtr)) :
    TrAll φ (SetupFinish P coarseMgr level next) := by
  unfold SetupFinish
  apply TrAll.andThen_all (TrAll.fetchAc_all _)
  intro Ac
  apply TrAll.andThen_all (TrAll.SetupTruncate_all hφ _ _ _)
  intro b
  apply TrAll.andThen_all (TrAll.SetupSmoother_all hφ hb _ _ _ _ _)
  intro _
  exact TrAll.pure_all _

end traces

theorem smootherBuilds_append (t1 t2 : List Event) :
    smootherBuilds (t1 ++ t2) = smootherBuilds t1 ++ smootherBuilds t2 := by
  simp [smootherBuilds]

theorem smootherBuilds_eq_nil {t : List Event} (h : ∀ e ∈ t, e.smootherBuild? = none) :
    smootherBuilds t = [] := List.filterMap_eq_nil_iff.mpr h

theorem Inner.noSmootherBuild : Inner (fun e => e.smootherBuild? = none) :=
  ⟨fun _ => rfl, fun _ _ => rfl, fun _ _ => rfl, fun _ _ _ => rfl⟩

theorem TrAll.SetupInit_all {φ : Event → Prop} (coarseLevelID : Int)
    (fine coarse next : Option Manager) (h : φ (.enterSetup coarseLevelID fine coarse next)) :
    TrAll φ (SetupInit coarseLevelID fine coarse next) := by
  constructor
  intro s e he
  rw [SetupInit_run] at he
  have h1 : e = .enterSetup coarseLevelID fine coarse next := by simpa using he
  rw [h1]
  exact h

theorem TrAll.SetupThroughRAP_all {φ : Event → Prop} (hφ : Inner φ) (P : Producers)
    (coarseLevelID : Int) (fine coarse next : Option Manager)
    (h : φ (.enterSetup coarseLevelID fine coarse next)) :
    TrAll φ (SetupThroughRAP P coarseLevelID fine coarse next) := by
  unfold SetupThroughRAP
  apply TrAll.andThen_all (TrAll.SetupInit_all _ _ _ _ h)
  intro cl
  apply TrAll.andThen_all (TrAll.SetupRequestsFinest_all hφ _ _ _)
  intro _
  apply TrAll.andThen_all (TrAll.SetupRequestsNext_all hφ _ _ _)
  intro nx
  apply TrAll.andThen_all (TrAll.SetupBuildRAP_all hφ _ _ _ _)
  intro _
  exact TrAll.pure_all _

theorem BuildSmoother_tr (P : Producers) (m : Manager) (v : String) (level : LevelPtr)
    (s : HState) : (BuildSmoother P m v level s).tr = [.build (.TopSmootherFactory m v) level] := by
  have key : Post (BuildSmoother P m v level) s
      (fun _ _ t => t = [.build (.TopSmootherFactory m v) level]) := by
    unfold BuildSmoother
    apply Post.bind_emit
    apply Post.bind_getState
    rfl
  exact key.elim

theorem SetupSmoother_builds (P : Producers) (coarseMgr : Manager) (level : LevelPtr)
    (isLastLevel : Bool) (Ac : Option Matrix) (s : HState) :
    smootherBuilds (SetupSmoother P coarseMgr level isLastLevel Ac s).tr =
      expectedSmootherBuilds coarseMgr level isLastLevel Ac := by
  have hrel : ∀ (v : String) (s1 : HState),
      smootherBuilds (Release level (.TopSmootherFactory coarseMgr v) s1).tr = [] := fun v s1 =>
    smootherBuilds_eq_nil ((TrAll.Release_all Inner.noSmootherBuild _ _).run s1)
  have hstep : ∀ v : String, Post
      (BuildSmoother P coarseMgr v level >>= fun _ =>
        Release level (.TopSmootherFactory coarseMgr v)) s
      (fun _ _ t => smootherBuilds t = [(coarseMgr, v, level)]) := by
    intro v
    apply Post.bind (fun _ _ t => t = [.build (.TopSmootherFactory coarseMgr v) level])
      (BuildSmoother_tr P coarseMgr v level s)
    · intro _ s1 t1 h1
      show smootherBuilds (t1 ++ _) = _
      rw [smootherBuilds_append, hrel, h1]
      rfl
    · intro e s1 t1 h1
      rw [h1]
      rfl
  have key : Post (SetupSmoother P coarseMgr level isLastLevel Ac) s
      (fun _ _ t => smootherBuilds t = expectedSmootherBuilds coarseMgr level isLastLevel Ac) := by
    unfold SetupSmoother expectedSmootherBuilds
    by_cases hb : (!isLastLevel) = true
    · rw [if_pos hb, if_pos hb]
      exact hstep "Smoother"
    · rw [if_neg hb, if_neg hb]
      by_cases hA : Ac.isSome = true
      · rw [if_pos hA, if_pos hA]
        exact hstep "CoarseSolver"
      · rw [if_neg hA, if_neg hA]
        rfl
  exact key.elim

theorem SetupTruncate_value (coarseMgr : Manager) (next : Option (Manager × LevelPtr))
    (Ac : Option Matrix) (s : HState) :
    Post (SetupTruncate coarseMgr next Ac) s (fun o _ _ =>
      ∀ b, o = .ok b → b = (coarseEnough Ac s.maxCoarseSize_ || next.isNone)) := by
  unfold SetupTruncate
  apply Post.bind_getState
  by_cases hc : coarseEnough Ac s.maxCoarseSize_ = true
  · rw [if_pos hc]
    cases next with
    | none =>
      simp only []
      apply Post.of_pure
      intro b hb
      simp only [Except.ok.injEq] at hb
      rw [← hb, hc]
      rfl
    | some nx =>
      simp only []
      apply Post.bind (fun _ _ _ => True) trivial
      · intro _ s1 _ _
        apply Post.bind (fun _ _ _ => True) trivial
        · intro _ s2 _ _
          apply Post.bind (fun _ _ _ => True) trivial
          · intro _ s3 _ _
            apply Post.bind_popBack
            apply Post.of_pure
            intro b hb
            simp only [Except.ok.injEq] at hb
            rw [← hb, hc]
            rfl
          · intro e s3 _ _ b hb
            exact absurd hb (by simp)
        · intro e s2 _ _ b hb
          exact absurd hb (by simp)
      · intro e s1 _ _ b hb
        exact absurd hb (by simp)
  · rw [if_neg hc]
    apply Post.of_pure
    intro b hb
    simp only [Except.ok.injEq] at hb
    rw [← hb]
    simp only [Bool.not_eq_true] at hc
    rw [hc]
    rfl

theorem SetupFinish_ok (P : Producers) (coarseMgr : Manager) (level : LevelPtr)
    (next : Option (Manager × LevelPtr)) (s : HState) :
    Post (SetupFinish P coarseMgr level next) s (fun o _ t =>
      ∀ b, o = .ok b → ∃ Ac, (fetchAc level s).out = .ok Ac ∧
        b = (coarseEnough Ac s.maxCoarseSize_ || next.isNone) ∧
        smootherBuilds t = expectedSmootherBuilds coarseMgr level b Ac) := by
  unfold SetupFinish
  rcases hAc : (fetchAc level s).out with e | Ac
  · apply Post.bind_of_eq_error (Res.eq_of hAc rfl rfl)
    intro b hb
    exact absurd hb (by simp)
  · apply Post.bind_of_eq (Res.eq_of hAc ((Unchanged.fetchAc_unchanged level).run s) rfl)
    have ht0 : smootherBuilds (fetchAc level s).tr = [] :=
      smootherBuilds_eq_nil ((TrAll.fetchAc_all level).run s)
    apply Post.bind (fun o s1 t1 => smootherBuilds t1 = [] ∧
      ∀ b, o = .ok b → b = (coarseEnough Ac s.maxCoarseSize_ || next.isNone))
    · exact ⟨smootherBuilds_eq_nil ((TrAll.SetupTruncate_all Inner.noSmootherBuild _ _ _).run s),
        SetupTruncate_value coarseMgr next Ac s⟩
    · intro b s1 t1 h1
      apply Post.bind (fun _ _ t2 =>
        smootherBuilds t2 = expectedSmootherBuilds coarseMgr level b Ac)
        (SetupSmoother_builds P coarseMgr level b Ac s1)
      · intro _ s2 t2 h2
        apply Post.of_pure
        intro b1 hb1
        simp only [Except.ok.injEq] at hb1
        subst hb1
        refine ⟨Ac, rfl, h1.2 b rfl, ?_⟩
        rw [smootherBuilds_append, smootherBuilds_append, smootherBuilds_append, ht0, h1.1, h2]
        simp [smootherBuilds]
      · intro e s2 t2 _ b1 hb1
        exact absurd hb1 (by simp)
    · intro e s1 t1 _ b hb
      exact absurd hb (by simp)

theorem Setup_ok {P : Producers} {coarseLevelID : Int} {fine coarse next : Option Manager}
    {s : HState} {b : Bool} (h : (Setup P coarseLevelID fine coarse next s).out = .ok b) :
    ∃ (cm : Manager) (p : LevelPtr) (nx : Option (Manager × LevelPtr)) (Ac : Option Matrix),
      (SetupThroughRAP P coarseLevelID fine coarse next s).out = .ok (cm, p, nx) ∧
      (fetchAc p (SetupThroughRAP P coarseLevelID fine coarse next s).st).out = .ok Ac ∧
      b = (coarseEnough Ac (SetupThroughRAP P coarseLevelID fine coarse next s).st.maxCoarseSize_
            || nx.isNone) ∧
      smootherBuilds (Setup P coarseLevelID fine coarse next s).tr =
        expectedSmootherBuilds cm p b Ac := by
  have key : Post (Setup P coarseLevelID fine coarse next) s (fun o _ t =>
      ∀ b, o = .ok b →
      ∃ (cm : Manager) (p : LevelPtr) (nx : Option (Manager × LevelPtr)) (Ac : Option Matrix),
        (SetupThroughRAP P coarseLevelID fine coarse next s).out = .ok (cm, p, nx) ∧
        (fetchAc p (SetupThroughRAP P coarseLevelID fine coarse next s).st).out = .ok Ac ∧
        b = (coarseEnough Ac
              (SetupThroughRAP P coarseLevelID fine coarse next s).st.maxCoarseSize_
              || nx.isNone) ∧
        smootherBuilds t = expectedSmootherBuilds cm p b Ac) := by
    unfold Setup
    rcases hout : (SetupThroughRAP P coarseLevelID fine coarse next s).out with e | r
    · apply Post.bind_of_eq_error (Res.eq_of hout rfl rfl)
      intro b hb
      exact absurd hb (by simp)
    · apply Post.bind_of_eq (Res.eq_of hout rfl rfl)
      have ht0 : smootherBuilds (SetupThroughRAP P coarseLevelID fine coarse next s).tr = [] :=
        smootherBuilds_eq_nil
          ((TrAll.SetupThroughRAP_all Inner.noSmootherBuild P coarseLevelID fine coarse next
            rfl).run s)
      apply Post.bind _ (SetupFinish_ok P r.1 r.2.1 r.2.2 _)
      · intro b1 s2 t2 h2
        apply Post.bind_emit
        apply Post.of_pure
        intro b hb
        simp only [Except.ok.injEq] at hb
        subst hb
        rcases h2 b1 rfl with ⟨Ac, hAc, hb1, hbuilds⟩
        refine ⟨r.1, r.2.1, r.2.2, Ac, rfl, hAc, hb1, ?_⟩
        rw [smootherBuilds_append, smootherBuilds_append, ht0, hbuilds]
        simp [smootherBuilds, Event.smootherBuild?]
      · intro e s2 t2 _ b hb
        exact absurd hb (by simp)
  exact key.elim b h

theorem AddNewLevel_maxCoarseSize (k : Nat) :
    Preserves (fun s => s.maxCoarseSize_ = k) AddNewLevel := by
  constructor
  intro s hs
  rw [AddNewLevel_run]
  split
  · exact hs
  · exact hs

theorem SetupThroughRAP_maxCoarseSize (P : Producers) (coarseLevelID : Int)
    (fine coarse next : Option Manager) (s : HState) :
    (SetupThroughRAP P coarseLevelID fine coarse next s).st.maxCoarseSize_ = s.maxCoarseSize_ :=
  (Preserves.SetupThroughRAP_keeps (HeapStable.of_maxCoarseSize (fun k => k = s.maxCoarseSize_))
    (AddNewLevel_maxCoarseSize s.maxCoarseSize_) P coarseLevelID fine coarse next).run s rfl

theorem fetchAc_ok {level : LevelPtr} {s : HState} {Ac : Option Matrix}
    (h : (fetchAc level s).out = .ok Ac) :
    (Ac = none ↔ ((s.heap level).IsAvailable "A" = false ∨
      ((s.heap level).store ⟨"A", none⟩).value = some (.matrix none))) := by
  have key : Post (fetchAc level) s (fun o _ _ => ∀ Ac, o = .ok Ac →
      (Ac = none ↔ ((s.heap level).IsAvailable "A" = false ∨
        ((s.heap level).store ⟨"A", none⟩).value = some (.matrix none)))) := by
    unfold fetchAc
    apply Post.bind_deref
    by_cases hav : (s.heap level).IsAvailable "A" = true
    · rw [if_pos hav]
      unfold GetMatrix
      apply Post.bind_deref
      rcases hv : ((s.heap level).store ⟨"A", none⟩).value with _ | v
      · simp only []
        intro Ac hbad
        exact absurd hbad (by simp [raise])
      · cases v with
        | matrix m =>
          simp only []
          apply Post.of_pure
          intro Ac hAc
          simp only [Except.ok.injEq] at hAc
          subst hAc
          simp [hav]
        | smoother k =>
          simp only []
          intro Ac hbad
          exact absurd hbad (by simp [raise])
    · rw [if_neg hav]
      apply Post.of_pure
      intro Ac hAc
      simp only [Except.ok.injEq] at hAc
      subst hAc
      simp only [Bool.not_eq_true] at hav
      simp [hav]
  exact key.elim Ac h

theorem Setup_of_init_error {P : Producers} {coarseLevelID : Int}
    {fine coarse next : Option Manager} {s : HState} {e : Failure}
    (h : setupInitOutcome s coarseLevelID fine coarse = .error e) :
    Setup P coarseLevelID fine coarse next s =
      ⟨.error e, s, [.enterSetup coarseLevelID fine coarse next]⟩ := by
  have hinit := SetupInit_run coarseLevelID fine coarse next s
  rw [h] at hinit
  have h1 : Post (SetupThroughRAP P coarseLevelID fine coarse next) s (fun o s1 t =>
      o = .error e ∧ s1 = s ∧ t = [.enterSetup coarseLevelID fine coarse next]) := by
    unfold SetupThroughRAP
    apply Post.bind_of_eq_error hinit
    exact ⟨rfl, rfl, rfl⟩
  have h2 : Post (Setup P coarseLevelID fine coarse next) s (fun o s1 t =>
      o = .error e ∧ s1 = s ∧ t = [.enterSetup coarseLevelID fine coarse next]) := by
    unfold Setup
    apply Post.bind_of_eq_error (Res.eq_of h1.elim.1 h1.elim.2.1 h1.elim.2.2)
    exact ⟨rfl, rfl, rfl⟩
  exact Res.eq_of h2.elim.1 h2.elim.2.1 h2.elim.2.2

/-- The failures of the per-level `Setup` that its checks do produce: with a null coarse
manager, with `coarseLevelID > LastLevelID()`, and with a level at `coarseLevelID` that
fails `CheckLevel`, the call raises a `RuntimeError` and leaves the whole state as it was
(chain, levels and request counts); its trace holds the entry of the call only, so no
request, build or `AddNewLevel` happened. -/
theorem Setup_fails_at_checks (P : Producers) (coarseLevelID : Int)
    (fine coarse next : Option Manager) (s : HState) :
    (coarse = none → ∃ msg, Setup P coarseLevelID fine coarse next s =
      ⟨.error (.RuntimeError msg), s, [.enterSetup coarseLevelID fine coarse next]⟩) ∧
    (coarse ≠ none → LastLevelID s < coarseLevelID →
      ∃ msg, Setup P coarseLevelID fine coarse next s =
        ⟨.error (.RuntimeError msg), s, [.enterSetup coarseLevelID fine coarse next]⟩) ∧
    (∀ p e, coarse ≠ none → 0 ≤ coarseLevelID → s.Levels_[coarseLevelID.toNat]? = some p →
      (CheckLevel p coarseLevelID s).out = .error e →
      Setup P coarseLevelID fine coarse next s =
        ⟨.error e, s, [.enterSetup coarseLevelID fine coarse next]⟩) := by
  refine ⟨?_, ?_, ?_⟩
  · intro hc
    subst hc
    exact ⟨_, Setup_of_init_error rfl⟩
  · intro hc hlast
    rcases coarse with _ | cm
    · exact absurd rfl hc
    · have hout : setupInitOutcome s coarseLevelID fine (some cm) = .error (.RuntimeError
          "MueLu::Hierarchy:Setup(): level (specified by coarseLevelID argument) must be build before calling this function.") := by
        unfold setupInitOutcome
        simp only []
        rw [if_pos hlast]
      exact ⟨_, Setup_of_init_error hout⟩
  · intro p e hc h0 hp hcheck
    rcases coarse with _ | cm
    · exact absurd rfl hc
    · apply Setup_of_init_error
      rw [CheckLevel_run] at hcheck
      simp only at hcheck
      have hlast : ¬ LastLevelID s < coarseLevelID := by
        have hlt := (List.getElem?_eq_some.mp hp).1
        unfold LastLevelID
        omega
      unfold setupInitOutcome
      simp only []
      rw [if_neg hlast, if_pos h0, hp]
      simp only []
      rw [hcheck]

/-- C4 (code defect): the per-level `Setup` has no check for a negative `coarseLevelID`.
For `coarseLevelID = -1`, any state and any managers with a non-null coarse manager, the
only range test `LastLevelID() < coarseLevelID` is false, so no `RuntimeError` is raised;
the call goes on to evaluate `Levels_[-1]`, outside the array.  The sibling `GetLevel`
does reject a negative ID with a `RuntimeError`. -/
theorem Setup_negative_levelID_unchecked (P : Producers) (fine next : Option Manager)
    (coarseMgr : Manager) (s : HState) :
    Setup P (-1) fine (some coarseMgr) next s =
      ⟨.error .outOfBounds, s, [.enterSetup (-1) fine (some coarseMgr) next]⟩ ∧
    Failure.isRuntimeError .outOfBounds = false ∧
    ¬ (LastLevelID s < -1) ∧
    (∃ msg, (GetLevel (-1) s).out = .error (.RuntimeError msg)) := by
  have hlast : ¬ (LastLevelID s < -1) := by
    unfold LastLevelID
    omega
  refine ⟨?_, rfl, hlast, ?_⟩
  · apply Setup_of_init_error
    unfold setupInitOutcome
    simp only []
    rw [if_neg hlast, if_neg (by omega)]
  · have key : Post (GetLevel (-1)) s (fun o _ _ => ∃ msg, o = .error (.RuntimeError msg)) := by
      unfold GetLevel
      apply Post.bind_getState
      rw [if_pos (Or.inl (by omega))]
      exact ⟨_, rfl⟩
    exact key.elim

/-- Witness for C2: the hierarchy left by a per-level `Setup` call on the one-level
hierarchy over a 1000-row operator is reachable, and `CheckLevel` accepts its level 1. -/
theorem chain_wellFormed_invariant_witness :
    Reachable halving (Setup halving 0 none (some 7) (some 7) bigHierarchy).st ∧
    (CheckLevel 1 ((1 : Nat) : Int)
      (Setup halving 0 none (some 7) (some 7) bigHierarchy).st).out = .ok () :=
  ⟨Reachable.Setup 0 none (some 7) (some 7) false
      (Reachable.constructA emptyHeap 0 (some bigMatrix)) (by decide!),
   ((chain_wellFormed_invariant halving _
      (Reachable.Setup 0 none (some 7) (some 7) false
        (Reachable.constructA emptyHeap 0 (some bigMatrix)) (by decide!))).1 1 1
      (by decide!)).2.2⟩

/-- Witness for C3: the hierarchy left by a per-level `Setup` call that truncates the
speculative level still has a level. -/
theorem chain_never_empty_witness :
    Built halving (Setup halving 0 none (some 7) (some 7) smallHierarchy).st ∧
    1 ≤ GetNumLevels (Setup halving 0 none (some 7) (some 7) smallHierarchy).st :=
  ⟨Built.Setup 0 none (some 7) (some 7) (Built.constructA emptyHeap 0 (some smallMatrix)),
   ((chain_never_empty halving).2.2 _
      (Built.Setup 0 none (some 7) (some 7)
        (Built.constructA emptyHeap 0 (some smallMatrix)))).1⟩

/-- C5: when the per-level `Setup` returns, the flag it returns is true exactly when the
next manager is absent, or the operator "A" fetched on the current level after the RAP
step is unavailable or null, or its global row count is at most `maxCoarseSize_`.  In
particular a row count equal to `maxCoarseSize_` makes the level the last one, and a row
count of `maxCoarseSize_ + 1` with a next manager present does not.  Here `Ac` is the
operator fetched in the state `SetupThroughRAP` leaves, `none` standing for unavailable
or null. -/
theorem Setup_isLastLevel_iff (P : Producers) (coarseLevelID : Int)
    (fine coarse next : Option Manager) (s : HState) (b : Bool)
    (h : (Setup P coarseLevelID fine coarse next s).out = .ok b) :
    ∃ (p : LevelPtr) (Ac : Option Matrix),
      0 ≤ coarseLevelID ∧ s.Levels_[coarseLevelID.toNat]? = some p ∧
      (fetchAc p (SetupThroughRAP P coarseLevelID fine coarse next s).st).out = .ok Ac ∧
      (Ac = none ↔
        (((SetupThroughRAP P coarseLevelID fine coarse next s).st.heap p).IsAvailable "A" = false ∨
         (((SetupThroughRAP P coarseLevelID fine coarse next s).st.heap p).store
            ⟨"A", none⟩).value = some (.matrix none))) ∧
      (b = true ↔ (next = none ∨ Ac = none ∨
        ∃ A, Ac = some A ∧ A.rowMapGlobalNumElements ≤ s.maxCoarseSize_)) ∧
      (∀ A, Ac = some A → A.rowMapGlobalNumElements = s.maxCoarseSize_ → b = true) ∧
      (∀ A, Ac = some A → A.rowMapGlobalNumElements = s.maxCoarseSize_ + 1 → next ≠ none →
        b = false) := by
  rcases Setup_ok h with ⟨cm, p, nx, Ac, hthr, hAc, hb, _⟩
  have hok := SetupThroughRAP_ok hthr
  rw [SetupThroughRAP_maxCoarseSize] at hb
  have hnx : nx.isNone = true ↔ next = none := by
    rw [← hok.2.2.2.2.2.1]
    cases nx <;> simp
  have hiff : b = true ↔ (next = none ∨ Ac = none ∨
      ∃ A, Ac = some A ∧ A.rowMapGlobalNumElements ≤ s.maxCoarseSize_) := by
    rw [hb, Bool.or_eq_true, hnx]
    cases Ac with
    | none => simp [coarseEnough]
    | some A =>
      simp only [coarseEnough, decide_eq_true_eq, Option.some.injEq, exists_eq_left',
        false_or]
      tauto
  refine ⟨p, Ac, hok.2.1, hok.2.2.1, hAc, fetchAc_ok hAc, hiff, ?_, ?_⟩
  · intro A hA hrows
    exact hiff.mpr (Or.inr (Or.inr ⟨A, hA, le_of_eq hrows⟩))
  · intro A hA hrows hnext
    rcases hbv : b with _ | _
    · rfl
    · rcases hiff.mp hbv with h1 | h1 | ⟨A1, hA1, hle⟩
      · exact absurd h1 hnext
      · rw [hA] at h1
        exact absurd h1 (by simp)
      · rw [hA] at hA1
        simp only [Option.some.injEq] at hA1
        subst hA1
        omega

/-- Witness for C5: the per-level `Setup` on the one-level hierarchy over a 10-row
operator returns true. -/
theorem Setup_isLastLevel_iff_witness :
    (Setup halving 0 none (some 7) (some 7) smallHierarchy).out = .ok true ∧
    ∃ (p : LevelPtr) (Ac : Option Matrix),
      smallHierarchy.Levels_[(0 : Int).toNat]? = some p ∧
      (fetchAc p (SetupThroughRAP halving 0 none (some 7) (some 7) smallHierarchy).st).out =
        .ok Ac :=
  ⟨by decide!,
   let ⟨p, Ac, _, h1, h2, _⟩ :=
     Setup_isLastLevel_iff halving 0 none (some 7) (some 7) smallHierarchy true (by decide!)
   ⟨p, Ac, h1, h2⟩⟩

/-- C6: when the per-level `Setup` returns, the smoother-producer builds it made are:
the "Smoother" build on the current level, once, when it returns false; the
"CoarseSolver" build on the current level, once, when it returns true and the operator
fetched after the RAP step is non-null; none at all when it returns true with that
operator unavailable or null.  So the two are never both built. -/
theorem Setup_builds_smoother_or_coarse_solver (P : Producers) (coarseLevelID : Int)
    (fine coarse next : Option Manager) (s : HState) (b : Bool)
    (h : (Setup P coarseLevelID fine coarse next s).out = .ok b) :
    ∃ (cm : Manager) (p : LevelPtr) (Ac : Option Matrix),
      coarse = some cm ∧ 0 ≤ coarseLevelID ∧ s.Levels_[coarseLevelID.toNat]? = some p ∧
      (fetchAc p (SetupThroughRAP P coarseLevelID fine coarse next s).st).out = .ok Ac ∧
      smootherBuilds (Setup P coarseLevelID fine coarse next s).tr =
        (if b = false then [(cm, "Smoother", p)]
         else if Ac ≠ none then [(cm, "CoarseSolver", p)] else []) ∧
      ((cm, "Smoother", p) ∈ smootherBuilds (Setup P coarseLevelID fine coarse next s).tr ↔
        b = false) ∧
      ((cm, "CoarseSolver", p) ∈ smootherBuilds (Setup P coarseLevelID fine coarse next s).tr ↔
        (b = true ∧ Ac ≠ none)) ∧
      (smootherBuilds (Setup P coarseLevelID fine coarse next s).tr).length ≤ 1 := by
  rcases Setup_ok h with ⟨cm, p, nx, Ac, hthr, hAc, _, hbuilds⟩
  have hok := SetupThroughRAP_ok hthr
  refine ⟨cm, p, Ac, hok.1, hok.2.1, hok.2.2.1, hAc, ?_, ?_, ?_, ?_⟩ <;> rw [hbuilds] <;>
    cases b <;> cases Ac <;> simp [expectedSmootherBuilds]

/-- Witness for C6: on the one-level hierarchy over a 1000-row operator the call returns
false and builds the smoother. -/
theorem Setup_builds_smoother_or_coarse_solver_witness :
    (Setup halving 0 none (some 7) (some 7) bigHierarchy).out = .ok false ∧
    ∃ (cm : Manager) (p : LevelPtr),
      smootherBuilds (Setup halving 0 none (some 7) (some 7) bigHierarchy).tr =
        [(cm, "Smoother", p)] :=
  ⟨by decide!,
   let ⟨cm, p, _, _, _, _, _, h4, _⟩ :=
     Setup_builds_smoother_or_coarse_solver halving 0 none (some 7) (some 7) bigHierarchy false
       (by decide!)
   ⟨cm, p, by simpa using h4⟩⟩

/-- C7 (code defect): on a chain of three levels, the per-level `Setup` of level 0 with a
next manager and a 10-row operator (below `maxCoarseSize_ = 50`) places and releases its
three requests on level 1, the next level, builds nothing on level 1 or 2, and then
`pop_back` removes level 2, the last level: the next level stays in the chain, which
keeps two levels instead of `coarseLevelID + 1 = 1`.  The outer `Setup` on the same
hierarchy then fails its own chain-length check. -/
theorem Setup_truncation_removes_last_level :
    threeLevelHierarchy.Levels_ = [0, 1, 2] ∧
    (SetupLevels halving 7 0 2 threeLevelHierarchy).out =
      .error (.RuntimeError "MueLu::Hierarchy::Setup(): number of level") ∧
    (Setup halving 0 none (some 7) (some 7) threeLevelHierarchy).out = .ok true ∧
    (Setup halving 0 none (some 7) (some 7) threeLevelHierarchy).st.Levels_ = [0, 1] ∧
    (Setup halving 0 none (some 7) (some 7) threeLevelHierarchy).tr =
      [.enterSetup 0 none (some 7) (some 7),
       .request 0 (.TopSmootherFactory 7 "Smoother"),
       .request 0 (.TopSmootherFactory 7 "CoarseSolver"),
       .request 1 (.TopRAPFactory 7 7),
       .request 1 (.TopSmootherFactory 7 "Smoother"),
       .request 1 (.TopSmootherFactory 7 "CoarseSolver"),
       .release 1 (.TopRAPFactory 7 7),
       .release 1 (.TopSmootherFactory 7 "Smoother"),
       .release 1 (.TopSmootherFactory 7 "CoarseSolver"),
       .build (.TopSmootherFactory 7 "CoarseSolver") 0,
       .release 0 (.TopSmootherFactory 7 "CoarseSolver"),
       .returnSetup 0 true] := by
  decide!

/-- C8: the outer `Setup` raises a `RuntimeError` when `numDesiredLevels < 2`, whatever
the state (so also when "A" is present: this check comes first), and when
`numDesiredLevels >= 2` and "A" is not available on the level at `startLevel`.  In both
cases the state is left as it was and the trace is empty: no per-level `Setup` call was
made and the chain is unchanged. -/
theorem SetupLevels_precondition_failures (P : Producers) (manager : Manager)
    (startLevel numDesiredLevels : Int) (s : HState) :
    (numDesiredLevels < 2 →
      SetupLevels P manager startLevel numDesiredLevels s =
        ⟨.error (.RuntimeError "MueLu::Hierarchy::Setup(): numDesiredLevels < 2"), s, []⟩) ∧
    (∀ p : LevelPtr, 2 ≤ numDesiredLevels → 0 ≤ startLevel →
      s.Levels_[startLevel.toNat]? = some p → (s.heap p).IsAvailable "A" = false →
      SetupLevels P manager startLevel numDesiredLevels s =
        ⟨.error (.RuntimeError
          "MueLu::Hierarchy::Setup(): no fine level matrix A! Set fine level matrix A using Level.Set()"),
          s, []⟩) := by
  refine ⟨?_, ?_⟩
  · intro hN
    unfold SetupLevels
    rw [if_pos hN]
    rfl
  · intro p hN h0 hp hA
    have key : Post (SetupLevels P manager startLevel numDesiredLevels) s (fun o s1 t =>
        o = .error (.RuntimeError
          "MueLu::Hierarchy::Setup(): no fine level matrix A! Set fine level matrix A using Level.Set()")
        ∧ s1 = s ∧ t = []) := by
      unfold SetupLevels
      rw [if_neg (by omega)]
      apply Post.bind_LevelsAt
      · intro q _ hq
        rw [hp] at hq
        simp only [Option.some.injEq] at hq
        subst hq
        apply Post.bind_deref
        rw [hA]
        exact ⟨rfl, rfl, rfl⟩
      · intro hbad
        exfalso
        have hlt := (List.getElem?_eq_some.mp hp).1
        omega
    exact Res.eq_of key.elim.1 key.elim.2.1 key.elim.2.2

/-- Witness for C8: `numDesiredLevels = 1` on a hierarchy that holds "A", and
`numDesiredLevels = 2` on the hierarchy of the default constructor, which holds no "A". -/
theorem SetupLevels_precondition_failures_witness :
    ((1 : Int) < 2 ∧
      (SetupLevels halving 7 0 1 bigHierarchy).out =
        .error (.RuntimeError "MueLu::Hierarchy::Setup(): numDesiredLevels < 2")) ∧
    (((bareHierarchy.heap 0).IsAvailable "A" = false) ∧
      (SetupLevels halving 7 0 2 bareHierarchy).tr = []) :=
  ⟨⟨by decide, by
      rw [(SetupLevels_precondition_failures halving 7 0 1 bigHierarchy).1 (by decide)]⟩,
   ⟨by decide!, by
      rw [(SetupLevels_precondition_failures halving 7 0 2 bareHierarchy).2 0 (by decide)
        (by decide) (by decide!) (by decide!)]⟩⟩

theorem callsOf_append (t1 t2 : List Event) : callsOf (t1 ++ t2) = callsOf t1 ++ callsOf t2 := by
  simp [callsOf]

theorem returnsOf_append (t1 t2 : List Event) :
    returnsOf (t1 ++ t2) = returnsOf t1 ++ returnsOf t2 := by
  simp [returnsOf]

theorem callsOf_eq_nil {t : List Event} (h : ∀ e ∈ t, e.unmarked) : callsOf t = [] :=
  List.filterMap_eq_nil_iff.mpr (fun e he => (h e he).1)

theorem returnsOf_eq_nil {t : List Event} (h : ∀ e ∈ t, e.unmarked) : returnsOf t = [] :=
  List.filterMap_eq_nil_iff.mpr (fun e he => (h e he).2)

theorem Inner.unmarked : Inner Event.unmarked :=
  ⟨fun _ => ⟨rfl, rfl⟩, fun _ _ => ⟨rfl, rfl⟩, fun _ _ => ⟨rfl, rfl⟩, fun _ _ _ => ⟨rfl, rfl⟩⟩

theorem SetupThroughRAP_marks (P : Producers) (coarseLevelID : Int)
    (fine coarse next : Option Manager) (s : HState) :
    callsOf (SetupThroughRAP P coarseLevelID fine coarse next s).tr = [coarseLevelID] ∧
    returnsOf (SetupThroughRAP P coarseLevelID fine coarse next s).tr = [] := by
  have key : Post (SetupThroughRAP P coarseLevelID fine coarse next) s (fun _ _ t =>
      callsOf t = [coarseLevelID] ∧ returnsOf t = []) := by
    unfold SetupThroughRAP
    apply Post.bind (fun _ _ t => t = [.enterSetup coarseLevelID fine coarse next])
    · show (SetupInit coarseLevelID fine coarse next s).tr = _
      rw [SetupInit_run]
    · intro cl s1 t1 h1
      have hrest : TrAll Event.unmarked (do
          SetupRequestsFinest fine cl.1 cl.2
          let next1 ← SetupRequestsNext coarseLevelID cl.1 next
          SetupBuildRAP P fine cl.1 cl.2
          pure (cl.1, cl.2, next1) : Act (Manager × LevelPtr × Option (Manager × LevelPtr))) := by
        apply TrAll.andThen_all (TrAll.SetupRequestsFinest_all Inner.unmarked _ _ _)
        intro _
        apply TrAll.andThen_all (TrAll.SetupRequestsNext_all Inner.unmarked _ _ _)
        intro nx
        apply TrAll.andThen_all (TrAll.SetupBuildRAP_all Inner.unmarked _ _ _ _)
        intro _
        exact TrAll.pure_all _
      have h2 := hrest.run s1
      show callsOf (t1 ++ _) = _ ∧ returnsOf (t1 ++ _) = _
      rw [callsOf_append, returnsOf_append, callsOf_eq_nil h2, returnsOf_eq_nil h2, h1]
      exact ⟨rfl, rfl⟩
    · intro e s1 t1 h1
      rw [h1]
      exact ⟨rfl, rfl⟩
  exact key.elim

theorem Setup_marks (P : Producers) (coarseLevelID : Int)
    (fine coarse next : Option Manager) (s : HState) :
    Post (Setup P coarseLevelID fine coarse next) s (fun o _ t =>
      callsOf t = [coarseLevelID] ∧
      returnsOf t = (match o with
       | .ok b => [(coarseLevelID, b)]
       | .error _ => [])) := by
  unfold Setup
  apply Post.bind (fun _ _ t => callsOf t = [coarseLevelID] ∧ returnsOf t = [])
    (SetupThroughRAP_marks P coarseLevelID fine coarse next s)
  · intro r s1 t1 h1
    have hfin := (TrAll.SetupFinish_all Inner.unmarked (fun _ _ _ => ⟨rfl, rfl⟩)
      P r.1 r.2.1 r.2.2).run s1
    apply Post.bind (fun _ _ t => callsOf t = [] ∧ returnsOf t = [])
      ⟨callsOf_eq_nil hfin, returnsOf_eq_nil hfin⟩
    · intro b s2 t2 h2
      apply Post.bind_emit
      apply Post.of_pure
      simp only [callsOf_append, returnsOf_append, h1.1, h1.2, h2.1, h2.2]
      exact ⟨rfl, rfl⟩
    · intro e s2 t2 h2
      simp only [callsOf_append, returnsOf_append, h1.1, h1.2, h2.1, h2.2]
      exact ⟨rfl, rfl⟩
  · intro e s1 t1 h1
    exact h1

theorem Setup_without_next_returns_true {P : Producers} {coarseLevelID : Int}
    {fine coarse : Option Manager} {s : HState} {b : Bool}
    (h : (Setup P coarseLevelID fine coarse none s).out = .ok b) : b = true := by
  rcases Setup_ok h with ⟨cm, p, nx, Ac, hthr, _, hb, _⟩
  have hnx : nx = none := (SetupThroughRAP_ok hthr).2.2.2.2.2.1.mpr rfl
  rw [hb, hnx]
  simp

theorem idsFrom_succ (i0 : Int) (n : Nat) : idsFrom i0 (n + 1) = i0 :: idsFrom (i0 + 1) n := by
  unfold idsFrom
  rw [List.range_succ_eq_map]
  simp only [List.map_cons, List.map_map, Nat.cast_zero, add_zero, List.cons.injEq, true_and]
  apply List.map_congr_left
  intro j _
  show i0 + ((j + 1 : Nat) : Int) = i0 + 1 + (j : Int)
  omega

theorem falseReturns_succ (i0 : Int) (n : Nat) :
    falseReturns i0 (n + 1) = (i0, false) :: falseReturns (i0 + 1) n := by
  unfold falseReturns
  rw [List.range_succ_eq_map]
  simp only [List.map_cons, List.map_map, Nat.cast_zero, add_zero, List.cons.injEq, true_and]
  apply List.map_congr_left
  intro j _
  show (i0 + ((j + 1 : Nat) : Int), false) = (i0 + 1 + (j : Int), false)
  have : i0 + ((j + 1 : Nat) : Int) = i0 + 1 + (j : Int) := by omega
  rw [this]

theorem idsFrom_one (i0 : Int) : idsFrom i0 1 = [i0] := by
  rw [show (1 : Nat) = 0 + 1 from rfl, idsFrom_succ]
  rfl

theorem SetupLoop_spec (P : Producers) (manager : Manager) :
    ∀ (n : Nat) (i0 : Int) (s : HState), Post (SetupLoop P manager n i0) s (fun o _ t =>
      (o = .ok (false, i0 + (n : Int)) ∧ callsOf t = idsFrom i0 n ∧
        returnsOf t = falseReturns i0 n) ∨
      (∃ k : Nat, k < n ∧ o = .ok (true, i0 + (k : Int)) ∧ callsOf t = idsFrom i0 (k + 1) ∧
        returnsOf t = falseReturns i0 k ++ [(i0 + (k : Int), true)]) ∨
      (∃ k : Nat, k < n ∧ (∃ e, o = .error e) ∧ callsOf t = idsFrom i0 (k + 1) ∧
        returnsOf t = falseReturns i0 k)) := by
  intro n
  induction n with
  | zero =>
    intro i0 s
    simp only [SetupLoop]
    apply Post.of_pure
    left
    exact ⟨by simp, rfl, rfl⟩
  | succ n ih =>
    intro i0 s
    simp only [SetupLoop]
    apply Post.bind _ (Setup_marks P i0 (some manager) (some manager) (some manager) s)
    · intro b s1 t1 h1
      cases b with
      | true =>
        rw [if_pos rfl]
        apply Post.of_pure
        right
        left
        refine ⟨0, Nat.succ_pos n, by simp, ?_, ?_⟩
        · rw [List.append_nil, h1.1]
          simp [idsFrom_one]
        · rw [List.append_nil, h1.2]
          simp [falseReturns]
      | false =>
        rw [if_neg (by simp)]
        apply Post.mono (ih (i0 + 1) s1)
        intro o s2 t2 h2
        rw [callsOf_append, returnsOf_append, h1.1, h1.2]
        rcases h2 with ⟨ho, hc, hr⟩ | ⟨k, hk, ho, hc, hr⟩ | ⟨k, hk, ho, hc, hr⟩
        · left
          refine ⟨?_, ?_, ?_⟩
          · rw [ho]
            have : i0 + 1 + (n : Int) = i0 + ((n + 1 : Nat) : Int) := by omega
            rw [this]
          · rw [hc, idsFrom_succ]
            rfl
          · rw [hr, falseReturns_succ]
            rfl
        · right
          left
          have hk1 : i0 + 1 + (k : Int) = i0 + ((k + 1 : Nat) : Int) := by omega
          refine ⟨k + 1, Nat.succ_lt_succ hk, ?_, ?_, ?_⟩
          · rw [ho, hk1]
          · rw [hc, idsFrom_succ i0 (k + 1)]
            rfl
          · rw [hr, falseReturns_succ i0 k, hk1]
            rfl
        · right
          right
          refine ⟨k + 1, Nat.succ_lt_succ hk, ho, ?_, ?_⟩
          · rw [hc, idsFrom_succ i0 (k + 1)]
            rfl
          · rw [hr, falseReturns_succ i0 k]
            rfl
    · intro e s1 t1 h1
      right
      right
      refine ⟨0, Nat.succ_pos n, ⟨e, rfl⟩, ?_, ?_⟩
      · rw [h1.1]
        simp [idsFrom_one]
      · rw [h1.2]
        simp [falseReturns]

theorem idsFrom_concat (i0 : Int) (n : Nat) :
    idsFrom i0 n ++ [i0 + (n : Int)] = idsFrom i0 (n + 1) := by
  unfold idsFrom
  rw [List.range_succ, List.map_append]
  rfl

theorem Setup_last_marks (P : Producers) (coarseLevelID : Int) (fine coarse : Option Manager)
    (s : HState) :
    Post (Setup P coarseLevelID fine coarse none) s (fun o _ t =>
      callsOf t = [coarseLevelID] ∧
      ((o = .ok true ∧ returnsOf t = [(coarseLevelID, true)]) ∨
       ((∃ e, o = .error e) ∧ returnsOf t = []))) := by
  have hm := (Setup_marks P coarseLevelID fine coarse none s).elim
  refine ⟨hm.1, ?_⟩
  rcases hout : (Setup P coarseLevelID fine coarse none s).out with e | b
  · right
    refine ⟨⟨e, rfl⟩, ?_⟩
    have h2 := hm.2
    rw [hout] at h2
    exact h2
  · left
    have hb := Setup_without_next_returns_true hout
    subst hb
    refine ⟨rfl, ?_⟩
    have h2 := hm.2
    rw [hout] at h2
    exact h2

theorem SetupCalls_spec (P : Producers) (manager : Manager) (startLevel lastLevel : Int)
    (hlast : startLevel + 1 ≤ lastLevel) (s : HState) :
    Post (SetupCalls P manager startLevel lastLevel) s (fun o _ t =>
      ∃ k : Nat, (k : Int) ≤ lastLevel - startLevel ∧ callsOf t = idsFrom startLevel (k + 1) ∧
        ((∃ i, o = .ok i ∧ ((k = 0 ∧ i = 0) ∨ (1 ≤ k ∧ i = startLevel + (k : Int))) ∧
            returnsOf t = falseReturns startLevel k ++ [(startLevel + (k : Int), true)]) ∨
         ((∃ e, o = .error e) ∧ returnsOf t = falseReturns startLevel k))) := by
  unfold SetupCalls
  apply Post.bind _ (Setup_marks P startLevel none (some manager) (some manager) s)
  · intro b s1 t1 h1
    cases b with
    | true =>
      rw [if_neg (by simp)]
      apply Post.of_pure
      refine ⟨0, by simp; omega, ?_, Or.inl ⟨0, rfl, Or.inl ⟨rfl, rfl⟩, ?_⟩⟩
      · rw [List.append_nil, h1.1]
        simp [idsFrom_one]
      · rw [List.append_nil, h1.2]
        simp [falseReturns]
    | false =>
      rw [if_pos rfl]
      have hfuel : ((lastLevel - (startLevel + 1)).toNat : Int) = lastLevel - (startLevel + 1) :=
        Int.toNat_of_nonneg (by omega)
      generalize (lastLevel - (startLevel + 1)).toNat = fuel at hfuel
      have hlastEq : lastLevel = startLevel + 1 + (fuel : Int) := by omega
      apply Post.bind _ (SetupLoop_spec P manager fuel (startLevel + 1) s1)
      · intro bi s2 t2 h2
        rcases h2 with ⟨ho, hc, hr⟩ | ⟨k, hk, ho, hc, hr⟩ | ⟨k, _, ⟨e, ho⟩, _, _⟩
        · simp only [Except.ok.injEq] at ho
          subst ho
          rw [if_pos rfl]
          rw [hlastEq]
          apply Post.bind _
            (Setup_last_marks P (startLevel + 1 + (fuel : Int)) (some manager) (some manager) s2)
          · intro b3 s3 t3 h3
            apply Post.of_pure
            have hidx : startLevel + 1 + (fuel : Int) = startLevel + ((fuel + 1 : Nat) : Int) := by
              omega
            refine ⟨fuel + 1, by omega, ?_, ?_⟩
            · simp only [callsOf_append, h1.1, hc, h3.1]
              show [startLevel] ++ (idsFrom (startLevel + 1) fuel ++
                ([startLevel + 1 + (fuel : Int)] ++ callsOf [])) = _
              rw [show callsOf [] = [] from rfl, List.append_nil, idsFrom_concat,
                idsFrom_succ startLevel (fuel + 1)]
              rfl
            · rcases h3.2 with ⟨_, hret⟩ | ⟨⟨e, he⟩, _⟩
              · left
                refine ⟨_, rfl, Or.inr ⟨Nat.succ_pos fuel, hidx⟩, ?_⟩
                simp only [returnsOf_append, h1.2, hr, hret]
                rw [show returnsOf [] = [] from rfl, List.append_nil,
                  falseReturns_succ startLevel fuel, hidx]
                rfl
              · exact absurd he (by simp)
          · intro e s3 t3 h3
            refine ⟨fuel + 1, by omega, ?_, ?_⟩
            · simp only [callsOf_append, h1.1, hc, h3.1]
              show [startLevel] ++ (idsFrom (startLevel + 1) fuel ++
                [startLevel + 1 + (fuel : Int)]) = _
              rw [idsFrom_concat, idsFrom_succ startLevel (fuel + 1)]
              rfl
            · rcases h3.2 with ⟨hbad, _⟩ | ⟨_, hret⟩
              · exact absurd hbad (by simp)
              · right
                refine ⟨⟨e, rfl⟩, ?_⟩
                simp only [returnsOf_append, h1.2, hr, hret]
                rw [List.append_nil, falseReturns_succ startLevel fuel]
                rfl
        · simp only [Except.ok.injEq] at ho
          subst ho
          rw [if_neg (by simp)]
          apply Post.of_pure
          have hidx : startLevel + 1 + (k : Int) = startLevel + ((k + 1 : Nat) : Int) := by omega
          refine ⟨k + 1, by omega, ?_, Or.inl ⟨_, rfl, Or.inr ⟨Nat.succ_pos k, hidx⟩, ?_⟩⟩
          · simp only [callsOf_append, h1.1, hc]
            rw [show callsOf [] = [] from rfl, List.append_nil,
              idsFrom_succ startLevel (k + 1)]
            rfl
          · simp only [returnsOf_append, h1.2, hr]
            rw [show returnsOf [] = [] from rfl, List.append_nil,
              falseReturns_succ startLevel k, hidx]
            rfl
        · exact absurd ho (by simp)
      · intro e s2 t2 h2
        rcases h2 with ⟨ho, _, _⟩ | ⟨k, _, ho, _, _⟩ | ⟨k, hk, _, hc, hr⟩
        · exact absurd ho (by simp)
        · exact absurd ho (by simp)
        · refine ⟨k + 1, by omega, ?_, Or.inr ⟨⟨e, rfl⟩, ?_⟩⟩
          · simp only [callsOf_append, h1.1, hc]
            rw [idsFrom_succ startLevel (k + 1)]
            rfl
          · simp only [returnsOf_append, h1.2, hr]
            rw [falseReturns_succ startLevel k]
            rfl
  · intro e s1 t1 h1
    refine ⟨0, by simp; omega, ?_, Or.inr ⟨⟨e, rfl⟩, ?_⟩⟩
    · rw [h1.1]
      simp [idsFrom_one]
    · rw [h1.2]
      simp [falseReturns]

/-- C9, counterexample: with `startLevel = 1` and `numDesiredLevels = 2` on a two-level
hierarchy whose level 1 holds a 1000-row operator, the outer `Setup` returns and leaves a
chain of three levels, more than `numDesiredLevels`. -/
theorem SetupLevels_chain_longer_than_numDesiredLevels :
    (SetupLevels halving 7 1 2 seededHierarchy).out = .ok () ∧
    (SetupLevels halving 7 1 2 seededHierarchy).st.Levels_ = [0, 1, 2] ∧
    ¬ (((SetupLevels halving 7 1 2 seededHierarchy).st.Levels_.length : Int) ≤ 2) := by
  decide!

/-- C9, amended: whenever the outer `Setup` with `numDesiredLevels = N` returns, the chain
has at most `startLevel + N` levels (`lastLevel + 1`, the levels below `startLevel`
included), hence at most `N` levels when `startLevel = 0`. -/
theorem SetupLevels_chain_bound (P : Producers) (manager : Manager)
    (startLevel numDesiredLevels : Int) (s : HState)
    (h : (SetupLevels P manager startLevel numDesiredLevels s).out = .ok ()) :
    ((SetupLevels P manager startLevel numDesiredLevels s).st.Levels_.length : Int) ≤
      startLevel + numDesiredLevels ∧
    (startLevel = 0 →
      ((SetupLevels P manager startLevel numDesiredLevels s).st.Levels_.length : Int) ≤
        numDesiredLevels) := by
  have key : Post (SetupLevels P manager startLevel numDesiredLevels) s (fun o s1 _ =>
      o = .ok () → (s1.Levels_.length : Int) ≤ startLevel + numDesiredLevels) := by
    unfold SetupLevels
    by_cases hN : numDesiredLevels < 2
    · rw [if_pos hN]
      intro hbad
      exact absurd hbad (by simp [raise])
    · rw [if_neg hN]
      apply Post.bind_LevelsAt
      · intro p h0 _
        apply Post.bind_deref
        by_cases hA : (!(s.heap p).IsAvailable "A") = true
        · rw [if_pos hA]
          intro hbad
          exact absurd hbad (by simp [raise])
        · rw [if_neg hA]
          apply Post.bind _ (SetupCalls_spec P manager startLevel
            (startLevel + numDesiredLevels - 1) (by omega) s)
          · intro i s1 t1 h1
            apply Post.bind_getState
            by_cases hlen : (s1.Levels_.length : Int) ≠ i + 1
            · rw [if_pos hlen]
              intro hbad
              exact absurd hbad (by simp [raise])
            · rw [if_neg hlen]
              apply Post.of_pure
              intro _
              simp only [ne_eq, not_not] at hlen
              rcases h1 with ⟨k, hk, _, ⟨i1, hi1, hcase, _⟩ | ⟨⟨e, he⟩, _⟩⟩
              · simp only [Except.ok.injEq] at hi1
                subst hi1
                rcases hcase with ⟨_, hi0⟩ | ⟨_, hik⟩
                · omega
                · omega
              · exact absurd he (by simp)
          · intro e s1 t1 _ hbad
            exact absurd hbad (by simp)
      · intro _ hbad
        exact absurd hbad (by simp)
  have hb := key.elim h
  exact ⟨hb, fun h0 => by omega⟩

/-- Witness for C9 as amended: the outer `Setup` with four desired levels on the
one-level hierarchy over a 1000-row operator returns. -/
theorem SetupLevels_chain_bound_witness :
    (SetupLevels halving 7 0 4 bigHierarchy).out = .ok () ∧
    ((SetupLevels halving 7 0 4 bigHierarchy).st.Levels_.length : Int) ≤ 0 + 4 :=
  ⟨by decide!, (SetupLevels_chain_bound halving 7 0 4 bigHierarchy (by decide!)).1⟩

theorem not_mem_falseReturns (i0 : Int) (n : Nat) (k : Int) : (k, true) ∉ falseReturns i0 n := by
  simp [falseReturns]

/-- C10, counterexample: with `numDesiredLevels = 2` on the hierarchy of the default
constructor, which holds no operator "A", the outer `Setup` makes no per-level call at
all. -/
theorem SetupLevels_makes_no_call_without_A :
    (2 : Int) ≤ 2 ∧ callsOf (SetupLevels halving 7 0 2 bareHierarchy).tr = [] ∧
    ¬ (1 ≤ (callsOf (SetupLevels halving 7 0 2 bareHierarchy).tr).length) := by
  decide!

/-- C10, amended: the outer `Setup` is a total function of its arguments and of the
producers, which are total: it always terminates, whether or not the coarse-enough
condition is ever met.  When its two preconditions hold (`numDesiredLevels = N >= 2` and
"A" available on the existing level `startLevel`) it makes `n` per-level `Setup` calls
with `1 <= n <= N`, on the consecutive level IDs `startLevel, ..., startLevel + n - 1`;
every call before the last one returned false, and the last one either returned true or
raised; so if a call on level `k` returned true, then `n = k - startLevel + 1`. -/
theorem SetupLevels_calls (P : Producers) (manager : Manager)
    (startLevel numDesiredLevels : Int) (s : HState) (p : LevelPtr)
    (hN : 2 ≤ numDesiredLevels) (h0 : 0 ≤ startLevel)
    (hp : s.Levels_[startLevel.toNat]? = some p) (hA : (s.heap p).IsAvailable "A" = true) :
    ∃ n : Nat, 1 ≤ n ∧ (n : Int) ≤ numDesiredLevels ∧
      callsOf (SetupLevels P manager startLevel numDesiredLevels s).tr =
        (List.range n).map (fun (j : Nat) => startLevel + (j : Int)) ∧
      (returnsOf (SetupLevels P manager startLevel numDesiredLevels s).tr =
          (List.range (n - 1)).map (fun (j : Nat) => (startLevel + (j : Int), false)) ++
            [(startLevel + ((n - 1 : Nat) : Int), true)] ∨
        returnsOf (SetupLevels P manager startLevel numDesiredLevels s).tr =
          (List.range (n - 1)).map (fun (j : Nat) => (startLevel + (j : Int), false))) ∧
      (∀ k : Int, (k, true) ∈ returnsOf (SetupLevels P manager startLevel numDesiredLevels s).tr →
        (n : Int) = k - startLevel + 1) := by
  have key : Post (SetupLevels P manager startLevel numDesiredLevels) s (fun _ _ t =>
      ∃ k : Nat, (k : Int) ≤ numDesiredLevels - 1 ∧ callsOf t = idsFrom startLevel (k + 1) ∧
        (returnsOf t = falseReturns startLevel k ++ [(startLevel + (k : Int), true)] ∨
         returnsOf t = falseReturns startLevel k)) := by
    unfold SetupLevels
    rw [if_neg (by omega)]
    apply Post.bind_LevelsAt
    · intro q _ hq
      rw [hp] at hq
      simp only [Option.some.injEq] at hq
      subst hq
      apply Post.bind_deref
      rw [hA, if_neg (by simp)]
      apply Post.bind _ (SetupCalls_spec P manager startLevel
        (startLevel + numDesiredLevels - 1) (by omega) s)
      · intro i s1 t1 h1
        have hres : ∃ k : Nat, (k : Int) ≤ numDesiredLevels - 1 ∧
            callsOf t1 = idsFrom startLevel (k + 1) ∧
            (returnsOf t1 = falseReturns startLevel k ++ [(startLevel + (k : Int), true)] ∨
             returnsOf t1 = falseReturns startLevel k) := by
          rcases h1 with ⟨k, hk, hc, ⟨_, _, _, hr⟩ | ⟨_, hr⟩⟩
          · exact ⟨k, by omega, hc, Or.inl hr⟩
          · exact ⟨k, by omega, hc, Or.inr hr⟩
        apply Post.bind_getState
        by_cases hlen : (s1.Levels_.length : Int) ≠ i + 1
        · rw [if_pos hlen]
          show ∃ k : Nat, _ ∧ callsOf (t1 ++ []) = _ ∧ (returnsOf (t1 ++ []) = _ ∨
            returnsOf (t1 ++ []) = _)
          rw [List.append_nil]
          exact hres
        · rw [if_neg hlen]
          show ∃ k : Nat, _ ∧ callsOf (t1 ++ []) = _ ∧ (returnsOf (t1 ++ []) = _ ∨
            returnsOf (t1 ++ []) = _)
          rw [List.append_nil]
          exact hres
      · intro e s1 t1 h1
        rcases h1 with ⟨k, hk, hc, ⟨_, _, _, hr⟩ | ⟨_, hr⟩⟩
        · exact ⟨k, by omega, hc, Or.inl hr⟩
        · exact ⟨k, by omega, hc, Or.inr hr⟩
    · intro hbad
      exfalso
      have hlt := (List.getElem?_eq_some.mp hp).1
      omega
  rcases key.elim with ⟨k, hk, hc, hr⟩
  refine ⟨k + 1, Nat.succ_pos k, by omega, hc, ?_, ?_⟩
  · simpa [falseReturns] using hr
  · intro j hj
    rcases hr with hr | hr
    · rw [hr] at hj
      rcases List.mem_append.mp hj with h1 | h1
      · exact absurd h1 (not_mem_falseReturns _ _ _)
      · simp only [List.mem_singleton, Prod.mk.injEq, and_true] at h1
        omega
    · rw [hr] at hj
      exact absurd hj (not_mem_falseReturns _ _ _)

/-- Witness for C10 as amended: four desired levels on the one-level hierarchy over a
1000-row operator. -/
theorem SetupLevels_calls_witness :
    ((2 : Int) ≤ 4 ∧ (bigHierarchy.heap 0).IsAvailable "A" = true) ∧
    ∃ n : Nat, 1 ≤ n ∧ (n : Int) ≤ 4 ∧
      callsOf (SetupLevels halving 7 0 4 bigHierarchy).tr =
        (List.range n).map (fun (j : Nat) => (0 : Int) + (j : Int)) :=
  ⟨⟨by decide, by decide!⟩,
   let ⟨n, h1, h2, h3, _⟩ :=
     SetupLevels_calls halving 7 0 4 bigHierarchy 0 (by decide) (by decide) (by decide!)
       (by decide!)
   ⟨n, h1, h2, h3⟩⟩

theorem SetupLevels_length_check (P : Producers) (manager : Manager)
    (startLevel numDesiredLevels : Int) (s : HState) (k : Int)
    (hk : (k, true) ∈ returnsOf (SetupLevels P manager startLevel numDesiredLevels s).tr) :
    ((SetupLevels P manager startLevel numDesiredLevels s).out = .ok () ∨
      (SetupLevels P manager startLevel numDesiredLevels s).out =
        .error (.RuntimeError "MueLu::Hierarchy::Setup(): number of level")) ∧
    ((startLevel = 0 ∨ k ≠ startLevel) →
      ((SetupLevels P manager startLevel numDesiredLevels s).out = .ok () ↔
        ((SetupLevels P manager startLevel numDesiredLevels s).st.Levels_.length : Int) = k + 1)) ∧
    (k = startLevel →
      ((SetupLevels P manager startLevel numDesiredLevels s).out = .ok () ↔
        ((SetupLevels P manager startLevel numDesiredLevels s).st.Levels_.length : Int) = 1)) := by
  have key : Post (SetupLevels P manager startLevel numDesiredLevels) s (fun o s1 t =>
      (k, true) ∈ returnsOf t →
      (o = .ok () ∨ o = .error (.RuntimeError "MueLu::Hierarchy::Setup(): number of level")) ∧
      ((startLevel = 0 ∨ k ≠ startLevel) → (o = .ok () ↔ (s1.Levels_.length : Int) = k + 1)) ∧
      (k = startLevel → (o = .ok () ↔ (s1.Levels_.length : Int) = 1))) := by
    unfold SetupLevels
    by_cases hN : numDesiredLevels < 2
    · rw [if_pos hN]
      intro hbad
      exact absurd hbad (by simp [raise, returnsOf])
    · rw [if_neg hN]
      apply Post.bind_LevelsAt
      · intro p h0 _
        apply Post.bind_deref
        by_cases hA : (!(s.heap p).IsAvailable "A") = true
        · rw [if_pos hA]
          intro hbad
          exact absurd hbad (by simp [raise, returnsOf])
        · rw [if_neg hA]
          apply Post.bind _ (SetupCalls_spec P manager startLevel
            (startLevel + numDesiredLevels - 1) (by omega) s)
          · intro i s1 t1 h1
            rcases h1 with ⟨k0, _, _, ⟨i1, hi1, hcase, hr⟩ | ⟨⟨e, he⟩, _⟩⟩
            · simp only [Except.ok.injEq] at hi1
              subst hi1
              apply Post.bind_getState
              have hkey : ∀ t2 : List Event, t2 = [] → (k, true) ∈ returnsOf (t1 ++ t2) →
                  k = startLevel + (k0 : Int) := by
                intro t2 ht2 hmem
                rw [ht2, List.append_nil, hr] at hmem
                rcases List.mem_append.mp hmem with h | h
                · exact absurd h (not_mem_falseReturns _ _ _)
                · simp only [List.mem_singleton, Prod.mk.injEq, and_true] at h
                  exact h
              by_cases hlen : (s1.Levels_.length : Int) ≠ i + 1
              · rw [if_pos hlen]
                apply Post.of_raise
                intro hmem
                have hkk := hkey [] rfl hmem
                refine ⟨Or.inr rfl, ?_, ?_⟩
                · intro hs
                  constructor
                  · intro hbad
                    exact absurd hbad (by simp)
                  · intro hl
                    exfalso
                    apply hlen
                    rcases hcase with ⟨hk0, hi0⟩ | ⟨hk1, hik⟩
                    · subst hk0
                      rcases hs with hs | hs
                      · omega
                      · exact absurd (by simpa using hkk) hs
                    · omega
                · intro hs
                  constructor
                  · intro hbad
                    exact absurd hbad (by simp)
                  · intro hl
                    exfalso
                    apply hlen
                    rcases hcase with ⟨hk0, hi0⟩ | ⟨hk1, hik⟩
                    · omega
                    · omega
              · rw [if_neg hlen]
                apply Post.of_pure
                intro hmem
                have hkk := hkey [] rfl hmem
                simp only [ne_eq, not_not] at hlen
                refine ⟨Or.inl rfl, ?_, ?_⟩
                · intro hs
                  refine ⟨fun _ => ?_, fun _ => rfl⟩
                  rcases hcase with ⟨hk0, hi0⟩ | ⟨hk1, hik⟩
                  · subst hk0
                    rcases hs with hs | hs
                    · omega
                    · exact absurd (by simpa using hkk) hs
                  · omega
                · intro hs
                  refine ⟨fun _ => ?_, fun _ => rfl⟩
                  rcases hcase with ⟨hk0, hi0⟩ | ⟨hk1, hik⟩
                  · omega
                  · omega
            · exact absurd he (by simp)
          · intro e s1 t1 h1 hmem
            exfalso
            rcases h1 with ⟨k0, _, _, ⟨i1, hi1, _, _⟩ | ⟨_, hr⟩⟩
            · exact absurd hi1 (by simp)
            · rw [hr] at hmem
              exact absurd hmem (not_mem_falseReturns _ _ _)
      · intro _ hbad
        exact absurd hbad (by simp [returnsOf])
  exact key.elim hk

/-- C11, evaluation at the failing input: on a two-level hierarchy whose level 1 holds a
10-row operator, the outer `Setup` with `startLevel = 1` and `numDesiredLevels = 2` makes
one per-level call, on level 1, which returns true and leaves a chain of two levels, the
ID of that level plus one; the post-loop check compares the chain length with
`iLevel + 1 = 1` and raises "number of level". -/
theorem SetupLevels_length_check_ignores_startLevel :
    callsOf (SetupLevels halving 7 1 2 seededSmallHierarchy).tr = [1] ∧
    returnsOf (SetupLevels halving 7 1 2 seededSmallHierarchy).tr = [(1, true)] ∧
    ((SetupLevels halving 7 1 2 seededSmallHierarchy).st.Levels_.length : Int) = 1 + 1 ∧
    (SetupLevels halving 7 1 2 seededSmallHierarchy).out =
      .error (.RuntimeError "MueLu::Hierarchy::Setup(): number of level") := by
  decide!


theorem Request_run (level : LevelPtr) (f : TopFactory) (s : HState) :
    Request level f s = ⟨.ok (),
      s.setHeap (Function.update s.heap level ((s.heap level).Request f.key)),
      [.request level f]⟩ := rfl

theorem Release_run (level : LevelPtr) (f : TopFactory) (s : HState) :
    Release level f s = ⟨.ok (),
      s.setHeap (Function.update s.heap level ((s.heap level).Release f.key)),
      [.release level f]⟩ := rfl

theorem TopFactory.key_ne_plain (f : TopFactory) (name : String) : f.key ≠ ⟨name, none⟩ := by
  cases f <;> simp [TopFactory.key]

theorem Level.Request_store_plain (l : Level) (f : TopFactory) (name : String) :
    (l.Request f.key).store ⟨name, none⟩ = l.store ⟨name, none⟩ := by
  unfold Level.Request
  exact Function.update_noteq (Ne.symm (TopFactory.key_ne_plain f name)) _ _

theorem Level.Release_store_plain (l : Level) (f : TopFactory) (name : String) :
    (l.Release f.key).store ⟨name, none⟩ = l.store ⟨name, none⟩ := by
  unfold Level.Release
  exact Function.update_noteq (Ne.symm (TopFactory.key_ne_plain f name)) _ _

theorem SamePlain.request {p : LevelPtr} {name : String} {s s1 : HState}
    (h : SamePlain p name s s1) (level : LevelPtr) (f : TopFactory) :
    SamePlain p name s
      (s1.setHeap (Function.update s1.heap level ((s1.heap level).Request f.key))) := by
  unfold SamePlain at h ⊢
  rw [setHeap_heap]
  by_cases hl : p = level
  · subst hl
    rw [Function.update_same, Level.Request_store_plain, h]
  · rw [Function.update_noteq hl, h]

theorem SamePlain.release {p : LevelPtr} {name : String} {s s1 : HState}
    (h : SamePlain p name s s1) (level : LevelPtr) (f : TopFactory) :
    SamePlain p name s
      (s1.setHeap (Function.update s1.heap level ((s1.heap level).Release f.key))) := by
  unfold SamePlain at h ⊢
  rw [setHeap_heap]
  by_cases hl : p = level
  · subst hl
    rw [Function.update_same, Level.Release_store_plain, h]
  · rw [Function.update_noteq hl, h]

theorem SamePlain.refl (p : LevelPtr) (name : String) (s : HState) : SamePlain p name s s := rfl

theorem SetupRequestsFinest_run (coarseMgr : Manager) (level : LevelPtr) (s : HState) :
    Post (SetupRequestsFinest none coarseMgr level) s (fun o s1 t =>
      o = .ok () ∧ s1.Levels_ = s.Levels_ ∧ s1.nextFree = s.nextFree ∧
      s1.maxCoarseSize_ = s.maxCoarseSize_ ∧
      (∀ q, (s1.heap q).levelID = (s.heap q).levelID) ∧
      (∀ q name, SamePlain q name s s1) ∧
      t = [.request level (.TopSmootherFactory coarseMgr "Smoother"),
           .request level (.TopSmootherFactory coarseMgr "CoarseSolver")]) := by
  unfold SetupRequestsFinest
  simp only []
  apply Post.bind_of_eq (Request_run _ _ _)
  apply Post.of_eq (Request_run _ _ _)
  refine ⟨rfl, rfl, rfl, rfl, ?_, ?_, rfl⟩
  · intro q
    simp only [setHeap_heap]
    by_cases hq : q = level
    · subst hq
      simp [Level.Request]
    · simp [Function.update_noteq hq]
  · intro q name
    exact ((SamePlain.refl q name s).request level _).request level _

theorem addNewLevelState_Levels (s : HState) :
    (addNewLevelState s).Levels_ = s.Levels_ ++ [s.nextFree] := rfl

theorem addNewLevelState_maxCoarseSize (s : HState) :
    (addNewLevelState s).maxCoarseSize_ = s.maxCoarseSize_ := rfl

theorem addNewLevelState_heap_new (s : HState) :
    (addNewLevelState s).heap s.nextFree =
      ⟨(s.Levels_.length : Int), s.Levels_.getLast?, Level.new.store⟩ := by
  simp [addNewLevelState, addLevelState]

theorem addNewLevelState_heap_old (s : HState) {q : LevelPtr} (hq : q ≠ s.nextFree) :
    (addNewLevelState s).heap q = s.heap q := by
  simp [addNewLevelState, addLevelState, Function.update_noteq hq]

theorem checkLevelOutcome_new (s : HState) (hne : s.Levels_ ≠ []) :
    checkLevelOutcome (addNewLevelState s) s.nextFree (LastLevelID s + 1) = .ok () := by
  have hlen : 0 < s.Levels_.length := List.length_pos.mpr hne
  unfold checkLevelOutcome
  rw [addNewLevelState_heap_new]
  have h1 : LastLevelID s + 1 = (s.Levels_.length : Int) := by simp [LastLevelID]
  rw [h1]
  simp only [ne_eq, not_true_eq_false, if_false]
  rw [if_neg (by omega), if_pos (by omega)]
  have h2 : ((s.Levels_.length : Int) - 1).toNat = s.Levels_.length - 1 := by omega
  rw [h2, addNewLevelState_Levels, List.getElem?_append_left (by omega),
    ← List.getLast?_eq_getElem?]
  rcases hl : s.Levels_.getLast? with _ | q
  · exact absurd (List.getLast?_eq_none_iff.mp hl) hne
  · simp

theorem SetupRequestsNext_grows (coarseMgr nextMgr : Manager) (s : HState)
    (hne : s.Levels_ ≠ []) :
    Post (SetupRequestsNext (LastLevelID s) coarseMgr (some nextMgr)) s (fun o s1 t =>
      o = .ok (some (nextMgr, s.nextFree)) ∧ s1.Levels_ = s.Levels_ ++ [s.nextFree] ∧
      s1.maxCoarseSize_ = s.maxCoarseSize_ ∧
      (∀ q name, q ≠ s.nextFree → SamePlain q name s s1) ∧
      t = [.request s.nextFree (.TopRAPFactory coarseMgr nextMgr),
           .request s.nextFree (.TopSmootherFactory nextMgr "Smoother"),
           .request s.nextFree (.TopSmootherFactory nextMgr "CoarseSolver")]) := by
  have hlen : 0 < s.Levels_.length := List.length_pos.mpr hne
  unfold SetupRequestsNext
  simp only []
  apply Post.bind_getState
  rw [if_pos (by omega)]
  have hrun := AddNewLevel_run s
  rw [if_neg hne] at hrun
  apply Post.bind_of_eq hrun
  apply Post.bind_LevelsAt
  · intro nl _ hnl
    have hidx : (LastLevelID s + 1).toNat = s.Levels_.length := by
      simp [LastLevelID]
    rw [hidx, addNewLevelState_Levels, List.getElem?_append_right (le_refl _)] at hnl
    simp only [Nat.sub_self, List.getElem?_cons_zero, Option.some.injEq] at hnl
    subst hnl
    have hchk := CheckLevel_run s.nextFree (LastLevelID s + 1) (addNewLevelState s)
    rw [checkLevelOutcome_new s hne] at hchk
    apply Post.bind_of_eq hchk
    apply Post.bind_of_eq (Request_run _ _ _)
    apply Post.bind_of_eq (Request_run _ _ _)
    apply Post.bind_of_eq (Request_run _ _ _)
    apply Post.of_pure
    refine ⟨rfl, rfl, rfl, ?_, rfl⟩
    intro q name hq
    have h0 : SamePlain q name s (addNewLevelState s) := by
      unfold SamePlain
      rw [addNewLevelState_heap_old s hq]
    exact ((h0.request _ _).request _ _).request _ _
  · intro hbad
    exfalso
    rw [addNewLevelState_Levels] at hbad
    simp [LastLevelID] at hbad
    omega

theorem SetupThroughRAP_one_level (P : Producers) (m : Manager) (s : HState) (p : LevelPtr)
    (hch : s.Levels_ = [p]) (hid : (s.heap p).levelID = 0) (hal : p < s.nextFree) :
    Post (SetupThroughRAP P 0 none (some m) (some m)) s (fun o s1 t =>
      o = .ok (m, p, some (m, s.nextFree)) ∧ s1.Levels_ = [p, s.nextFree] ∧
      s1.maxCoarseSize_ = s.maxCoarseSize_ ∧ (∀ name, SamePlain p name s s1) ∧
      t = [.enterSetup 0 none (some m) (some m),
           .request p (.TopSmootherFactory m "Smoother"),
           .request p (.TopSmootherFactory m "CoarseSolver"),
           .request s.nextFree (.TopRAPFactory m m),
           .request s.nextFree (.TopSmootherFactory m "Smoother"),
           .request s.nextFree (.TopSmootherFactory m "CoarseSolver")]) := by
  unfold SetupThroughRAP
  have hinit : setupInitOutcome s 0 none (some m) = .ok (m, p) := by
    simp [setupInitOutcome, checkLevelOutcome, LastLevelID, hch, hid]
  have hrun := SetupInit_run 0 none (some m) (some m) s
  rw [hinit] at hrun
  apply Post.bind_of_eq hrun
  apply Post.bind _ (SetupRequestsFinest_run m p s)
  · rintro _ s1 t1 ⟨_, hL1, hF1, hM1, _, hS1, rfl⟩
    have hne : s1.Levels_ ≠ [] := by simp [hL1, hch]
    have hlast : (0 : Int) = LastLevelID s1 := by simp [LastLevelID, hL1, hch]
    rw [hlast]
    apply Post.bind _ (SetupRequestsNext_grows m m s1 hne)
    · rintro nx s2 t2 ⟨hnx, hL2, hM2, hS2, rfl⟩
      simp only [Except.ok.injEq] at hnx
      subst hnx
      simp only [SetupBuildRAP]
      apply Post.bind_pure
      apply Post.of_pure
      refine ⟨?_, ?_, ?_, ?_, ?_⟩
      · rw [hF1]
      · rw [hL2, hL1, hch, hF1]
        rfl
      · rw [hM2, hM1]
      · intro name
        have h12 := hS2 p name (by rw [hF1]; exact Nat.ne_of_lt hal)
        have h01 := hS1 p name
        unfold SamePlain at h12 h01 ⊢
        rw [h12, h01]
      · rw [hF1]
        rfl
    · rintro e s2 t2 ⟨hbad, _⟩
      exact absurd hbad (by simp)
  · rintro e s1 t1 ⟨hbad, _⟩
    exact absurd hbad (by simp)

theorem fetchAc_stored {level : LevelPtr} {s : HState} {Ac : Option Matrix}
    (h : ((s.heap level).store ⟨"A", none⟩).value = some (.matrix Ac)) :
    fetchAc level s = ⟨.ok Ac, s, []⟩ := by
  have key : Post (fetchAc level) s (fun o s1 t => o = .ok Ac ∧ s1 = s ∧ t = []) := by
    unfold fetchAc
    apply Post.bind_deref
    rw [if_pos (by simp [Level.IsAvailable, h])]
    unfold GetMatrix
    apply Post.bind_deref
    rw [h]
    exact ⟨rfl, rfl, rfl⟩
  exact Res.eq_of key.elim.1 key.elim.2.1 key.elim.2.2

theorem BuildSmoother_run (P : Producers) (m : Manager) (v : String) (level : LevelPtr)
    (s : HState) :
    BuildSmoother P m v level s =
      ⟨match (P.BuildSmoother m v level s.heap).1 with
        | none => .ok ()
        | some msg => .error (.producer msg),
       s.setHeap (fun q => { s.heap q with store := (P.BuildSmoother m v level s.heap).2 q }),
       [.build (.TopSmootherFactory m v) level]⟩ := rfl

theorem SetupFinish_truncates (P : Producers) (m nm : Manager) (p nl : LevelPtr) (A : Matrix)
    (s : HState) (hA : ((s.heap p).store ⟨"A", none⟩).value = some (.matrix (some A)))
    (hsz : A.rowMapGlobalNumElements ≤ s.maxCoarseSize_)
    (hP : ∀ heap, (P.BuildSmoother m "CoarseSolver" p heap).1 = none) :
    Post (SetupFinish P m p (some (nm, nl))) s (fun o s1 t =>
      o = .ok true ∧ s1.Levels_ = s.Levels_.dropLast ∧
      t = [.release nl (.TopRAPFactory m nm),
           .release nl (.TopSmootherFactory nm "Smoother"),
           .release nl (.TopSmootherFactory nm "CoarseSolver"),
           .build (.TopSmootherFactory m "CoarseSolver") p,
           .release p (.TopSmootherFactory m "CoarseSolver")]) := by
  unfold SetupFinish
  apply Post.bind_of_eq (fetchAc_stored hA)
  have htr : Post (SetupTruncate m (some (nm, nl)) (some A)) s (fun o s1 t =>
      o = .ok true ∧ s1.Levels_ = s.Levels_.dropLast ∧
      t = [.release nl (.TopRAPFactory m nm),
           .release nl (.TopSmootherFactory nm "Smoother"),
           .release nl (.TopSmootherFactory nm "CoarseSolver")]) := by
    unfold SetupTruncate
    apply Post.bind_getState
    rw [if_pos (by simp [coarseEnough, hsz])]
    simp only []
    apply Post.bind_of_eq (Release_run _ _ _)
    apply Post.bind_of_eq (Release_run _ _ _)
    apply Post.bind_of_eq (Release_run _ _ _)
    apply Post.bind_popBack
    apply Post.of_pure
    exact ⟨rfl, rfl, rfl⟩
  apply Post.bind _ htr
  · rintro b s1 t1 ⟨hb, hL1, rfl⟩
    simp only [Except.ok.injEq] at hb
    subst hb
    unfold SetupSmoother
    simp only [Bool.not_true, Bool.false_eq_true, if_false, Option.isSome_some, if_true]
    have hrun := BuildSmoother_run P m "CoarseSolver" p s1
    rw [hP s1.heap] at hrun
    have hsm : Post (BuildSmoother P m "CoarseSolver" p >>= fun _ =>
        Release p (.TopSmootherFactory m "CoarseSolver")) s1 (fun o s2 t =>
        o = .ok () ∧ s2.Levels_ = s1.Levels_ ∧
        t = [.build (.TopSmootherFactory m "CoarseSolver") p,
             .release p (.TopSmootherFactory m "CoarseSolver")]) := by
      apply Post.bind_of_eq hrun
      apply Post.of_eq (Release_run _ _ _)
      exact ⟨rfl, rfl, rfl⟩
    apply Post.bind _ hsm
    · rintro _ s2 t2 ⟨_, hL2, rfl⟩
      apply Post.of_pure
      exact ⟨rfl, by rw [hL2, hL1], rfl⟩
    · rintro e s2 t2 ⟨hbad, _⟩
      exact absurd hbad (by simp)
  · rintro e s1 t1 ⟨hbad, _⟩
    exact absurd hbad (by simp)

theorem Setup_one_level (P : Producers) (m : Manager) (s : HState) (p : LevelPtr) (A : Matrix)
    (hch : s.Levels_ = [p]) (hid : (s.heap p).levelID = 0) (hal : p < s.nextFree)
    (hA : ((s.heap p).store ⟨"A", none⟩).value = some (.matrix (some A)))
    (hsz : A.rowMapGlobalNumElements ≤ s.maxCoarseSize_)
    (hP : ∀ heap, (P.BuildSmoother m "CoarseSolver" p heap).1 = none) :
    Post (Setup P 0 none (some m) (some m)) s (fun o s1 t =>
      o = .ok true ∧ s1.Levels_ = [p] ∧
      t = [.enterSetup 0 none (some m) (some m),
           .request p (.TopSmootherFactory m "Smoother"),
           .request p (.TopSmootherFactory m "CoarseSolver"),
           .request s.nextFree (.TopRAPFactory m m),
           .request s.nextFree (.TopSmootherFactory m "Smoother"),
           .request s.nextFree (.TopSmootherFactory m "CoarseSolver"),
           .release s.nextFree (.TopRAPFactory m m),
           .release s.nextFree (.TopSmootherFactory m "Smoother"),
           .release s.nextFree (.TopSmootherFactory m "CoarseSolver"),
           .build (.TopSmootherFactory m "CoarseSolver") p,
           .release p (.TopSmootherFactory m "CoarseSolver"),
           .returnSetup 0 true]) := by
  unfold Setup
  apply Post.bind _ (SetupThroughRAP_one_level P m s p hch hid hal)
  · rintro r s1 t1 ⟨hr, hL1, hM1, hS1, rfl⟩
    simp only [Except.ok.injEq] at hr
    subst hr
    have hA1 : ((s1.heap p).store ⟨"A", none⟩).value = some (.matrix (some A)) := by
      have h := hS1 "A"
      unfold SamePlain at h
      rw [h, hA]
    apply Post.bind _ (SetupFinish_truncates P m m p s.nextFree A s1 hA1 (by rw [hM1]; exact hsz) hP)
    · rintro b s2 t2 ⟨hb, hL2, rfl⟩
      simp only [Except.ok.injEq] at hb
      subst hb
      apply Post.bind_emit
      apply Post.of_pure
      refine ⟨rfl, ?_, rfl⟩
      rw [hL2, hL1]
      rfl
    · rintro e s2 t2 ⟨hbad, _⟩
      exact absurd hbad (by simp)
  · rintro e s1 t1 ⟨hbad, _⟩
    exact absurd hbad (by simp)

/-- C12: on every one-level hierarchy (a well-formed chain `[p]` of an allocated level)
whose operator "A" has at most `maxCoarseSize_` rows, in particular fewer, the outer
`Setup` with `startLevel = 0` and any `numDesiredLevels >= 2` returns normally, provided
the coarse-solver producer returns normally.  It makes a single per-level call, on level
0, which reports the last level; the chain is again `[p]`, one level; the only producer
invoked is the CoarseSolver producer, once, on level 0: the RAP producer (from which "P"
and "R" would come) and the Smoother producer are never invoked.  The speculative level
appended during the call lives at the address `s.nextFree` and is dropped again. -/
theorem SetupLevels_one_level_coarse_enough (P : Producers) (m : Manager)
    (numDesiredLevels : Int) (s : HState) (p : LevelPtr) (A : Matrix)
    (hN : 2 ≤ numDesiredLevels) (hch : s.Levels_ = [p]) (hinv : Inv s)
    (hA : ((s.heap p).store ⟨"A", none⟩).value = some (.matrix (some A)))
    (hsz : A.rowMapGlobalNumElements ≤ s.maxCoarseSize_)
    (hP : ∀ heap, (P.BuildSmoother m "CoarseSolver" p heap).1 = none) :
    (SetupLevels P m 0 numDesiredLevels s).out = .ok () ∧
    (SetupLevels P m 0 numDesiredLevels s).st.Levels_ = [p] ∧
    (SetupLevels P m 0 numDesiredLevels s).st.Levels_.length = 1 ∧
    callsOf (SetupLevels P m 0 numDesiredLevels s).tr = [0] ∧
    returnsOf (SetupLevels P m 0 numDesiredLevels s).tr = [(0, true)] ∧
    (∀ e ∈ (SetupLevels P m 0 numDesiredLevels s).tr, ∀ f l,
      e = .build f l → f = .TopSmootherFactory m "CoarseSolver" ∧ l = p) ∧
    (∀ f c l, Event.build (.TopRAPFactory f c) l ∉ (SetupLevels P m 0 numDesiredLevels s).tr) ∧
    (∀ m1 l, Event.build (.TopSmootherFactory m1 "Smoother") l ∉
      (SetupLevels P m 0 numDesiredLevels s).tr) ∧
    smootherBuilds (SetupLevels P m 0 numDesiredLevels s).tr = [(m, "CoarseSolver", p)] ∧
    (SetupLevels P m 0 numDesiredLevels s).tr =
      [.enterSetup 0 none (some m) (some m),
       .request p (.TopSmootherFactory m "Smoother"),
       .request p (.TopSmootherFactory m "CoarseSolver"),
       .request s.nextFree (.TopRAPFactory m m),
       .request s.nextFree (.TopSmootherFactory m "Smoother"),
       .request s.nextFree (.TopSmootherFactory m "CoarseSolver"),
       .release s.nextFree (.TopRAPFactory m m),
       .release s.nextFree (.TopSmootherFactory m "Smoother"),
       .release s.nextFree (.TopSmootherFactory m "CoarseSolver"),
       .build (.TopSmootherFactory m "CoarseSolver") p,
       .release p (.TopSmootherFactory m "CoarseSolver"),
       .returnSetup 0 true] := by
  have hp0 : s.Levels_[0]? = some p := by rw [hch]; rfl
  have hid : (s.heap p).levelID = 0 := by
    have h := (hinv.1 0 p hp0).1
    simpa using h
  have hal : p < s.nextFree := hinv.2 p (by rw [hch]; simp)
  have key : Post (SetupLevels P m 0 numDesiredLevels) s (fun o s1 t =>
      o = .ok () ∧ s1.Levels_ = [p] ∧
      t = [.enterSetup 0 none (some m) (some m),
           .request p (.TopSmootherFactory m "Smoother"),
           .request p (.TopSmootherFactory m "CoarseSolver"),
           .request s.nextFree (.TopRAPFactory m m),
           .request s.nextFree (.TopSmootherFactory m "Smoother"),
           .request s.nextFree (.TopSmootherFactory m "CoarseSolver"),
           .release s.nextFree (.TopRAPFactory m m),
           .release s.nextFree (.TopSmootherFactory m "Smoother"),
           .release s.nextFree (.TopSmootherFactory m "CoarseSolver"),
           .build (.TopSmootherFactory m "CoarseSolver") p,
           .release p (.TopSmootherFactory m "CoarseSolver"),
           .returnSetup 0 true]) := by
    unfold SetupLevels
    rw [if_neg (by omega)]
    apply Post.bind_LevelsAt
    · intro q _ hq
      have hqp : q = p := by
        simp only [Int.toNat_zero] at hq
        rw [hp0] at hq
        exact (Option.some.inj hq).symm
      subst hqp
      apply Post.bind_deref
      rw [if_neg (by simp [Level.IsAvailable, hA])]
      unfold SetupCalls
      apply Post.bind
        (fun o s1 t => o = .ok 0 ∧ s1.Levels_ = [q] ∧ t = _)
      · apply Post.bind _ (Setup_one_level P m s q A hch hid hal hA hsz hP)
        · rintro b s1 t1 ⟨hb, hL1, rfl⟩
          simp only [Except.ok.injEq] at hb
          subst hb
          rw [if_neg (by simp)]
          apply Post.of_pure
          exact ⟨rfl, hL1, rfl⟩
        · rintro e s1 t1 ⟨hbad, _⟩
          exact absurd hbad (by simp)
      · rintro i s1 t1 ⟨hi, hL1, rfl⟩
        simp only [Except.ok.injEq] at hi
        subst hi
        apply Post.bind_getState
        rw [if_neg (by simp [hL1])]
        apply Post.of_pure
        exact ⟨rfl, hL1, rfl⟩
      · rintro e s1 t1 ⟨hbad, _⟩
        exact absurd hbad (by simp)
    · intro hbad
      exfalso
      rw [hch] at hbad
      simp at hbad
  rcases key.elim with ⟨ho, hL, ht⟩
  refine ⟨ho, hL, by rw [hL]; rfl, ?_, ?_, ?_, ?_, ?_, ?_, ht⟩
  · rw [ht]; rfl
  · rw [ht]; rfl
  · rw [ht]
    intro e he f l hfl
    subst hfl
    simp at he
    exact ⟨he.1, he.2⟩
  · rw [ht]
    intro f c l
    simp
  · rw [ht]
    intro m1 l
    simp
  · rw [ht]; rfl

/-- Witness for C12: `Hierarchy(A)` over a 10-row operator with the default
`maxCoarseSize_ = 50` and two desired levels. -/
theorem SetupLevels_one_level_coarse_enough_witness :
    (SetupLevels halving 7 0 2 smallHierarchy).out = .ok () ∧
    (SetupLevels halving 7 0 2 smallHierarchy).st.Levels_ = [0] :=
  have h := SetupLevels_one_level_coarse_enough halving 7 2 smallHierarchy 0 smallMatrix
    (by decide) (by decide!) (show Reachable halving smallHierarchy from
      Reachable.constructA emptyHeap 0 (some smallMatrix)).inv
    (by decide!) (by decide!) (fun _ => rfl)
  ⟨h.1, h.2.1⟩

section iterKit
variable {V α β : Type}

theorem IterAct.ibind_eq (x : IterAct V α) (f : α → IterAct V β) :
    (x >>= f) = IterAct.bind x f := rfl

theorem IterAct.ipure_eq (a : α) : (pure a : IterAct V α) = IterAct.pure a := rfl

theorem IterAct.ibind_of_ok {x : IterAct V α} {f : α → IterAct V β} {X : V} {a : α}
    (h : (x X).out = .ok a) :
    (x >>= f) X = ⟨(f a (x X).X).out, (f a (x X).X).X, (x X).tr ++ (f a (x X).X).tr⟩ := by
  rw [IterAct.ibind_eq]
  unfold IterAct.bind
  rcases hx : x X with ⟨o, X1, t1⟩
  rw [hx] at h
  simp only at h
  subst h
  rfl

theorem IterAct.ibind_of_error {x : IterAct V α} {f : α → IterAct V β} {X : V} {e : Failure}
    (h : (x X).out = .error e) : (x >>= f) X = ⟨.error e, (x X).X, (x X).tr⟩ := by
  rw [IterAct.ibind_eq]
  unfold IterAct.bind
  rcases hx : x X with ⟨o, X1, t1⟩
  rw [hx] at h
  simp only at h
  subst h
  rfl

theorem IPost.imono {x : IterAct V α} {X : V}
    {Q R : Except Failure α → V → List (IterEvent V) → Prop}
    (h : IPost x X R) (hQ : ∀ o X1 t1, R o X1 t1 → Q o X1 t1) : IPost x X Q := hQ _ _ _ h

theorem IPost.ibind {x : IterAct V α} {f : α → IterAct V β} {X : V}
    {Q : Except Failure β → V → List (IterEvent V) → Prop}
    (R : Except Failure α → V → List (IterEvent V) → Prop) (hx : IPost x X R)
    (hok : ∀ a X1 t1, R (.ok a) X1 t1 → IPost (f a) X1 (fun o X2 t2 => Q o X2 (t1 ++ t2)))
    (herr : ∀ e X1 t1, R (.error e) X1 t1 → Q (.error e) X1 t1) : IPost (x >>= f) X Q := by
  unfold IPost at hx ⊢
  rcases ho : (x X).out with e | a
  · rw [IterAct.ibind_of_error ho]
    rw [ho] at hx
    exact herr _ _ _ hx
  · rw [IterAct.ibind_of_ok ho]
    rw [ho] at hx
    exact hok _ _ _ hx

theorem IPost.ipure {a : α} {X : V} {Q : Except Failure α → V → List (IterEvent V) → Prop}
    (h : Q (.ok a) X []) : IPost (pure a) X Q := h

theorem IPost.iraise {e : Failure} {X : V}
    {Q : Except Failure α → V → List (IterEvent V) → Prop}
    (h : Q (.error e) X []) : IPost (IterAct.raise e) X Q := h

theorem IPost.iof_eq {x : IterAct V α} {X X1 : V} {o : Except Failure α}
    {t1 : List (IterEvent V)} {Q : Except Failure α → V → List (IterEvent V) → Prop}
    (h : x X = ⟨o, X1, t1⟩) (hQ : Q o X1 t1) : IPost x X Q := by
  unfold IPost
  rw [h]
  exact hQ

theorem IPost.ibind_of_eq {x : IterAct V α} {f : α → IterAct V β} {X X1 : V} {a : α}
    {t1 : List (IterEvent V)} {Q : Except Failure β → V → List (IterEvent V) → Prop}
    (h : x X = ⟨.ok a, X1, t1⟩) (hf : IPost (f a) X1 (fun o X2 t2 => Q o X2 (t1 ++ t2))) :
    IPost (x >>= f) X Q := by
  unfold IPost at hf ⊢
  rw [IterAct.ibind_of_ok (a := a) (by rw [h])]
  rw [h]
  exact hf

theorem IPost.ibind_of_eq_error {x : IterAct V α} {f : α → IterAct V β} {X X1 : V}
    {e : Failure} {t1 : List (IterEvent V)}
    {Q : Except Failure β → V → List (IterEvent V) → Prop}
    (h : x X = ⟨.error e, X1, t1⟩) (hQ : Q (.error e) X1 t1) : IPost (x >>= f) X Q := by
  unfold IPost
  rw [IterAct.ibind_of_error (e := e) (by rw [h])]
  rw [h]
  exact hQ

theorem IPost.ibind_emit {e : IterEvent V} {f : Unit → IterAct V β} {X : V}
    {Q : Except Failure β → V → List (IterEvent V) → Prop}
    (h : IPost (f ()) X (fun o X2 t2 => Q o X2 (e :: t2))) :
    IPost (IterAct.emit e >>= f) X Q :=
  IPost.ibind_of_eq (show IterAct.emit e X = ⟨.ok (), X, [e]⟩ from rfl) h

theorem IPost.ibind_getX {f : V → IterAct V β} {X : V}
    {Q : Except Failure β → V → List (IterEvent V) → Prop}
    (h : IPost (f X) X Q) : IPost (IterAct.getX >>= f) X Q :=
  IPost.ibind_of_eq (show IterAct.getX X = ⟨.ok X, X, []⟩ from rfl) h

theorem IPost.ielim {x : IterAct V α} {X : V}
    {Q : Except Failure α → V → List (IterEvent V) → Prop}
    (h : IPost x X Q) : Q (x X).out (x X).X (x X).tr := h

theorem IterRes.ieq_of {r : IterRes V α} {o : Except Failure α} {X1 : V}
    {t1 : List (IterEvent V)} (h1 : r.out = o) (h2 : r.X = X1) (h3 : r.tr = t1) :
    r = ⟨o, X1, t1⟩ := by
  cases r
  simp only at h1 h2 h3
  rw [h1, h2, h3]

/-- Outcome of `Levels_[i]` as a function of the chain. -/
theorem IterAct.LevelsAt_outcome (s : HState) (i : Int) (X : V) :
    (∃ p, 0 ≤ i ∧ s.Levels_[i.toNat]? = some p ∧
      IterAct.LevelsAt s i X = ⟨.ok p, X, []⟩) ∨
    ((i < 0 ∨ s.Levels_.length ≤ i.toNat) ∧
      IterAct.LevelsAt s i X = ⟨.error .outOfBounds, X, []⟩) := by
  unfold IterAct.LevelsAt
  by_cases hi : 0 ≤ i
  · rw [if_pos hi]
    rcases hp : s.Levels_[i.toNat]? with _ | p
    · right
      exact ⟨Or.inr (List.getElem?_eq_none_iff.mp hp), rfl⟩
    · left
      exact ⟨p, hi, rfl, rfl⟩
  · rw [if_neg hi]
    right
    exact ⟨Or.inl (by omega), rfl⟩

theorem IterAct.LevelsAt_of_some {s : HState} {i : Int} {p : LevelPtr} (h0 : 0 ≤ i)
    (hp : s.Levels_[i.toNat]? = some p) (X : V) :
    IterAct.LevelsAt s i X = ⟨.ok p, X, []⟩ := by
  unfold IterAct.LevelsAt
  rw [if_pos h0, hp]
  rfl

theorem IterAct.GetMatrix_run (s : HState) (level : LevelPtr) (name : String) (X : V) :
    IterAct.GetMatrix s level name X = ⟨getMatrixOutcome s level name, X, [.get level name]⟩ := by
  have key : IPost (IterAct.GetMatrix s level name) X (fun o X1 t =>
      o = getMatrixOutcome s level name ∧ X1 = X ∧ t = [.get level name]) := by
    unfold IterAct.GetMatrix getMatrixOutcome
    apply IPost.ibind_emit
    split <;> exact ⟨rfl, rfl, rfl⟩
  exact IterRes.ieq_of key.ielim.1 key.ielim.2.1 key.ielim.2.2

theorem IterAct.GetSmoother_run (s : HState) (level : LevelPtr) (name : String) (X : V) :
    IterAct.GetSmoother s level name X =
      ⟨getSmootherOutcome s level name, X, [.get level name]⟩ := by
  have key : IPost (IterAct.GetSmoother s level name) X (fun o X1 t =>
      o = getSmootherOutcome s level name ∧ X1 = X ∧ t = [.get level name]) := by
    unfold IterAct.GetSmoother getSmootherOutcome
    apply IPost.ibind_emit
    split <;> exact ⟨rfl, rfl, rfl⟩
  exact IterRes.ieq_of key.ielim.1 key.ielim.2.1 key.ielim.2.2

end iterKit
section iterate
variable {SC V Map : Type}

theorem PrintResidual_run (IsPrintStatistics1 : Bool) (s : HState) (startLevel : Int)
    (A : MatrixRef) (B : V) (iter : Int) (X : V) :
    PrintResidual IsPrintStatistics1 s startLevel A B iter X =
      ⟨.ok (), X, printTrace IsPrintStatistics1 s startLevel A B iter X⟩ := by
  unfold PrintResidual printTrace
  split <;> rfl

theorem IterateAt_call (E : LinAlg SC V Map) (IsPrintStatistics1 : Bool) (s : HState)
    (Cycle : CycleType) (levels : Nat) :
    ∃ rec, IterateAt E IsPrintStatistics1 s Cycle levels =
      IterateCall E IsPrintStatistics1 s Cycle rec := by
  cases levels with
  | zero => exact ⟨_, rfl⟩
  | succ n => exact ⟨_, rfl⟩

theorem IterateCall_outOfBounds (E : LinAlg SC V Map) (IsPrintStatistics1 : Bool) (s : HState)
    (Cycle : CycleType) (rec : V → Int → Bool → Int → IterAct V Unit) (B : V) (nIts : Int)
    (z : Bool) (startLevel : Int) (X : V)
    (h : startLevel < 0 ∨ s.Levels_.length ≤ startLevel.toNat) :
    IterateCall E IsPrintStatistics1 s Cycle rec B nIts z startLevel X =
      ⟨.error .outOfBounds, X, [.enterIterate startLevel B nIts X z Cycle]⟩ := by
  have key : IPost (IterateCall E IsPrintStatistics1 s Cycle rec B nIts z startLevel) X
      (fun o X1 t => o = .error .outOfBounds ∧ X1 = X ∧
        t = [.enterIterate startLevel B nIts X z Cycle]) := by
    unfold IterateCall
    apply IPost.ibind_getX
    apply IPost.ibind_emit
    rcases IterAct.LevelsAt_outcome s startLevel X with ⟨p, h0, hp, _⟩ | ⟨_, hrun⟩
    · exfalso
      have := (List.getElem?_eq_some.mp hp).1
      omega
    · apply IPost.ibind_of_eq_error hrun
      exact ⟨rfl, rfl, rfl⟩
  exact IterRes.ieq_of key.ielim.1 key.ielim.2.1 key.ielim.2.2

theorem IterateCall_get_error (E : LinAlg SC V Map) (IsPrintStatistics1 : Bool) (s : HState)
    (Cycle : CycleType) (rec : V → Int → Bool → Int → IterAct V Unit) (B : V) (nIts : Int)
    (z : Bool) (startLevel : Int) (X : V) (Fine : LevelPtr) (e : Failure)
    (h0 : 0 ≤ startLevel) (hF : s.Levels_[startLevel.toNat]? = some Fine)
    (hA : getMatrixOutcome s Fine "A" = .error e) :
    IterateCall E IsPrintStatistics1 s Cycle rec B nIts z startLevel X =
      ⟨.error e, X, [.enterIterate startLevel B nIts X z Cycle, .get Fine "A"]⟩ := by
  have key : IPost (IterateCall E IsPrintStatistics1 s Cycle rec B nIts z startLevel) X
      (fun o X1 t => o = .error e ∧ X1 = X ∧
        t = [.enterIterate startLevel B nIts X z Cycle, .get Fine "A"]) := by
    unfold IterateCall
    apply IPost.ibind_getX
    apply IPost.ibind_emit
    apply IPost.ibind_of_eq (IterAct.LevelsAt_of_some h0 hF X)
    have hrun := IterAct.GetMatrix_run s Fine "A" X
    rw [hA] at hrun
    apply IPost.ibind_of_eq_error hrun
    exact ⟨rfl, rfl, rfl⟩
  exact IterRes.ieq_of key.ielim.1 key.ielim.2.1 key.ielim.2.2

theorem IterateCall_null (E : LinAlg SC V Map) (IsPrintStatistics1 : Bool) (s : HState)
    (Cycle : CycleType) (rec : V → Int → Bool → Int → IterAct V Unit) (B : V) (nIts : Int)
    (z : Bool) (startLevel : Int) (X : V) (Fine : LevelPtr)
    (h0 : 0 ≤ startLevel) (hF : s.Levels_[startLevel.toNat]? = some Fine)
    (hA : getMatrixOutcome s Fine "A" = .ok none) :
    IterateCall E IsPrintStatistics1 s Cycle rec B nIts z startLevel X =
      ⟨.ok (), X, [.enterIterate startLevel B nIts X z Cycle, .get Fine "A"]⟩ := by
  have key : IPost (IterateCall E IsPrintStatistics1 s Cycle rec B nIts z startLevel) X
      (fun o X1 t => o = .ok () ∧ X1 = X ∧
        t = [.enterIterate startLevel B nIts X z Cycle, .get Fine "A"]) := by
    unfold IterateCall
    apply IPost.ibind_getX
    apply IPost.ibind_emit
    apply IPost.ibind_of_eq (IterAct.LevelsAt_of_some h0 hF X)
    have hrun := IterAct.GetMatrix_run s Fine "A" X
    rw [hA] at hrun
    apply IPost.ibind_of_eq hrun
    exact ⟨rfl, rfl, rfl⟩
  exact IterRes.ieq_of key.ielim.1 key.ielim.2.1 key.ielim.2.2

theorem IterateCall_loop (E : LinAlg SC V Map) (IsPrintStatistics1 : Bool) (s : HState)
    (Cycle : CycleType) (rec : V → Int → Bool → Int → IterAct V Unit) (B : V) (nIts : Int)
    (z : Bool) (startLevel : Int) (X : V) (Fine : LevelPtr) (A : MatrixRef)
    (h0 : 0 ≤ startLevel) (hF : s.Levels_[startLevel.toNat]? = some Fine)
    (hA : getMatrixOutcome s Fine "A" = .ok (some A)) :
    IterateCall E IsPrintStatistics1 s Cycle rec B nIts z startLevel X =
      ⟨(IterateLoop (IterateBody E IsPrintStatistics1 s Cycle rec Fine A startLevel B)
          nIts.toNat 1 z X).out,
       (IterateLoop (IterateBody E IsPrintStatistics1 s Cycle rec Fine A startLevel B)
          nIts.toNat 1 z X).X,
       [.enterIterate startLevel B nIts X z Cycle, .get Fine "A"] ++
         (printTrace IsPrintStatistics1 s startLevel A B 0 X ++
          (IterateLoop (IterateBody E IsPrintStatistics1 s Cycle rec Fine A startLevel B)
            nIts.toNat 1 z X).tr)⟩ := by
  have key : IPost (IterateCall E IsPrintStatistics1 s Cycle rec B nIts z startLevel) X
      (fun o X1 t =>
        o = (IterateLoop (IterateBody E IsPrintStatistics1 s Cycle rec Fine A startLevel B)
          nIts.toNat 1 z X).out ∧
        X1 = (IterateLoop (IterateBody E IsPrintStatistics1 s Cycle rec Fine A startLevel B)
          nIts.toNat 1 z X).X ∧
        t = [.enterIterate startLevel B nIts X z Cycle, .get Fine "A"] ++
         (printTrace IsPrintStatistics1 s startLevel A B 0 X ++
          (IterateLoop (IterateBody E IsPrintStatistics1 s Cycle rec Fine A startLevel B)
            nIts.toNat 1 z X).tr)) := by
    unfold IterateCall
    apply IPost.ibind_getX
    apply IPost.ibind_emit
    apply IPost.ibind_of_eq (IterAct.LevelsAt_of_some h0 hF X)
    have hrun := IterAct.GetMatrix_run s Fine "A" X
    rw [hA] at hrun
    apply IPost.ibind_of_eq hrun
    simp only []
    apply IPost.ibind_of_eq (PrintResidual_run _ _ _ _ _ _ _)
    exact ⟨rfl, rfl, rfl⟩
  exact IterRes.ieq_of key.ielim.1 key.ielim.2.1 key.ielim.2.2

theorem getMatrixOutcome_of_stored {s : HState} {level : LevelPtr} {name : String}
    {Ao : Option Matrix} (h : ((s.heap level).store ⟨name, none⟩).value = some (.matrix Ao)) :
    getMatrixOutcome s level name = .ok (Ao.map (fun _ => ⟨level, name⟩)) := by
  unfold getMatrixOutcome
  rw [h]
  cases Ao <;> rfl

/-- C13: for every hierarchy, `B`, `X`, initial-guess flag, cycle type and `startLevel`, a
call of `Iterate` with `nIts <= 0` leaves `X` with its input value, applies no smoother,
performs no map-compatibility check and makes no recursive call (the only entry of
`Iterate` in its trace is its own); it returns normally whenever `startLevel` is a level
of the chain on which an operator "A", null or not, is stored. -/
theorem Iterate_without_iterations (E : LinAlg SC V Map) (IsPrintStatistics1 : Bool) (s : HState)
    (B : V) (nIts : Int) (InitialGuessIsZero : Bool) (Cycle : CycleType) (startLevel : Int)
    (X : V) (hn : nIts ≤ 0) :
    (Iterate E IsPrintStatistics1 s B nIts InitialGuessIsZero Cycle startLevel X).X = X ∧
    (∀ e ∈ (Iterate E IsPrintStatistics1 s B nIts InitialGuessIsZero Cycle startLevel X).tr,
      e.isSmootherApply = false ∧ e.isMapCheck = false) ∧
    (Iterate E IsPrintStatistics1 s B nIts InitialGuessIsZero Cycle startLevel X).tr.filter
        IterEvent.isEnter =
      [.enterIterate startLevel B nIts X InitialGuessIsZero Cycle] ∧
    (∀ Fine Ao, 0 ≤ startLevel → s.Levels_[startLevel.toNat]? = some Fine →
      ((s.heap Fine).store ⟨"A", none⟩).value = some (.matrix Ao) →
      (Iterate E IsPrintStatistics1 s B nIts InitialGuessIsZero Cycle startLevel X).out =
        .ok ()) := by
  unfold Iterate
  obtain ⟨rec, hrec⟩ := IterateAt_call E IsPrintStatistics1 s Cycle
    (s.Levels_.length - 1 - startLevel.toNat)
  rw [hrec]
  have hzero : nIts.toNat = 0 := Int.toNat_eq_zero.mpr hn
  by_cases hbad : startLevel < 0 ∨ s.Levels_.length ≤ startLevel.toNat
  · rw [IterateCall_outOfBounds E IsPrintStatistics1 s Cycle rec B nIts InitialGuessIsZero
      startLevel X hbad]
    refine ⟨rfl, ?_, rfl, ?_⟩
    · intro e he
      simp only [List.mem_singleton] at he
      subst he
      exact ⟨rfl, rfl⟩
    · intro Fine Ao h0 hF _
      exfalso
      have := (List.getElem?_eq_some.mp hF).1
      omega
  · have h0 : 0 ≤ startLevel := by omega
    have hlt : startLevel.toNat < s.Levels_.length := by omega
    obtain ⟨Fine, hF⟩ : ∃ Fine, s.Levels_[startLevel.toNat]? = some Fine :=
      ⟨_, List.getElem?_eq_getElem hlt⟩
    rcases hA : getMatrixOutcome s Fine "A" with e | Ar
    · rw [IterateCall_get_error E IsPrintStatistics1 s Cycle rec B nIts InitialGuessIsZero
        startLevel X Fine e h0 hF hA]
      refine ⟨rfl, ?_, rfl, ?_⟩
      · intro ev hev
        simp only [List.mem_cons, List.mem_singleton, List.not_mem_nil, or_false] at hev
        rcases hev with hev | hev <;> subst hev <;> exact ⟨rfl, rfl⟩
      · intro Fine1 Ao _ hF1 hst
        exfalso
        rw [hF] at hF1
        cases hF1
        rw [getMatrixOutcome_of_stored hst] at hA
        exact absurd hA (by simp)
    · cases Ar with
      | none =>
        rw [IterateCall_null E IsPrintStatistics1 s Cycle rec B nIts InitialGuessIsZero
          startLevel X Fine h0 hF hA]
        refine ⟨rfl, ?_, rfl, fun _ _ _ _ _ => rfl⟩
        intro ev hev
        simp only [List.mem_cons, List.mem_singleton, List.not_mem_nil, or_false] at hev
        rcases hev with hev | hev <;> subst hev <;> exact ⟨rfl, rfl⟩
      | some A =>
        rw [IterateCall_loop E IsPrintStatistics1 s Cycle rec B nIts InitialGuessIsZero
          startLevel X Fine A h0 hF hA, hzero]
        have hloop : IterateLoop
            (IterateBody E IsPrintStatistics1 s Cycle rec Fine A startLevel B) 0 1
            InitialGuessIsZero X = ⟨.ok (), X, []⟩ := rfl
        rw [hloop]
        refine ⟨rfl, ?_, ?_, fun _ _ _ _ _ => rfl⟩
        · intro ev hev
          unfold printTrace at hev
          split at hev
          · simp only [List.append_nil, List.cons_append, List.nil_append, List.mem_cons,
              List.mem_singleton, List.not_mem_nil, or_false] at hev
            rcases hev with hev | hev | hev <;> subst hev <;> exact ⟨rfl, rfl⟩
          · simp only [List.append_nil, List.mem_cons, List.mem_singleton,
              List.not_mem_nil, or_false] at hev
            rcases hev with hev | hev <;> subst hev <;> exact ⟨rfl, rfl⟩
        · unfold printTrace
          split <;> rfl

/-- Witness for C13: no iteration on the one-level hierarchy over a 10-row operator. -/
theorem Iterate_without_iterations_witness :
    (0 : Int) ≤ 0 ∧
    (Iterate (identityAlgebra Int Unit) false smallHierarchy (fun _ => 3) 0 true 0 0
      (fun _ => 7)).X = (fun _ => 7) :=
  ⟨le_refl 0, (Iterate_without_iterations (identityAlgebra Int Unit) false smallHierarchy
    (fun _ => 3) 0 true 0 0 (fun _ => 7) (le_refl 0)).1⟩

/-- C14: when the value stored for "A" on the level `startLevel` is the null handle,
`Iterate` returns at once, normally and not with an error, for every `nIts` and cycle
type: `X` keeps its input value and the call does nothing but fetch "A"; no smoother is
applied, no residual is computed and no recursive call is made. -/
theorem Iterate_null_A_returns (E : LinAlg SC V Map) (IsPrintStatistics1 : Bool) (s : HState)
    (B : V) (nIts : Int) (InitialGuessIsZero : Bool) (Cycle : CycleType) (startLevel : Int)
    (X : V) (Fine : LevelPtr) (h0 : 0 ≤ startLevel)
    (hF : s.Levels_[startLevel.toNat]? = some Fine)
    (hA : ((s.heap Fine).store ⟨"A", none⟩).value = some (.matrix none)) :
    (Iterate E IsPrintStatistics1 s B nIts InitialGuessIsZero Cycle startLevel X).out = .ok () ∧
    (Iterate E IsPrintStatistics1 s B nIts InitialGuessIsZero Cycle startLevel X).X = X ∧
    (Iterate E IsPrintStatistics1 s B nIts InitialGuessIsZero Cycle startLevel X).tr =
      [.enterIterate startLevel B nIts X InitialGuessIsZero Cycle, .get Fine "A"] ∧
    (∀ e ∈ (Iterate E IsPrintStatistics1 s B nIts InitialGuessIsZero Cycle startLevel X).tr,
      e.isSmootherApply = false ∧ e.isResidual = false ∧ e.isMapCheck = false) ∧
    (Iterate E IsPrintStatistics1 s B nIts InitialGuessIsZero Cycle startLevel X).tr.filter
        IterEvent.isEnter =
      [.enterIterate startLevel B nIts X InitialGuessIsZero Cycle] := by
  unfold Iterate
  obtain ⟨rec, hrec⟩ := IterateAt_call E IsPrintStatistics1 s Cycle
    (s.Levels_.length - 1 - startLevel.toNat)
  rw [hrec, IterateCall_null E IsPrintStatistics1 s Cycle rec B nIts InitialGuessIsZero
    startLevel X Fine h0 hF (getMatrixOutcome_of_stored hA)]
  refine ⟨rfl, rfl, rfl, ?_, rfl⟩
  intro ev hev
  simp only [List.mem_cons, List.mem_singleton, List.not_mem_nil, or_false] at hev
  rcases hev with hev | hev <;> subst hev <;> exact ⟨rfl, rfl, rfl⟩

theorem Iterate_without_A_fails (E : LinAlg SC V Map) (IsPrintStatistics1 : Bool) (s : HState)
    (B : V) (nIts : Int) (InitialGuessIsZero : Bool) (Cycle : CycleType) (startLevel : Int)
    (X : V) (Fine : LevelPtr) (h0 : 0 ≤ startLevel)
    (hF : s.Levels_[startLevel.toNat]? = some Fine)
    (hA : (s.heap Fine).IsAvailable "A" = false) :
    Iterate E IsPrintStatistics1 s B nIts InitialGuessIsZero Cycle startLevel X =
      ⟨.error .NotAvailable, X,
        [.enterIterate startLevel B nIts X InitialGuessIsZero Cycle, .get Fine "A"]⟩ := by
  unfold Iterate
  obtain ⟨rec, hrec⟩ := IterateAt_call E IsPrintStatistics1 s Cycle
    (s.Levels_.length - 1 - startLevel.toNat)
  have hnone : ((s.heap Fine).store ⟨"A", none⟩).value = none := by
    simpa [Level.IsAvailable] using hA
  have hout : getMatrixOutcome s Fine "A" = .error .NotAvailable := by
    unfold getMatrixOutcome
    rw [hnone]
  rw [hrec, IterateCall_get_error E IsPrintStatistics1 s Cycle rec B nIts InitialGuessIsZero
    startLevel X Fine _ h0 hF hout]

/-- Witness for C14: the hierarchy built over a null operator handle. -/
theorem Iterate_null_A_returns_witness :
    ((0 : Int) ≤ 0 ∧ nullHierarchy.Levels_[(0 : Int).toNat]? = some 0 ∧
      ((nullHierarchy.heap 0).store ⟨"A", none⟩).value = some (.matrix none)) ∧
    (Iterate (identityAlgebra Int Unit) true nullHierarchy (fun _ => 3) 5 false 2 0
      (fun _ => 7)).out = .ok () ∧
    (Iterate (identityAlgebra Int Unit) true nullHierarchy (fun _ => 3) 5 false 2 0
      (fun _ => 7)).X = (fun _ => 7) :=
  have h := Iterate_null_A_returns (identityAlgebra Int Unit) true nullHierarchy (fun _ => 3) 5
    false 2 0 (fun _ => 7) 0 (le_refl 0) (by decide!) (by decide!)
  ⟨⟨le_refl 0, by decide!, by decide!⟩, h.1, h.2.1⟩

theorem CycleDescend_congr (E : LinAlg SC V Map) (Cycle : CycleType)
    (rec1 rec2 : V → Int → Bool → Int → IterAct V Unit) (startLevel : Int)
    (h : ∀ B z, rec1 B 1 z (startLevel + 1) = rec2 B 1 z (startLevel + 1))
    (coarseRhs coarseX : V) :
    CycleDescend E Cycle rec1 startLevel coarseRhs coarseX =
      CycleDescend E Cycle rec2 startLevel coarseRhs coarseX := by
  unfold CycleDescend
  rw [h, h]

theorem CycleRecurse_congr (E : LinAlg SC V Map) (s : HState) (Cycle : CycleType)
    (rec1 rec2 : V → Int → Bool → Int → IterAct V Unit) (startLevel : Int)
    (h : ∀ B z, rec1 B 1 z (startLevel + 1) = rec2 B 1 z (startLevel + 1))
    (Coarse : LevelPtr) (coarseRhs coarseX : V) (origMap : Map) :
    CycleRecurse E s Cycle rec1 Coarse startLevel coarseRhs coarseX origMap =
      CycleRecurse E s Cycle rec2 Coarse startLevel coarseRhs coarseX origMap := by
  unfold CycleRecurse
  simp only [CycleDescend_congr E Cycle rec1 rec2 startLevel h]

theorem IterateCycle_congr (E : LinAlg SC V Map) (s : HState) (Cycle : CycleType)
    (rec1 rec2 : V → Int → Bool → Int → IterAct V Unit) (startLevel : Int)
    (h : ∀ B z, rec1 B 1 z (startLevel + 1) = rec2 B 1 z (startLevel + 1))
    (Fine : LevelPtr) (A : MatrixRef) (B : V) (zeroGuess : Bool) :
    IterateCycle E s Cycle rec1 Fine A startLevel B zeroGuess =
      IterateCycle E s Cycle rec2 Fine A startLevel B zeroGuess := by
  unfold IterateCycle
  simp only [CycleRecurse_congr E s Cycle rec1 rec2 startLevel h]

theorem IterateBody_congr (E : LinAlg SC V Map) (IsPrintStatistics1 : Bool) (s : HState)
    (Cycle : CycleType) (rec1 rec2 : V → Int → Bool → Int → IterAct V Unit) (startLevel : Int)
    (h : startLevel ≠ (s.Levels_.length : Int) - 1 →
      ∀ B z, rec1 B 1 z (startLevel + 1) = rec2 B 1 z (startLevel + 1))
    (Fine : LevelPtr) (A : MatrixRef) (B : V) :
    IterateBody E IsPrintStatistics1 s Cycle rec1 Fine A startLevel B =
      IterateBody E IsPrintStatistics1 s Cycle rec2 Fine A startLevel B := by
  funext i zeroGuess
  unfold IterateBody
  by_cases hc : startLevel = (s.Levels_.length : Int) - 1
  · simp only [if_pos hc]
  · simp only [if_neg hc, IterateCycle_congr E s Cycle rec1 rec2 startLevel (h hc)]

/-- The defining equation of `Hierarchy::Iterate`: a call is the body of the function
with `Iterate` itself as the function it calls recursively. -/
theorem Iterate_unfold (E : LinAlg SC V Map) (IsPrintStatistics1 : Bool) (s : HState) (B : V)
    (nIts : Int) (InitialGuessIsZero : Bool) (Cycle : CycleType) (startLevel : Int) (X : V) :
    Iterate E IsPrintStatistics1 s B nIts InitialGuessIsZero Cycle startLevel X =
      IterateCall E IsPrintStatistics1 s Cycle
        (fun B1 n1 z1 l1 => Iterate E IsPrintStatistics1 s B1 n1 z1 Cycle l1)
        B nIts InitialGuessIsZero startLevel X := by
  unfold Iterate
  obtain ⟨rec, hrec⟩ := IterateAt_call E IsPrintStatistics1 s Cycle
    (s.Levels_.length - 1 - startLevel.toNat)
  by_cases hbad : startLevel < 0 ∨ s.Levels_.length ≤ startLevel.toNat
  · rw [hrec, IterateCall_outOfBounds E IsPrintStatistics1 s Cycle rec B nIts
      InitialGuessIsZero startLevel X hbad, IterateCall_outOfBounds E IsPrintStatistics1 s
      Cycle _ B nIts InitialGuessIsZero startLevel X hbad]
  · have h0 : 0 ≤ startLevel := by omega
    have hlt : startLevel.toNat < s.Levels_.length := by omega
    obtain ⟨Fine, hF⟩ : ∃ Fine, s.Levels_[startLevel.toNat]? = some Fine :=
      ⟨_, List.getElem?_eq_getElem hlt⟩
    rcases hA : getMatrixOutcome s Fine "A" with e | Ar
    · rw [hrec, IterateCall_get_error E IsPrintStatistics1 s Cycle rec B nIts
        InitialGuessIsZero startLevel X Fine e h0 hF hA, IterateCall_get_error E
        IsPrintStatistics1 s Cycle _ B nIts InitialGuessIsZero startLevel X Fine e h0 hF hA]
    · cases Ar with
      | none =>
        rw [hrec, IterateCall_null E IsPrintStatistics1 s Cycle rec B nIts
          InitialGuessIsZero startLevel X Fine h0 hF hA, IterateCall_null E
          IsPrintStatistics1 s Cycle _ B nIts InitialGuessIsZero startLevel X Fine h0 hF hA]
      | some A =>
        clear hrec rec
        rcases hd : s.Levels_.length - 1 - startLevel.toNat with _ | d
        · show IterateCall E IsPrintStatistics1 s Cycle _ B nIts InitialGuessIsZero
            startLevel X = _
          rw [IterateCall_loop E IsPrintStatistics1 s Cycle _ B nIts InitialGuessIsZero
            startLevel X Fine A h0 hF hA, IterateCall_loop E IsPrintStatistics1 s Cycle _ B
            nIts InitialGuessIsZero startLevel X Fine A h0 hF hA]
          have hb := IterateBody_congr E IsPrintStatistics1 s Cycle
            (fun _ _ _ _ => IterAct.raise .outOfBounds)
            (fun B1 n1 z1 l1 => IterateAt E IsPrintStatistics1 s Cycle
              (s.Levels_.length - 1 - l1.toNat) B1 n1 z1 l1) startLevel
            (fun hne => absurd (show startLevel = (s.Levels_.length : Int) - 1 by omega) hne)
            Fine A B
          rw [hb]
        · show IterateCall E IsPrintStatistics1 s Cycle _ B nIts InitialGuessIsZero
            startLevel X = _
          rw [IterateCall_loop E IsPrintStatistics1 s Cycle _ B nIts InitialGuessIsZero
            startLevel X Fine A h0 hF hA, IterateCall_loop E IsPrintStatistics1 s Cycle _ B
            nIts InitialGuessIsZero startLevel X Fine A h0 hF hA]
          have hb := IterateBody_congr E IsPrintStatistics1 s Cycle
            (IterateAt E IsPrintStatistics1 s Cycle d)
            (fun B1 n1 z1 l1 => IterateAt E IsPrintStatistics1 s Cycle
              (s.Levels_.length - 1 - l1.toNat) B1 n1 z1 l1) startLevel
            (fun _ B1 z1 => by
              have hdd : s.Levels_.length - 1 - (startLevel + 1).toNat = d := by omega
              simp only [hdd])
            Fine A B
          rw [hb]

theorem getSmootherOutcome_of_stored {s : HState} {level : LevelPtr} {name : String} {h : Nat}
    (hv : ((s.heap level).store ⟨name, none⟩).value = some (.smoother h)) :
    getSmootherOutcome s level name = .ok h := by
  unfold getSmootherOutcome
  rw [hv]

theorem IsAvailable_of_stored {s : HState} {level : LevelPtr} {name : String}
    {smoo : Option Nat}
    (hv : ((s.heap level).store ⟨name, none⟩).value = smoo.map Value.smoother) :
    (s.heap level).IsAvailable name = smoo.isSome := by
  unfold Level.IsAvailable
  rw [hv]
  cases smoo <;> rfl

theorem ApplySmoother_run (E : LinAlg SC V Map) (level : LevelPtr) (name : String) (smoo : Nat)
    (B : V) (zeroGuess : Bool) (X : V) :
    ApplySmoother E level name smoo B zeroGuess X =
      ⟨.ok (), E.Apply smoo X B zeroGuess,
        [.smootherApply level name smoo X B zeroGuess]⟩ := rfl

theorem CoarsestPre_run (E : LinAlg SC V Map) (s : HState) (Fine : LevelPtr) (B : V)
    (zeroGuess : Bool) (X : V) (pre : Option Nat)
    (hpre : ((s.heap Fine).store ⟨"PreSmoother", none⟩).value = pre.map Value.smoother) :
    CoarsestPre E s Fine B zeroGuess X =
      ⟨.ok (zeroGuess && pre.isNone, pre.isNone),
       (smootherStep E Fine "PreSmoother" pre B zeroGuess X).1,
       (smootherStep E Fine "PreSmoother" pre B zeroGuess X).2⟩ := by
  have key : IPost (CoarsestPre E s Fine B zeroGuess) X (fun o X1 t =>
      o = .ok (zeroGuess && pre.isNone, pre.isNone) ∧
      X1 = (smootherStep E Fine "PreSmoother" pre B zeroGuess X).1 ∧
      t = (smootherStep E Fine "PreSmoother" pre B zeroGuess X).2) := by
    unfold CoarsestPre
    rw [IsAvailable_of_stored hpre]
    cases pre with
    | none =>
      rw [if_neg (by simp)]
      apply IPost.ipure
      exact ⟨by simp, rfl, rfl⟩
    | some h =>
      rw [if_pos (by simp)]
      have hrun := IterAct.GetSmoother_run s Fine "PreSmoother" X
      rw [getSmootherOutcome_of_stored (by simpa using hpre)] at hrun
      apply IPost.ibind_of_eq hrun
      apply IPost.ibind_of_eq (ApplySmoother_run _ _ _ _ _ _ _)
      apply IPost.ipure
      exact ⟨by simp, rfl, rfl⟩
  exact IterRes.ieq_of key.ielim.1 key.ielim.2.1 key.ielim.2.2

theorem CoarsestPost_run (E : LinAlg SC V Map) (s : HState) (Fine : LevelPtr) (B : V)
    (zeroGuess emptySolve : Bool) (X : V) (post : Option Nat)
    (hpost : ((s.heap Fine).store ⟨"PostSmoother", none⟩).value = post.map Value.smoother) :
    CoarsestPost E s Fine B zeroGuess emptySolve X =
      ⟨.ok (emptySolve && post.isNone),
       (smootherStep E Fine "PostSmoother" post B zeroGuess X).1,
       (smootherStep E Fine "PostSmoother" post B zeroGuess X).2⟩ := by
  have key : IPost (CoarsestPost E s Fine B zeroGuess emptySolve) X (fun o X1 t =>
      o = .ok (emptySolve && post.isNone) ∧
      X1 = (smootherStep E Fine "PostSmoother" post B zeroGuess X).1 ∧
      t = (smootherStep E Fine "PostSmoother" post B zeroGuess X).2) := by
    unfold CoarsestPost
    rw [IsAvailable_of_stored hpost]
    cases post with
    | none =>
      rw [if_neg (by simp)]
      apply IPost.ipure
      exact ⟨by simp, rfl, rfl⟩
    | some h =>
      rw [if_pos (by simp)]
      have hrun := IterAct.GetSmoother_run s Fine "PostSmoother" X
      rw [getSmootherOutcome_of_stored (by simpa using hpost)] at hrun
      apply IPost.ibind_of_eq hrun
      apply IPost.ibind_of_eq (ApplySmoother_run _ _ _ _ _ _ _)
      apply IPost.ipure
      exact ⟨by simp, rfl, rfl⟩
  exact IterRes.ieq_of key.ielim.1 key.ielim.2.1 key.ielim.2.2

theorem IterateCoarsest_run (E : LinAlg SC V Map) (s : HState) (Fine : LevelPtr) (B : V)
    (zeroGuess : Bool) (X : V) (pre post : Option Nat)
    (hpre : ((s.heap Fine).store ⟨"PreSmoother", none⟩).value = pre.map Value.smoother)
    (hpost : ((s.heap Fine).store ⟨"PostSmoother", none⟩).value = post.map Value.smoother) :
    IterateCoarsest E s Fine B zeroGuess X =
      ⟨.ok (),
       (smootherStep E Fine "PostSmoother" post B (zeroGuess && pre.isNone)
         (smootherStep E Fine "PreSmoother" pre B zeroGuess X).1).1,
       (smootherStep E Fine "PreSmoother" pre B zeroGuess X).2 ++
       ((smootherStep E Fine "PostSmoother" post B (zeroGuess && pre.isNone)
         (smootherStep E Fine "PreSmoother" pre B zeroGuess X).1).2 ++
        (if pre.isNone && post.isNone then [.warning "Warning: No coarse grid solver"]
         else []))⟩ := by
  have key : IPost (IterateCoarsest E s Fine B zeroGuess) X (fun o X1 t =>
      o = .ok () ∧
      X1 = (smootherStep E Fine "PostSmoother" post B (zeroGuess && pre.isNone)
         (smootherStep E Fine "PreSmoother" pre B zeroGuess X).1).1 ∧
      t = (smootherStep E Fine "PreSmoother" pre B zeroGuess X).2 ++
       ((smootherStep E Fine "PostSmoother" post B (zeroGuess && pre.isNone)
         (smootherStep E Fine "PreSmoother" pre B zeroGuess X).1).2 ++
        (if pre.isNone && post.isNone then [.warning "Warning: No coarse grid solver"]
         else []))) := by
    unfold IterateCoarsest
    apply IPost.ibind_of_eq (CoarsestPre_run E s Fine B zeroGuess X pre hpre)
    apply IPost.ibind_of_eq (CoarsestPost_run E s Fine B _ _ _ post hpost)
    by_cases hw : (pre.isNone && post.isNone) = true
    · rw [if_pos hw, if_pos hw]
      exact ⟨rfl, rfl, rfl⟩
    · rw [if_neg hw, if_neg hw]
      exact ⟨rfl, rfl, rfl⟩
  exact IterRes.ieq_of key.ielim.1 key.ielim.2.1 key.ielim.2.2

theorem CheckMaps_ok (E : LinAlg SC V Map) (startLevel : Int) (A : MatrixRef) (B X : V)
    (hd : E.isCompatible (E.getDomainMap A) (E.getMap X) = true)
    (hr : E.isCompatible (E.getRangeMap A) (E.getMap B) = true) :
    CheckMaps E startLevel A B X =
      ⟨.ok (), X, [.checkDomainMap startLevel, .checkRangeMap startLevel]⟩ := by
  unfold CheckMaps
  rw [if_neg (by simp [hd]), if_neg (by simp [hr])]

theorem IterateBody_coarsest_run (E : LinAlg SC V Map) (IsPrintStatistics1 : Bool) (s : HState)
    (Cycle : CycleType) (rec : V → Int → Bool → Int → IterAct V Unit) (Fine : LevelPtr)
    (A : MatrixRef) (startLevel : Int) (B : V) (i : Int) (zeroGuess : Bool) (X : V)
    (pre post : Option Nat) (hl : startLevel = (s.Levels_.length : Int) - 1)
    (hd : E.isCompatible (E.getDomainMap A) (E.getMap X) = true)
    (hr : E.isCompatible (E.getRangeMap A) (E.getMap B) = true)
    (hpre : ((s.heap Fine).store ⟨"PreSmoother", none⟩).value = pre.map Value.smoother)
    (hpost : ((s.heap Fine).store ⟨"PostSmoother", none⟩).value = post.map Value.smoother) :
    IterateBody E IsPrintStatistics1 s Cycle rec Fine A startLevel B i zeroGuess X =
      ⟨.ok (),
       (smootherStep E Fine "PostSmoother" post B (zeroGuess && pre.isNone)
         (smootherStep E Fine "PreSmoother" pre B zeroGuess X).1).1,
       [.checkDomainMap startLevel, .checkRangeMap startLevel] ++
       (((smootherStep E Fine "PreSmoother" pre B zeroGuess X).2 ++
         ((smootherStep E Fine "PostSmoother" post B (zeroGuess && pre.isNone)
           (smootherStep E Fine "PreSmoother" pre B zeroGuess X).1).2 ++
          (if pre.isNone && post.isNone then [.warning "Warning: No coarse grid solver"]
           else []))) ++
        printTrace IsPrintStatistics1 s startLevel A B i
          (smootherStep E Fine "PostSmoother" post B (zeroGuess && pre.isNone)
            (smootherStep E Fine "PreSmoother" pre B zeroGuess X).1).1)⟩ := by
  have key : IPost (IterateBody E IsPrintStatistics1 s Cycle rec Fine A startLevel B i
      zeroGuess) X (fun o X1 t => o = .ok () ∧
      X1 = (smootherStep E Fine "PostSmoother" post B (zeroGuess && pre.isNone)
         (smootherStep E Fine "PreSmoother" pre B zeroGuess X).1).1 ∧
      t = [.checkDomainMap startLevel, .checkRangeMap startLevel] ++
       (((smootherStep E Fine "PreSmoother" pre B zeroGuess X).2 ++
         ((smootherStep E Fine "PostSmoother" post B (zeroGuess && pre.isNone)
           (smootherStep E Fine "PreSmoother" pre B zeroGuess X).1).2 ++
          (if pre.isNone && post.isNone then [.warning "Warning: No coarse grid solver"]
           else []))) ++
        printTrace IsPrintStatistics1 s startLevel A B i
          (smootherStep E Fine "PostSmoother" post B (zeroGuess && pre.isNone)
            (smootherStep E Fine "PreSmoother" pre B zeroGuess X).1).1)) := by
    unfold IterateBody
    apply IPost.ibind_of_eq (CheckMaps_ok E startLevel A B X hd hr)
    rw [if_pos hl]
    apply IPost.ibind_of_eq (IterateCoarsest_run E s Fine B zeroGuess X pre post hpre hpost)
    apply IPost.iof_eq (PrintResidual_run _ _ _ _ _ _ _)
    exact ⟨rfl, rfl, rfl⟩
  exact IterRes.ieq_of key.ielim.1 key.ielim.2.1 key.ielim.2.2

section walk
variable {α β : Type} {J : V → Prop} {φ : Failure → Prop} {ψ : IterEvent V → Prop}

theorem Walk.bind_walk {x : IterAct V α} {f : α → IterAct V β} (hx : Walk J φ ψ x)
    (hf : ∀ a, Walk J φ ψ (f a)) : Walk J φ ψ (x >>= f) := by
  constructor
  intro X hX
  have h1 := hx.run X hX
  rcases ho : (x X).out with e | a
  · rw [IterAct.ibind_of_error ho]
    exact ⟨h1.1, fun e1 he1 => by cases he1; exact h1.2.1 e ho, h1.2.2⟩
  · rw [IterAct.ibind_of_ok ho]
    have h2 := (hf a).run (x X).X h1.1
    refine ⟨h2.1, h2.2.1, ?_⟩
    intro ev hev
    rcases List.mem_append.mp hev with h | h
    · exact h1.2.2 ev h
    · exact h2.2.2 ev h

theorem Walk.pure_walk (a : α) : Walk J φ ψ (pure a : IterAct V α) :=
  ⟨fun X hX => by
    have hrun : (pure a : IterAct V α) X = ⟨.ok a, X, []⟩ := rfl
    rw [hrun]
    exact ⟨hX, fun _ he => absurd he (by simp), fun _ hev => absurd hev (by simp)⟩⟩

theorem Walk.raise_walk {e : Failure} (he : φ e) : Walk J φ ψ (IterAct.raise e : IterAct V α) :=
  ⟨fun _ hX => ⟨hX, fun e1 h1 => by
      simp only [IterAct.raise, Except.error.injEq] at h1
      rw [← h1]
      exact he,
    fun _ hev => absurd hev (by simp [IterAct.raise])⟩⟩

theorem Walk.emit_walk {ev : IterEvent V} (hev : ψ ev) : Walk J φ ψ (IterAct.emit ev) :=
  ⟨fun _ hX => ⟨hX, fun _ he => absurd he (by simp [IterAct.emit]),
    fun ev1 h1 => by
      simp only [IterAct.emit, List.mem_singleton] at h1
      rw [h1]
      exact hev⟩⟩

theorem Walk.getX_walk : Walk J φ ψ (IterAct.getX : IterAct V V) :=
  ⟨fun _ hX => ⟨hX, fun _ he => absurd he (by simp [IterAct.getX]),
    fun _ hev => absurd hev (by simp [IterAct.getX])⟩⟩

theorem Walk.of_run {x : IterAct V α} (h : ∀ X, J X → J (x X).X ∧
    (∀ e, (x X).out = .error e → φ e) ∧ ∀ ev ∈ (x X).tr, ψ ev) : Walk J φ ψ x := ⟨h⟩

theorem Walk.onVector_walk {v : V} {x : IterAct V Unit}
    (h : (∀ e, (x v).out = .error e → φ e) ∧ ∀ ev ∈ (x v).tr, ψ ev) :
    Walk J φ ψ (IterAct.onVector v x) := by
  constructor
  intro X hX
  unfold IterAct.onVector
  rcases hr : x v with ⟨o, v1, t1⟩
  rw [hr] at h
  cases o with
  | error e => exact ⟨hX, fun e1 he1 => by cases he1; exact h.1 e rfl, h.2⟩
  | ok u => exact ⟨hX, fun e1 he1 => absurd he1 (by simp), h.2⟩

variable {E : LinAlg SC V Map}

theorem Walk.LevelsAt_walk (H : WalkHyp E J φ ψ) (s : HState) (i : Int) :
    Walk J φ ψ (IterAct.LevelsAt s i : IterAct V LevelPtr) := by
  unfold IterAct.LevelsAt
  split
  · split
    · exact Walk.pure_walk _
    · exact Walk.raise_walk H.outOfBounds
  · exact Walk.raise_walk H.outOfBounds

theorem Walk.GetMatrix_walk (H : WalkHyp E J φ ψ) (s : HState) (level : LevelPtr)
    (name : String) : Walk J φ ψ (IterAct.GetMatrix s level name : IterAct V _) := by
  unfold IterAct.GetMatrix
  apply Walk.bind_walk (Walk.emit_walk (by exact H.event _ rfl))
  intro _
  split
  · exact Walk.pure_walk _
  · exact Walk.pure_walk _
  · exact Walk.raise_walk H.badCast
  · exact Walk.raise_walk H.NotAvailable

theorem Walk.GetSmoother_walk (H : WalkHyp E J φ ψ) (s : HState) (level : LevelPtr)
    (name : String) : Walk J φ ψ (IterAct.GetSmoother s level name : IterAct V _) := by
  unfold IterAct.GetSmoother
  apply Walk.bind_walk (Walk.emit_walk (by exact H.event _ rfl))
  intro _
  split
  · exact Walk.pure_walk _
  · exact Walk.raise_walk H.badCast
  · exact Walk.raise_walk H.NotAvailable

theorem Walk.ApplySmoother_walk (H : WalkHyp E J φ ψ) (level : LevelPtr) (name : String)
    (smoo : Nat) (B : V) (z : Bool) : Walk J φ ψ (ApplySmoother E level name smoo B z) :=
  ⟨fun X hX => ⟨H.apply_keeps smoo X B z hX, fun _ he => absurd he (by simp [ApplySmoother]),
    fun ev hev => by
      simp only [ApplySmoother, List.mem_singleton] at hev
      rw [hev]
      exact H.event _ rfl⟩⟩

theorem Walk.PrintResidual_walk (H : WalkHyp E J φ ψ) (IsPrintStatistics1 : Bool) (s : HState)
    (startLevel : Int) (A : MatrixRef) (B : V) (i : Int) :
    Walk J φ ψ (PrintResidual IsPrintStatistics1 s startLevel A B i) := by
  constructor
  intro X hX
  rw [PrintResidual_run]
  refine ⟨hX, fun _ he => absurd he (by simp), ?_⟩
  intro ev hev
  unfold printTrace at hev
  split at hev
  · simp only [List.mem_singleton] at hev
    rw [hev]
    exact H.event _ rfl
  · exact absurd hev (by simp)

theorem Walk.CoarsestPre_walk (H : WalkHyp E J φ ψ) (s : HState) (Fine : LevelPtr) (B : V)
    (z : Bool) : Walk J φ ψ (CoarsestPre E s Fine B z) := by
  unfold CoarsestPre
  split
  · apply Walk.bind_walk (Walk.GetSmoother_walk H _ _ _)
    intro h
    apply Walk.bind_walk (Walk.ApplySmoother_walk H _ _ _ _ _)
    intro _
    exact Walk.pure_walk _
  · exact Walk.pure_walk _

theorem Walk.CoarsestPost_walk (H : WalkHyp E J φ ψ) (s : HState) (Fine : LevelPtr) (B : V)
    (z e : Bool) : Walk J φ ψ (CoarsestPost E s Fine B z e) := by
  unfold CoarsestPost
  split
  · apply Walk.bind_walk (Walk.GetSmoother_walk H _ _ _)
    intro h
    apply Walk.bind_walk (Walk.ApplySmoother_walk H _ _ _ _ _)
    intro _
    exact Walk.pure_walk _
  · exact Walk.pure_walk _

theorem Walk.IterateCoarsest_walk (H : WalkHyp E J φ ψ) (s : HState) (Fine : LevelPtr) (B : V)
    (z : Bool) : Walk J φ ψ (IterateCoarsest E s Fine B z) := by
  unfold IterateCoarsest
  apply Walk.bind_walk (Walk.CoarsestPre_walk H _ _ _ _)
  intro ze
  apply Walk.bind_walk (Walk.CoarsestPost_walk H _ _ _ _ _)
  intro e
  split
  · exact Walk.emit_walk (by exact H.event _ rfl)
  · exact Walk.pure_walk _

theorem Walk.CyclePre_walk (H : WalkHyp E J φ ψ) (s : HState) (Fine : LevelPtr)
    (startLevel : Int) (B : V) (z : Bool) : Walk J φ ψ (CyclePre E s Fine startLevel B z) := by
  unfold CyclePre
  split
  · apply Walk.bind_walk (Walk.GetSmoother_walk H _ _ _)
    intro h
    exact Walk.ApplySmoother_walk H _ _ _ _ _
  · exact Walk.emit_walk (by exact H.event _ rfl)

theorem Walk.CyclePost_walk (H : WalkHyp E J φ ψ) (s : HState) (Fine : LevelPtr)
    (startLevel : Int) (B : V) : Walk J φ ψ (CyclePost E s Fine startLevel B) := by
  unfold CyclePost
  split
  · apply Walk.bind_walk (Walk.GetSmoother_walk H _ _ _)
    intro h
    exact Walk.ApplySmoother_walk H _ _ _ _ _
  · exact Walk.emit_walk (by exact H.event _ rfl)

theorem Walk.CycleResidual_walk (H : WalkHyp E J φ ψ) (A : MatrixRef) (B : V) :
    Walk J φ ψ (CycleResidual E A B) :=
  ⟨fun X hX => ⟨hX, fun _ he => absurd he (by simp [CycleResidual]),
    fun ev hev => by
      simp only [CycleResidual, List.mem_singleton] at hev
      rw [hev]
      exact H.event _ rfl⟩⟩

theorem Walk.CycleRestrict_walk (H : WalkHyp E J φ ψ) (s : HState) (Coarse : LevelPtr)
    (residual : V) : Walk J φ ψ (CycleRestrict E s Coarse residual) := by
  unfold CycleRestrict
  apply Walk.bind_walk (Walk.GetMatrix_walk H _ _ _)
  intro P
  apply Walk.bind_walk Walk.getX_walk
  intro X
  cases P with
  | none => exact Walk.raise_walk H.nullPointer
  | some P =>
    simp only []
    split
    · apply Walk.bind_walk (Walk.emit_walk (by exact H.event _ rfl))
      intro _
      exact Walk.pure_walk _
    · apply Walk.bind_walk (Walk.GetMatrix_walk H _ _ _)
      intro R
      cases R with
      | none => exact Walk.raise_walk H.nullPointer
      | some R =>
        simp only []
        apply Walk.bind_walk (Walk.emit_walk (by exact H.event _ rfl))
        intro _
        exact Walk.pure_walk _

theorem Walk.CycleCorrect_walk (H : WalkHyp E J φ ψ) (P : MatrixRef) (coarseX : V) :
    Walk J φ ψ (CycleCorrect E P coarseX) :=
  ⟨fun X hX => ⟨H.update_keeps _ _ _ _ hX, fun _ he => absurd he (by simp [CycleCorrect]),
    fun ev hev => by
      simp only [CycleCorrect, List.mem_cons, List.mem_singleton, List.not_mem_nil,
        or_false] at hev
      rcases hev with hev | hev <;> rw [hev] <;> exact H.event _ rfl⟩⟩

end walk

section walkrec
variable {J : V → Prop} {φ : Failure → Prop} {ψ : IterEvent V → Prop} {E : LinAlg SC V Map}

theorem Walk.CycleDescend_walk (Cycle : CycleType)
    (rec : V → Int → Bool → Int → IterAct V Unit) (startLevel : Int)
    (H : WalkHyp E J φ ψ)
    (hrec : ∀ B z v, (∀ e, (rec B 1 z (startLevel + 1) v).out = .error e → φ e) ∧
      ∀ ev ∈ (rec B 1 z (startLevel + 1) v).tr, ψ ev)
    (coarseRhs coarseX : V) :
    Walk J φ ψ (CycleDescend E Cycle rec startLevel coarseRhs coarseX) := by
  unfold CycleDescend
  apply Walk.bind_walk (Walk.emit_walk (by exact H.event _ rfl))
  intro _
  apply Walk.bind_walk (Walk.onVector_walk (hrec _ _ _))
  intro c1
  split
  · exact Walk.onVector_walk (hrec _ _ _)
  · exact Walk.pure_walk _

theorem Walk.CycleRecurse_walk (s : HState) (Cycle : CycleType)
    (rec : V → Int → Bool → Int → IterAct V Unit) (startLevel : Int)
    (H : WalkHyp E J φ ψ)
    (hrec : ∀ B z v, (∀ e, (rec B 1 z (startLevel + 1) v).out = .error e → φ e) ∧
      ∀ ev ∈ (rec B 1 z (startLevel + 1) v).tr, ψ ev)
    (Coarse : LevelPtr) (coarseRhs coarseX : V) (origMap : Map) :
    Walk J φ ψ (CycleRecurse E s Cycle rec Coarse startLevel coarseRhs coarseX origMap) := by
  unfold CycleRecurse
  apply Walk.bind_walk (Walk.GetMatrix_walk H _ _ _)
  intro Ac
  cases Ac with
  | none => exact Walk.pure_walk _
  | some Ac =>
    simp only []
    apply Walk.bind_walk (Walk.emit_walk (by exact H.event _ rfl))
    intro _
    apply Walk.bind_walk (Walk.emit_walk (by exact H.event _ rfl))
    intro _
    apply Walk.bind_walk (Walk.CycleDescend_walk Cycle rec startLevel H hrec _ _)
    intro c
    apply Walk.bind_walk (Walk.emit_walk (by exact H.event _ rfl))
    intro _
    exact Walk.pure_walk _

theorem Walk.IterateCycle_walk (s : HState) (Cycle : CycleType)
    (rec : V → Int → Bool → Int → IterAct V Unit) (startLevel : Int)
    (H : WalkHyp E J φ ψ)
    (hrec : ∀ B z v, (∀ e, (rec B 1 z (startLevel + 1) v).out = .error e → φ e) ∧
      ∀ ev ∈ (rec B 1 z (startLevel + 1) v).tr, ψ ev)
    (Fine : LevelPtr) (A : MatrixRef) (B : V) (z : Bool) :
    Walk J φ ψ (IterateCycle E s Cycle rec Fine A startLevel B z) := by
  unfold IterateCycle
  apply Walk.bind_walk (Walk.LevelsAt_walk H _ _)
  intro Coarse
  apply Walk.bind_walk (Walk.CyclePre_walk H _ _ _ _ _)
  intro _
  apply Walk.bind_walk (Walk.CycleResidual_walk H _ _)
  intro residual
  apply Walk.bind_walk (Walk.CycleRestrict_walk H _ _ _)
  intro r
  apply Walk.bind_walk (Walk.CycleRecurse_walk s Cycle rec startLevel H hrec _ _ _ _)
  intro coarseX
  apply Walk.bind_walk (Walk.CycleCorrect_walk H _ _)
  intro _
  exact Walk.CyclePost_walk H _ _ _ _

theorem Walk.CheckMaps_walk (H : WalkHyp E J φ ψ) (startLevel : Int) (A : MatrixRef) (B : V)
    (hchk : ∀ X, J X → ∀ e, (CheckMaps E startLevel A B X).out = .error e → φ e) :
    Walk J φ ψ (CheckMaps E startLevel A B) := by
  constructor
  intro X hX
  refine ⟨?_, hchk X hX, ?_⟩
  · unfold CheckMaps
    split
    · exact hX
    · split
      · exact hX
      · exact hX
  · intro ev hev
    apply H.event
    unfold CheckMaps at hev
    split at hev
    · simp only [List.mem_singleton] at hev
      rw [hev]
      rfl
    · split at hev <;>
      · simp only [List.mem_cons, List.mem_singleton, List.not_mem_nil, or_false] at hev
        rcases hev with hev | hev <;> rw [hev] <;> rfl

theorem Walk.IterateBody_walk (IsPrintStatistics1 : Bool) (s : HState) (Cycle : CycleType)
    (rec : V → Int → Bool → Int → IterAct V Unit) (startLevel : Int)
    (H : WalkHyp E J φ ψ)
    (hrec : ∀ B z v, (∀ e, (rec B 1 z (startLevel + 1) v).out = .error e → φ e) ∧
      ∀ ev ∈ (rec B 1 z (startLevel + 1) v).tr, ψ ev)
    (Fine : LevelPtr) (A : MatrixRef) (B : V)
    (hchk : ∀ X, J X → ∀ e, (CheckMaps E startLevel A B X).out = .error e → φ e)
    (i : Int) (z : Bool) :
    Walk J φ ψ (IterateBody E IsPrintStatistics1 s Cycle rec Fine A startLevel B i z) := by
  unfold IterateBody
  apply Walk.bind_walk (Walk.CheckMaps_walk H startLevel A B hchk)
  intro _
  apply Walk.bind_walk
  · split
    · exact Walk.IterateCoarsest_walk H _ _ _ _
    · exact Walk.IterateCycle_walk s Cycle rec startLevel H hrec _ _ _ _
  · intro _
    exact Walk.PrintResidual_walk H _ _ _ _ _ _

theorem Walk.IterateLoop_walk {body : Int → Bool → IterAct V Unit}
    (hbody : ∀ i z, Walk J φ ψ (body i z)) :
    ∀ (n : Nat) (i : Int) (z : Bool), Walk J φ ψ (IterateLoop body n i z) := by
  intro n
  induction n with
  | zero =>
    intro i z
    exact Walk.pure_walk _
  | succ n ih =>
    intro i z
    show Walk J φ ψ (body i z >>= fun _ => IterateLoop body n (i + 1) false)
    exact Walk.bind_walk (hbody i z) (fun _ => ih _ _)

theorem Walk.IterateCall_walk (IsPrintStatistics1 : Bool) (s : HState) (Cycle : CycleType)
    (rec : V → Int → Bool → Int → IterAct V Unit) (startLevel : Int)
    (H : WalkHyp E J φ ψ)
    (hrec : ∀ B z v, (∀ e, (rec B 1 z (startLevel + 1) v).out = .error e → φ e) ∧
      ∀ ev ∈ (rec B 1 z (startLevel + 1) v).tr, ψ ev)
    (B : V) (nIts : Int) (z : Bool)
    (hchk : ∀ A X, J X → ∀ e, (CheckMaps E startLevel A B X).out = .error e → φ e)
    (henter : ∀ X, ψ (.enterIterate startLevel B nIts X z Cycle)) :
    Walk J φ ψ (IterateCall E IsPrintStatistics1 s Cycle rec B nIts z startLevel) := by
  unfold IterateCall
  apply Walk.bind_walk Walk.getX_walk
  intro X
  apply Walk.bind_walk (Walk.emit_walk (henter X))
  intro _
  apply Walk.bind_walk (Walk.LevelsAt_walk H _ _)
  intro Fine
  apply Walk.bind_walk (Walk.GetMatrix_walk H _ _ _)
  intro A
  cases A with
  | none => exact Walk.pure_walk _
  | some A =>
    simp only []
    apply Walk.bind_walk (Walk.PrintResidual_walk H _ _ _ _ _ _)
    intro _
    exact Walk.IterateLoop_walk
      (fun i z1 => Walk.IterateBody_walk IsPrintStatistics1 s Cycle rec startLevel H hrec Fine
        A B (hchk A) i z1) _ _ _

end walkrec

/-- Levels only go up along the recursion: a call on level `startLevel` raises
`Incompatible` only for levels from `startLevel` on, and enters `Iterate` only on such
levels. -/
theorem IterateAt_levels (E : LinAlg SC V Map) (IsPrintStatistics1 : Bool) (s : HState)
    (Cycle : CycleType) :
    ∀ (levels : Nat) (B : V) (nIts : Int) (z : Bool) (startLevel : Int) (X : V),
      (∀ e, (IterateAt E IsPrintStatistics1 s Cycle levels B nIts z startLevel X).out =
          .error e → ∀ l msg, e = .Incompatible l msg → startLevel ≤ l) ∧
      (∀ ev ∈ (IterateAt E IsPrintStatistics1 s Cycle levels B nIts z startLevel X).tr,
        ∀ l B1 n1 X1 z1 C1, ev = .enterIterate l B1 n1 X1 z1 C1 → startLevel ≤ l) := by
  intro levels
  have hyp : ∀ startLevel : Int, WalkHyp E (fun _ => True)
      (fun e => ∀ l msg, e = .Incompatible l msg → startLevel ≤ l)
      (fun ev => ∀ l B1 n1 X1 z1 C1, ev = .enterIterate l B1 n1 X1 z1 C1 → startLevel ≤ l) :=
    fun startLevel =>
    { apply_keeps := fun _ _ _ _ _ => trivial
      update_keeps := fun _ _ _ _ _ => trivial
      outOfBounds := fun _ _ h => absurd h (by simp)
      nullPointer := fun _ _ h => absurd h (by simp)
      NotAvailable := fun _ _ h => absurd h (by simp)
      badCast := fun _ _ h => absurd h (by simp)
      event := fun ev hev l B1 n1 X1 z1 C1 h => by
        rw [h] at hev
        exact absurd hev (by simp [IterEvent.isEnter]) }
  have hchk : ∀ (startLevel : Int) (B : V) (A : MatrixRef) (X : V), True →
      ∀ e, (CheckMaps E startLevel A B X).out = .error e →
        ∀ l msg, e = .Incompatible l msg → startLevel ≤ l := by
    intro startLevel B A X _ e he l msg hl
    subst hl
    unfold CheckMaps at he
    split at he
    · simp only [Except.error.injEq, Failure.Incompatible.injEq] at he
      omega
    · split at he
      · simp only [Except.error.injEq, Failure.Incompatible.injEq] at he
        omega
      · exact absurd he (by simp)
  induction levels with
  | zero =>
    intro B nIts z startLevel X
    have hw := Walk.IterateCall_walk IsPrintStatistics1 s Cycle
      (fun _ _ _ _ => IterAct.raise .outOfBounds) startLevel (hyp startLevel)
      (fun _ _ _ => ⟨fun e he l msg hl => by
          subst hl
          exact absurd he (by simp [IterAct.raise]),
        fun ev hev => absurd hev (by simp [IterAct.raise])⟩)
      B nIts z (hchk startLevel B)
      (fun X1 l B1 n1 X2 z1 C1 h => by
        simp only [IterEvent.enterIterate.injEq] at h
        omega)
    exact (hw.run X trivial).2
  | succ n ih =>
    intro B nIts z startLevel X
    have hw := Walk.IterateCall_walk IsPrintStatistics1 s Cycle
      (IterateAt E IsPrintStatistics1 s Cycle n) startLevel (hyp startLevel)
      (fun B1 z1 v => ⟨fun e he l msg hl => by
          have := (ih B1 1 z1 (startLevel + 1) v).1 e he l msg hl
          omega,
        fun ev hev l B2 n2 X2 z2 C2 h => by
          have := (ih B1 1 z1 (startLevel + 1) v).2 ev hev l B2 n2 X2 z2 C2 h
          omega⟩)
      B nIts z (hchk startLevel B)
      (fun X1 l B1 n1 X2 z1 C1 h => by
        simp only [IterEvent.enterIterate.injEq] at h
        omega)
    exact (hw.run X trivial).2

theorem IterateLoop_succ (body : Int → Bool → IterAct V Unit) (n : Nat) (i : Int) (z : Bool) :
    IterateLoop body (n + 1) i z = (body i z >>= fun _ => IterateLoop body n (i + 1) false) :=
  rfl

theorem CheckMaps_fails (E : LinAlg SC V Map) (startLevel : Int) (A : MatrixRef) (B X : V)
    (h : E.isCompatible (E.getDomainMap A) (E.getMap X) = false ∨
      E.isCompatible (E.getRangeMap A) (E.getMap B) = false) :
    CheckMaps E startLevel A B X =
      ⟨.error (.Incompatible startLevel
          (if E.isCompatible (E.getDomainMap A) (E.getMap X) = false then
            "level A's domain map is not compatible with X"
           else "level A's range map is not compatible with B")), X,
        if E.isCompatible (E.getDomainMap A) (E.getMap X) = false then
          [.checkDomainMap startLevel]
        else [.checkDomainMap startLevel, .checkRangeMap startLevel]⟩ := by
  unfold CheckMaps
  by_cases hd : E.isCompatible (E.getDomainMap A) (E.getMap X) = false
  · simp only [if_pos hd]
  · have hr : E.isCompatible (E.getRangeMap A) (E.getMap B) = false := by
      rcases h with h | h
      · exact absurd h hd
      · exact h
    simp only [if_neg hd, if_pos hr]

/-- C15: a call `Iterate(B, n, X, ...)` with `n >= 1` on a level of the chain whose "A" is
not null.  If the domain map of `A` is not compatible with the map of `X`, or the range
map of `A` is not compatible with the map of `B`, the call fails with `Incompatible` for
this level in its first outer iteration: the trace ends with the failing check, no
smoother was applied and `X` holds its input value.  If both pairs of maps are compatible
(and the in-place operations on `X`, smoothers and `update`, leave the map of `X` as it
is), the call raises no `Incompatible` for this level. -/
theorem Iterate_incompatible_maps (E : LinAlg SC V Map) (IsPrintStatistics1 : Bool) (s : HState)
    (B : V) (nIts : Int) (InitialGuessIsZero : Bool) (Cycle : CycleType) (startLevel : Int)
    (X : V) (Fine : LevelPtr) (M : Matrix) (h0 : 0 ≤ startLevel)
    (hF : s.Levels_[startLevel.toNat]? = some Fine)
    (hA : ((s.heap Fine).store ⟨"A", none⟩).value = some (.matrix (some M)))
    (hn : 1 ≤ nIts) :
    ((E.isCompatible (E.getDomainMap ⟨Fine, "A"⟩) (E.getMap X) = false ∨
        E.isCompatible (E.getRangeMap ⟨Fine, "A"⟩) (E.getMap B) = false) →
      (Iterate E IsPrintStatistics1 s B nIts InitialGuessIsZero Cycle startLevel X).out =
        .error (.Incompatible startLevel
          (if E.isCompatible (E.getDomainMap ⟨Fine, "A"⟩) (E.getMap X) = false then
            "level A's domain map is not compatible with X"
           else "level A's range map is not compatible with B")) ∧
      (Iterate E IsPrintStatistics1 s B nIts InitialGuessIsZero Cycle startLevel X).X = X ∧
      (Iterate E IsPrintStatistics1 s B nIts InitialGuessIsZero Cycle startLevel X).tr =
        [.enterIterate startLevel B nIts X InitialGuessIsZero Cycle, .get Fine "A"] ++
          (printTrace IsPrintStatistics1 s startLevel ⟨Fine, "A"⟩ B 0 X ++
            (if E.isCompatible (E.getDomainMap ⟨Fine, "A"⟩) (E.getMap X) = false then
              [.checkDomainMap startLevel]
             else [.checkDomainMap startLevel, .checkRangeMap startLevel])) ∧
      (∀ ev ∈ (Iterate E IsPrintStatistics1 s B nIts InitialGuessIsZero Cycle startLevel X).tr,
        ev.isSmootherApply = false)) ∧
    ((∀ h X1 B1 z1, E.getMap (E.Apply h X1 B1 z1) = E.getMap X1) →
      (∀ X1 a Y b, E.getMap (E.update X1 a Y b) = E.getMap X1) →
      E.isCompatible (E.getDomainMap ⟨Fine, "A"⟩) (E.getMap X) = true →
      E.isCompatible (E.getRangeMap ⟨Fine, "A"⟩) (E.getMap B) = true →
      ∀ msg, (Iterate E IsPrintStatistics1 s B nIts InitialGuessIsZero Cycle startLevel X).out ≠
        .error (.Incompatible startLevel msg)) := by
  have hout : getMatrixOutcome s Fine "A" = .ok (some ⟨Fine, "A"⟩) := by
    rw [getMatrixOutcome_of_stored hA]
    rfl
  obtain ⟨k, hk⟩ : ∃ k : Nat, nIts.toNat = k + 1 := ⟨nIts.toNat - 1, by omega⟩
  constructor
  · intro hbad
    have hbody : ∀ rec, IterateLoop
        (IterateBody E IsPrintStatistics1 s Cycle rec Fine ⟨Fine, "A"⟩ startLevel B) (k + 1) 1
        InitialGuessIsZero X =
        ⟨.error (.Incompatible startLevel
          (if E.isCompatible (E.getDomainMap ⟨Fine, "A"⟩) (E.getMap X) = false then
            "level A's domain map is not compatible with X"
           else "level A's range map is not compatible with B")), X,
          if E.isCompatible (E.getDomainMap ⟨Fine, "A"⟩) (E.getMap X) = false then
            [.checkDomainMap startLevel]
          else [.checkDomainMap startLevel, .checkRangeMap startLevel]⟩ := by
      intro rec
      rw [IterateLoop_succ]
      have hb : IterateBody E IsPrintStatistics1 s Cycle rec Fine ⟨Fine, "A"⟩ startLevel B 1
          InitialGuessIsZero X = _ :=
        IterAct.ibind_of_error (by rw [CheckMaps_fails E startLevel _ B X hbad])
      rw [CheckMaps_fails E startLevel _ B X hbad] at hb
      exact IterAct.ibind_of_error (by rw [hb]) |>.trans (by rw [hb])
    unfold Iterate
    obtain ⟨rec, hrec⟩ := IterateAt_call E IsPrintStatistics1 s Cycle
      (s.Levels_.length - 1 - startLevel.toNat)
    rw [hrec, IterateCall_loop E IsPrintStatistics1 s Cycle rec B nIts InitialGuessIsZero
      startLevel X Fine ⟨Fine, "A"⟩ h0 hF hout, hk, hbody rec]
    refine ⟨rfl, rfl, rfl, ?_⟩
    intro ev hev
    simp only [List.cons_append, List.nil_append, List.mem_cons, List.mem_append] at hev
    rcases hev with hev | hev | hev | hev
    · rw [hev]; rfl
    · rw [hev]; rfl
    · unfold printTrace at hev
      split at hev
      · simp only [List.mem_singleton] at hev
        rw [hev]; rfl
      · exact absurd hev (by simp)
    · split at hev
      · simp only [List.mem_singleton] at hev
        rw [hev]; rfl
      · simp only [List.mem_cons, List.mem_singleton, List.not_mem_nil, or_false] at hev
        rcases hev with hev | hev <;> rw [hev] <;> rfl
  · intro hmapA hmapU hd hr msg hfail
    unfold Iterate at hfail
    generalize s.Levels_.length - 1 - startLevel.toNat = levels at hfail
    have hyp : WalkHyp E (fun X1 => E.getMap X1 = E.getMap X)
        (fun e => ∀ l m, e = .Incompatible l m → startLevel < l) (fun _ => True) :=
      { apply_keeps := fun h X1 B1 z1 hX => by rw [hmapA, hX]
        update_keeps := fun X1 a Y b hX => by rw [hmapU, hX]
        outOfBounds := fun _ _ h => absurd h (by simp)
        nullPointer := fun _ _ h => absurd h (by simp)
        NotAvailable := fun _ _ h => absurd h (by simp)
        badCast := fun _ _ h => absurd h (by simp)
        event := fun _ _ => trivial }
    have hchk : ∀ X1, E.getMap X1 = E.getMap X → ∀ e,
        (CheckMaps E startLevel ⟨Fine, "A"⟩ B X1).out = .error e →
        ∀ l m, e = .Incompatible l m → startLevel < l := by
      intro X1 hX1 e he
      rw [CheckMaps_ok E startLevel _ B X1 (by rw [hX1]; exact hd) hr] at he
      exact absurd he (by simp)
    have hloop : ∀ rec : V → Int → Bool → Int → IterAct V Unit,
        (∀ B1 z1 v, (∀ e, (rec B1 1 z1 (startLevel + 1) v).out = .error e →
          ∀ l m, e = .Incompatible l m → startLevel < l) ∧
          ∀ ev ∈ (rec B1 1 z1 (startLevel + 1) v).tr, True) →
        (IterateCall E IsPrintStatistics1 s Cycle rec B nIts InitialGuessIsZero startLevel
          X).out ≠ .error (.Incompatible startLevel msg) := by
      intro rec hrec hbad
      rw [IterateCall_loop E IsPrintStatistics1 s Cycle rec B nIts InitialGuessIsZero
        startLevel X Fine ⟨Fine, "A"⟩ h0 hF hout] at hbad
      have hw := Walk.IterateLoop_walk
        (fun i z1 => Walk.IterateBody_walk IsPrintStatistics1 s Cycle rec startLevel hyp hrec
          Fine ⟨Fine, "A"⟩ B hchk i z1) nIts.toNat 1 InitialGuessIsZero
      have := (hw.run X rfl).2.1 _ hbad startLevel msg rfl
      omega
    cases levels with
    | zero =>
      exact hloop _ (fun _ _ _ => ⟨fun e he l m hl => by
          subst hl
          exact absurd he (by simp [IterAct.raise]),
        fun _ _ => trivial⟩) hfail
    | succ n =>
      exact hloop _ (fun B1 z1 v => ⟨fun e he l m hl => by
          have := (IterateAt_levels E IsPrintStatistics1 s Cycle n B1 1 z1 (startLevel + 1)
            v).1 e he l m hl
          omega,
        fun _ _ => trivial⟩) hfail

/-- Witness for C15: on the one-level hierarchy over a 10-row operator, with vectors that
carry a map, a solution vector on the map `5` is not compatible with the domain map `0`
of the operator. -/
theorem Iterate_incompatible_maps_witness :
    ((0 : Int) ≤ 0 ∧ smallHierarchy.Levels_[(0 : Int).toNat]? = some 0 ∧
      ((smallHierarchy.heap 0).store ⟨"A", none⟩).value = some (.matrix (some smallMatrix)) ∧
      (1 : Int) ≤ 2) ∧
    (Iterate taggedAlgebra false smallHierarchy (0, 3) 2 true 0 0 (5, 7)).out =
      .error (.Incompatible 0 "level A's domain map is not compatible with X") ∧
    (Iterate taggedAlgebra false smallHierarchy (0, 3) 2 true 0 0 (5, 7)).X = (5, 7) :=
  have h := (Iterate_incompatible_maps taggedAlgebra false smallHierarchy (0, 3) 2 true 0 0
    (5, 7) 0 smallMatrix (le_refl 0) (by decide!) (by decide!) (by decide)).1 (Or.inl rfl)
  ⟨⟨le_refl 0, by decide!, by decide!, by decide⟩, h.1, h.2.1⟩

theorem IterateCoarsest_flags (E : LinAlg SC V Map) (s : HState) (Fine : LevelPtr) (B X : V) :
    ∀ ev ∈ (IterateCoarsest E s Fine B false X).tr, ev.flagFalse := by
  have hget : ∀ (name : String) (X1 : V),
      ∀ ev ∈ (IterAct.GetSmoother s Fine name X1).tr, ev.flagFalse := by
    intro name X1 ev hev
    rw [IterAct.GetSmoother_run] at hev
    simp only [List.mem_singleton] at hev
    rw [hev]
    trivial
  have hpre : IPost (CoarsestPre E s Fine B false) X (fun o _ t =>
      (∀ ev ∈ t, ev.flagFalse) ∧ ∀ ze, o = .ok ze → ze.1 = false) := by
    unfold CoarsestPre
    split
    · apply IPost.ibind (fun _ _ t => ∀ ev ∈ t, ev.flagFalse) (hget _ X)
      · intro h X1 t1 h1
        apply IPost.ibind_of_eq (ApplySmoother_run _ _ _ _ _ _ _)
        apply IPost.ipure
        refine ⟨?_, fun ze hze => ?_⟩
        · intro ev hev
          simp only [List.append_nil, List.mem_append, List.mem_singleton] at hev
          rcases hev with hev | hev
          · exact h1 ev hev
          · rw [hev]
            exact rfl
        · simp only [Except.ok.injEq] at hze
          rw [← hze]
      · intro e X1 t1 h1
        exact ⟨h1, fun ze hze => absurd hze (by simp)⟩
    · apply IPost.ipure
      exact ⟨fun ev hev => absurd hev (by simp), fun ze hze => by
        simp only [Except.ok.injEq] at hze
        rw [← hze]⟩
  have key : IPost (IterateCoarsest E s Fine B false) X (fun _ _ t =>
      ∀ ev ∈ t, ev.flagFalse) := by
    unfold IterateCoarsest
    apply IPost.ibind _ hpre
    · intro ze X1 t1 h1
      have hz : ze.1 = false := h1.2 ze rfl
      rw [hz]
      have hpost : IPost (CoarsestPost E s Fine B false ze.2) X1 (fun _ _ t =>
          ∀ ev ∈ t, ev.flagFalse) := by
        unfold CoarsestPost
        split
        · apply IPost.ibind (fun _ _ t => ∀ ev ∈ t, ev.flagFalse) (hget _ X1)
          · intro h X2 t2 h2
            apply IPost.ibind_of_eq (ApplySmoother_run _ _ _ _ _ _ _)
            apply IPost.ipure
            intro ev hev
            simp only [List.append_nil, List.mem_append, List.mem_singleton] at hev
            rcases hev with hev | hev
            · exact h2 ev hev
            · rw [hev]
              exact rfl
          · intro e X2 t2 h2
            exact h2
        · apply IPost.ipure
          exact fun ev hev => absurd hev (by simp)
      apply IPost.ibind _ hpost
      · intro e X2 t2 h2
        have hall : ∀ t3 : List (IterEvent V), (∀ ev ∈ t3, ev.flagFalse) →
            ∀ ev ∈ t1 ++ (t2 ++ t3), ev.flagFalse := by
          intro t3 h3 ev hev
          rcases List.mem_append.mp hev with h | h
          · exact h1.1 ev h
          · rcases List.mem_append.mp h with h | h
            · exact h2 ev h
            · exact h3 ev h
        split
        · exact hall _ (fun ev hev => by
            simp only [IterAct.emit, List.mem_singleton] at hev
            rw [hev]
            trivial)
        · exact hall _ (fun ev hev => by cases hev)
      · intro e X2 t2 h2 ev hev
        rcases List.mem_append.mp hev with h | h
        · exact h1.1 ev h
        · exact h2 ev h
    · intro e X1 t1 h1
      exact h1.1
  exact key.ielim

theorem IterateBody_coarsest_flags (E : LinAlg SC V Map) (IsPrintStatistics1 : Bool) (s : HState)
    (Cycle : CycleType) (rec : V → Int → Bool → Int → IterAct V Unit) (Fine : LevelPtr)
    (A : MatrixRef) (startLevel : Int) (B : V)
    (hl : startLevel = (s.Levels_.length : Int) - 1) (i : Int) (X : V) :
    ∀ ev ∈ (IterateBody E IsPrintStatistics1 s Cycle rec Fine A startLevel B i false X).tr,
      ev.flagFalse := by
  have hchk : ∀ ev ∈ (CheckMaps E startLevel A B X).tr, ev.flagFalse := by
    intro ev hev
    unfold CheckMaps at hev
    split at hev
    · simp only [List.mem_singleton] at hev
      rw [hev]
      trivial
    · split at hev <;>
      · simp only [List.mem_cons, List.mem_singleton, List.not_mem_nil, or_false] at hev
        rcases hev with hev | hev <;> rw [hev] <;> trivial
  have hprint : ∀ X1, ∀ ev ∈ (PrintResidual IsPrintStatistics1 s startLevel A B i X1).tr,
      ev.flagFalse := by
    intro X1 ev hev
    rw [PrintResidual_run] at hev
    unfold printTrace at hev
    split at hev
    · simp only [List.mem_singleton] at hev
      rw [hev]
      trivial
    · exact absurd hev (by simp)
  have hX : (CheckMaps E startLevel A B X).X = X := by
    unfold CheckMaps
    split
    · rfl
    · split <;> rfl
  have key : IPost (IterateBody E IsPrintStatistics1 s Cycle rec Fine A startLevel B i false)
      X (fun _ _ t => ∀ ev ∈ t, ev.flagFalse) := by
    unfold IterateBody
    apply IPost.ibind (fun _ X1 t => X1 = X ∧ ∀ ev ∈ t, ev.flagFalse) ⟨hX, hchk⟩
    · rintro _ X1 t1 ⟨rfl, h1⟩
      rw [if_pos hl]
      apply IPost.ibind (fun _ _ t => ∀ ev ∈ t, ev.flagFalse)
        (IterateCoarsest_flags E s Fine B X1)
      · intro _ X2 t2 h2 ev hev
        rcases List.mem_append.mp hev with h | h
        · exact h1 ev h
        · rcases List.mem_append.mp h with h | h
          · exact h2 ev h
          · exact hprint X2 ev h
      · intro e X2 t2 h2 ev hev
        rcases List.mem_append.mp hev with h | h
        · exact h1 ev h
        · exact h2 ev h
    · rintro e X1 t1 ⟨_, h1⟩
      exact h1
  exact key.ielim

theorem IterateLoop_coarsest_flags (E : LinAlg SC V Map) (IsPrintStatistics1 : Bool) (s : HState)
    (Cycle : CycleType) (rec : V → Int → Bool → Int → IterAct V Unit) (Fine : LevelPtr)
    (A : MatrixRef) (startLevel : Int) (B : V)
    (hl : startLevel = (s.Levels_.length : Int) - 1) :
    ∀ (n : Nat) (i : Int) (X : V),
      ∀ ev ∈ (IterateLoop (IterateBody E IsPrintStatistics1 s Cycle rec Fine A startLevel B)
        n i false X).tr, ev.flagFalse := by
  intro n
  induction n with
  | zero =>
    intro i X ev hev
    cases hev
  | succ n ih =>
    intro i X
    have key : IPost (IterateLoop
        (IterateBody E IsPrintStatistics1 s Cycle rec Fine A startLevel B) (n + 1) i false) X
        (fun _ _ t => ∀ ev ∈ t, ev.flagFalse) := by
      rw [IterateLoop_succ]
      apply IPost.ibind (fun _ _ t => ∀ ev ∈ t, ev.flagFalse)
        (IterateBody_coarsest_flags E IsPrintStatistics1 s Cycle rec Fine A startLevel B hl i X)
      · intro _ X1 t1 h1 ev hev
        rcases List.mem_append.mp hev with h | h
        · exact h1 ev h
        · exact ih (i + 1) X1 ev h
      · intro e X1 t1 h1
        exact h1
    exact key.ielim

theorem IterateBody_coarsest_no_enter (E : LinAlg SC V Map) (IsPrintStatistics1 : Bool)
    (s : HState) (Cycle : CycleType) (rec : V → Int → Bool → Int → IterAct V Unit)
    (Fine : LevelPtr) (A : MatrixRef) (startLevel : Int) (B : V)
    (hl : startLevel = (s.Levels_.length : Int) - 1) (i : Int) (z : Bool) (X : V) :
    ∀ ev ∈ (IterateBody E IsPrintStatistics1 s Cycle rec Fine A startLevel B i z X).tr,
      ev.isEnter = false := by
  rw [IterateBody_congr E IsPrintStatistics1 s Cycle rec
    (fun _ _ _ _ => IterAct.raise .outOfBounds) startLevel (fun hne => absurd hl hne) Fine A B]
  have hyp : WalkHyp E (fun _ => True) (fun _ => True) (fun ev => ev.isEnter = false) :=
    { apply_keeps := fun _ _ _ _ _ => trivial
      update_keeps := fun _ _ _ _ _ => trivial
      outOfBounds := trivial
      nullPointer := trivial
      NotAvailable := trivial
      badCast := trivial
      event := fun _ h => h }
  have hw := Walk.IterateBody_walk IsPrintStatistics1 s Cycle
    (fun _ _ _ _ => IterAct.raise .outOfBounds) startLevel hyp
    (fun _ _ _ => ⟨fun _ _ => trivial, fun ev hev => absurd hev (by simp [IterAct.raise])⟩)
    Fine A B (fun _ _ _ _ => trivial) i z
  exact (hw.run X trivial).2.2

/-- C16: one outer iteration (the body of the loop) on the coarsest level,
`startLevel == Levels_.size() - 1`, with compatible maps.  The pre-smoother, when
"PreSmoother" is available, is applied to `(X, B)` with the current flag `zeroGuess`;
then the post-smoother, when "PostSmoother" is available, is applied to the resulting
`(X, B)` with the flag false if the pre-smoother was applied and with `zeroGuess`
otherwise; the iteration returns normally, and the trace shows the two applications in
that order, followed by the warning when neither smoother is available.  The next
iteration of the loop starts with the flag false, so that every smoother application
after the first iteration carries the flag false.  The iteration does not depend on the
function called recursively and enters no `Iterate` call.  With neither smoother
available `X` is left as it is. -/
theorem Iterate_coarsest_level (E : LinAlg SC V Map) (IsPrintStatistics1 : Bool) (s : HState)
    (Cycle : CycleType) (rec : V → Int → Bool → Int → IterAct V Unit) (Fine : LevelPtr)
    (A : MatrixRef) (startLevel : Int) (B : V)
    (hl : startLevel = (s.Levels_.length : Int) - 1) :
    (∀ (i : Int) (zeroGuess : Bool) (X : V) (pre post : Option Nat),
      E.isCompatible (E.getDomainMap A) (E.getMap X) = true →
      E.isCompatible (E.getRangeMap A) (E.getMap B) = true →
      ((s.heap Fine).store ⟨"PreSmoother", none⟩).value = pre.map Value.smoother →
      ((s.heap Fine).store ⟨"PostSmoother", none⟩).value = post.map Value.smoother →
      IterateBody E IsPrintStatistics1 s Cycle rec Fine A startLevel B i zeroGuess X =
        ⟨.ok (),
         (smootherStep E Fine "PostSmoother" post B (zeroGuess && pre.isNone)
           (smootherStep E Fine "PreSmoother" pre B zeroGuess X).1).1,
         [.checkDomainMap startLevel, .checkRangeMap startLevel] ++
         (((smootherStep E Fine "PreSmoother" pre B zeroGuess X).2 ++
           ((smootherStep E Fine "PostSmoother" post B (zeroGuess && pre.isNone)
             (smootherStep E Fine "PreSmoother" pre B zeroGuess X).1).2 ++
            (if pre.isNone && post.isNone then [.warning "Warning: No coarse grid solver"]
             else []))) ++
          printTrace IsPrintStatistics1 s startLevel A B i
            (smootherStep E Fine "PostSmoother" post B (zeroGuess && pre.isNone)
              (smootherStep E Fine "PreSmoother" pre B zeroGuess X).1).1)⟩) ∧
    (∀ (n : Nat) (i : Int) (zeroGuess : Bool),
      IterateLoop (IterateBody E IsPrintStatistics1 s Cycle rec Fine A startLevel B) (n + 1) i
          zeroGuess =
        (IterateBody E IsPrintStatistics1 s Cycle rec Fine A startLevel B i zeroGuess >>=
          fun _ => IterateLoop (IterateBody E IsPrintStatistics1 s Cycle rec Fine A
            startLevel B) n (i + 1) false)) ∧
    (∀ (n : Nat) (i : Int) (X : V),
      ∀ ev ∈ (IterateLoop (IterateBody E IsPrintStatistics1 s Cycle rec Fine A startLevel B)
          n i false X).tr,
        ∀ lv nm h x b flag, ev = .smootherApply lv nm h x b flag → flag = false) ∧
    (∀ rec2 : V → Int → Bool → Int → IterAct V Unit,
      IterateBody E IsPrintStatistics1 s Cycle rec Fine A startLevel B =
        IterateBody E IsPrintStatistics1 s Cycle rec2 Fine A startLevel B) ∧
    (∀ (i : Int) (zeroGuess : Bool) (X : V),
      ∀ ev ∈ (IterateBody E IsPrintStatistics1 s Cycle rec Fine A startLevel B i zeroGuess
        X).tr, ev.isEnter = false) ∧
    (∀ (i : Int) (zeroGuess : Bool) (X : V),
      E.isCompatible (E.getDomainMap A) (E.getMap X) = true →
      E.isCompatible (E.getRangeMap A) (E.getMap B) = true →
      (s.heap Fine).IsAvailable "PreSmoother" = false →
      (s.heap Fine).IsAvailable "PostSmoother" = false →
      (IterateBody E IsPrintStatistics1 s Cycle rec Fine A startLevel B i zeroGuess X).out =
        .ok () ∧
      (IterateBody E IsPrintStatistics1 s Cycle rec Fine A startLevel B i zeroGuess X).X =
        X) := by
  refine ⟨?_, fun _ _ _ => rfl, ?_, ?_, ?_, ?_⟩
  · intro i zeroGuess X pre post hd hr hpre hpost
    exact IterateBody_coarsest_run E IsPrintStatistics1 s Cycle rec Fine A startLevel B i
      zeroGuess X pre post hl hd hr hpre hpost
  · intro n i X ev hev lv nm h x b flag hflag
    have := IterateLoop_coarsest_flags E IsPrintStatistics1 s Cycle rec Fine A startLevel B hl
      n i X ev hev
    rw [hflag] at this
    exact this
  · intro rec2
    exact IterateBody_congr E IsPrintStatistics1 s Cycle rec rec2 startLevel
      (fun hne => absurd hl hne) Fine A B
  · intro i zeroGuess X
    exact IterateBody_coarsest_no_enter E IsPrintStatistics1 s Cycle rec Fine A startLevel B hl
      i zeroGuess X
  · intro i zeroGuess X hd hr hpre hpost
    have h1 : ((s.heap Fine).store ⟨"PreSmoother", none⟩).value =
        (none : Option Nat).map Value.smoother := by
      simpa [Level.IsAvailable] using hpre
    have h2 : ((s.heap Fine).store ⟨"PostSmoother", none⟩).value =
        (none : Option Nat).map Value.smoother := by
      simpa [Level.IsAvailable] using hpost
    rw [IterateBody_coarsest_run E IsPrintStatistics1 s Cycle rec Fine A startLevel B i
      zeroGuess X none none hl hd hr h1 h2]
    exact ⟨rfl, rfl⟩

theorem Iterate_run (E : LinAlg SC V Map) (IsPrintStatistics1 : Bool) (s : HState) (B : V)
    (nIts : Int) (z : Bool) (Cycle : CycleType) (startLevel : Int) (X : V) (Fine : LevelPtr)
    (M : Matrix) (h0 : 0 ≤ startLevel) (hF : s.Levels_[startLevel.toNat]? = some Fine)
    (hA : ((s.heap Fine).store ⟨"A", none⟩).value = some (.matrix (some M))) :
    Iterate E IsPrintStatistics1 s B nIts z Cycle startLevel X =
      ⟨(IterateLoop (IterateBody E IsPrintStatistics1 s Cycle
          (fun B1 n1 z1 l1 => Iterate E IsPrintStatistics1 s B1 n1 z1 Cycle l1) Fine
          ⟨Fine, "A"⟩ startLevel B) nIts.toNat 1 z X).out,
       (IterateLoop (IterateBody E IsPrintStatistics1 s Cycle
          (fun B1 n1 z1 l1 => Iterate E IsPrintStatistics1 s B1 n1 z1 Cycle l1) Fine
          ⟨Fine, "A"⟩ startLevel B) nIts.toNat 1 z X).X,
       [.enterIterate startLevel B nIts X z Cycle, .get Fine "A"] ++
         (printTrace IsPrintStatistics1 s startLevel ⟨Fine, "A"⟩ B 0 X ++
          (IterateLoop (IterateBody E IsPrintStatistics1 s Cycle
            (fun B1 n1 z1 l1 => Iterate E IsPrintStatistics1 s B1 n1 z1 Cycle l1) Fine
            ⟨Fine, "A"⟩ startLevel B) nIts.toNat 1 z X).tr)⟩ := by
  rw [Iterate_unfold]
  exact IterateCall_loop E IsPrintStatistics1 s Cycle _ B nIts z startLevel X Fine ⟨Fine, "A"⟩
    h0 hF (by rw [getMatrixOutcome_of_stored hA]; rfl)

theorem CyclePre_run (E : LinAlg SC V Map) (s : HState) (Fine : LevelPtr) (startLevel : Int)
    (B : V) (zeroGuess : Bool) (X : V) (pre : Option Nat)
    (hpre : ((s.heap Fine).store ⟨"PreSmoother", none⟩).value = pre.map Value.smoother) :
    CyclePre E s Fine startLevel B zeroGuess X =
      ⟨.ok (),
       (cycleSmootherStep E Fine "PreSmoother" pre B zeroGuess startLevel ": No PreSmoother!"
         X).1,
       (cycleSmootherStep E Fine "PreSmoother" pre B zeroGuess startLevel ": No PreSmoother!"
         X).2⟩ := by
  have key : IPost (CyclePre E s Fine startLevel B zeroGuess) X (fun o X1 t =>
      o = .ok () ∧
      X1 = (cycleSmootherStep E Fine "PreSmoother" pre B zeroGuess startLevel
        ": No PreSmoother!" X).1 ∧
      t = (cycleSmootherStep E Fine "PreSmoother" pre B zeroGuess startLevel
        ": No PreSmoother!" X).2) := by
    unfold CyclePre
    rw [IsAvailable_of_stored hpre]
    cases pre with
    | none =>
      rw [if_neg (by simp)]
      exact ⟨rfl, rfl, rfl⟩
    | some h =>
      rw [if_pos (by simp)]
      have hrun := IterAct.GetSmoother_run s Fine "PreSmoother" X
      rw [getSmootherOutcome_of_stored (by simpa using hpre)] at hrun
      apply IPost.ibind_of_eq hrun
      apply IPost.iof_eq (ApplySmoother_run _ _ _ _ _ _ _)
      exact ⟨rfl, rfl, rfl⟩
  exact IterRes.ieq_of key.ielim.1 key.ielim.2.1 key.ielim.2.2

theorem CyclePost_run (E : LinAlg SC V Map) (s : HState) (Fine : LevelPtr) (startLevel : Int)
    (B : V) (X : V) (post : Option Nat)
    (hpost : ((s.heap Fine).store ⟨"PostSmoother", none⟩).value = post.map Value.smoother) :
    CyclePost E s Fine startLevel B X =
      ⟨.ok (),
       (cycleSmootherStep E Fine "PostSmoother" post B false startLevel ": No PostSmoother!"
         X).1,
       (cycleSmootherStep E Fine "PostSmoother" post B false startLevel ": No PostSmoother!"
         X).2⟩ := by
  have key : IPost (CyclePost E s Fine startLevel B) X (fun o X1 t =>
      o = .ok () ∧
      X1 = (cycleSmootherStep E Fine "PostSmoother" post B false startLevel
        ": No PostSmoother!" X).1 ∧
      t = (cycleSmootherStep E Fine "PostSmoother" post B false startLevel
        ": No PostSmoother!" X).2) := by
    unfold CyclePost
    rw [IsAvailable_of_stored hpost]
    cases post with
    | none =>
      rw [if_neg (by simp)]
      exact ⟨rfl, rfl, rfl⟩
    | some h =>
      rw [if_pos (by simp)]
      have hrun := IterAct.GetSmoother_run s Fine "PostSmoother" X
      rw [getSmootherOutcome_of_stored (by simpa using hpost)] at hrun
      apply IPost.ibind_of_eq hrun
      apply IPost.iof_eq (ApplySmoother_run _ _ _ _ _ _ _)
      exact ⟨rfl, rfl, rfl⟩
  exact IterRes.ieq_of key.ielim.1 key.ielim.2.1 key.ielim.2.2

theorem getMatrixOutcome_some {s : HState} {level : LevelPtr} {name : String} {M : Matrix}
    (h : ((s.heap level).store ⟨name, none⟩).value = some (.matrix (some M))) :
    getMatrixOutcome s level name = .ok (some ⟨level, name⟩) := by
  rw [getMatrixOutcome_of_stored h]
  rfl

theorem CycleRestrict_run (E : LinAlg SC V Map) (s : HState) (Coarse : LevelPtr)
    (residual X : V) (MP : Matrix)
    (hP : ((s.heap Coarse).store ⟨"P", none⟩).value = some (.matrix (some MP)))
    (hR : s.implicitTranspose_ = false →
      ∃ MR, ((s.heap Coarse).store ⟨"R", none⟩).value = some (.matrix (some MR))) :
    CycleRestrict E s Coarse residual X =
      ⟨.ok (⟨Coarse, "P"⟩, restricted E s Coarse residual X), X,
        restrictTrace s Coarse residual⟩ := by
  have key : IPost (CycleRestrict E s Coarse residual) X (fun o X1 t =>
      o = .ok (⟨Coarse, "P"⟩, restricted E s Coarse residual X) ∧ X1 = X ∧
      t = restrictTrace s Coarse residual) := by
    unfold CycleRestrict restricted restrictTrace
    have hrun := IterAct.GetMatrix_run s Coarse "P" X
    rw [getMatrixOutcome_some hP] at hrun
    apply IPost.ibind_of_eq hrun
    apply IPost.ibind_getX
    simp only []
    by_cases hi : s.implicitTranspose_ = true
    · simp only [if_pos hi]
      apply IPost.ibind_emit
      apply IPost.ipure
      exact ⟨rfl, rfl, rfl⟩
    · simp only [if_neg hi]
      obtain ⟨MR, hMR⟩ := hR (by simpa using hi)
      have hrunR := IterAct.GetMatrix_run s Coarse "R" X
      rw [getMatrixOutcome_some hMR] at hrunR
      apply IPost.ibind_of_eq hrunR
      simp only []
      apply IPost.ibind_emit
      apply IPost.ipure
      exact ⟨rfl, rfl, rfl⟩
  exact IterRes.ieq_of key.ielim.1 key.ielim.2.1 key.ielim.2.2

theorem IterAct.onVector_ok {v : V} {x : IterAct V Unit} (h : (x v).out = .ok ()) (X : V) :
    IterAct.onVector v x X = ⟨.ok (x v).X, X, (x v).tr⟩ := by
  unfold IterAct.onVector
  rcases hr : x v with ⟨o, v1, t1⟩
  rw [hr] at h
  simp only at h
  subst h
  rfl

theorem IterAct.onVector_error {v : V} {x : IterAct V Unit} {e : Failure}
    (h : (x v).out = .error e) (X : V) :
    IterAct.onVector v x X = ⟨.error e, X, (x v).tr⟩ := by
  unfold IterAct.onVector
  rcases hr : x v with ⟨o, v1, t1⟩
  rw [hr] at h
  simp only at h
  subst h
  rfl

theorem CycleDescend_run (E : LinAlg SC V Map) (Cycle : CycleType)
    (rec : V → Int → Bool → Int → IterAct V Unit) (startLevel : Int) (coarseRhs coarseX X : V)
    (h1 : (rec coarseRhs 1 true (startLevel + 1) (E.putScalar coarseX E.zero)).out = .ok ())
    (h2 : Cycle > 1 → (rec coarseRhs 1 false (startLevel + 1)
      (rec coarseRhs 1 true (startLevel + 1) (E.putScalar coarseX E.zero)).X).out = .ok ()) :
    CycleDescend E Cycle rec startLevel coarseRhs coarseX X =
      ⟨.ok (if Cycle > 1 then
          (rec coarseRhs 1 false (startLevel + 1)
            (rec coarseRhs 1 true (startLevel + 1) (E.putScalar coarseX E.zero)).X).X
        else (rec coarseRhs 1 true (startLevel + 1) (E.putScalar coarseX E.zero)).X),
       X,
       [.putScalar coarseX] ++
        ((rec coarseRhs 1 true (startLevel + 1) (E.putScalar coarseX E.zero)).tr ++
         (if Cycle > 1 then
            (rec coarseRhs 1 false (startLevel + 1)
              (rec coarseRhs 1 true (startLevel + 1) (E.putScalar coarseX E.zero)).X).tr
          else []))⟩ := by
  have key : IPost (CycleDescend E Cycle rec startLevel coarseRhs coarseX) X (fun o X1 t =>
      o = .ok (if Cycle > 1 then
          (rec coarseRhs 1 false (startLevel + 1)
            (rec coarseRhs 1 true (startLevel + 1) (E.putScalar coarseX E.zero)).X).X
        else (rec coarseRhs 1 true (startLevel + 1) (E.putScalar coarseX E.zero)).X) ∧
      X1 = X ∧
      t = [.putScalar coarseX] ++
        ((rec coarseRhs 1 true (startLevel + 1) (E.putScalar coarseX E.zero)).tr ++
         (if Cycle > 1 then
            (rec coarseRhs 1 false (startLevel + 1)
              (rec coarseRhs 1 true (startLevel + 1) (E.putScalar coarseX E.zero)).X).tr
          else []))) := by
    unfold CycleDescend
    apply IPost.ibind_emit
    apply IPost.ibind_of_eq (IterAct.onVector_ok h1 X)
    by_cases hc : Cycle > 1
    · simp only [if_pos hc]
      apply IPost.iof_eq (IterAct.onVector_ok (h2 hc) X)
      exact ⟨rfl, rfl, rfl⟩
    · simp only [if_neg hc]
      apply IPost.ipure
      exact ⟨rfl, rfl, rfl⟩
  exact IterRes.ieq_of key.ielim.1 key.ielim.2.1 key.ielim.2.2

theorem CycleRecurse_run (E : LinAlg SC V Map) (s : HState) (Cycle : CycleType)
    (rec : V → Int → Bool → Int → IterAct V Unit) (Coarse : LevelPtr) (startLevel : Int)
    (coarseRhs coarseX X : V) (origMap : Map) (MA : Matrix)
    (hAc : ((s.heap Coarse).store ⟨"A", none⟩).value = some (.matrix (some MA)))
    (h1 : (rec (E.replaceMap coarseRhs (E.getRangeMap ⟨Coarse, "A"⟩)) 1 true (startLevel + 1)
      (E.putScalar (E.replaceMap coarseX (E.getDomainMap ⟨Coarse, "A"⟩)) E.zero)).out = .ok ())
    (h2 : Cycle > 1 → (rec (E.replaceMap coarseRhs (E.getRangeMap ⟨Coarse, "A"⟩)) 1 false
      (startLevel + 1)
      (rec (E.replaceMap coarseRhs (E.getRangeMap ⟨Coarse, "A"⟩)) 1 true (startLevel + 1)
        (E.putScalar (E.replaceMap coarseX (E.getDomainMap ⟨Coarse, "A"⟩)) E.zero)).X).out =
      .ok ()) :
    CycleRecurse E s Cycle rec Coarse startLevel coarseRhs coarseX origMap X =
      ⟨.ok (E.replaceMap
        (if Cycle > 1 then
          (rec (E.replaceMap coarseRhs (E.getRangeMap ⟨Coarse, "A"⟩)) 1 false (startLevel + 1)
            (rec (E.replaceMap coarseRhs (E.getRangeMap ⟨Coarse, "A"⟩)) 1 true (startLevel + 1)
              (E.putScalar (E.replaceMap coarseX (E.getDomainMap ⟨Coarse, "A"⟩))
                E.zero)).X).X
        else
          (rec (E.replaceMap coarseRhs (E.getRangeMap ⟨Coarse, "A"⟩)) 1 true (startLevel + 1)
            (E.putScalar (E.replaceMap coarseX (E.getDomainMap ⟨Coarse, "A"⟩)) E.zero)).X)
        origMap),
       X,
       [.get Coarse "A", .replaceMap coarseRhs, .replaceMap coarseX,
        .putScalar (E.replaceMap coarseX (E.getDomainMap ⟨Coarse, "A"⟩))] ++
        ((rec (E.replaceMap coarseRhs (E.getRangeMap ⟨Coarse, "A"⟩)) 1 true (startLevel + 1)
            (E.putScalar (E.replaceMap coarseX (E.getDomainMap ⟨Coarse, "A"⟩)) E.zero)).tr ++
         ((if Cycle > 1 then
            (rec (E.replaceMap coarseRhs (E.getRangeMap ⟨Coarse, "A"⟩)) 1 false
              (startLevel + 1)
              (rec (E.replaceMap coarseRhs (E.getRangeMap ⟨Coarse, "A"⟩)) 1 true
                (startLevel + 1)
                (E.putScalar (E.replaceMap coarseX (E.getDomainMap ⟨Coarse, "A"⟩))
                  E.zero)).X).tr
           else []) ++
          [.replaceMap
            (if Cycle > 1 then
              (rec (E.replaceMap coarseRhs (E.getRangeMap ⟨Coarse, "A"⟩)) 1 false
                (startLevel + 1)
                (rec (E.replaceMap coarseRhs (E.getRangeMap ⟨Coarse, "A"⟩)) 1 true
                  (startLevel + 1)
                  (E.putScalar (E.replaceMap coarseX (E.getDomainMap ⟨Coarse, "A"⟩))
                    E.zero)).X).X
            else
              (rec (E.replaceMap coarseRhs (E.getRangeMap ⟨Coarse, "A"⟩)) 1 true
                (startLevel + 1)
                (E.putScalar (E.replaceMap coarseX (E.getDomainMap ⟨Coarse, "A"⟩))
                  E.zero)).X)]))⟩ := by
  have hrun := IterAct.GetMatrix_run s Coarse "A" X
  rw [getMatrixOutcome_some hAc] at hrun
  have hd := CycleDescend_run E Cycle rec startLevel
    (E.replaceMap coarseRhs (E.getRangeMap ⟨Coarse, "A"⟩))
    (E.replaceMap coarseX (E.getDomainMap ⟨Coarse, "A"⟩)) X h1 h2
  have key : IPost (CycleRecurse E s Cycle rec Coarse startLevel coarseRhs coarseX origMap) X
      (fun o X1 t => o = .ok (E.replaceMap
        (if Cycle > 1 then
          (rec (E.replaceMap coarseRhs (E.getRangeMap ⟨Coarse, "A"⟩)) 1 false (startLevel + 1)
            (rec (E.replaceMap coarseRhs (E.getRangeMap ⟨Coarse, "A"⟩)) 1 true (startLevel + 1)
              (E.putScalar (E.replaceMap coarseX (E.getDomainMap ⟨Coarse, "A"⟩))
                E.zero)).X).X
        else
          (rec (E.replaceMap coarseRhs (E.getRangeMap ⟨Coarse, "A"⟩)) 1 true (startLevel + 1)
            (E.putScalar (E.replaceMap coarseX (E.getDomainMap ⟨Coarse, "A"⟩)) E.zero)).X)
        origMap) ∧ X1 = X ∧
       t = [.get Coarse "A", .replaceMap coarseRhs, .replaceMap coarseX,
        .putScalar (E.replaceMap coarseX (E.getDomainMap ⟨Coarse, "A"⟩))] ++
        ((rec (E.replaceMap coarseRhs (E.getRangeMap ⟨Coarse, "A"⟩)) 1 true (startLevel + 1)
            (E.putScalar (E.replaceMap coarseX (E.getDomainMap ⟨Coarse, "A"⟩)) E.zero)).tr ++
         ((if Cycle > 1 then
            (rec (E.replaceMap coarseRhs (E.getRangeMap ⟨Coarse, "A"⟩)) 1 false
              (startLevel + 1)
              (rec (E.replaceMap coarseRhs (E.getRangeMap ⟨Coarse, "A"⟩)) 1 true
                (startLevel + 1)
                (E.putScalar (E.replaceMap coarseX (E.getDomainMap ⟨Coarse, "A"⟩))
                  E.zero)).X).tr
           else []) ++
          [.replaceMap
            (if Cycle > 1 then
              (rec (E.replaceMap coarseRhs (E.getRangeMap ⟨Coarse, "A"⟩)) 1 false
                (startLevel + 1)
                (rec (E.replaceMap coarseRhs (E.getRangeMap ⟨Coarse, "A"⟩)) 1 true
                  (startLevel + 1)
                  (E.putScalar (E.replaceMap coarseX (E.getDomainMap ⟨Coarse, "A"⟩))
                    E.zero)).X).X
            else
              (rec (E.replaceMap coarseRhs (E.getRangeMap ⟨Coarse, "A"⟩)) 1 true
                (startLevel + 1)
                (E.putScalar (E.replaceMap coarseX (E.getDomainMap ⟨Coarse, "A"⟩))
                  E.zero)).X)]))) := by
    unfold CycleRecurse
    apply IPost.ibind_of_eq hrun
    simp only []
    apply IPost.ibind_emit
    apply IPost.ibind_emit
    apply IPost.ibind_of_eq hd
    apply IPost.ibind_emit
    apply IPost.ipure
    refine ⟨rfl, rfl, ?_⟩
    simp only [List.append_assoc, List.cons_append, List.nil_append, List.append_nil]
  exact IterRes.ieq_of key.ielim.1 key.ielim.2.1 key.ielim.2.2

theorem IterateCycle_run (E : LinAlg SC V Map) (s : HState) (Cycle : CycleType)
    (rec : V → Int → Bool → Int → IterAct V Unit) (Fine Coarse : LevelPtr) (A : MatrixRef)
    (startLevel : Int) (B : V) (zeroGuess : Bool) (X : V) (pre post : Option Nat)
    (MP MA : Matrix) (X1 r rhs x0 c1 c2 c X2 : V) (t1 t2 : List (IterEvent V))
    (h0 : 0 ≤ startLevel + 1) (hC : s.Levels_[(startLevel + 1).toNat]? = some Coarse)
    (hpre : ((s.heap Fine).store ⟨"PreSmoother", none⟩).value = pre.map Value.smoother)
    (hpost : ((s.heap Fine).store ⟨"PostSmoother", none⟩).value = post.map Value.smoother)
    (hP : ((s.heap Coarse).store ⟨"P", none⟩).value = some (.matrix (some MP)))
    (hR : s.implicitTranspose_ = false →
      ∃ MR, ((s.heap Coarse).store ⟨"R", none⟩).value = some (.matrix (some MR)))
    (hAc : ((s.heap Coarse).store ⟨"A", none⟩).value = some (.matrix (some MA)))
    (hX1 : X1 = (cycleSmootherStep E Fine "PreSmoother" pre B zeroGuess startLevel
      ": No PreSmoother!" X).1)
    (hr : r = E.Residual A X1 B)
    (hrhs : rhs = E.replaceMap (restricted E s Coarse r X1).1 (E.getRangeMap ⟨Coarse, "A"⟩))
    (hx0 : x0 = E.putScalar
      (E.replaceMap (restricted E s Coarse r X1).2.1 (E.getDomainMap ⟨Coarse, "A"⟩)) E.zero)
    (hrec1 : rec rhs 1 true (startLevel + 1) x0 = ⟨.ok (), c1, t1⟩)
    (hrec2 : if Cycle > 1 then rec rhs 1 false (startLevel + 1) c1 = ⟨.ok (), c2, t2⟩
      else c2 = c1 ∧ t2 = [])
    (hc : c = E.replaceMap c2 (restricted E s Coarse r X1).2.2)
    (hX2 : X2 = E.update X1 E.one
      (E.apply ⟨Coarse, "P"⟩ c (E.Build (E.getRangeMap ⟨Coarse, "P"⟩) (E.getNumVectors X1))
        .NO_TRANS E.one E.zero) E.one) :
    IterateCycle E s Cycle rec Fine A startLevel B zeroGuess X =
      ⟨.ok (),
       (cycleSmootherStep E Fine "PostSmoother" post B false startLevel ": No PostSmoother!"
         X2).1,
       (cycleSmootherStep E Fine "PreSmoother" pre B zeroGuess startLevel ": No PreSmoother!"
          X).2 ++
        ([.residual A X1 B] ++
         (restrictTrace s Coarse r ++
          ([.get Coarse "A", .replaceMap (restricted E s Coarse r X1).1,
            .replaceMap (restricted E s Coarse r X1).2.1,
            .putScalar (E.replaceMap (restricted E s Coarse r X1).2.1
              (E.getDomainMap ⟨Coarse, "A"⟩))] ++
           (t1 ++ (t2 ++
            ([.replaceMap c2] ++
             ([.apply ⟨Coarse, "P"⟩ c .NO_TRANS,
               .update X1 (E.apply ⟨Coarse, "P"⟩ c
                 (E.Build (E.getRangeMap ⟨Coarse, "P"⟩) (E.getNumVectors X1)) .NO_TRANS E.one
                 E.zero)] ++
              (cycleSmootherStep E Fine "PostSmoother" post B false startLevel
                ": No PostSmoother!" X2).2)))))))⟩ := by
  have hr1out : (rec rhs 1 true (startLevel + 1) x0).out = .ok () := by rw [hrec1]
  have hr1X : (rec rhs 1 true (startLevel + 1) x0).X = c1 := by rw [hrec1]
  have hr1t : (rec rhs 1 true (startLevel + 1) x0).tr = t1 := by rw [hrec1]
  have h2out : Cycle > 1 → (rec rhs 1 false (startLevel + 1)
      (rec rhs 1 true (startLevel + 1) x0).X).out = .ok () := by
    intro hcy
    rw [if_pos hcy] at hrec2
    rw [hr1X, hrec2]
  have hc2 : (if Cycle > 1 then (rec rhs 1 false (startLevel + 1)
      (rec rhs 1 true (startLevel + 1) x0).X).X
      else (rec rhs 1 true (startLevel + 1) x0).X) = c2 := by
    by_cases hcy : Cycle > 1
    · rw [if_pos hcy] at hrec2
      rw [if_pos hcy, hr1X, hrec2]
    · rw [if_neg hcy] at hrec2
      rw [if_neg hcy, hr1X, hrec2.1]
  have ht2 : (if Cycle > 1 then (rec rhs 1 false (startLevel + 1)
      (rec rhs 1 true (startLevel + 1) x0).X).tr else []) = t2 := by
    by_cases hcy : Cycle > 1
    · rw [if_pos hcy] at hrec2
      rw [if_pos hcy, hr1X, hrec2]
    · rw [if_neg hcy] at hrec2
      rw [if_neg hcy, hrec2.2]
  have hrecurse := CycleRecurse_run E s Cycle rec Coarse startLevel
    (restricted E s Coarse r X1).1 (restricted E s Coarse r X1).2.1 X1
    (restricted E s Coarse r X1).2.2 MA hAc
    (by rw [← hrhs, ← hx0]; exact hr1out)
    (by rw [← hrhs, ← hx0]; exact h2out)
  rw [← hrhs, ← hx0, hc2, ht2, hr1t, ← hc] at hrecurse
  have key : IPost (IterateCycle E s Cycle rec Fine A startLevel B zeroGuess) X
      (fun o Xr t => o = .ok () ∧
        Xr = (cycleSmootherStep E Fine "PostSmoother" post B false startLevel
          ": No PostSmoother!" X2).1 ∧
        t = (cycleSmootherStep E Fine "PreSmoother" pre B zeroGuess startLevel
            ": No PreSmoother!" X).2 ++
          ([.residual A X1 B] ++
           (restrictTrace s Coarse r ++
            ([.get Coarse "A", .replaceMap (restricted E s Coarse r X1).1,
              .replaceMap (restricted E s Coarse r X1).2.1,
              .putScalar (E.replaceMap (restricted E s Coarse r X1).2.1
                (E.getDomainMap ⟨Coarse, "A"⟩))] ++
             (t1 ++ (t2 ++
              ([.replaceMap c2] ++
               ([.apply ⟨Coarse, "P"⟩ c .NO_TRANS,
                 .update X1 (E.apply ⟨Coarse, "P"⟩ c
                   (E.Build (E.getRangeMap ⟨Coarse, "P"⟩) (E.getNumVectors X1)) .NO_TRANS
                   E.one E.zero)] ++
                (cycleSmootherStep E Fine "PostSmoother" post B false startLevel
                  ": No PostSmoother!" X2).2)))))))) := by
    unfold IterateCycle
    apply IPost.ibind_of_eq (IterAct.LevelsAt_of_some h0 hC X)
    have hpreRun := CyclePre_run E s Fine startLevel B zeroGuess X pre hpre
    rw [← hX1] at hpreRun
    apply IPost.ibind_of_eq hpreRun
    have hres : CycleResidual E A B X1 = ⟨.ok r, X1, [.residual A X1 B]⟩ := by
      rw [hr]
      rfl
    apply IPost.ibind_of_eq hres
    apply IPost.ibind_of_eq (CycleRestrict_run E s Coarse r X1 MP hP hR)
    apply IPost.ibind_of_eq hrecurse
    have hcor : CycleCorrect E ⟨Coarse, "P"⟩ c X1 = ⟨.ok (), X2,
        [.apply ⟨Coarse, "P"⟩ c .NO_TRANS,
         .update X1 (E.apply ⟨Coarse, "P"⟩ c
           (E.Build (E.getRangeMap ⟨Coarse, "P"⟩) (E.getNumVectors X1)) .NO_TRANS E.one
           E.zero)]⟩ := by
      rw [hX2]
      rfl
    apply IPost.ibind_of_eq hcor
    apply IPost.iof_eq (CyclePost_run E s Fine startLevel B X2 post hpost)
    refine ⟨rfl, rfl, ?_⟩
    simp only [List.append_assoc, List.cons_append, List.nil_append, List.append_nil]
  exact IterRes.ieq_of key.ielim.1 key.ielim.2.1 key.ielim.2.2

/-- C17: one outer iteration (the body of the loop) on an intermediate level with both
smoothers available, compatible maps, non-null "P" (and non-null "R" unless
`implicitTranspose_` is set) and a non-null coarse operator, the recursive calls
returning normally with the coarse vectors `c1` and `c2`.  In this order:
`X1 = PreSmooth(X, B, zeroGuess)`; `r = Residual(A, X1, B)`; the residual is restricted,
by `P->apply(r, ., TRANS, one, zero)` when `implicitTranspose_` is set (then "R" is not
fetched: "P" is fetched and applied, nothing else) and by `R->apply(r, ., NO_TRANS, one,
zero)` otherwise; the coarse vectors are moved to the maps of the coarse operator and the
coarse solution is set to zero; `Iterate` is called on the coarse level, once, and a second
time from the first result when `Cycle > 1`; the result `c` is moved back to `origMap`;
`X2 = X1.update(one, P->apply(c, ., NO_TRANS, one, zero), one)`; finally
`X = PostSmooth(X2, B, false)`.  When `update(one, ., one)` is the sum and
`apply(., ., NO_TRANS, one, zero)` the product, as in exact arithmetic, the final `X` is
`PostSmooth(X1 + P c, B, false)`. -/
theorem Iterate_intermediate_level (E : LinAlg SC V Map) (IsPrintStatistics1 : Bool)
    (s : HState) (Cycle : CycleType) (Fine Coarse : LevelPtr) (startLevel : Int) (B : V)
    (i : Int) (zeroGuess : Bool) (X : V) (pre post : Nat) (MP MA : Matrix)
    (X1 r rhs x0 c1 c2 c X2 : V) (t1 t2 : List (IterEvent V))
    (hl : startLevel ≠ (s.Levels_.length : Int) - 1)
    (h0 : 0 ≤ startLevel + 1) (hC : s.Levels_[(startLevel + 1).toNat]? = some Coarse)
    (hd : E.isCompatible (E.getDomainMap ⟨Fine, "A"⟩) (E.getMap X) = true)
    (hrg : E.isCompatible (E.getRangeMap ⟨Fine, "A"⟩) (E.getMap B) = true)
    (hpre : ((s.heap Fine).store ⟨"PreSmoother", none⟩).value = some (.smoother pre))
    (hpost : ((s.heap Fine).store ⟨"PostSmoother", none⟩).value = some (.smoother post))
    (hP : ((s.heap Coarse).store ⟨"P", none⟩).value = some (.matrix (some MP)))
    (hR : s.implicitTranspose_ = false →
      ∃ MR, ((s.heap Coarse).store ⟨"R", none⟩).value = some (.matrix (some MR)))
    (hAc : ((s.heap Coarse).store ⟨"A", none⟩).value = some (.matrix (some MA)))
    (hX1 : X1 = E.Apply pre X B zeroGuess)
    (hr : r = E.Residual ⟨Fine, "A"⟩ X1 B)
    (hrhs : rhs = E.replaceMap (restricted E s Coarse r X1).1 (E.getRangeMap ⟨Coarse, "A"⟩))
    (hx0 : x0 = E.putScalar
      (E.replaceMap (restricted E s Coarse r X1).2.1 (E.getDomainMap ⟨Coarse, "A"⟩)) E.zero)
    (hrec1 : Iterate E IsPrintStatistics1 s rhs 1 true Cycle (startLevel + 1) x0 =
      ⟨.ok (), c1, t1⟩)
    (hrec2 : if Cycle > 1 then
        Iterate E IsPrintStatistics1 s rhs 1 false Cycle (startLevel + 1) c1 = ⟨.ok (), c2, t2⟩
      else c2 = c1 ∧ t2 = [])
    (hc : c = E.replaceMap c2 (restricted E s Coarse r X1).2.2)
    (hX2 : X2 = E.update X1 E.one
      (E.apply ⟨Coarse, "P"⟩ c (E.Build (E.getRangeMap ⟨Coarse, "P"⟩) (E.getNumVectors X1))
        .NO_TRANS E.one E.zero) E.one) :
    IterateBody E IsPrintStatistics1 s Cycle
        (fun B1 n1 z1 l1 => Iterate E IsPrintStatistics1 s B1 n1 z1 Cycle l1) Fine ⟨Fine, "A"⟩
        startLevel B i zeroGuess X =
      ⟨.ok (), E.Apply post X2 B false,
        [.checkDomainMap startLevel, .checkRangeMap startLevel,
         .get Fine "PreSmoother", .smootherApply Fine "PreSmoother" pre X B zeroGuess,
         .residual ⟨Fine, "A"⟩ X1 B] ++
        (restrictTrace s Coarse r ++
         ([.get Coarse "A", .replaceMap (restricted E s Coarse r X1).1,
           .replaceMap (restricted E s Coarse r X1).2.1,
           .putScalar (E.replaceMap (restricted E s Coarse r X1).2.1
             (E.getDomainMap ⟨Coarse, "A"⟩))] ++
          (t1 ++ (t2 ++
           ([.replaceMap c2, .apply ⟨Coarse, "P"⟩ c .NO_TRANS,
             .update X1 (E.apply ⟨Coarse, "P"⟩ c
               (E.Build (E.getRangeMap ⟨Coarse, "P"⟩) (E.getNumVectors X1)) .NO_TRANS E.one
               E.zero),
             .get Fine "PostSmoother", .smootherApply Fine "PostSmoother" post X2 B false] ++
            printTrace IsPrintStatistics1 s startLevel ⟨Fine, "A"⟩ B i
              (E.Apply post X2 B false))))))⟩ ∧
    (s.implicitTranspose_ = true →
      (restricted E s Coarse r X1).1 =
        E.apply ⟨Coarse, "P"⟩ r (E.Build (E.getDomainMap ⟨Coarse, "P"⟩) (E.getNumVectors X1))
          .TRANS E.one E.zero ∧
      restrictTrace s Coarse r = [.get Coarse "P", .apply ⟨Coarse, "P"⟩ r .TRANS]) ∧
    (s.implicitTranspose_ = false →
      (restricted E s Coarse r X1).1 =
        E.apply ⟨Coarse, "R"⟩ r (E.Build (E.getRangeMap ⟨Coarse, "R"⟩) (E.getNumVectors X1))
          .NO_TRANS E.one E.zero ∧
      restrictTrace s Coarse r =
        [.get Coarse "P", .get Coarse "R", .apply ⟨Coarse, "R"⟩ r .NO_TRANS]) ∧
    (∀ (add : V → V → V) (mul : MatrixRef → V → V),
      (∀ Y Z, E.update Y E.one Z E.one = add Y Z) →
      (∀ M Y Z, E.apply M Y Z .NO_TRANS E.one E.zero = mul M Y) →
      (IterateBody E IsPrintStatistics1 s Cycle
        (fun B1 n1 z1 l1 => Iterate E IsPrintStatistics1 s B1 n1 z1 Cycle l1) Fine ⟨Fine, "A"⟩
        startLevel B i zeroGuess X).X =
        E.Apply post (add X1 (mul ⟨Coarse, "P"⟩ c)) B false) := by
  have hcyc := IterateCycle_run E s Cycle
    (fun B1 n1 z1 l1 => Iterate E IsPrintStatistics1 s B1 n1 z1 Cycle l1) Fine Coarse
    ⟨Fine, "A"⟩ startLevel B zeroGuess X (some pre) (some post) MP MA X1 r rhs x0 c1 c2 c X2
    t1 t2 h0 hC (by rw [hpre]; rfl) (by rw [hpost]; rfl) hP hR hAc hX1 hr hrhs hx0 hrec1 hrec2
    hc hX2
  have key : IPost (IterateBody E IsPrintStatistics1 s Cycle
      (fun B1 n1 z1 l1 => Iterate E IsPrintStatistics1 s B1 n1 z1 Cycle l1) Fine ⟨Fine, "A"⟩
      startLevel B i zeroGuess) X (fun o Xr t => o = .ok () ∧ Xr = E.Apply post X2 B false ∧
      t = [.checkDomainMap startLevel, .checkRangeMap startLevel,
         .get Fine "PreSmoother", .smootherApply Fine "PreSmoother" pre X B zeroGuess,
         .residual ⟨Fine, "A"⟩ X1 B] ++
        (restrictTrace s Coarse r ++
         ([.get Coarse "A", .replaceMap (restricted E s Coarse r X1).1,
           .replaceMap (restricted E s Coarse r X1).2.1,
           .putScalar (E.replaceMap (restricted E s Coarse r X1).2.1
             (E.getDomainMap ⟨Coarse, "A"⟩))] ++
          (t1 ++ (t2 ++
           ([.replaceMap c2, .apply ⟨Coarse, "P"⟩ c .NO_TRANS,
             .update X1 (E.apply ⟨Coarse, "P"⟩ c
               (E.Build (E.getRangeMap ⟨Coarse, "P"⟩) (E.getNumVectors X1)) .NO_TRANS E.one
               E.zero),
             .get Fine "PostSmoother", .smootherApply Fine "PostSmoother" post X2 B false] ++
            printTrace IsPrintStatistics1 s startLevel ⟨Fine, "A"⟩ B i
              (E.Apply post X2 B false))))))) := by
    unfold IterateBody
    apply IPost.ibind_of_eq (CheckMaps_ok E startLevel _ B X hd hrg)
    rw [if_neg hl]
    apply IPost.ibind_of_eq hcyc
    apply IPost.iof_eq (PrintResidual_run _ _ _ _ _ _ _)
    refine ⟨rfl, rfl, ?_⟩
    simp only [cycleSmootherStep, List.append_assoc, List.cons_append, List.nil_append,
      List.append_nil]
  have hrun := IterRes.ieq_of key.ielim.1 key.ielim.2.1 key.ielim.2.2
  refine ⟨hrun, ?_, ?_, ?_⟩
  · intro hi
    refine ⟨?_, ?_⟩ <;> simp only [restricted, restrictTrace, if_pos hi]
  · intro hi
    have hn : ¬ (s.implicitTranspose_ = true) := by simp [hi]
    refine ⟨?_, ?_⟩ <;> simp only [restricted, restrictTrace, if_neg hn]
  · intro add mul hadd hmul
    rw [hrun]
    show E.Apply post X2 B false = _
    rw [hX2, hadd, hmul]

section visits
variable {α β : Type}

theorem entersAt_append (k : Int) (t1 t2 : List (IterEvent V)) :
    entersAt k (t1 ++ t2) = entersAt k t1 ++ entersAt k t2 := by
  simp [entersAt]

theorem entersAt_eq_nil {k : Int} {t : List (IterEvent V)}
    (h : ∀ ev ∈ t, ev.enterLevel? ≠ some k) : entersAt k t = [] := by
  unfold entersAt
  rw [List.filter_eq_nil_iff]
  intro ev hev
  simpa using h ev hev

theorem enterLevel_of_not_enter {ev : IterEvent V} (h : ev.isEnter = false) :
    ev.enterLevel? = none := by
  cases ev <;> first | rfl | exact absurd h (by simp [IterEvent.isEnter])

theorem Visits.bind_visits {k : Int} {n1 n2 : Nat} {x : IterAct V α} {f : α → IterAct V β}
    (hx : Visits k n1 x) (hf : ∀ a, Visits k n2 (f a)) : Visits k (n1 + n2) (x >>= f) := by
  constructor
  intro X b hb
  rcases ho : (x X).out with e | a
  · rw [IterAct.ibind_of_error ho] at hb
    exact absurd hb (by simp)
  · rw [IterAct.ibind_of_ok ho] at hb ⊢
    simp only at hb ⊢
    rw [entersAt_append, List.length_append, hx.run X a ho, (hf a).run _ b hb]

theorem Visits.of_walk {k : Int} {x : IterAct V α}
    (h : Walk (fun _ => True) (fun _ => True) (fun ev => ev.isEnter = false) x) :
    Visits k 0 x := by
  constructor
  intro X a _
  rw [entersAt_eq_nil]
  · rfl
  · intro ev hev
    rw [enterLevel_of_not_enter ((h.run X trivial).2.2 ev hev)]
    simp

theorem Visits.onVector_visits {k : Int} {n : Nat} {v : V} {x : IterAct V Unit}
    (h : ∀ a, (x v).out = .ok a → (entersAt k (x v).tr).length = n) :
    Visits k n (IterAct.onVector v x) := by
  constructor
  intro X a ha
  rcases ho : (x v).out with e | u
  · rw [IterAct.onVector_error ho] at ha
    exact absurd ha (by simp)
  · rw [IterAct.onVector_ok ho]
    exact h u ho

theorem quietHyp (E : LinAlg SC V Map) :
    WalkHyp E (fun _ => True) (fun _ => True) (fun ev => ev.isEnter = false) :=
  { apply_keeps := fun _ _ _ _ _ => trivial
    update_keeps := fun _ _ _ _ _ => trivial
    outOfBounds := trivial
    nullPointer := trivial
    NotAvailable := trivial
    badCast := trivial
    event := fun _ h => h }

end visits

section visitsrec
variable {α β : Type}

theorem Visits.bind_some {k : Int} {n1 n2 : Nat} {x : IterAct V α} {f : α → IterAct V β}
    (P : α → Prop) (hx : Visits k n1 x) (hP : ∀ X a, (x X).out = .ok a → P a)
    (hf : ∀ a, P a → Visits k n2 (f a)) : Visits k (n1 + n2) (x >>= f) := by
  constructor
  intro X b hb
  rcases ho : (x X).out with e | a
  · rw [IterAct.ibind_of_error ho] at hb
    exact absurd hb (by simp)
  · rw [IterAct.ibind_of_ok ho] at hb ⊢
    simp only at hb ⊢
    rw [entersAt_append, List.length_append, hx.run X a ho, (hf a (hP X a ho)).run _ b hb]

theorem Visits.pure_visits (k : Int) (a : α) : Visits k 0 (pure a : IterAct V α) :=
  Visits.of_walk (Walk.pure_walk a)

theorem Visits.cast {k : Int} {n n1 : Nat} {x : IterAct V α} (h : n = n1) (hx : Visits k n x) :
    Visits k n1 x := h ▸ hx

theorem Visits.emit_quiet (k : Int) {ev : IterEvent V} (h : ev.isEnter = false) :
    Visits k 0 (IterAct.emit ev) :=
  Visits.of_walk (Walk.emit_walk h)

theorem Visits.CycleDescend_visits (E : LinAlg SC V Map) (Cycle : CycleType)
    (rec : V → Int → Bool → Int → IterAct V Unit) (startLevel k : Int) (m : Nat)
    (hrec : ∀ B z v a, (rec B 1 z (startLevel + 1) v).out = .ok a →
      (entersAt k (rec B 1 z (startLevel + 1) v).tr).length = m)
    (coarseRhs coarseX : V) :
    Visits k (m + if Cycle > 1 then m else 0)
      (CycleDescend E Cycle rec startLevel coarseRhs coarseX) := by
  unfold CycleDescend
  apply Visits.cast (n := 0 + (m + if Cycle > 1 then m else 0)) (by omega)
  apply Visits.bind_visits (Visits.emit_quiet k (by rfl))
  intro _
  apply Visits.bind_visits (Visits.onVector_visits (hrec _ _ _))
  intro c1
  by_cases hc : Cycle > 1
  · simp only [if_pos hc]
    exact Visits.onVector_visits (hrec _ _ _)
  · simp only [if_neg hc]
    exact Visits.pure_visits k c1

theorem Visits.CycleRecurse_visits (E : LinAlg SC V Map) (s : HState) (Cycle : CycleType)
    (rec : V → Int → Bool → Int → IterAct V Unit) (startLevel k : Int) (m : Nat)
    (hrec : ∀ B z v a, (rec B 1 z (startLevel + 1) v).out = .ok a →
      (entersAt k (rec B 1 z (startLevel + 1) v).tr).length = m)
    (Coarse : LevelPtr) (hnn : getMatrixOutcome s Coarse "A" ≠ .ok none)
    (coarseRhs coarseX : V) (origMap : Map) :
    Visits k (m + if Cycle > 1 then m else 0)
      (CycleRecurse E s Cycle rec Coarse startLevel coarseRhs coarseX origMap) := by
  unfold CycleRecurse
  apply Visits.cast (n := 0 + (m + if Cycle > 1 then m else 0)) (by omega)
  apply Visits.bind_some (fun Ac => Ac ≠ none)
    (Visits.of_walk (Walk.GetMatrix_walk (quietHyp E) _ _ _))
  · intro X a ha
    rw [IterAct.GetMatrix_run] at ha
    intro hn
    rw [hn] at ha
    exact hnn ha
  · intro Ac hAc
    cases Ac with
    | none => exact absurd rfl hAc
    | some Ac =>
      simp only []
      apply Visits.cast (n := 0 + (0 + ((m + if Cycle > 1 then m else 0) + (0 + 0)))) (by omega)
      apply Visits.bind_visits (Visits.emit_quiet k (by rfl))
      intro _
      apply Visits.bind_visits (Visits.emit_quiet k (by rfl))
      intro _
      apply Visits.bind_visits (Visits.CycleDescend_visits E Cycle rec startLevel k m hrec _ _)
      intro c
      apply Visits.bind_visits (Visits.emit_quiet k (by rfl))
      intro _
      exact Visits.pure_visits k _

theorem IterAct.LevelsAt_mem {s : HState} {i : Int} {X : V} {p : LevelPtr}
    (h : (IterAct.LevelsAt s i X : IterRes V LevelPtr).out = .ok p) : p ∈ s.Levels_ := by
  rcases IterAct.LevelsAt_outcome (V := V) s i X with ⟨q, _, hq, hrun⟩ | ⟨_, hrun⟩
  · rw [hrun] at h
    simp only [Except.ok.injEq] at h
    subst h
    exact List.getElem?_mem hq
  · rw [hrun] at h
    exact absurd h (by simp)

theorem Visits.IterateCycle_visits (E : LinAlg SC V Map) (s : HState) (Cycle : CycleType)
    (rec : V → Int → Bool → Int → IterAct V Unit) (startLevel k : Int) (m : Nat)
    (hrec : ∀ B z v a, (rec B 1 z (startLevel + 1) v).out = .ok a →
      (entersAt k (rec B 1 z (startLevel + 1) v).tr).length = m)
    (hnn : ∀ p ∈ s.Levels_, getMatrixOutcome s p "A" ≠ .ok none)
    (Fine : LevelPtr) (A : MatrixRef) (B : V) (z : Bool) :
    Visits k (m + if Cycle > 1 then m else 0)
      (IterateCycle E s Cycle rec Fine A startLevel B z) := by
  unfold IterateCycle
  apply Visits.cast
    (n := 0 + (0 + (0 + (0 + ((m + if Cycle > 1 then m else 0) + (0 + 0)))))) (by omega)
  apply Visits.bind_some (fun Coarse => Coarse ∈ s.Levels_)
    (Visits.of_walk (Walk.LevelsAt_walk (quietHyp E) _ _))
  · intro X a ha
    exact IterAct.LevelsAt_mem ha
  · intro Coarse hCoarse
    apply Visits.bind_visits (Visits.of_walk (Walk.CyclePre_walk (quietHyp E) _ _ _ _ _))
    intro _
    apply Visits.bind_visits (Visits.of_walk (Walk.CycleResidual_walk (quietHyp E) _ _))
    intro residual
    apply Visits.bind_visits (Visits.of_walk (Walk.CycleRestrict_walk (quietHyp E) _ _ _))
    intro r
    apply Visits.bind_visits
      (Visits.CycleRecurse_visits E s Cycle rec startLevel k m hrec Coarse (hnn Coarse hCoarse)
        _ _ _)
    intro coarseX
    apply Visits.bind_visits (Visits.of_walk (Walk.CycleCorrect_walk (quietHyp E) _ _))
    intro _
    exact Visits.of_walk (Walk.CyclePost_walk (quietHyp E) _ _ _ _)

theorem Visits.IterateBody_visits (E : LinAlg SC V Map) (IsPrintStatistics1 : Bool) (s : HState)
    (Cycle : CycleType) (rec : V → Int → Bool → Int → IterAct V Unit) (startLevel k : Int)
    (m : Nat)
    (hrec : ∀ B z v a, (rec B 1 z (startLevel + 1) v).out = .ok a →
      (entersAt k (rec B 1 z (startLevel + 1) v).tr).length = m)
    (hnn : ∀ p ∈ s.Levels_, getMatrixOutcome s p "A" ≠ .ok none)
    (Fine : LevelPtr) (A : MatrixRef) (B : V) (i : Int) (z : Bool) :
    Visits k (if startLevel = (s.Levels_.length : Int) - 1 then 0
        else m + if Cycle > 1 then m else 0)
      (IterateBody E IsPrintStatistics1 s Cycle rec Fine A startLevel B i z) := by
  unfold IterateBody
  apply Visits.cast (n := 0 + ((if startLevel = (s.Levels_.length : Int) - 1 then 0
        else m + if Cycle > 1 then m else 0) + 0)) (by omega)
  apply Visits.bind_visits
    (Visits.of_walk (Walk.CheckMaps_walk (quietHyp E) _ _ _ (fun _ _ _ _ => trivial)))
  intro _
  apply Visits.bind_visits
  · by_cases hl : startLevel = (s.Levels_.length : Int) - 1
    · simp only [if_pos hl]
      exact Visits.of_walk (Walk.IterateCoarsest_walk (quietHyp E) _ _ _ _)
    · simp only [if_neg hl]
      exact Visits.IterateCycle_visits E s Cycle rec startLevel k m hrec hnn Fine A B z
  · intro _
    exact Visits.of_walk (Walk.PrintResidual_walk (quietHyp E) _ _ _ _ _ _)

theorem Visits.IterateCall_visits (E : LinAlg SC V Map) (IsPrintStatistics1 : Bool) (s : HState)
    (Cycle : CycleType) (rec : V → Int → Bool → Int → IterAct V Unit) (startLevel k : Int)
    (m : Nat)
    (hrec : ∀ B z v a, (rec B 1 z (startLevel + 1) v).out = .ok a →
      (entersAt k (rec B 1 z (startLevel + 1) v).tr).length = m)
    (hnn : ∀ p ∈ s.Levels_, getMatrixOutcome s p "A" ≠ .ok none) (B : V) (z : Bool) :
    Visits k ((if startLevel = k then 1 else 0) +
        (if startLevel = (s.Levels_.length : Int) - 1 then 0
          else m + if Cycle > 1 then m else 0))
      (IterateCall E IsPrintStatistics1 s Cycle rec B 1 z startLevel) := by
  unfold IterateCall
  apply Visits.cast (n := 0 + ((if startLevel = k then 1 else 0) + (0 + (0 + (0 +
    ((if startLevel = (s.Levels_.length : Int) - 1 then 0
      else m + if Cycle > 1 then m else 0) + 0)))))) (by omega)
  apply Visits.bind_visits (Visits.of_walk Walk.getX_walk)
  intro X
  apply Visits.bind_visits
  · constructor
    intro X1 a _
    show (entersAt k [IterEvent.enterIterate startLevel B 1 X z Cycle]).length = _
    by_cases hk : startLevel = k
    · simp [entersAt, IterEvent.enterLevel?, hk]
    · simp [entersAt, IterEvent.enterLevel?, hk]
  · intro _
    apply Visits.bind_some (fun Fine => Fine ∈ s.Levels_)
      (Visits.of_walk (Walk.LevelsAt_walk (quietHyp E) _ _))
    · intro X1 a ha
      exact IterAct.LevelsAt_mem ha
    · intro Fine hFine
      apply Visits.bind_some (fun A => A ≠ none)
        (Visits.of_walk (Walk.GetMatrix_walk (quietHyp E) _ _ _))
      · intro X1 a ha
        rw [IterAct.GetMatrix_run] at ha
        intro hn
        rw [hn] at ha
        exact hnn Fine hFine ha
      · intro A hA
        cases A with
        | none => exact absurd rfl hA
        | some A =>
          simp only []
          apply Visits.bind_visits
            (Visits.of_walk (Walk.PrintResidual_walk (quietHyp E) _ _ _ _ _ _))
          intro _
          show Visits k _ (IterateLoop _ 1 1 z)
          rw [IterateLoop_succ]
          apply Visits.bind_visits
            (Visits.IterateBody_visits E IsPrintStatistics1 s Cycle rec startLevel k m hrec hnn
              Fine A B 1 z)
          intro _
          exact Visits.pure_visits k ()

theorem enterLevel_eq_some {ev : IterEvent V} {k : Int} (h : ev.enterLevel? = some k) :
    ∃ B n X z C, ev = .enterIterate k B n X z C := by
  cases ev with
  | enterIterate l B n X z C =>
    simp only [IterEvent.enterLevel?, Option.some.injEq] at h
    exact ⟨B, n, X, z, C, by rw [h]⟩
  | _ => exact absurd h (by simp [IterEvent.enterLevel?])

theorem Iterate_no_enter_below (E : LinAlg SC V Map) (IsPrintStatistics1 : Bool) (s : HState)
    (B : V) (nIts : Int) (z : Bool) (Cycle : CycleType) (startLevel k : Int) (X : V)
    (hk : k < startLevel) :
    entersAt k (Iterate E IsPrintStatistics1 s B nIts z Cycle startLevel X).tr = [] := by
  apply entersAt_eq_nil
  intro ev hev hlev
  obtain ⟨B1, n1, X1, z1, C1, hev1⟩ := enterLevel_eq_some hlev
  have := (IterateAt_levels E IsPrintStatistics1 s Cycle _ B nIts z startLevel X).2 ev hev k B1
    n1 X1 z1 C1 hev1
  omega

theorem Iterate_visits_aux (E : LinAlg SC V Map) (IsPrintStatistics1 : Bool) (s : HState)
    (Cycle : CycleType) (hnn : ∀ p ∈ s.Levels_, getMatrixOutcome s p "A" ≠ .ok none) :
    ∀ (j l : Nat) (B : V) (z : Bool) (X : V), l + j < s.Levels_.length →
      (Iterate E IsPrintStatistics1 s B 1 z Cycle (l : Int) X).out = .ok () →
      (entersAt ((l + j : Nat) : Int)
        (Iterate E IsPrintStatistics1 s B 1 z Cycle (l : Int) X).tr).length =
        if Cycle > 1 then 2 ^ j else 1 := by
  intro j
  induction j with
  | zero =>
    intro l B z X _ hok
    rw [Iterate_unfold] at hok ⊢
    have hv := Visits.IterateCall_visits E IsPrintStatistics1 s Cycle
      (fun B1 n1 z1 l1 => Iterate E IsPrintStatistics1 s B1 n1 z1 Cycle l1) (l : Int) (l : Int)
      0 (fun B1 z1 v _ _ => by
        rw [Iterate_no_enter_below E IsPrintStatistics1 s B1 1 z1 Cycle _ _ v (by omega)]
        rfl) hnn B z
    have h := hv.run X () hok
    rw [Nat.add_zero, h]
    by_cases hc : Cycle > 1 <;> by_cases hl : (l : Int) = (s.Levels_.length : Int) - 1 <;>
      simp [hc, hl]
  | succ j ih =>
    intro l B z X hlt hok
    rw [Iterate_unfold] at hok ⊢
    have hcast : ((l + (j + 1) : Nat) : Int) = ((l + 1 + j : Nat) : Int) := by
      push_cast
      omega
    have hv := Visits.IterateCall_visits E IsPrintStatistics1 s Cycle
      (fun B1 n1 z1 l1 => Iterate E IsPrintStatistics1 s B1 n1 z1 Cycle l1) (l : Int)
      ((l + (j + 1) : Nat) : Int) (if Cycle > 1 then 2 ^ j else 1)
      (fun B1 z1 v a ha => by
        have hl1 : (l : Int) + 1 = ((l + 1 : Nat) : Int) := by push_cast; rfl
        rw [hcast]
        simp only [hl1] at ha ⊢
        exact ih (l + 1) B1 z1 v (by omega) ha) hnn B z
    have h := hv.run X () hok
    rw [h]
    have hne : ¬ ((l : Int) = ((l + (j + 1) : Nat) : Int)) := by
      push_cast
      omega
    have hl : ¬ ((l : Int) = (s.Levels_.length : Int) - 1) := by omega
    by_cases hc : Cycle > 1
    · simp only [if_neg hne, if_neg hl, if_pos hc]
      rw [pow_succ]
      omega
    · simp only [if_neg hne, if_neg hl, if_neg hc]

theorem entersAt_printTrace (k : Int) (IsPrintStatistics1 : Bool) (s : HState) (startLevel : Int)
    (A : MatrixRef) (B : V) (i : Int) (X : V) :
    entersAt k (printTrace IsPrintStatistics1 s startLevel A B i X) = [] := by
  unfold printTrace
  split <;> rfl

theorem entersAt_cycleSmootherStep (k : Int) (E : LinAlg SC V Map) (level : LevelPtr)
    (name : String) (smoo : Option Nat) (B : V) (z : Bool) (startLevel : Int) (warn : String)
    (X : V) :
    entersAt k (cycleSmootherStep E level name smoo B z startLevel warn X).2 = [] := by
  cases smoo <;> rfl

theorem entersAt_restrictTrace (k : Int) (s : HState) (Coarse : LevelPtr) (r : V) :
    entersAt k (restrictTrace s Coarse r : List (IterEvent V)) = [] := by
  unfold restrictTrace
  split <;> rfl

theorem Iterate_enters_own (E : LinAlg SC V Map) (IsPrintStatistics1 : Bool) (s : HState)
    (B : V) (nIts : Int) (z : Bool) (Cycle : CycleType) (startLevel : Int) (X : V) :
    entersAt startLevel (Iterate E IsPrintStatistics1 s B nIts z Cycle startLevel X).tr =
      [.enterIterate startLevel B nIts X z Cycle] := by
  rw [Iterate_unfold]
  by_cases hbad : startLevel < 0 ∨ s.Levels_.length ≤ startLevel.toNat
  · rw [IterateCall_outOfBounds E IsPrintStatistics1 s Cycle _ B nIts z startLevel X hbad]
    simp [entersAt, IterEvent.enterLevel?]
  · have h0 : 0 ≤ startLevel := by omega
    have hlt : startLevel.toNat < s.Levels_.length := by omega
    obtain ⟨Fine, hF⟩ : ∃ Fine, s.Levels_[startLevel.toNat]? = some Fine :=
      ⟨_, List.getElem?_eq_getElem hlt⟩
    rcases hA : getMatrixOutcome s Fine "A" with e | Ar
    · rw [IterateCall_get_error E IsPrintStatistics1 s Cycle _ B nIts z startLevel X Fine e h0
        hF hA]
      simp [entersAt, IterEvent.enterLevel?]
    · cases Ar with
      | none =>
        rw [IterateCall_null E IsPrintStatistics1 s Cycle _ B nIts z startLevel X Fine h0 hF hA]
        simp [entersAt, IterEvent.enterLevel?]
      | some A =>
        rw [IterateCall_loop E IsPrintStatistics1 s Cycle _ B nIts z startLevel X Fine A h0 hF
          hA]
        have hyp : WalkHyp E (fun _ => True) (fun _ => True)
            (fun ev => ev.enterLevel? ≠ some startLevel) :=
          { apply_keeps := fun _ _ _ _ _ => trivial
            update_keeps := fun _ _ _ _ _ => trivial
            outOfBounds := trivial
            nullPointer := trivial
            NotAvailable := trivial
            badCast := trivial
            event := fun ev h => by
              rw [enterLevel_of_not_enter h]
              simp }
        have hw := Walk.IterateLoop_walk
          (fun i z1 => Walk.IterateBody_walk IsPrintStatistics1 s Cycle
            (fun B1 n1 z1 l1 => Iterate E IsPrintStatistics1 s B1 n1 z1 Cycle l1) startLevel hyp
            (fun B1 z1 v => ⟨fun _ _ => trivial, fun ev hev hlev => by
              obtain ⟨B2, n2, X2, z2, C2, hev2⟩ := enterLevel_eq_some hlev
              have := (IterateAt_levels E IsPrintStatistics1 s Cycle _ B1 1 z1 (startLevel + 1)
                v).2 ev hev startLevel B2 n2 X2 z2 C2 hev2
              omega⟩)
            Fine A B (fun _ _ _ _ => trivial) i z1) nIts.toNat 1 z
        have hloop := entersAt_eq_nil (hw.run X trivial).2.2
        simp only [entersAt_append, entersAt_printTrace, hloop, List.append_nil]
        simp [entersAt, IterEvent.enterLevel?]

theorem IterateBody_cycle_enters (E : LinAlg SC V Map) (IsPrintStatistics1 : Bool) (s : HState)
    (Cycle : CycleType) (Fine Coarse : LevelPtr) (A : MatrixRef) (startLevel : Int) (B : V)
    (i : Int) (zeroGuess : Bool) (X : V) (pre post : Option Nat) (MP MA : Matrix)
    (X1 r rhs x0 c1 c2 : V) (t1 t2 : List (IterEvent V))
    (hl : startLevel ≠ (s.Levels_.length : Int) - 1)
    (h0 : 0 ≤ startLevel + 1) (hC : s.Levels_[(startLevel + 1).toNat]? = some Coarse)
    (hd : E.isCompatible (E.getDomainMap A) (E.getMap X) = true)
    (hrg : E.isCompatible (E.getRangeMap A) (E.getMap B) = true)
    (hpre : ((s.heap Fine).store ⟨"PreSmoother", none⟩).value = pre.map Value.smoother)
    (hpost : ((s.heap Fine).store ⟨"PostSmoother", none⟩).value = post.map Value.smoother)
    (hP : ((s.heap Coarse).store ⟨"P", none⟩).value = some (.matrix (some MP)))
    (hR : s.implicitTranspose_ = false →
      ∃ MR, ((s.heap Coarse).store ⟨"R", none⟩).value = some (.matrix (some MR)))
    (hAc : ((s.heap Coarse).store ⟨"A", none⟩).value = some (.matrix (some MA)))
    (hX1 : X1 = (cycleSmootherStep E Fine "PreSmoother" pre B zeroGuess startLevel
      ": No PreSmoother!" X).1)
    (hr : r = E.Residual A X1 B)
    (hrhs : rhs = E.replaceMap (restricted E s Coarse r X1).1 (E.getRangeMap ⟨Coarse, "A"⟩))
    (hx0 : x0 = E.putScalar
      (E.replaceMap (restricted E s Coarse r X1).2.1 (E.getDomainMap ⟨Coarse, "A"⟩)) E.zero)
    (hrec1 : Iterate E IsPrintStatistics1 s rhs 1 true Cycle (startLevel + 1) x0 =
      ⟨.ok (), c1, t1⟩)
    (hrec2 : if Cycle > 1 then
        Iterate E IsPrintStatistics1 s rhs 1 false Cycle (startLevel + 1) c1 = ⟨.ok (), c2, t2⟩
      else c2 = c1 ∧ t2 = []) :
    (IterateBody E IsPrintStatistics1 s Cycle
      (fun B1 n1 z1 l1 => Iterate E IsPrintStatistics1 s B1 n1 z1 Cycle l1) Fine A
      startLevel B i zeroGuess X).out = .ok () ∧
    entersAt (startLevel + 1) (IterateBody E IsPrintStatistics1 s Cycle
      (fun B1 n1 z1 l1 => Iterate E IsPrintStatistics1 s B1 n1 z1 Cycle l1) Fine A
      startLevel B i zeroGuess X).tr =
      .enterIterate (startLevel + 1) rhs 1 x0 true Cycle ::
        (if Cycle > 1 then [.enterIterate (startLevel + 1) rhs 1 c1 false Cycle] else []) := by
  have hcyc := IterateCycle_run E s Cycle
    (fun B1 n1 z1 l1 => Iterate E IsPrintStatistics1 s B1 n1 z1 Cycle l1) Fine Coarse
    A startLevel B zeroGuess X pre post MP MA X1 r rhs x0 c1 c2 _ _
    t1 t2 h0 hC hpre hpost hP hR hAc hX1 hr hrhs hx0 hrec1 hrec2 rfl rfl
  have ht1 : entersAt (startLevel + 1) t1 =
      [.enterIterate (startLevel + 1) rhs 1 x0 true Cycle] := by
    have h := Iterate_enters_own E IsPrintStatistics1 s rhs 1 true Cycle (startLevel + 1) x0
    rw [hrec1] at h
    exact h
  have ht2 : entersAt (startLevel + 1) t2 =
      if Cycle > 1 then [.enterIterate (startLevel + 1) rhs 1 c1 false Cycle] else [] := by
    by_cases hcy : Cycle > 1
    · rw [if_pos hcy] at hrec2 ⊢
      have h := Iterate_enters_own E IsPrintStatistics1 s rhs 1 false Cycle (startLevel + 1) c1
      rw [hrec2] at h
      exact h
    · rw [if_neg hcy] at hrec2 ⊢
      rw [hrec2.2]
      rfl
  have key : IPost (IterateBody E IsPrintStatistics1 s Cycle
      (fun B1 n1 z1 l1 => Iterate E IsPrintStatistics1 s B1 n1 z1 Cycle l1) Fine A
      startLevel B i zeroGuess) X (fun o _ t => o = .ok () ∧
      entersAt (startLevel + 1) t =
        .enterIterate (startLevel + 1) rhs 1 x0 true Cycle ::
          (if Cycle > 1 then [.enterIterate (startLevel + 1) rhs 1 c1 false Cycle]
           else [])) := by
    unfold IterateBody
    apply IPost.ibind_of_eq (CheckMaps_ok E startLevel _ B X hd hrg)
    rw [if_neg hl]
    apply IPost.ibind_of_eq hcyc
    apply IPost.iof_eq (PrintResidual_run _ _ _ _ _ _ _)
    refine ⟨rfl, ?_⟩
    simp only [entersAt_append, entersAt_printTrace, entersAt_cycleSmootherStep,
      entersAt_restrictTrace, ht1, ht2, List.append_nil, List.nil_append]
    simp [entersAt, IterEvent.enterLevel?]
  exact key.ielim

/-- C18: the recursive calls of `Iterate`.  First part: in one outer iteration on an
intermediate level with compatible maps, non-null "P" (and "R" unless `implicitTranspose_`
is set) and a non-null coarse operator, whose recursive calls return normally, the
iteration returns normally and enters `Iterate` on level `startLevel + 1` exactly once
when `Cycle > 1` does not hold (V-cycle) and exactly twice when it does (W-cycle); every
such call has `nIts = 1` and the same right-hand side `rhs`; the first one runs with a
zero initial guess on the coarse solution `x0` that `putScalar` has set to zero, the
second one without, on the vector `c1` the first call left.  Second part: in a hierarchy
none of whose levels holds a null "A", a call `Iterate(B, 1, X, z, Cycle, 0)` that returns
normally enters `Iterate` on every level `k` of the chain `2 ^ k` times when `Cycle > 1`
and once otherwise. -/
theorem Iterate_recursive_calls (E : LinAlg SC V Map) (IsPrintStatistics1 : Bool) (s : HState)
    (Cycle : CycleType) :
    (∀ (Fine Coarse : LevelPtr) (startLevel : Int) (B : V) (i : Int) (zeroGuess : Bool)
      (X : V) (pre post : Option Nat) (MP MA : Matrix) (X1 r rhs x0 c1 c2 : V)
      (t1 t2 : List (IterEvent V)),
      startLevel ≠ (s.Levels_.length : Int) - 1 →
      0 ≤ startLevel + 1 → s.Levels_[(startLevel + 1).toNat]? = some Coarse →
      E.isCompatible (E.getDomainMap ⟨Fine, "A"⟩) (E.getMap X) = true →
      E.isCompatible (E.getRangeMap ⟨Fine, "A"⟩) (E.getMap B) = true →
      ((s.heap Fine).store ⟨"PreSmoother", none⟩).value = pre.map Value.smoother →
      ((s.heap Fine).store ⟨"PostSmoother", none⟩).value = post.map Value.smoother →
      ((s.heap Coarse).store ⟨"P", none⟩).value = some (.matrix (some MP)) →
      (s.implicitTranspose_ = false →
        ∃ MR, ((s.heap Coarse).store ⟨"R", none⟩).value = some (.matrix (some MR))) →
      ((s.heap Coarse).store ⟨"A", none⟩).value = some (.matrix (some MA)) →
      X1 = (cycleSmootherStep E Fine "PreSmoother" pre B zeroGuess startLevel
        ": No PreSmoother!" X).1 →
      r = E.Residual ⟨Fine, "A"⟩ X1 B →
      rhs = E.replaceMap (restricted E s Coarse r X1).1 (E.getRangeMap ⟨Coarse, "A"⟩) →
      x0 = E.putScalar
        (E.replaceMap (restricted E s Coarse r X1).2.1 (E.getDomainMap ⟨Coarse, "A"⟩))
        E.zero →
      Iterate E IsPrintStatistics1 s rhs 1 true Cycle (startLevel + 1) x0 = ⟨.ok (), c1, t1⟩ →
      (if Cycle > 1 then
        Iterate E IsPrintStatistics1 s rhs 1 false Cycle (startLevel + 1) c1 = ⟨.ok (), c2, t2⟩
       else c2 = c1 ∧ t2 = []) →
      (IterateBody E IsPrintStatistics1 s Cycle
        (fun B1 n1 z1 l1 => Iterate E IsPrintStatistics1 s B1 n1 z1 Cycle l1) Fine
        ⟨Fine, "A"⟩ startLevel B i zeroGuess X).out = .ok () ∧
      entersAt (startLevel + 1) (IterateBody E IsPrintStatistics1 s Cycle
        (fun B1 n1 z1 l1 => Iterate E IsPrintStatistics1 s B1 n1 z1 Cycle l1) Fine
        ⟨Fine, "A"⟩ startLevel B i zeroGuess X).tr =
        .enterIterate (startLevel + 1) rhs 1 x0 true Cycle ::
          (if Cycle > 1 then [.enterIterate (startLevel + 1) rhs 1 c1 false Cycle]
           else []) ∧
      (entersAt (startLevel + 1) (IterateBody E IsPrintStatistics1 s Cycle
        (fun B1 n1 z1 l1 => Iterate E IsPrintStatistics1 s B1 n1 z1 Cycle l1) Fine
        ⟨Fine, "A"⟩ startLevel B i zeroGuess X).tr).length = if Cycle > 1 then 2 else 1) ∧
    ((∀ p ∈ s.Levels_, ((s.heap p).store ⟨"A", none⟩).value ≠ some (.matrix none)) →
      ∀ (B : V) (z : Bool) (X : V),
        (Iterate E IsPrintStatistics1 s B 1 z Cycle 0 X).out = .ok () →
        ∀ k : Nat, k < s.Levels_.length →
          (entersAt (k : Int) (Iterate E IsPrintStatistics1 s B 1 z Cycle 0 X).tr).length =
            if Cycle > 1 then 2 ^ k else 1) := by
  constructor
  · intro Fine Coarse startLevel B i zeroGuess X pre post MP MA X1 r rhs x0 c1 c2 t1 t2 hl h0
      hC hd hrg hpre hpost hP hR hAc hX1 hr hrhs hx0 hrec1 hrec2
    have h := IterateBody_cycle_enters E IsPrintStatistics1 s Cycle Fine Coarse ⟨Fine, "A"⟩
      startLevel B i zeroGuess X pre post MP MA X1 r rhs x0 c1 c2 t1 t2 hl h0 hC hd hrg hpre
      hpost hP hR hAc hX1 hr hrhs hx0 hrec1 hrec2
    refine ⟨h.1, h.2, ?_⟩
    rw [h.2]
    by_cases hc : Cycle > 1
    · simp [hc]
    · simp [hc]
  · intro hnn B z X hok k hk
    have hnn1 : ∀ p ∈ s.Levels_, getMatrixOutcome s p "A" ≠ .ok none := by
      intro p hp hout
      apply hnn p hp
      unfold getMatrixOutcome at hout
      split at hout
      · exact absurd hout (by simp)
      · next hv => exact hv
      · exact absurd hout (by simp)
      · exact absurd hout (by simp)
    have h := Iterate_visits_aux E IsPrintStatistics1 s Cycle hnn1 k 0 B z X (by omega)
      (by simpa using hok)
    simpa using h

/-- Witness for C16: on the two-level hierarchy, level 1 is the coarsest level; with both
smoothers stored there, one iteration from `X = 0` with a zero initial guess applies the
pre-smoother `2` with the flag true and the post-smoother `3` with the flag false. -/
theorem Iterate_coarsest_level_witness :
    (1 : Int) = (twoLevelHierarchy.Levels_.length : Int) - 1 ∧
    (IterateBody taggedAlgebra false twoLevelHierarchy 0 (fun _ _ _ _ => pure ()) 1 ⟨1, "A"⟩ 1
      (0, 3) 1 true (0, 0)).tr =
      [.checkDomainMap 1, .checkRangeMap 1,
       .get 1 "PreSmoother", .smootherApply 1 "PreSmoother" 2 (0, 0) (0, 3) true,
       .get 1 "PostSmoother", .smootherApply 1 "PostSmoother" 3 (0, 3) (0, 3) false] :=
  ⟨by decide!, by
    rw [(Iterate_coarsest_level taggedAlgebra false twoLevelHierarchy 0 (fun _ _ _ _ => pure ())
      1 ⟨1, "A"⟩ 1 (0, 3) (by decide!)).1 1 true (0, 0) (some 2) (some 3) (by decide!)
      (by decide!) (by decide!) (by decide!)]
    decide!⟩

/-- Witness for C17: one V-cycle iteration on level 0 of the two-level hierarchy, from
`X = 0` with the right-hand side `3`. -/
theorem Iterate_intermediate_level_witness :
    (IterateBody taggedAlgebra false twoLevelHierarchy 0
      (fun B1 n1 z1 l1 => Iterate taggedAlgebra false twoLevelHierarchy B1 n1 z1 0 l1) 0
      ⟨0, "A"⟩ 0 (0, 3) 1 true (0, 0)).out = .ok () ∧
    (IterateBody taggedAlgebra false twoLevelHierarchy 0
      (fun B1 n1 z1 l1 => Iterate taggedAlgebra false twoLevelHierarchy B1 n1 z1 0 l1) 0
      ⟨0, "A"⟩ 0 (0, 3) 1 true (0, 0)).X = (0, 3) :=
  have h := (Iterate_intermediate_level taggedAlgebra false twoLevelHierarchy 0 0 1 0 (0, 3) 1
    true (0, 0) 0 1 smallMatrix smallMatrix (0, 3) (0, 0) (0, 0) (0, 0) (0, 0) (0, 0) (0, 0)
    (0, 3)
    [.enterIterate 1 (0, 0) 1 (0, 0) true 0, .get 1 "A", .checkDomainMap 1, .checkRangeMap 1,
      .get 1 "PreSmoother", .smootherApply 1 "PreSmoother" 2 (0, 0) (0, 0) true,
      .get 1 "PostSmoother", .smootherApply 1 "PostSmoother" 3 (0, 0) (0, 0) false]
    []
    (by decide!) (by decide) (by decide!) (by decide!) (by decide!) (by decide!) (by decide!)
    (by decide!) (fun _ => ⟨smallMatrix, by decide!⟩) (by decide!) (by decide!) (by decide!)
    (by decide!) (by decide!) (by decide!) (by decide!) (by decide!) (by decide!)).1
  ⟨by rw [h], by rw [h]; rfl⟩

/-- Witness for C18: in a W-cycle (`Cycle = 2`) on the two-level hierarchy, one call on
level 0 enters `Iterate` on level 1 twice. -/
theorem Iterate_recursive_calls_witness :
    (∀ p ∈ twoLevelHierarchy.Levels_,
      ((twoLevelHierarchy.heap p).store ⟨"A", none⟩).value ≠ some (.matrix none)) ∧
    (Iterate taggedAlgebra false twoLevelHierarchy (0, 3) 1 true 2 0 (0, 0)).out = .ok () ∧
    (entersAt ((1 : Nat) : Int)
      (Iterate taggedAlgebra false twoLevelHierarchy (0, 3) 1 true 2 0 (0, 0)).tr).length =
      2 :=
  ⟨by decide!, by decide!,
    (Iterate_recursive_calls taggedAlgebra false twoLevelHierarchy 2).2 (by decide!) (0, 3) true
      (0, 0) (by decide!) 1 (by decide!)⟩

end visitsrec

section agree
variable {α β : Type}

theorem Agree.refl_agree (x : IterAct V α) : Agree x x := fun _ => ⟨rfl, rfl⟩

theorem Agree.bind_agree {x1 x2 : IterAct V α} {f1 f2 : α → IterAct V β} (hx : Agree x1 x2)
    (hf : ∀ a, Agree (f1 a) (f2 a)) : Agree (x1 >>= f1) (x2 >>= f2) := by
  intro X
  have h := hx X
  rcases ho : (x1 X).out with e | a
  · rw [IterAct.ibind_of_error ho, IterAct.ibind_of_error (h.1 ▸ ho)]
    exact ⟨rfl, h.2⟩
  · rw [IterAct.ibind_of_ok ho, IterAct.ibind_of_ok (h.1 ▸ ho)]
    rw [← h.2]
    exact hf a _

theorem Agree.emit_agree (e1 e2 : IterEvent V) : Agree (IterAct.emit e1) (IterAct.emit e2) :=
  fun _ => ⟨rfl, rfl⟩

theorem Agree.onVector_agree {v : V} {x1 x2 : IterAct V Unit} (h : Agree x1 x2) :
    Agree (IterAct.onVector v x1) (IterAct.onVector v x2) := by
  intro X
  have hv := h v
  rcases ho : (x1 v).out with e | a
  · rw [IterAct.onVector_error ho, IterAct.onVector_error (hv.1 ▸ ho)]
    exact ⟨rfl, rfl⟩
  · rw [IterAct.onVector_ok ho, IterAct.onVector_ok (hv.1 ▸ ho)]
    exact ⟨by rw [hv.2], rfl⟩

theorem Agree.IterateLoop_agree {body1 body2 : Int → Bool → IterAct V Unit}
    (h : ∀ i z, Agree (body1 i z) (body2 i z)) (n : Nat) :
    ∀ i z, Agree (IterateLoop body1 n i z) (IterateLoop body2 n i z) := by
  induction n with
  | zero => intro i z; exact Agree.refl_agree _
  | succ n ih =>
    intro i z
    rw [IterateLoop_succ, IterateLoop_succ]
    exact Agree.bind_agree (h i z) (fun _ => ih _ _)

theorem Agree.IterateCall_agree (E : LinAlg SC V Map) (IsPrintStatistics1 : Bool) (s : HState)
    (C1 C2 : CycleType) (rec1 rec2 : V → Int → Bool → Int → IterAct V Unit) (B : V)
    (startLevel : Int)
    (h : ∀ Fine A i z, Agree (IterateBody E IsPrintStatistics1 s C1 rec1 Fine A startLevel B i z)
      (IterateBody E IsPrintStatistics1 s C2 rec2 Fine A startLevel B i z))
    (nIts : Int) (z : Bool) :
    Agree (IterateCall E IsPrintStatistics1 s C1 rec1 B nIts z startLevel)
      (IterateCall E IsPrintStatistics1 s C2 rec2 B nIts z startLevel) := by
  unfold IterateCall
  apply Agree.bind_agree (Agree.refl_agree _)
  intro X
  apply Agree.bind_agree (Agree.emit_agree _ _)
  intro _
  apply Agree.bind_agree (Agree.refl_agree _)
  intro Fine
  apply Agree.bind_agree (Agree.refl_agree _)
  intro A
  cases A with
  | none => exact Agree.refl_agree _
  | some A =>
    apply Agree.bind_agree (Agree.refl_agree _)
    intro _
    exact Agree.IterateLoop_agree (h Fine A) _ _ _

theorem Agree.CycleDescend_agree (E : LinAlg SC V Map) (CV CW : CycleType)
    (rec1 rec2 : V → Int → Bool → Int → IterAct V Unit) (startLevel : Int)
    (hV : ¬ CV > 1)
    (hfirst : ∀ B z, Agree (rec1 B 1 z (startLevel + 1)) (rec2 B 1 z (startLevel + 1)))
    (hidem : CW > 1 → ∀ B X, (rec2 B 1 true (startLevel + 1) X).out = .ok () →
      (rec2 B 1 false (startLevel + 1) (rec2 B 1 true (startLevel + 1) X).X).out = .ok () ∧
      (rec2 B 1 false (startLevel + 1) (rec2 B 1 true (startLevel + 1) X).X).X =
        (rec2 B 1 true (startLevel + 1) X).X)
    (coarseRhs coarseX : V) :
    Agree (CycleDescend E CV rec1 startLevel coarseRhs coarseX)
      (CycleDescend E CW rec2 startLevel coarseRhs coarseX) := by
  unfold CycleDescend
  apply Agree.bind_agree (Agree.emit_agree _ _)
  intro _
  simp only [if_neg hV]
  intro X
  have h1 := hfirst coarseRhs true (E.putScalar coarseX E.zero)
  rcases ho : (rec1 coarseRhs 1 true (startLevel + 1) (E.putScalar coarseX E.zero)).out
    with e | a
  · have ho2 := h1.1 ▸ ho
    rw [IterAct.ibind_of_error (by rw [IterAct.onVector_error ho]),
      IterAct.ibind_of_error (by rw [IterAct.onVector_error ho2]),
      IterAct.onVector_error ho, IterAct.onVector_error ho2]
    exact ⟨rfl, rfl⟩
  · have ho2 := h1.1 ▸ ho
    rw [IterAct.ibind_of_ok (by rw [IterAct.onVector_ok ho]),
      IterAct.ibind_of_ok (by rw [IterAct.onVector_ok ho2]),
      IterAct.onVector_ok ho, IterAct.onVector_ok ho2]
    simp only []
    by_cases hW : CW > 1
    · rw [if_pos hW]
      have h2 := hidem hW coarseRhs (E.putScalar coarseX E.zero) ho2
      rw [IterAct.onVector_ok h2.1, h2.2, h1.2]
      exact ⟨rfl, rfl⟩
    · rw [if_neg hW, h1.2]
      exact ⟨rfl, rfl⟩

theorem Agree.CycleRecurse_agree (E : LinAlg SC V Map) (s : HState) (CV CW : CycleType)
    (rec1 rec2 : V → Int → Bool → Int → IterAct V Unit) (Coarse : LevelPtr) (startLevel : Int)
    (hd : ∀ coarseRhs coarseX, Agree (CycleDescend E CV rec1 startLevel coarseRhs coarseX)
      (CycleDescend E CW rec2 startLevel coarseRhs coarseX))
    (coarseRhs coarseX : V) (origMap : Map) :
    Agree (CycleRecurse E s CV rec1 Coarse startLevel coarseRhs coarseX origMap)
      (CycleRecurse E s CW rec2 Coarse startLevel coarseRhs coarseX origMap) := by
  unfold CycleRecurse
  apply Agree.bind_agree (Agree.refl_agree _)
  intro Ac
  cases Ac with
  | none => exact Agree.refl_agree _
  | some Ac =>
    apply Agree.bind_agree (Agree.refl_agree _)
    intro _
    apply Agree.bind_agree (Agree.refl_agree _)
    intro _
    apply Agree.bind_agree (hd _ _)
    intro c
    exact Agree.refl_agree _

theorem Agree.IterateBody_agree (E : LinAlg SC V Map) (IsPrintStatistics1 : Bool) (s : HState)
    (CV CW : CycleType) (rec1 rec2 : V → Int → Bool → Int → IterAct V Unit) (startLevel : Int)
    (hd : startLevel ≠ (s.Levels_.length : Int) - 1 →
      ∀ coarseRhs coarseX, Agree (CycleDescend E CV rec1 startLevel coarseRhs coarseX)
        (CycleDescend E CW rec2 startLevel coarseRhs coarseX))
    (Fine : LevelPtr) (A : MatrixRef) (B : V) (i : Int) (z : Bool) :
    Agree (IterateBody E IsPrintStatistics1 s CV rec1 Fine A startLevel B i z)
      (IterateBody E IsPrintStatistics1 s CW rec2 Fine A startLevel B i z) := by
  unfold IterateBody
  apply Agree.bind_agree (Agree.refl_agree _)
  intro _
  refine Agree.bind_agree ?_ (fun _ => Agree.refl_agree _)
  by_cases hl : startLevel = (s.Levels_.length : Int) - 1
  · rw [if_pos hl, if_pos hl]
    exact Agree.refl_agree _
  · rw [if_neg hl, if_neg hl]
    unfold IterateCycle
    apply Agree.bind_agree (Agree.refl_agree _)
    intro Coarse
    apply Agree.bind_agree (Agree.refl_agree _)
    intro _
    apply Agree.bind_agree (Agree.refl_agree _)
    intro residual
    apply Agree.bind_agree (Agree.refl_agree _)
    intro r
    apply Agree.bind_agree (Agree.CycleRecurse_agree E s CV CW rec1 rec2 Coarse startLevel
      (hd hl) _ _ _)
    intro c
    exact Agree.refl_agree _

end agree

theorem smootherStep_getMap (E : LinAlg SC V Map) (level : LevelPtr) (name : String)
    (smoo : Option Nat) (B : V) (z : Bool) (X : V)
    (hmap : ∀ h, smoo = some h → ∀ X B z, E.getMap (E.Apply h X B z) = E.getMap X) :
    E.getMap (smootherStep E level name smoo B z X).1 = E.getMap X := by
  cases smoo with
  | none => rfl
  | some h => exact hmap h rfl X B z

theorem smootherStep_direct (E : LinAlg SC V Map) (level : LevelPtr) (name : String)
    (smoo : Option Nat) (B : V) (z z2 : Bool) (X X2 : V)
    (hdir : ∀ h, smoo = some h → ∀ X X2 B z z2, E.getMap X = E.getMap X2 →
      E.Apply h X B z = E.Apply h X2 B z2)
    (hX : E.getMap X = E.getMap X2) (hs : smoo.isSome = true) :
    (smootherStep E level name smoo B z X).1 = (smootherStep E level name smoo B z2 X2).1 := by
  cases smoo with
  | none => exact absurd hs (by simp)
  | some h => exact hdir h rfl X X2 B z z2 hX

theorem IterateLoop_one (body : Int → Bool → IterAct V Unit) (i : Int) (z : Bool) (X : V) :
    (IterateLoop body 1 i z X).out = (body i z X).out ∧
    (IterateLoop body 1 i z X).X = (body i z X).X := by
  rw [IterateLoop_succ]
  rcases ho : (body i z X).out with e | a
  · rw [IterAct.ibind_of_error ho]
    exact ⟨rfl, rfl⟩
  · rw [IterAct.ibind_of_ok ho]
    exact ⟨rfl, rfl⟩

/-- A call with one iteration on the coarsest level, when every smoother stored there is a
direct solver: the result is a fixed point, a further call from it returns normally and
leaves it as it is. -/
theorem IterateCall_coarsest_direct (E : LinAlg SC V Map) (IsPrintStatistics1 : Bool)
    (s : HState) (Coarse : LevelPtr) (pre post : Option Nat) (startLevel : Int)
    (hl : startLevel = (s.Levels_.length : Int) - 1) (h0 : 0 ≤ startLevel)
    (hC : s.Levels_[startLevel.toNat]? = some Coarse)
    (hpre : ((s.heap Coarse).store ⟨"PreSmoother", none⟩).value = pre.map Value.smoother)
    (hpost : ((s.heap Coarse).store ⟨"PostSmoother", none⟩).value = post.map Value.smoother)
    (hmap : ∀ h, pre = some h ∨ post = some h →
      ∀ X B z, E.getMap (E.Apply h X B z) = E.getMap X)
    (hdir : ∀ h, pre = some h ∨ post = some h →
      ∀ X X2 B z z2, E.getMap X = E.getMap X2 → E.Apply h X B z = E.Apply h X2 B z2)
    (C1 C2 : CycleType) (rec1 rec2 : V → Int → Bool → Int → IterAct V Unit) (B X : V)
    (z z2 : Bool)
    (hok : (IterateCall E IsPrintStatistics1 s C1 rec1 B 1 z startLevel X).out = .ok ()) :
    (IterateCall E IsPrintStatistics1 s C2 rec2 B 1 z2 startLevel
      (IterateCall E IsPrintStatistics1 s C1 rec1 B 1 z startLevel X).X).out = .ok () ∧
    (IterateCall E IsPrintStatistics1 s C2 rec2 B 1 z2 startLevel
      (IterateCall E IsPrintStatistics1 s C1 rec1 B 1 z startLevel X).X).X =
      (IterateCall E IsPrintStatistics1 s C1 rec1 B 1 z startLevel X).X := by
  rcases hA : getMatrixOutcome s Coarse "A" with e | A
  · rw [IterateCall_get_error E IsPrintStatistics1 s C1 rec1 B 1 z startLevel X Coarse e h0 hC
      hA] at hok
    exact absurd hok (by simp)
  · cases A with
    | none =>
      rw [IterateCall_null E IsPrintStatistics1 s C1 rec1 B 1 z startLevel X Coarse h0 hC hA,
        IterateCall_null E IsPrintStatistics1 s C2 rec2 B 1 z2 startLevel X Coarse h0 hC hA]
      exact ⟨rfl, rfl⟩
    | some A =>
      rw [IterateCall_loop E IsPrintStatistics1 s C1 rec1 B 1 z startLevel X Coarse A h0 hC
        hA] at hok ⊢
      simp only at hok ⊢
      rw [IterateCall_loop E IsPrintStatistics1 s C2 rec2 B 1 z2 startLevel _ Coarse A h0 hC hA]
      simp only
      have hone : (1 : Int).toNat = 1 := rfl
      rw [hone] at hok ⊢
      rw [(IterateLoop_one _ 1 z X).1] at hok
      rw [(IterateLoop_one _ 1 z2 _).1, (IterateLoop_one _ 1 z2 _).2, (IterateLoop_one _ 1 z X).2]
      by_cases hd : E.isCompatible (E.getDomainMap A) (E.getMap X) = true
      · by_cases hr : E.isCompatible (E.getRangeMap A) (E.getMap B) = true
        · have hrun := IterateBody_coarsest_run E IsPrintStatistics1 s C1 rec1 Coarse A
            startLevel B 1 z X pre post hl hd hr hpre hpost
          have hm1 : E.getMap (smootherStep E Coarse "PreSmoother" pre B z X).1 = E.getMap X :=
            smootherStep_getMap E _ _ pre B z X (fun h hh => hmap h (Or.inl hh))
          have hm2 : E.getMap (smootherStep E Coarse "PostSmoother" post B (z && pre.isNone)
              (smootherStep E Coarse "PreSmoother" pre B z X).1).1 = E.getMap X := by
            rw [smootherStep_getMap E _ _ post B _ _ (fun h hh => hmap h (Or.inr hh)), hm1]
          rw [hrun]
          simp only
          have hrun2 := IterateBody_coarsest_run E IsPrintStatistics1 s C2 rec2 Coarse A
            startLevel B 1 z2
            (smootherStep E Coarse "PostSmoother" post B (z && pre.isNone)
              (smootherStep E Coarse "PreSmoother" pre B z X).1).1 pre post hl
            (by rw [hm2]; exact hd) hr hpre hpost
          rw [hrun2]
          refine ⟨rfl, ?_⟩
          simp only
          cases pre with
          | none =>
            cases post with
            | none => rfl
            | some k =>
              exact hdir k (Or.inr rfl) _ _ B _ _ (hmap k (Or.inr rfl) _ _ _)
          | some h =>
            have hpre1 : E.Apply h (smootherStep E Coarse "PostSmoother" post B
                (z && (some h).isNone) (smootherStep E Coarse "PreSmoother" (some h) B z X).1).1
                B z2 = E.Apply h X B z :=
              hdir h (Or.inl rfl) _ _ B _ _ hm2
            cases post with
            | none => exact hpre1
            | some k =>
              show E.Apply k (E.Apply h _ B z2) B _ = E.Apply k (E.Apply h X B z) B _
              rw [hpre1]
              simp only [Option.isNone, Bool.and_false]
        · have hfail := CheckMaps_fails E startLevel A B X (Or.inr (by simpa using hr))
          exfalso
          have hb : (IterateBody E IsPrintStatistics1 s C1 rec1 Coarse A startLevel B 1 z
              X).out ≠ .ok () := by
            unfold IterateBody
            rw [IterAct.ibind_of_error (by rw [hfail])]
            simp
          exact hb hok
      · have hfail := CheckMaps_fails E startLevel A B X (Or.inl (by simpa using hd))
        exfalso
        have hb : (IterateBody E IsPrintStatistics1 s C1 rec1 Coarse A startLevel B 1 z
            X).out ≠ .ok () := by
          unfold IterateBody
          rw [IterAct.ibind_of_error (by rw [hfail])]
          simp
        exact hb hok

theorem Iterate_two_levels_agree (E : LinAlg SC V Map) (IsPrintStatistics1 : Bool)
    (s : HState) (Coarse : LevelPtr) (pre post : Option Nat) (CV CW : CycleType)
    (hlen : s.Levels_.length = 2) (hC : s.Levels_[1]? = some Coarse)
    (hpre : ((s.heap Coarse).store ⟨"PreSmoother", none⟩).value = pre.map Value.smoother)
    (hpost : ((s.heap Coarse).store ⟨"PostSmoother", none⟩).value = post.map Value.smoother)
    (hmap : ∀ h, pre = some h ∨ post = some h →
      ∀ X B z, E.getMap (E.Apply h X B z) = E.getMap X)
    (hdir : ∀ h, pre = some h ∨ post = some h →
      ∀ X X2 B z z2, E.getMap X = E.getMap X2 → E.Apply h X B z = E.Apply h X2 B z2)
    (hV : ¬ CV > 1) (B : V) (nIts : Int) (z : Bool) :
    Agree (Iterate E IsPrintStatistics1 s B nIts z CV 0)
      (Iterate E IsPrintStatistics1 s B nIts z CW 0) := by
  have hl1 : (0 : Int) + 1 = (s.Levels_.length : Int) - 1 := by rw [hlen]; rfl
  have hfirst : ∀ B1 z1, Agree
      (IterateAt E IsPrintStatistics1 s CV 0 B1 1 z1 (0 + 1))
      (IterateAt E IsPrintStatistics1 s CW 0 B1 1 z1 (0 + 1)) := by
    intro B1 z1
    exact Agree.IterateCall_agree E IsPrintStatistics1 s CV CW _ _ B1 (0 + 1)
      (fun Fine A i z2 => Agree.IterateBody_agree E IsPrintStatistics1 s CV CW _ _ (0 + 1)
        (fun hne => absurd hl1 hne) Fine A B1 i z2) 1 z1
  have hidem : CW > 1 → ∀ B1 X1,
      (IterateAt E IsPrintStatistics1 s CW 0 B1 1 true (0 + 1) X1).out = .ok () →
      (IterateAt E IsPrintStatistics1 s CW 0 B1 1 false (0 + 1)
        (IterateAt E IsPrintStatistics1 s CW 0 B1 1 true (0 + 1) X1).X).out = .ok () ∧
      (IterateAt E IsPrintStatistics1 s CW 0 B1 1 false (0 + 1)
        (IterateAt E IsPrintStatistics1 s CW 0 B1 1 true (0 + 1) X1).X).X =
        (IterateAt E IsPrintStatistics1 s CW 0 B1 1 true (0 + 1) X1).X := by
    intro _ B1 X1 hok
    exact IterateCall_coarsest_direct E IsPrintStatistics1 s Coarse pre post (0 + 1) hl1
      (by decide) hC hpre hpost hmap hdir CW CW _ _ B1 X1 true false hok
  have hcount : s.Levels_.length - 1 - (0 : Int).toNat = 1 := by rw [hlen]; rfl
  unfold Iterate
  rw [hcount]
  exact Agree.IterateCall_agree E IsPrintStatistics1 s CV CW _ _ B 0
    (fun Fine A i z2 => Agree.IterateBody_agree E IsPrintStatistics1 s CV CW _ _ 0
      (fun _ rhs cx => Agree.CycleDescend_agree E CV CW _ _ 0 hV hfirst hidem rhs cx)
      Fine A B i z2) nIts z

/-- C19: on a two-level hierarchy whose coarsest level carries direct solvers, each of its
slots "PreSmoother" and "PostSmoother" being empty or holding a smoother whose `Apply`
leaves the map of `X` as it is and gives a result that depends neither on the incoming
values of `X` nor on the zero-guess flag, the calls `Iterate(B, nIts, X, z, Cycle, 0)`
with any two cycle types, in particular with a V-cycle (one recursive call, `Cycle > 1`
false) and with a W-cycle (two recursive calls, `Cycle > 1` true), have the same outcome
and leave the same solution vector `X`, for every `B`, `X`, `nIts` and `z`. -/
theorem Iterate_cycle_type_two_levels (E : LinAlg SC V Map) (IsPrintStatistics1 : Bool)
    (s : HState) (Coarse : LevelPtr) (pre post : Option Nat) (C1 C2 : CycleType)
    (hlen : s.Levels_.length = 2) (hC : s.Levels_[1]? = some Coarse)
    (hpre : ((s.heap Coarse).store ⟨"PreSmoother", none⟩).value = pre.map Value.smoother)
    (hpost : ((s.heap Coarse).store ⟨"PostSmoother", none⟩).value = post.map Value.smoother)
    (hmap : ∀ h, pre = some h ∨ post = some h →
      ∀ X B z, E.getMap (E.Apply h X B z) = E.getMap X)
    (hdir : ∀ h, pre = some h ∨ post = some h →
      ∀ X X2 B z z2, E.getMap X = E.getMap X2 → E.Apply h X B z = E.Apply h X2 B z2)
    (B X : V) (nIts : Int) (z : Bool) :
    (Iterate E IsPrintStatistics1 s B nIts z C1 0 X).out =
      (Iterate E IsPrintStatistics1 s B nIts z C2 0 X).out ∧
    (Iterate E IsPrintStatistics1 s B nIts z C1 0 X).X =
      (Iterate E IsPrintStatistics1 s B nIts z C2 0 X).X := by
  have h1 := Iterate_two_levels_agree E IsPrintStatistics1 s Coarse pre post 0 C1 hlen hC hpre
    hpost hmap hdir (by decide) B nIts z X
  have h2 := Iterate_two_levels_agree E IsPrintStatistics1 s Coarse pre post 0 C2 hlen hC hpre
    hpost hmap hdir (by decide) B nIts z X
  exact ⟨h1.1.symm.trans h2.1, h1.2.symm.trans h2.2⟩

/-- Witness for C19: on the two-level hierarchy, with vectors that carry a map and
smoothers that replace the entry of `X` by the entry of `B`, three iterations from
`X = 1` give the same `X` with `Cycle = 0` and with `Cycle = 2`. -/
theorem Iterate_cycle_type_two_levels_witness :
    (twoLevelHierarchy.Levels_.length = 2 ∧ twoLevelHierarchy.Levels_[1]? = some 1) ∧
    (Iterate taggedAlgebra false twoLevelHierarchy (0, 3) 3 false 0 0 (0, 1)).out =
      (Iterate taggedAlgebra false twoLevelHierarchy (0, 3) 3 false 2 0 (0, 1)).out ∧
    (Iterate taggedAlgebra false twoLevelHierarchy (0, 3) 3 false 0 0 (0, 1)).X =
      (Iterate taggedAlgebra false twoLevelHierarchy (0, 3) 3 false 2 0 (0, 1)).X :=
  ⟨⟨by decide!, by decide!⟩,
    Iterate_cycle_type_two_levels taggedAlgebra false twoLevelHierarchy 1 (some 2) (some 3) 0 2
      (by decide!) (by decide!) (by decide!) (by decide!) (fun _ _ _ _ _ => rfl)
      (fun _ _ X X2 B _ _ hX => Prod.ext hX (by
        show X.2 + (B.2 - X.2) = X2.2 + (B.2 - X2.2)
        omega))
      (0, 3) (0, 1) 3 false⟩

theorem IterateBody_cycle_X (E : LinAlg SC V Map) (IsPrintStatistics1 : Bool) (s : HState)
    (Cycle : CycleType) (Fine Coarse : LevelPtr) (A : MatrixRef) (startLevel : Int) (B : V)
    (i : Int) (zeroGuess : Bool) (X : V) (pre post : Option Nat) (MP MA : Matrix)
    (X1 r rhs x0 c1 c2 c X2 : V) (t1 t2 : List (IterEvent V))
    (hl : startLevel ≠ (s.Levels_.length : Int) - 1)
    (h0 : 0 ≤ startLevel + 1) (hC : s.Levels_[(startLevel + 1).toNat]? = some Coarse)
    (hd : E.isCompatible (E.getDomainMap A) (E.getMap X) = true)
    (hrg : E.isCompatible (E.getRangeMap A) (E.getMap B) = true)
    (hpre : ((s.heap Fine).store ⟨"PreSmoother", none⟩).value = pre.map Value.smoother)
    (hpost : ((s.heap Fine).store ⟨"PostSmoother", none⟩).value = post.map Value.smoother)
    (hP : ((s.heap Coarse).store ⟨"P", none⟩).value = some (.matrix (some MP)))
    (hR : s.implicitTranspose_ = false →
      ∃ MR, ((s.heap Coarse).store ⟨"R", none⟩).value = some (.matrix (some MR)))
    (hAc : ((s.heap Coarse).store ⟨"A", none⟩).value = some (.matrix (some MA)))
    (hX1 : X1 = (cycleSmootherStep E Fine "PreSmoother" pre B zeroGuess startLevel
      ": No PreSmoother!" X).1)
    (hr : r = E.Residual A X1 B)
    (hrhs : rhs = E.replaceMap (restricted E s Coarse r X1).1 (E.getRangeMap ⟨Coarse, "A"⟩))
    (hx0 : x0 = E.putScalar
      (E.replaceMap (restricted E s Coarse r X1).2.1 (E.getDomainMap ⟨Coarse, "A"⟩)) E.zero)
    (hrec1 : Iterate E IsPrintStatistics1 s rhs 1 true Cycle (startLevel + 1) x0 =
      ⟨.ok (), c1, t1⟩)
    (hrec2 : if Cycle > 1 then
        Iterate E IsPrintStatistics1 s rhs 1 false Cycle (startLevel + 1) c1 = ⟨.ok (), c2, t2⟩
      else c2 = c1 ∧ t2 = [])
    (hc : c = E.replaceMap c2 (restricted E s Coarse r X1).2.2)
    (hX2 : X2 = E.update X1 E.one
      (E.apply ⟨Coarse, "P"⟩ c (E.Build (E.getRangeMap ⟨Coarse, "P"⟩) (E.getNumVectors X1))
        .NO_TRANS E.one E.zero) E.one) :
    (IterateBody E IsPrintStatistics1 s Cycle
      (fun B1 n1 z1 l1 => Iterate E IsPrintStatistics1 s B1 n1 z1 Cycle l1) Fine A
      startLevel B i zeroGuess X).out = .ok () ∧
    (IterateBody E IsPrintStatistics1 s Cycle
      (fun B1 n1 z1 l1 => Iterate E IsPrintStatistics1 s B1 n1 z1 Cycle l1) Fine A
      startLevel B i zeroGuess X).X =
      (cycleSmootherStep E Fine "PostSmoother" post B false startLevel ": No PostSmoother!"
        X2).1 := by
  have hcyc := IterateCycle_run E s Cycle
    (fun B1 n1 z1 l1 => Iterate E IsPrintStatistics1 s B1 n1 z1 Cycle l1) Fine Coarse
    A startLevel B zeroGuess X pre post MP MA X1 r rhs x0 c1 c2 c X2
    t1 t2 h0 hC hpre hpost hP hR hAc hX1 hr hrhs hx0 hrec1 hrec2 hc hX2
  have key : IPost (IterateBody E IsPrintStatistics1 s Cycle
      (fun B1 n1 z1 l1 => Iterate E IsPrintStatistics1 s B1 n1 z1 Cycle l1) Fine A
      startLevel B i zeroGuess) X (fun o Xr _ => o = .ok () ∧
      Xr = (cycleSmootherStep E Fine "PostSmoother" post B false startLevel
        ": No PostSmoother!" X2).1) := by
    unfold IterateBody
    apply IPost.ibind_of_eq (CheckMaps_ok E startLevel _ B X hd hrg)
    rw [if_neg hl]
    apply IPost.ibind_of_eq hcyc
    apply IPost.iof_eq (PrintResidual_run _ _ _ _ _ _ _)
    exact ⟨rfl, rfl⟩
  exact key.ielim

theorem Iterate_coarsest_ok (E : LinAlg SC V Map) (IsPrintStatistics1 : Bool) (s : HState)
    (Coarse : LevelPtr) (MA : Matrix) (pre post : Option Nat) (Cycle : CycleType)
    (startLevel : Int) (B X : V) (z : Bool)
    (hl : startLevel = (s.Levels_.length : Int) - 1) (h0 : 0 ≤ startLevel)
    (hC : s.Levels_[startLevel.toNat]? = some Coarse)
    (hA : ((s.heap Coarse).store ⟨"A", none⟩).value = some (.matrix (some MA)))
    (hpre : ((s.heap Coarse).store ⟨"PreSmoother", none⟩).value = pre.map Value.smoother)
    (hpost : ((s.heap Coarse).store ⟨"PostSmoother", none⟩).value = post.map Value.smoother)
    (hd : E.isCompatible (E.getDomainMap ⟨Coarse, "A"⟩) (E.getMap X) = true)
    (hr : E.isCompatible (E.getRangeMap ⟨Coarse, "A"⟩) (E.getMap B) = true) :
    (Iterate E IsPrintStatistics1 s B 1 z Cycle startLevel X).out = .ok () := by
  rw [Iterate_run E IsPrintStatistics1 s B 1 z Cycle startLevel X Coarse MA h0 hC hA]
  have hone : (1 : Int).toNat = 1 := rfl
  simp only [hone]
  rw [(IterateLoop_one _ 1 z X).1, IterateBody_coarsest_run E IsPrintStatistics1 s Cycle _
    Coarse ⟨Coarse, "A"⟩ startLevel B 1 z X pre post hl hd hr hpre hpost]

/-- C20: the identity scenario.  On a two-level hierarchy with "A" and both smoothers on
both levels and "P" (and "R" unless `implicitTranspose_` is set) on the coarse level, in
exact arithmetic over a commutative ring where every matrix acts as the identity and
every smoother replaces `X` by `X + (B - A X)`, the call `Iterate(b, 1, X, z, Cycle, 0)`
returns normally with `X = b` for every right-hand side `b`: so it does from `X = 0` with
`z = true` and a V-cycle, with or without implicit transpose. -/
theorem Iterate_identity_scenario (K ι : Type) [CommRing K] (IsPrintStatistics1 : Bool)
    (s : HState) (Fine Coarse : LevelPtr) (MA MP MAc : Matrix) (pre post cpre cpost : Nat)
    (hlev : s.Levels_ = [Fine, Coarse])
    (hA : ((s.heap Fine).store ⟨"A", none⟩).value = some (.matrix (some MA)))
    (hpre : ((s.heap Fine).store ⟨"PreSmoother", none⟩).value = some (.smoother pre))
    (hpost : ((s.heap Fine).store ⟨"PostSmoother", none⟩).value = some (.smoother post))
    (hAc : ((s.heap Coarse).store ⟨"A", none⟩).value = some (.matrix (some MAc)))
    (hP : ((s.heap Coarse).store ⟨"P", none⟩).value = some (.matrix (some MP)))
    (hR : s.implicitTranspose_ = false →
      ∃ MR, ((s.heap Coarse).store ⟨"R", none⟩).value = some (.matrix (some MR)))
    (hcpre : ((s.heap Coarse).store ⟨"PreSmoother", none⟩).value = some (.smoother cpre))
    (hcpost : ((s.heap Coarse).store ⟨"PostSmoother", none⟩).value = some (.smoother cpost))
    (b X : ι → K) (z : Bool) (Cycle : CycleType) :
    (Iterate (identityAlgebra K ι) IsPrintStatistics1 s b 1 z Cycle 0 X).out = .ok () ∧
    (Iterate (identityAlgebra K ι) IsPrintStatistics1 s b 1 z Cycle 0 X).X = b := by
  have hlen : s.Levels_.length = 2 := by rw [hlev]; rfl
  have hl0 : (0 : Int) ≠ (s.Levels_.length : Int) - 1 := by rw [hlen]; decide
  have hl1 : (0 : Int) + 1 = (s.Levels_.length : Int) - 1 := by rw [hlen]; rfl
  have hF : s.Levels_[(0 : Int).toNat]? = some Fine := by rw [hlev]; rfl
  have hC : s.Levels_[((0 : Int) + 1).toNat]? = some Coarse := by rw [hlev]; rfl
  have hcoarse : ∀ (B1 X1 : ι → K) (z1 : Bool),
      (Iterate (identityAlgebra K ι) IsPrintStatistics1 s B1 1 z1 Cycle (0 + 1) X1).out =
        .ok () := fun B1 X1 z1 =>
    Iterate_coarsest_ok (identityAlgebra K ι) IsPrintStatistics1 s Coarse MAc (some cpre)
      (some cpost) Cycle (0 + 1) B1 X1 z1 hl1 (by decide) hC hAc (by rw [hcpre]; rfl)
      (by rw [hcpost]; rfl) rfl rfl
  rw [Iterate_run (identityAlgebra K ι) IsPrintStatistics1 s b 1 z Cycle 0 X Fine MA
    (le_refl 0) hF hA]
  have hone : (1 : Int).toNat = 1 := rfl
  simp only [hone]
  rw [(IterateLoop_one _ 1 z X).1, (IterateLoop_one _ 1 z X).2]
  have hbody : ∀ c2 t2,
      (if Cycle > 1 then
        Iterate (identityAlgebra K ι) IsPrintStatistics1 s _ 1 false Cycle (0 + 1) _ =
          ⟨.ok (), c2, t2⟩
       else c2 = _ ∧ t2 = []) → _ :=
    fun c2 t2 hrec2 => IterateBody_cycle_X (identityAlgebra K ι) IsPrintStatistics1 s Cycle
      Fine Coarse ⟨Fine, "A"⟩ 0 b 1 z X (some pre) (some post) MP MAc _ _ _ _ _ c2 _ _ _ t2
      hl0 (by decide) hC rfl rfl (by rw [hpre]; rfl) (by rw [hpost]; rfl) hP hR hAc rfl rfl
      rfl rfl (IterRes.ieq_of (hcoarse _ _ true) rfl rfl) hrec2 rfl rfl
  have hpostb : ∀ X2 : ι → K, (cycleSmootherStep (identityAlgebra K ι) Fine "PostSmoother"
      (some post) b false 0 ": No PostSmoother!" X2).1 = b := by
    intro X2
    funext j
    simp only [cycleSmootherStep, identityAlgebra]
    ring
  by_cases hcy : Cycle > 1
  · have h := hbody _ _ (by rw [if_pos hcy]; exact IterRes.ieq_of (hcoarse _ _ false) rfl rfl)
    exact ⟨h.1, h.2.trans (hpostb _)⟩
  · have h := hbody _ _ (by rw [if_neg hcy]; exact ⟨rfl, rfl⟩)
    exact ⟨h.1, h.2.trans (hpostb _)⟩

/-- Witness for C20: over the integers with two entries per vector, on the two-level
hierarchy and on the same hierarchy with implicit transpose, one V-cycle from `X = 0` with
a zero initial guess ends with `X = b` for `b = (3, 5)`. -/
theorem Iterate_identity_scenario_witness :
    (twoLevelHierarchy.Levels_ = [0, 1] ∧ twoLevelHierarchy.implicitTranspose_ = false ∧
      twoLevelTransposeHierarchy.Levels_ = [0, 1] ∧
      twoLevelTransposeHierarchy.implicitTranspose_ = true) ∧
    ((Iterate (identityAlgebra Int (Fin 2)) false twoLevelHierarchy ![3, 5] 1 true 0 0
        (fun _ => 0)).out = .ok () ∧
      (Iterate (identityAlgebra Int (Fin 2)) false twoLevelHierarchy ![3, 5] 1 true 0 0
        (fun _ => 0)).X = ![3, 5]) ∧
    ((Iterate (identityAlgebra Int (Fin 2)) false twoLevelTransposeHierarchy ![3, 5] 1 true 0 0
        (fun _ => 0)).out = .ok () ∧
      (Iterate (identityAlgebra Int (Fin 2)) false twoLevelTransposeHierarchy ![3, 5] 1 true 0 0
        (fun _ => 0)).X = ![3, 5]) :=
  ⟨⟨by decide!, by decide!, by decide!, by decide!⟩,
    Iterate_identity_scenario Int (Fin 2) false twoLevelHierarchy 0 1 smallMatrix smallMatrix
      smallMatrix 0 1 2 3 (by decide!) (by decide!) (by decide!) (by decide!) (by decide!)
      (by decide!) (fun _ => ⟨smallMatrix, by decide!⟩) (by decide!) (by decide!) ![3, 5]
      (fun _ => 0) true 0,
    Iterate_identity_scenario Int (Fin 2) false twoLevelTransposeHierarchy 0 1 smallMatrix
      smallMatrix smallMatrix 0 1 2 3 (by decide!) (by decide!) (by decide!) (by decide!)
      (by decide!) (by decide!) (fun h => absurd h (by decide!)) (by decide!) (by decide!)
      ![3, 5] (fun _ => 0) true 0⟩

end iterate

section writing

theorem WriteMatrix_of_matrixAt {s : HState} {i : Int} {name : String} {M : Matrix}
    (h : matrixAt s i name = some M) (fileName : String) :
    WriteMatrix s i name fileName = ⟨.ok (), [⟨fileName, M⟩]⟩ := by
  unfold matrixAt at h
  unfold WriteMatrix derefMatrix
  by_cases h0 : 0 ≤ i
  · rw [if_pos h0] at h ⊢
    rcases hl : s.Levels_[i.toNat]? with _ | level
    · rw [hl] at h
      exact absurd h (by simp)
    · rw [hl] at h
      simp only at h ⊢
      rcases hv : ((s.heap level).store ⟨name, none⟩).value with _ | v
      · rw [hv] at h
        exact absurd h (by simp)
      · rw [hv] at h
        cases v with
        | smoother id => exact absurd h (by simp)
        | matrix m =>
          cases m with
          | none => exact absurd h (by simp)
          | some M1 =>
            simp only [Option.some.injEq] at h
            subst h
            rfl
  · rw [if_neg h0] at h
    exact absurd h (by simp)

theorem WriteRes.andThen_ok {files : List FileWrite} (next : Unit → WriteRes) :
    (WriteRes.mk (.ok ()) files).andThen next = ⟨(next ()).out, files ++ (next ()).files⟩ := rfl

theorem WriteBody_run (s : HState) (startLevel i : Int) (A P R : Int → Matrix)
    (hA : matrixAt s i "A" = some (A i))
    (hP : startLevel < i → matrixAt s i "P" = some (P i))
    (hR : s.implicitTranspose_ = false → startLevel < i → matrixAt s i "R" = some (R i)) :
    WriteBody s startLevel i = ⟨.ok (), levelFiles s.implicitTranspose_ startLevel A P R i⟩ := by
  unfold WriteBody levelFiles
  rw [WriteMatrix_of_matrixAt hA, WriteRes.andThen_ok]
  by_cases hi : i > startLevel
  · simp only [if_pos hi]
    rw [WriteMatrix_of_matrixAt (hP hi), WriteRes.andThen_ok]
    rcases hT : s.implicitTranspose_ with _ | _
    · rw [WriteMatrix_of_matrixAt (hR hT hi)]
      rfl
    · rfl
  · simp only [if_neg hi]

theorem rangeFiles_succ (implicitTranspose : Bool) (startLevel : Int) (A P R : Int → Matrix)
    (n : Nat) (i0 : Int) :
    rangeFiles implicitTranspose startLevel A P R (n + 1) i0 =
      levelFiles implicitTranspose startLevel A P R i0 ++
        rangeFiles implicitTranspose startLevel A P R n (i0 + 1) := by
  unfold rangeFiles
  rw [List.range_succ_eq_map, List.flatMap_cons, List.flatMap_map]
  congr 2
  · simp
  · funext j
    simp only [Function.comp, Nat.cast_succ]
    congr 1
    ring

theorem WriteLoop_run (s : HState) (startLevel : Int) (A P R : Int → Matrix) :
    ∀ (n : Nat) (i0 : Int),
      (∀ i, i0 ≤ i → i < i0 + (n : Int) → matrixAt s i "A" = some (A i)) →
      (∀ i, i0 ≤ i → i < i0 + (n : Int) → startLevel < i → matrixAt s i "P" = some (P i)) →
      (s.implicitTranspose_ = false → ∀ i, i0 ≤ i → i < i0 + (n : Int) → startLevel < i →
        matrixAt s i "R" = some (R i)) →
      WriteLoop s startLevel n i0 =
        ⟨.ok (), rangeFiles s.implicitTranspose_ startLevel A P R n i0⟩ := by
  intro n
  induction n with
  | zero => intro i0 _ _ _; rfl
  | succ n ih =>
    intro i0 hA hP hR
    rw [rangeFiles_succ]
    show (WriteBody s startLevel i0).andThen (fun _ => WriteLoop s startLevel n (i0 + 1)) = _
    rw [WriteBody_run s startLevel i0 A P R (hA i0 (le_refl _) (by push_cast; omega))
      (hP i0 (le_refl _) (by push_cast; omega))
      (fun hT => hR hT i0 (le_refl _) (by push_cast; omega)), WriteRes.andThen_ok]
    rw [ih (i0 + 1) (fun i h1 h2 => hA i (by omega) (by push_cast; omega))
      (fun i h1 h2 => hP i (by omega) (by push_cast; omega))
      (fun hT i h1 h2 => hR hT i (by omega) (by push_cast; omega))]

theorem rangeFiles_length (implicitTranspose : Bool) (startLevel : Int) (A P R : Int → Matrix)
    (n : Nat) :
    (rangeFiles implicitTranspose startLevel A P R n startLevel).length =
      if implicitTranspose then n + (n - 1) else n + 2 * (n - 1) := by
  induction n with
  | zero => cases implicitTranspose <;> rfl
  | succ n ih =>
    unfold rangeFiles at ih ⊢
    rw [List.range_succ, List.flatMap_append, List.length_append, ih]
    simp only [List.flatMap_cons, List.flatMap_nil, List.append_nil, levelFiles]
    cases n with
    | zero => cases implicitTranspose <;> simp
    | succ m =>
      have hpos : startLevel + ((m + 1 : Nat) : Int) > startLevel := by push_cast; omega
      cases implicitTranspose <;> simp [hpos] <;> omega

/-- C27: `Write(start, end)`.  With `startLevel` the value 0 when `start = -1` and `start`
otherwise, and `endLevel` the last level ID when `end = -1` and `end` otherwise: the call
fails with a `RuntimeError` and writes nothing when `startLevel > endLevel` (the first
check) and when `startLevel < 0` or `endLevel` is not below the number of levels (the
second check).  Otherwise, when the matrices to write are stored and not null, it returns
normally and writes, level after level, `A_i.m` for every `i` of the range, `P_i.m` for
every `i` after the first level of the range, and `R_i.m` for the same `i` exactly when
`implicitTranspose_` is not set: for a range of `n` levels that is `n + (n - 1)` files
with implicit transpose and `n + 2 (n - 1)` files without. -/
theorem Write_files (s : HState) (start end_ startLevel endLevel : Int) (A P R : Int → Matrix)
    (hs : startLevel = if start = -1 then 0 else start)
    (he : endLevel = if end_ = -1 then (s.Levels_.length : Int) - 1 else end_) :
    (startLevel > endLevel →
      Write s start end_ = ⟨.error (.RuntimeError
        "MueLu::Hierarchy::Write : startLevel must be <= endLevel"), []⟩) ∧
    (startLevel ≤ endLevel → (startLevel < 0 ∨ endLevel ≥ (s.Levels_.length : Int)) →
      Write s start end_ =
        ⟨.error (.RuntimeError "MueLu::Hierarchy::Write bad start or end level"), []⟩) ∧
    (0 ≤ startLevel → startLevel ≤ endLevel → endLevel < (s.Levels_.length : Int) →
      (∀ i, startLevel ≤ i → i ≤ endLevel → matrixAt s i "A" = some (A i)) →
      (∀ i, startLevel < i → i ≤ endLevel → matrixAt s i "P" = some (P i)) →
      (s.implicitTranspose_ = false →
        ∀ i, startLevel < i → i ≤ endLevel → matrixAt s i "R" = some (R i)) →
      Write s start end_ = ⟨.ok (), rangeFiles s.implicitTranspose_ startLevel A P R
        (endLevel + 1 - startLevel).toNat startLevel⟩ ∧
      levelFiles s.implicitTranspose_ startLevel A P R startLevel =
        [⟨"A_" ++ toString startLevel ++ ".m", A startLevel⟩] ∧
      (Write s start end_).files.length =
        if s.implicitTranspose_ then
          (endLevel + 1 - startLevel).toNat + ((endLevel + 1 - startLevel).toNat - 1)
        else (endLevel + 1 - startLevel).toNat +
          2 * ((endLevel + 1 - startLevel).toNat - 1)) := by
  refine ⟨?_, ?_, ?_⟩
  · intro hgt
    unfold Write
    simp only [← hs, ← he, if_pos hgt]
  · intro hle hbad
    unfold Write
    simp only [← hs, ← he, if_neg (not_lt.mpr hle), if_pos hbad]
  · intro h0 hle hlt hA hP hR
    have hrun : Write s start end_ = ⟨.ok (), rangeFiles s.implicitTranspose_ startLevel A P R
        (endLevel + 1 - startLevel).toNat startLevel⟩ := by
      unfold Write
      simp only [← hs, ← he, if_neg (not_lt.mpr hle)]
      rw [if_neg (by omega)]
      exact WriteLoop_run s startLevel A P R _ startLevel
        (fun i h1 h2 => hA i h1 (by omega))
        (fun i _ h2 h3 => hP i h3 (by omega))
        (fun hT i _ h2 h3 => hR hT i h3 (by omega))
    refine ⟨hrun, ?_, ?_⟩
    · simp [levelFiles]
    · rw [hrun]
      exact rangeFiles_length _ _ _ _ _ _

/-- Witness for C27: the whole range of the two-level hierarchy, asked for with
`Write(-1, -1)`, gives the four files `A_0.m`, `A_1.m`, `P_1.m` and `R_1.m`. -/
theorem Write_files_witness :
    (Write twoLevelHierarchy (-1) (-1)).out = .ok () ∧
    (Write twoLevelHierarchy (-1) (-1)).files.map FileWrite.fileName =
      ["A_0.m", "A_1.m", "P_1.m", "R_1.m"] ∧
    (Write twoLevelHierarchy (-1) (-1)).files.length = 2 + 2 * (2 - 1) :=
  have h := (Write_files twoLevelHierarchy (-1) (-1) 0 1 (fun _ => smallMatrix)
    (fun _ => smallMatrix) (fun _ => smallMatrix) (by decide) (by decide!)).2.2 (by decide)
    (by decide) (by decide!)
    (fun i h1 h2 => by
      have hi : i = 0 ∨ i = 1 := by omega
      rcases hi with hi | hi <;> subst hi <;> decide!)
    (fun i h1 h2 => by
      have hi : i = 1 := by omega
      subst hi
      decide!)
    (fun _ i h1 h2 => by
      have hi : i = 1 := by omega
      subst hi
      decide!)
  ⟨by rw [h.1], by rw [h.1]; decide!, by rw [h.2.2]; decide!⟩

end writing

section printing

theorem levelA_some {s : HState} {level : LevelPtr} {A : Matrix} (h : levelA s level = some A) :
    ((s.heap level).store ⟨"A", none⟩).value = some (.matrix (some A)) := by
  unfold levelA at h
  split at h
  · next A1 hv =>
    simp only [Option.some.injEq] at h
    rw [hv, h]
  · exact absurd h (by simp)

theorem IsAvailable_of_levelA {s : HState} {level : LevelPtr} {A : Matrix}
    (h : levelA s level = some A) : (s.heap level).IsAvailable "A" = true := by
  unfold Level.IsAvailable
  rw [levelA_some h]
  rfl

theorem derefMatrix_of_levelA {s : HState} {level : LevelPtr} {A : Matrix}
    (h : levelA s level = some A) : derefMatrix s level "A" = .ok A := by
  unfold derefMatrix
  rw [levelA_some h]

theorem derefMatrix_ok {s : HState} {level : LevelPtr} {A : Matrix}
    (h : derefMatrix s level "A" = .ok A) : levelA s level = some A := by
  unfold derefMatrix at h
  unfold levelA
  split at h
  · next M hv =>
    rw [hv]
    simp only [Except.ok.injEq] at h
    rw [h]
  · exact absurd h (by simp)
  · exact absurd h (by simp)
  · exact absurd h (by simp)

/-- Whenever the loop of `print` ends normally, the total is the sum over the leading
levels. -/
theorem printTotalNnz_ok (s : HState) :
    ∀ (levels : List LevelPtr) (i : Int) (acc t : Nat),
      printTotalNnz s levels i acc = .ok t → t = acc + leadingNnz s levels := by
  intro levels
  induction levels with
  | nil =>
    intro i acc t h
    simp only [printTotalNnz, Except.ok.injEq] at h
    simp [leadingNnz, h]
  | cons level rest ih =>
    intro i acc t h
    unfold printTotalNnz at h
    unfold leadingNnz levelA
    split at h
    · exact absurd h (by simp)
    · split at h
      · next A hv =>
        rw [hv]
        have := ih _ _ _ h
        simp only
        omega
      · next hv =>
        rw [hv]
        simp only [Except.ok.injEq] at h
        simp [h]
      · exact absurd h (by simp)
      · exact absurd h (by simp)

/-- The loop of `print` raises at the first level without "A" when every level before it
holds a non-null "A". -/
theorem printTotalNnz_unavailable (s : HState) :
    ∀ (pre : List LevelPtr) (level : LevelPtr) (rest : List LevelPtr) (i : Int) (acc : Nat),
      (∀ q ∈ pre, (levelA s q).isSome = true) → (s.heap level).IsAvailable "A" = false →
      printTotalNnz s (pre ++ level :: rest) i acc =
        .error (.RuntimeError
          ("Operator complexity cannot be calculated because A is unavailable on level " ++
            toString (i + (pre.length : Int)))) := by
  intro pre
  induction pre with
  | nil =>
    intro level rest i acc _ hna
    simp only [List.nil_append, List.length_nil, Nat.cast_zero, add_zero]
    unfold printTotalNnz
    rw [if_pos hna]
  | cons q pre ih =>
    intro level rest i acc hpre hna
    obtain ⟨A, hA⟩ := Option.isSome_iff_exists.mp (hpre q (List.mem_cons_self _ _))
    have hav := IsAvailable_of_levelA hA
    simp only [List.cons_append]
    unfold printTotalNnz
    rw [if_neg (by simp [hav]), levelA_some hA]
    simp only
    rw [ih level rest (i + 1) _ (fun r hr => hpre r (List.mem_cons_of_mem _ hr)) hna]
    simp only [List.length_cons, Nat.cast_succ]
    congr 3
    ring_nf

theorem leadingNnz_eq_allNnz (s : HState) :
    ∀ levels : List LevelPtr, (∀ q ∈ levels, (levelA s q).isSome = true) →
      leadingNnz s levels = allNnz s levels := by
  intro levels
  induction levels with
  | nil => intro _; rfl
  | cons q rest ih =>
    intro h
    obtain ⟨A, hA⟩ := Option.isSome_iff_exists.mp (h q (List.mem_cons_self _ _))
    have hr := ih (fun r hr => h r (List.mem_cons_of_mem _ hr))
    unfold leadingNnz allNnz
    rw [hA, List.filterMap_cons_some hA]
    simp only [List.map_cons, List.sum_cons]
    rw [hr]
    rfl

/-- With a non-null "A" on every level the loop of `print` ends normally with the total
over all levels. -/
theorem printTotalNnz_all (s : HState) :
    ∀ (levels : List LevelPtr) (i : Int) (acc : Nat),
      (∀ q ∈ levels, (levelA s q).isSome = true) →
      printTotalNnz s levels i acc = .ok (acc + leadingNnz s levels) := by
  intro levels
  induction levels with
  | nil => intro i acc _; rfl
  | cons q rest ih =>
    intro i acc h
    obtain ⟨A, hA⟩ := Option.isSome_iff_exists.mp (h q (List.mem_cons_self _ _))
    have hav := IsAvailable_of_levelA hA
    unfold printTotalNnz leadingNnz
    rw [if_neg (by simp [hav]), levelA_some hA, hA]
    simp only
    rw [ih (i + 1) _ (fun r hr => h r (List.mem_cons_of_mem _ hr))]
    congr 1
    omega

theorem printSmoothers_ok (s : HState) :
    ∀ levels : List LevelPtr,
      (∀ q ∈ levels, holdsMatrix s q "PreSmoother" = false ∧
        holdsMatrix s q "PostSmoother" = false) →
      printSmoothers s levels = .ok () := by
  intro levels
  induction levels with
  | nil => intro _; rfl
  | cons q rest ih =>
    intro h
    have hq := h q (List.mem_cons_self _ _)
    unfold printSmoothers
    split
    · next m hv => exact absurd hq.1 (by simp [holdsMatrix, hv])
    · split
      · next m hv => exact absurd hq.2 (by simp [holdsMatrix, hv])
      · exact ih (fun r hr => h r (List.mem_cons_of_mem _ hr))

theorem print_of_total_error (s : HState) (Parameters1 : Bool) {e : Failure}
    (h : printTotalNnz s s.Levels_ 0 0 = .error e) : print s Parameters1 = .error e := by
  unfold print
  rw [h]
  rfl

theorem print_ok {s : HState} {Parameters1 : Bool} {st : Status}
    (h : print s Parameters1 = .ok st) :
    ∃ t level A0, printTotalNnz s s.Levels_ 0 0 = .ok t ∧ s.Levels_[0]? = some level ∧
      derefMatrix s level "A" = .ok A0 ∧
      st = ⟨GetNumLevels s, (t : ℚ) / (A0.globalNumEntries : ℚ)⟩ := by
  unfold print at h
  rcases ht : printTotalNnz s s.Levels_ 0 0 with e | t
  · rw [ht] at h
    exact absurd h (by simp [bind, Except.bind])
  · rw [ht] at h
    rcases hl : s.Levels_[0]? with _ | level
    · rw [hl] at h
      exact absurd h (by simp [bind, Except.bind])
    · rw [hl] at h
      simp only at h
      rcases hd : derefMatrix s level "A" with e | A0
      · rw [hd] at h
        exact absurd h (by simp [bind, Except.bind])
      · rw [hd] at h
        refine ⟨t, level, A0, rfl, rfl, hd, ?_⟩
        cases Parameters1 with
        | false =>
          simp only [bind, Except.bind, pure, Except.pure, Bool.false_eq_true, if_false,
            Except.ok.injEq] at h
          exact h.symm
        | true =>
          simp only [bind, Except.bind, pure, Except.pure, if_true] at h
          rcases hsm : printSmoothers s s.Levels_ with e | u
          · rw [hsm] at h
            exact absurd h (by simp)
          · rw [hsm] at h
            simp only [Except.ok.injEq] at h
            exact h.symm

theorem print_run (s : HState) (Parameters1 : Bool) (t : Nat) (level : LevelPtr) (A0 : Matrix)
    (ht : printTotalNnz s s.Levels_ 0 0 = .ok t) (hl : s.Levels_[0]? = some level)
    (hd : derefMatrix s level "A" = .ok A0)
    (hsm : Parameters1 = true → printSmoothers s s.Levels_ = .ok ()) :
    print s Parameters1 = .ok ⟨GetNumLevels s, (t : ℚ) / (A0.globalNumEntries : ℚ)⟩ := by
  unfold print
  rw [ht, hl]
  simp only [bind, Except.bind, pure, Except.pure]
  rw [hd]
  cases Parameters1 with
  | false => rfl
  | true =>
    simp only [if_true]
    rw [hsm rfl]

theorem leadingNnz_ge_first (s : HState) (level : LevelPtr) (rest : List LevelPtr) (A0 : Matrix)
    (h : levelA s level = some A0) :
    A0.globalNumEntries ≤ leadingNnz s (level :: rest) ∧
    leadingNnz s [level] = A0.globalNumEntries := by
  unfold leadingNnz
  rw [h]
  simp [leadingNnz]

/-- C21, amended: the status returned by `print`.  Whenever `print` returns, the entry
"number of levels" is `GetNumLevels()` and the entry "complexity" is the number of
nonzeros of the operators "A" of the levels that precede the first level with a null "A"
(of all the levels when no "A" is null, where that is the total over all the levels),
divided by the number of nonzeros of the finest "A".  `print` raises a `RuntimeError`
when "A" is not available on a level and every level before that one holds a non-null
"A".  With a non-null "A" on every level and at least one nonzero in the finest one (and
no matrix stored under the names of the smoothers when they are printed), `print`
returns, the complexity is the total over all levels divided by the finest count, it is
at least 1, and it is exactly 1 for a one-level hierarchy. -/
theorem print_status (s : HState) (Parameters1 : Bool) :
    (∀ st, print s Parameters1 = .ok st →
      st.numberOfLevels = GetNumLevels s ∧
      ∃ level A0, s.Levels_[0]? = some level ∧ levelA s level = some A0 ∧
        st.complexity = (leadingNnz s s.Levels_ : ℚ) / (A0.globalNumEntries : ℚ)) ∧
    (∀ pre level rest, s.Levels_ = pre ++ level :: rest →
      (∀ q ∈ pre, (levelA s q).isSome = true) → (s.heap level).IsAvailable "A" = false →
      print s Parameters1 = .error (.RuntimeError
        ("Operator complexity cannot be calculated because A is unavailable on level " ++
          toString (pre.length : Int)))) ∧
    ((∀ q ∈ s.Levels_, (levelA s q).isSome = true) →
      leadingNnz s s.Levels_ = allNnz s s.Levels_) ∧
    (∀ level A0, s.Levels_[0]? = some level → levelA s level = some A0 →
      1 ≤ A0.globalNumEntries → (∀ q ∈ s.Levels_, (levelA s q).isSome = true) →
      (Parameters1 = true → ∀ q ∈ s.Levels_, holdsMatrix s q "PreSmoother" = false ∧
        holdsMatrix s q "PostSmoother" = false) →
      ∃ st, print s Parameters1 = .ok st ∧ st.numberOfLevels = GetNumLevels s ∧
        st.complexity = (allNnz s s.Levels_ : ℚ) / (A0.globalNumEntries : ℚ) ∧
        1 ≤ st.complexity ∧ (s.Levels_.length = 1 → st.complexity = 1)) := by
  refine ⟨?_, ?_, leadingNnz_eq_allNnz s s.Levels_, ?_⟩
  · intro st h
    obtain ⟨t, level, A0, ht, hl, hd, hst⟩ := print_ok h
    have htot := printTotalNnz_ok s _ _ _ _ ht
    rw [hst]
    refine ⟨rfl, level, A0, hl, derefMatrix_ok hd, ?_⟩
    simp only [htot, Nat.zero_add]
  · intro pre level rest hL hpre hna
    apply print_of_total_error
    rw [hL, printTotalNnz_unavailable s pre level rest 0 0 hpre hna]
    simp
  · intro level A0 hl hA hpos hall hsm
    have ht := printTotalNnz_all s s.Levels_ 0 0 hall
    have hrun := print_run s Parameters1 _ level A0 ht hl (derefMatrix_of_levelA hA)
      (fun hp => printSmoothers_ok s _ (hsm hp))
    obtain ⟨rest, hrest⟩ : ∃ rest, s.Levels_ = level :: rest := by
      rcases hL : s.Levels_ with _ | ⟨q, rest⟩
      · rw [hL] at hl
        exact absurd hl (by simp)
      · rw [hL] at hl
        simp only [List.getElem?_cons_zero, Option.some.injEq] at hl
        exact ⟨rest, by rw [hl]⟩
    have hge := leadingNnz_ge_first s level rest A0 hA
    have hq : (0 : ℚ) < (A0.globalNumEntries : ℚ) := by exact_mod_cast hpos
    refine ⟨_, hrun, rfl, ?_, ?_, ?_⟩
    · simp only [Nat.zero_add, leadingNnz_eq_allNnz s s.Levels_ hall]
    · simp only [Nat.zero_add]
      rw [one_le_div hq, hrest]
      exact_mod_cast hge.1
    · intro hlen
      have hnil : rest = [] := by
        rw [hrest] at hlen
        simpa using hlen
      simp only [Nat.zero_add]
      rw [hrest, hnil, hge.2]
      exact div_self (ne_of_gt hq)

/-- Witness for C21: the two-level hierarchy, with 30 nonzeros on each level, has the
complexity 2. -/
theorem print_status_witness :
    (twoLevelHierarchy.Levels_[0]? = some 0 ∧ levelA twoLevelHierarchy 0 = some smallMatrix ∧
      1 ≤ smallMatrix.globalNumEntries) ∧
    ∃ st, print twoLevelHierarchy true = .ok st ∧ st.numberOfLevels = 2 ∧
      st.complexity = 2 ∧ 1 ≤ st.complexity :=
  ⟨⟨by decide!, by decide!, by decide⟩, by
    obtain ⟨st, h1, h2, h3, h4, _⟩ := (print_status twoLevelHierarchy true).2.2.2 0 smallMatrix
      (by decide!) (by decide!) (by decide) (by decide!) (fun _ => by decide!)
    refine ⟨st, h1, ?_, ?_, h4⟩
    · rw [h2]
      decide!
    · rw [h3]
      decide!⟩

/-- Counterexample for C21: on a hierarchy of four levels whose level 1 holds a null "A",
`print` returns although "A" is not available on level 3, and it reports the complexity
1 although the operators of all levels hold 60 nonzeros and the finest one 30. -/
theorem print_stops_at_null_operator :
    (gappedHierarchy.heap 3).IsAvailable "A" = false ∧
    gappedHierarchy.Levels_ = [0, 1, 2, 3] ∧
    print gappedHierarchy true = .ok ⟨4, 1⟩ ∧
    allNnz gappedHierarchy gappedHierarchy.Levels_ = 60 ∧
    levelA gappedHierarchy 0 = some ⟨10, 30⟩ := by
  decide!

end printing

section nullCoarse
variable {SC V Map : Type}

theorem CycleRecurse_null_run (E : LinAlg SC V Map) (s : HState) (Cycle : CycleType)
    (rec : V → Int → Bool → Int → IterAct V Unit) (Coarse : LevelPtr) (startLevel : Int)
    (coarseRhs coarseX X : V) (origMap : Map)
    (hAc : ((s.heap Coarse).store ⟨"A", none⟩).value = some (.matrix none)) :
    CycleRecurse E s Cycle rec Coarse startLevel coarseRhs coarseX origMap X =
      ⟨.ok coarseX, X, [.get Coarse "A"]⟩ := by
  have key : IPost (CycleRecurse E s Cycle rec Coarse startLevel coarseRhs coarseX origMap) X
      (fun o X1 t => o = .ok coarseX ∧ X1 = X ∧ t = [.get Coarse "A"]) := by
    unfold CycleRecurse
    have hrun := IterAct.GetMatrix_run s Coarse "A" X
    rw [getMatrixOutcome_of_stored hAc] at hrun
    apply IPost.ibind_of_eq hrun
    exact ⟨rfl, rfl, rfl⟩
  exact IterRes.ieq_of key.ielim.1 key.ielim.2.1 key.ielim.2.2

theorem IterateBody_null_run (E : LinAlg SC V Map) (IsPrintStatistics1 : Bool) (s : HState)
    (Cycle : CycleType) (rec : V → Int → Bool → Int → IterAct V Unit) (Fine Coarse : LevelPtr)
    (A : MatrixRef) (startLevel : Int) (B : V) (i : Int) (zeroGuess : Bool) (X : V)
    (pre post : Option Nat) (MP : Matrix) (X1 r coarseX X2 : V)
    (hl : startLevel ≠ (s.Levels_.length : Int) - 1)
    (h0 : 0 ≤ startLevel + 1) (hC : s.Levels_[(startLevel + 1).toNat]? = some Coarse)
    (hd : E.isCompatible (E.getDomainMap A) (E.getMap X) = true)
    (hrg : E.isCompatible (E.getRangeMap A) (E.getMap B) = true)
    (hpre : ((s.heap Fine).store ⟨"PreSmoother", none⟩).value = pre.map Value.smoother)
    (hpost : ((s.heap Fine).store ⟨"PostSmoother", none⟩).value = post.map Value.smoother)
    (hP : ((s.heap Coarse).store ⟨"P", none⟩).value = some (.matrix (some MP)))
    (hR : s.implicitTranspose_ = false →
      ∃ MR, ((s.heap Coarse).store ⟨"R", none⟩).value = some (.matrix (some MR)))
    (hAc : ((s.heap Coarse).store ⟨"A", none⟩).value = some (.matrix none))
    (hX1 : X1 = (cycleSmootherStep E Fine "PreSmoother" pre B zeroGuess startLevel
      ": No PreSmoother!" X).1)
    (hr : r = E.Residual A X1 B)
    (hcx : coarseX = (restricted E s Coarse r X1).2.1)
    (hX2 : X2 = E.update X1 E.one
      (E.apply ⟨Coarse, "P"⟩ coarseX
        (E.Build (E.getRangeMap ⟨Coarse, "P"⟩) (E.getNumVectors X1)) .NO_TRANS E.one E.zero)
      E.one) :
    IterateBody E IsPrintStatistics1 s Cycle rec Fine A startLevel B i zeroGuess X =
      ⟨.ok (),
       (cycleSmootherStep E Fine "PostSmoother" post B false startLevel ": No PostSmoother!"
         X2).1,
       [.checkDomainMap startLevel, .checkRangeMap startLevel] ++
       ((cycleSmootherStep E Fine "PreSmoother" pre B zeroGuess startLevel ": No PreSmoother!"
          X).2 ++
        ([.residual A X1 B] ++
         (restrictTrace s Coarse r ++
          ([.get Coarse "A"] ++
           ([.apply ⟨Coarse, "P"⟩ coarseX .NO_TRANS,
             .update X1 (E.apply ⟨Coarse, "P"⟩ coarseX
               (E.Build (E.getRangeMap ⟨Coarse, "P"⟩) (E.getNumVectors X1)) .NO_TRANS E.one
               E.zero)] ++
            ((cycleSmootherStep E Fine "PostSmoother" post B false startLevel
              ": No PostSmoother!" X2).2 ++
             printTrace IsPrintStatistics1 s startLevel A B i
               (cycleSmootherStep E Fine "PostSmoother" post B false startLevel
                 ": No PostSmoother!" X2).1))))))⟩ := by
  have key : IPost (IterateBody E IsPrintStatistics1 s Cycle rec Fine A startLevel B i
      zeroGuess) X (fun o Xr t => o = .ok () ∧
      Xr = (cycleSmootherStep E Fine "PostSmoother" post B false startLevel
        ": No PostSmoother!" X2).1 ∧
      t = [.checkDomainMap startLevel, .checkRangeMap startLevel] ++
       ((cycleSmootherStep E Fine "PreSmoother" pre B zeroGuess startLevel ": No PreSmoother!"
          X).2 ++
        ([.residual A X1 B] ++
         (restrictTrace s Coarse r ++
          ([.get Coarse "A"] ++
           ([.apply ⟨Coarse, "P"⟩ coarseX .NO_TRANS,
             .update X1 (E.apply ⟨Coarse, "P"⟩ coarseX
               (E.Build (E.getRangeMap ⟨Coarse, "P"⟩) (E.getNumVectors X1)) .NO_TRANS E.one
               E.zero)] ++
            ((cycleSmootherStep E Fine "PostSmoother" post B false startLevel
              ": No PostSmoother!" X2).2 ++
             printTrace IsPrintStatistics1 s startLevel A B i
               (cycleSmootherStep E Fine "PostSmoother" post B false startLevel
                 ": No PostSmoother!" X2).1))))))) := by
    unfold IterateBody
    apply IPost.ibind_of_eq (CheckMaps_ok E startLevel _ B X hd hrg)
    rw [if_neg hl]
    have hcyc : IPost (IterateCycle E s Cycle rec Fine A startLevel B zeroGuess) X
        (fun o Xr t => o = .ok () ∧
          Xr = (cycleSmootherStep E Fine "PostSmoother" post B false startLevel
            ": No PostSmoother!" X2).1 ∧
          t = (cycleSmootherStep E Fine "PreSmoother" pre B zeroGuess startLevel
              ": No PreSmoother!" X).2 ++
            ([.residual A X1 B] ++
             (restrictTrace s Coarse r ++
              ([.get Coarse "A"] ++
               ([.apply ⟨Coarse, "P"⟩ coarseX .NO_TRANS,
                 .update X1 (E.apply ⟨Coarse, "P"⟩ coarseX
                   (E.Build (E.getRangeMap ⟨Coarse, "P"⟩) (E.getNumVectors X1)) .NO_TRANS
                   E.one E.zero)] ++
                (cycleSmootherStep E Fine "PostSmoother" post B false startLevel
                  ": No PostSmoother!" X2).2))))) := by
      unfold IterateCycle
      apply IPost.ibind_of_eq (IterAct.LevelsAt_of_some h0 hC X)
      have hpreRun := CyclePre_run E s Fine startLevel B zeroGuess X pre hpre
      rw [← hX1] at hpreRun
      apply IPost.ibind_of_eq hpreRun
      have hres : CycleResidual E A B X1 = ⟨.ok r, X1, [.residual A X1 B]⟩ := by
        rw [hr]
        rfl
      apply IPost.ibind_of_eq hres
      apply IPost.ibind_of_eq (CycleRestrict_run E s Coarse r X1 MP hP hR)
      have hrecurse := CycleRecurse_null_run E s Cycle rec Coarse startLevel
        (restricted E s Coarse r X1).1 (restricted E s Coarse r X1).2.1 X1
        (restricted E s Coarse r X1).2.2 hAc
      apply IPost.ibind_of_eq hrecurse
      have hcor : CycleCorrect E ⟨Coarse, "P"⟩ (restricted E s Coarse r X1).2.1 X1 =
          ⟨.ok (), X2,
          [.apply ⟨Coarse, "P"⟩ coarseX .NO_TRANS,
           .update X1 (E.apply ⟨Coarse, "P"⟩ coarseX
             (E.Build (E.getRangeMap ⟨Coarse, "P"⟩) (E.getNumVectors X1)) .NO_TRANS E.one
             E.zero)]⟩ := by
        rw [hX2, hcx]
        rfl
      apply IPost.ibind_of_eq hcor
      apply IPost.iof_eq (CyclePost_run E s Fine startLevel B X2 post hpost)
      exact ⟨rfl, rfl, rfl⟩
    apply IPost.ibind _ hcyc
    · rintro a Xr t ⟨_, hXr, ht⟩
      apply IPost.iof_eq (PrintResidual_run _ _ _ _ _ _ _)
      refine ⟨rfl, hXr, ?_⟩
      rw [ht, hXr]
      simp only [List.append_assoc]
    · rintro e Xr t ⟨he, _, _⟩
      exact absurd he (by simp)
  exact IterRes.ieq_of key.ielim.1 key.ielim.2.1 key.ielim.2.2

theorem cycleSmootherStep_quiet (E : LinAlg SC V Map) (level : LevelPtr) (name : String)
    (smoo : Option Nat) (B : V) (z : Bool) (startLevel : Int) (warn : String) (X : V) :
    ∀ ev ∈ (cycleSmootherStep E level name smoo B z startLevel warn X).2,
      ev.isEnter = false ∧ ev.isRemap = false := by
  intro ev hev
  cases smoo with
  | none =>
    simp only [cycleSmootherStep, List.mem_singleton] at hev
    subst hev
    exact ⟨rfl, rfl⟩
  | some h =>
    simp only [cycleSmootherStep, List.mem_cons, List.mem_singleton, List.not_mem_nil,
      or_false] at hev
    rcases hev with hev | hev <;> subst hev <;> exact ⟨rfl, rfl⟩

theorem restrictTrace_quiet (s : HState) (Coarse : LevelPtr) (r : V) :
    ∀ ev ∈ (restrictTrace s Coarse r : List (IterEvent V)),
      ev.isEnter = false ∧ ev.isRemap = false := by
  intro ev hev
  unfold restrictTrace at hev
  split at hev
  · simp only [List.mem_cons, List.mem_singleton, List.not_mem_nil, or_false] at hev
    rcases hev with hev | hev <;> subst hev <;> exact ⟨rfl, rfl⟩
  · simp only [List.mem_cons, List.mem_singleton, List.not_mem_nil, or_false] at hev
    rcases hev with hev | hev | hev <;> subst hev <;> exact ⟨rfl, rfl⟩

theorem printTrace_quiet (IsPrintStatistics1 : Bool) (s : HState) (startLevel : Int)
    (A : MatrixRef) (B : V) (iter : Int) (X : V) :
    ∀ ev ∈ printTrace IsPrintStatistics1 s startLevel A B iter X,
      ev.isEnter = false ∧ ev.isRemap = false := by
  intro ev hev
  unfold printTrace at hev
  split at hev
  · simp only [List.mem_singleton] at hev
    subst hev
    exact ⟨rfl, rfl⟩
  · exact absurd hev (List.not_mem_nil _)

/-- C26: one outer iteration on an intermediate level whose coarse level holds a null
operator "A" (compatible maps, non-null "P", and non-null "R" unless `implicitTranspose_`
is set), whatever function stands for the recursive call.  The iteration returns
normally.  Its trace holds no entry of `Iterate` and no `replaceMap` or `putScalar`: the
recursive descent and the remapping of the coarse vectors are skipped.  The coarse
solution handed to `P->apply` is the vector `coarseX` as `MultiVectorFactory::Build` made
it.  The final `X` is the post-smoothing, with the flag false, of
`X1.update(one, P * coarseX, one)`, `X1` being the pre-smoothed `X`; when the update by
the product of a matrix with a freshly built vector leaves a vector as it is (the built
vector is zero), the final `X` is the post-smoothing of `X1` itself. -/
theorem Iterate_null_coarse_operator (E : LinAlg SC V Map) (IsPrintStatistics1 : Bool)
    (s : HState) (Cycle : CycleType) (rec : V → Int → Bool → Int → IterAct V Unit)
    (Fine Coarse : LevelPtr) (A : MatrixRef) (startLevel : Int) (B : V) (i : Int)
    (zeroGuess : Bool) (X : V) (pre post : Option Nat) (MP : Matrix) (X1 r coarseX X2 : V)
    (hl : startLevel ≠ (s.Levels_.length : Int) - 1)
    (h0 : 0 ≤ startLevel + 1) (hC : s.Levels_[(startLevel + 1).toNat]? = some Coarse)
    (hd : E.isCompatible (E.getDomainMap A) (E.getMap X) = true)
    (hrg : E.isCompatible (E.getRangeMap A) (E.getMap B) = true)
    (hpre : ((s.heap Fine).store ⟨"PreSmoother", none⟩).value = pre.map Value.smoother)
    (hpost : ((s.heap Fine).store ⟨"PostSmoother", none⟩).value = post.map Value.smoother)
    (hP : ((s.heap Coarse).store ⟨"P", none⟩).value = some (.matrix (some MP)))
    (hR : s.implicitTranspose_ = false →
      ∃ MR, ((s.heap Coarse).store ⟨"R", none⟩).value = some (.matrix (some MR)))
    (hAc : ((s.heap Coarse).store ⟨"A", none⟩).value = some (.matrix none))
    (hX1 : X1 = (cycleSmootherStep E Fine "PreSmoother" pre B zeroGuess startLevel
      ": No PreSmoother!" X).1)
    (hr : r = E.Residual A X1 B)
    (hcx : coarseX = (restricted E s Coarse r X1).2.1)
    (hX2 : X2 = E.update X1 E.one
      (E.apply ⟨Coarse, "P"⟩ coarseX
        (E.Build (E.getRangeMap ⟨Coarse, "P"⟩) (E.getNumVectors X1)) .NO_TRANS E.one E.zero)
      E.one) :
    (IterateBody E IsPrintStatistics1 s Cycle rec Fine A startLevel B i zeroGuess X).out =
      .ok () ∧
    (∀ ev ∈ (IterateBody E IsPrintStatistics1 s Cycle rec Fine A startLevel B i zeroGuess
        X).tr, ev.isEnter = false ∧ ev.isRemap = false) ∧
    coarseX = E.Build (restricted E s Coarse r X1).2.2 (E.getNumVectors X1) ∧
    (IterateBody E IsPrintStatistics1 s Cycle rec Fine A startLevel B i zeroGuess X).X =
      (cycleSmootherStep E Fine "PostSmoother" post B false startLevel ": No PostSmoother!"
        X2).1 ∧
    (∀ h, post = some h →
      (IterateBody E IsPrintStatistics1 s Cycle rec Fine A startLevel B i zeroGuess X).X =
        E.Apply h X2 B false ∧
      IterEvent.smootherApply Fine "PostSmoother" h X2 B false ∈
        (IterateBody E IsPrintStatistics1 s Cycle rec Fine A startLevel B i zeroGuess X).tr) ∧
    ((∀ (M : MatrixRef) (m1 m2 : Map) (n : Nat) (Y : V),
        E.update Y E.one (E.apply M (E.Build m1 n) (E.Build m2 n) .NO_TRANS E.one E.zero)
          E.one = Y) →
      X2 = X1 ∧
      (IterateBody E IsPrintStatistics1 s Cycle rec Fine A startLevel B i zeroGuess X).X =
        (cycleSmootherStep E Fine "PostSmoother" post B false startLevel ": No PostSmoother!"
          X1).1) := by
  have hrun := IterateBody_null_run E IsPrintStatistics1 s Cycle rec Fine Coarse A startLevel
    B i zeroGuess X pre post MP X1 r coarseX X2 hl h0 hC hd hrg hpre hpost hP hR hAc hX1 hr hcx
    hX2
  have hbuilt : coarseX = E.Build (restricted E s Coarse r X1).2.2 (E.getNumVectors X1) := by
    rw [hcx]
    unfold restricted
    split <;> rfl
  rw [hrun]
  refine ⟨rfl, ?_, hbuilt, rfl, ?_, ?_⟩
  · intro ev hev
    simp only [List.mem_append] at hev
    rcases hev with hev | hev | hev | hev | hev | hev | hev | hev
    · simp only [List.mem_cons, List.mem_singleton, List.not_mem_nil, or_false] at hev
      rcases hev with hev | hev <;> subst hev <;> exact ⟨rfl, rfl⟩
    · exact cycleSmootherStep_quiet E _ _ _ _ _ _ _ _ ev hev
    · simp only [List.mem_singleton] at hev
      subst hev
      exact ⟨rfl, rfl⟩
    · exact restrictTrace_quiet s Coarse r ev hev
    · simp only [List.mem_singleton] at hev
      subst hev
      exact ⟨rfl, rfl⟩
    · simp only [List.mem_cons, List.mem_singleton, List.not_mem_nil, or_false] at hev
      rcases hev with hev | hev <;> subst hev <;> exact ⟨rfl, rfl⟩
    · exact cycleSmootherStep_quiet E _ _ _ _ _ _ _ _ ev hev
    · exact printTrace_quiet _ _ _ _ _ _ _ ev hev
  · intro h hp
    subst hp
    refine ⟨rfl, ?_⟩
    simp [cycleSmootherStep]
  · intro hzero
    have h21 : X2 = X1 := by
      rw [hX2, hbuilt]
      exact hzero _ _ _ _ _
    exact ⟨h21, by rw [h21]⟩

/-- Witness for C26: level 0 of the two-level hierarchy whose coarse level holds a null
operator; from `X = 0` with the right-hand side `3` the iteration returns normally with
the post-smoothed value. -/
theorem Iterate_null_coarse_operator_witness :
    (Iterate taggedAlgebra false nullCoarseHierarchy (0, 3) 1 true 0 0 (0, 0)).out = .ok () ∧
    (IterateBody taggedAlgebra false nullCoarseHierarchy 0
      (fun B1 n1 z1 l1 => Iterate taggedAlgebra false nullCoarseHierarchy B1 n1 z1 0 l1) 0
      ⟨0, "A"⟩ 0 (0, 3) 1 true (0, 0)).out = .ok () ∧
    (IterateBody taggedAlgebra false nullCoarseHierarchy 0
      (fun B1 n1 z1 l1 => Iterate taggedAlgebra false nullCoarseHierarchy B1 n1 z1 0 l1) 0
      ⟨0, "A"⟩ 0 (0, 3) 1 true (0, 0)).X = (0, 3) :=
  have h := Iterate_null_coarse_operator taggedAlgebra false nullCoarseHierarchy 0
    (fun B1 n1 z1 l1 => Iterate taggedAlgebra false nullCoarseHierarchy B1 n1 z1 0 l1) 0 1
    ⟨0, "A"⟩ 0 (0, 3) 1 true (0, 0) (some 0) (some 1) smallMatrix (0, 3) (0, 0) (0, 0) (0, 3)
    (by decide!) (by decide) (by decide!) (by decide!) (by decide!) (by decide!) (by decide!)
    (by decide!) (fun _ => ⟨smallMatrix, by decide!⟩) (by decide!) (by decide!) (by decide!)
    (by decide!) (by decide!)
  ⟨by decide!, h.1, by rw [h.2.2.2.1]; decide!⟩

end nullCoarse

section drive

theorem callArgsOf_append (t1 t2 : List Event) :
    callArgsOf (t1 ++ t2) = callArgsOf t1 ++ callArgsOf t2 := by
  simp [callArgsOf]

theorem callArgsOf_eq_nil {t : List Event} (h : ∀ e ∈ t, e.unmarked) : callArgsOf t = [] := by
  apply List.filterMap_eq_nil_iff.mpr
  intro e he
  have h1 := (h e he).1
  cases e <;> first | rfl | exact absurd h1 (by simp [Event.call?])

theorem SetupThroughRAP_args (P : Producers) (coarseLevelID : Int)
    (fine coarse next : Option Manager) (s : HState) :
    callArgsOf (SetupThroughRAP P coarseLevelID fine coarse next s).tr =
      [(coarseLevelID, fine, coarse, next)] := by
  have key : Post (SetupThroughRAP P coarseLevelID fine coarse next) s (fun _ _ t =>
      callArgsOf t = [(coarseLevelID, fine, coarse, next)]) := by
    unfold SetupThroughRAP
    apply Post.bind (fun _ _ t => t = [.enterSetup coarseLevelID fine coarse next])
    · show (SetupInit coarseLevelID fine coarse next s).tr = _
      rw [SetupInit_run]
    · intro cl s1 t1 h1
      have hrest : TrAll Event.unmarked (do
          SetupRequestsFinest fine cl.1 cl.2
          let next1 ← SetupRequestsNext coarseLevelID cl.1 next
          SetupBuildRAP P fine cl.1 cl.2
          pure (cl.1, cl.2, next1) : Act (Manager × LevelPtr × Option (Manager × LevelPtr))) := by
        apply TrAll.andThen_all (TrAll.SetupRequestsFinest_all Inner.unmarked _ _ _)
        intro _
        apply TrAll.andThen_all (TrAll.SetupRequestsNext_all Inner.unmarked _ _ _)
        intro nx
        apply TrAll.andThen_all (TrAll.SetupBuildRAP_all Inner.unmarked _ _ _ _)
        intro _
        exact TrAll.pure_all _
      have h2 := hrest.run s1
      show callArgsOf (t1 ++ _) = _
      rw [callArgsOf_append, callArgsOf_eq_nil h2, h1]
      rfl
    · intro e s1 t1 h1
      rw [h1]
      rfl
  exact key.elim

/-- The trace of a per-level call: one entry, with the arguments of the call, and the
return when there is one. -/
theorem Setup_args (P : Producers) (coarseLevelID : Int)
    (fine coarse next : Option Manager) (s : HState) :
    Post (Setup P coarseLevelID fine coarse next) s (fun o _ t =>
      callArgsOf t = [(coarseLevelID, fine, coarse, next)] ∧
      returnsOf t = (match o with
       | .ok b => [(coarseLevelID, b)]
       | .error _ => [])) := by
  refine ⟨?_, (Setup_marks P coarseLevelID fine coarse next s).elim.2⟩
  have key : Post (Setup P coarseLevelID fine coarse next) s (fun _ _ t =>
      callArgsOf t = [(coarseLevelID, fine, coarse, next)]) := by
    unfold Setup
    apply Post.bind (fun _ _ t => callArgsOf t = [(coarseLevelID, fine, coarse, next)])
      (SetupThroughRAP_args P coarseLevelID fine coarse next s)
    · intro r s1 t1 h1
      have hfin := (TrAll.SetupFinish_all Inner.unmarked (fun _ _ _ => ⟨rfl, rfl⟩)
        P r.1 r.2.1 r.2.2).run s1
      apply Post.bind (fun _ _ t => callArgsOf t = []) (callArgsOf_eq_nil hfin)
      · intro b s2 t2 h2
        apply Post.bind_emit
        apply Post.of_pure
        simp only [callArgsOf_append, h1, h2]
        rfl
      · intro e s2 t2 h2
        simp only [callArgsOf_append, h1, h2]
        rfl
    · intro e s1 t1 h1
      exact h1
  exact key.elim

theorem loopArgs_succ (manager : Manager) (i0 : Int) (n : Nat) :
    loopArgs manager i0 (n + 1) =
      (i0, some manager, some manager, some manager) :: loopArgs manager (i0 + 1) n := by
  unfold loopArgs
  rw [List.range_succ_eq_map, List.map_cons, List.map_map]
  congr 1
  · simp
  · apply List.map_congr_left
    intro j _
    simp only [Function.comp, Nat.cast_succ]
    congr 1
    ring

theorem loopArgs_next (manager : Manager) :
    ∀ a ∈ loopArgs manager i0 n, a.2.2.2 = some manager := by
  intro a ha
  unfold loopArgs at ha
  simp only [List.mem_map, List.mem_range] at ha
  obtain ⟨j, _, rfl⟩ := ha
  rfl

/-- The loop of the outer `Setup`: every call has the manager as fine, coarse and next
manager; the loop ends after all its calls returned false, or at the first call that
returns true, or at the first call that raises. -/
theorem SetupLoop_args (P : Producers) (manager : Manager) :
    ∀ (n : Nat) (i0 : Int) (s : HState), Post (SetupLoop P manager n i0) s (fun o _ t =>
      (o = .ok (false, i0 + (n : Int)) ∧ callArgsOf t = loopArgs manager i0 n ∧
        returnsOf t = falseReturns i0 n) ∨
      (∃ k : Nat, k < n ∧ o = .ok (true, i0 + (k : Int)) ∧
        callArgsOf t = loopArgs manager i0 (k + 1) ∧
        returnsOf t = falseReturns i0 k ++ [(i0 + (k : Int), true)]) ∨
      (∃ k : Nat, k < n ∧ (∃ e, o = .error e) ∧ callArgsOf t = loopArgs manager i0 (k + 1) ∧
        returnsOf t = falseReturns i0 k)) := by
  intro n
  induction n with
  | zero =>
    intro i0 s
    simp only [SetupLoop]
    apply Post.of_pure
    left
    exact ⟨by simp, rfl, rfl⟩
  | succ n ih =>
    intro i0 s
    simp only [SetupLoop]
    apply Post.bind _ (Setup_args P i0 (some manager) (some manager) (some manager) s)
    · intro b s1 t1 h1
      cases b with
      | true =>
        rw [if_pos rfl]
        apply Post.of_pure
        right
        left
        refine ⟨0, Nat.succ_pos n, by simp, ?_, ?_⟩
        · rw [List.append_nil, h1.1, loopArgs_succ]
          rfl
        · rw [List.append_nil, h1.2]
          simp [falseReturns]
      | false =>
        rw [if_neg (by simp)]
        apply Post.mono (ih (i0 + 1) s1)
        intro o s2 t2 h2
        rw [callArgsOf_append, returnsOf_append, h1.1, h1.2]
        rcases h2 with ⟨ho, hc, hr⟩ | ⟨k, hk, ho, hc, hr⟩ | ⟨k, hk, ho, hc, hr⟩
        · left
          refine ⟨?_, ?_, ?_⟩
          · rw [ho]
            have : i0 + 1 + (n : Int) = i0 + ((n + 1 : Nat) : Int) := by omega
            rw [this]
          · rw [hc, loopArgs_succ]
            rfl
          · rw [hr, falseReturns_succ]
            rfl
        · right
          left
          have hk1 : i0 + 1 + (k : Int) = i0 + ((k + 1 : Nat) : Int) := by omega
          refine ⟨k + 1, Nat.succ_lt_succ hk, ?_, ?_, ?_⟩
          · rw [ho, hk1]
          · rw [hc, loopArgs_succ manager i0 (k + 1)]
            rfl
          · rw [hr, falseReturns_succ i0 k, hk1]
            rfl
        · right
          right
          refine ⟨k + 1, Nat.succ_lt_succ hk, ho, ?_, ?_⟩
          · rw [hc, loopArgs_succ manager i0 (k + 1)]
            rfl
          · rw [hr, falseReturns_succ i0 k]
            rfl
    · intro e s1 t1 h1
      right
      right
      refine ⟨0, Nat.succ_pos n, ⟨e, rfl⟩, ?_, ?_⟩
      · rw [h1.1, loopArgs_succ]
        rfl
      · rw [h1.2]
        simp [falseReturns]

/-- The outer `Setup` with its two preconditions met: outcome, state and trace in terms
of the per-level calls. -/
theorem SetupLevels_run (P : Producers) (manager : Manager) (startLevel numDesiredLevels : Int)
    (s : HState) (p : LevelPtr) (hN : 2 ≤ numDesiredLevels) (h0 : 0 ≤ startLevel)
    (hp : s.Levels_[startLevel.toNat]? = some p) (hA : (s.heap p).IsAvailable "A" = true) :
    SetupLevels P manager startLevel numDesiredLevels s =
      ⟨match (SetupCalls P manager startLevel (startLevel + numDesiredLevels - 1) s).out with
        | .error e => .error e
        | .ok i =>
          if ((SetupCalls P manager startLevel (startLevel + numDesiredLevels - 1)
              s).st.Levels_.length : Int) ≠ i + 1 then
            .error (.RuntimeError "MueLu::Hierarchy::Setup(): number of level")
          else .ok (),
       (SetupCalls P manager startLevel (startLevel + numDesiredLevels - 1) s).st,
       (SetupCalls P manager startLevel (startLevel + numDesiredLevels - 1) s).tr⟩ := by
  have key : Post (SetupLevels P manager startLevel numDesiredLevels) s (fun o s1 t =>
      o = (match (SetupCalls P manager startLevel (startLevel + numDesiredLevels - 1) s).out with
        | .error e => .error e
        | .ok i =>
          if ((SetupCalls P manager startLevel (startLevel + numDesiredLevels - 1)
              s).st.Levels_.length : Int) ≠ i + 1 then
            .error (.RuntimeError "MueLu::Hierarchy::Setup(): number of level")
          else .ok ()) ∧
      s1 = (SetupCalls P manager startLevel (startLevel + numDesiredLevels - 1) s).st ∧
      t = (SetupCalls P manager startLevel (startLevel + numDesiredLevels - 1) s).tr) := by
    unfold SetupLevels
    rw [if_neg (by omega)]
    apply Post.bind_LevelsAt
    · intro q _ hq
      rw [hp] at hq
      simp only [Option.some.injEq] at hq
      subst hq
      apply Post.bind_deref
      rw [hA, if_neg (by simp)]
      apply Post.bind (fun o s1 t =>
        o = (SetupCalls P manager startLevel (startLevel + numDesiredLevels - 1) s).out ∧
        s1 = (SetupCalls P manager startLevel (startLevel + numDesiredLevels - 1) s).st ∧
        t = (SetupCalls P manager startLevel (startLevel + numDesiredLevels - 1) s).tr)
        ⟨rfl, rfl, rfl⟩
      · intro i s1 t1 h1
        obtain ⟨ho, hs, ht⟩ := h1
        apply Post.bind_getState
        rw [← ho, ← hs, ← ht]
        by_cases hlen : (s1.Levels_.length : Int) ≠ i + 1
        · simp only [if_pos hlen]
          exact ⟨rfl, rfl, List.append_nil _⟩
        · simp only [if_neg hlen]
          exact ⟨rfl, rfl, List.append_nil _⟩
      · intro e s1 t1 h1
        obtain ⟨ho, hs, ht⟩ := h1
        rw [← ho, ← hs, ← ht]
        exact ⟨rfl, rfl, rfl⟩
    · intro hbad
      exfalso
      have hlt := (List.getElem?_eq_some.mp hp).1
      omega
  exact Res.eq_of key.elim.1 key.elim.2.1 key.elim.2.2

/-- The per-level calls of the outer `Setup`, with their arguments. -/
theorem SetupCalls_args (P : Producers) (manager : Manager) (startLevel lastLevel : Int)
    (hlast : startLevel + 1 ≤ lastLevel) (s : HState) :
    Post (SetupCalls P manager startLevel lastLevel) s (fun o _ t =>
      (∃ k : Nat, k ≤ (lastLevel - (startLevel + 1)).toNat ∧
        callArgsOf t = (startLevel, none, some manager, some manager) ::
          loopArgs manager (startLevel + 1) k ∧
        (returnsOf t = falseReturns startLevel k ++ [(startLevel + (k : Int), true)] ∨
         ((∃ e, o = .error e) ∧ returnsOf t = falseReturns startLevel k))) ∨
      (callArgsOf t = (startLevel, none, some manager, some manager) ::
          (loopArgs manager (startLevel + 1) (lastLevel - (startLevel + 1)).toNat ++
            [(lastLevel, some manager, some manager, none)]) ∧
        (returnsOf t = falseReturns startLevel ((lastLevel - (startLevel + 1)).toNat + 1) ++
            [(lastLevel, true)] ∨
         ((∃ e, o = .error e) ∧
          returnsOf t = falseReturns startLevel ((lastLevel - (startLevel + 1)).toNat + 1))))) := by
  unfold SetupCalls
  apply Post.bind _ (Setup_args P startLevel none (some manager) (some manager) s)
  · intro b s1 t1 h1
    cases b with
    | true =>
      rw [if_neg (by simp)]
      apply Post.of_pure
      left
      refine ⟨0, Nat.zero_le _, ?_, Or.inl ?_⟩
      · rw [List.append_nil, h1.1]
        rfl
      · rw [List.append_nil, h1.2]
        simp [falseReturns]
    | false =>
      rw [if_pos rfl]
      have hfuel : ((lastLevel - (startLevel + 1)).toNat : Int) = lastLevel - (startLevel + 1) :=
        Int.toNat_of_nonneg (by omega)
      generalize (lastLevel - (startLevel + 1)).toNat = fuel at hfuel
      have hlastEq : lastLevel = startLevel + 1 + (fuel : Int) := by omega
      apply Post.bind _ (SetupLoop_args P manager fuel (startLevel + 1) s1)
      · intro bi s2 t2 h2
        rcases h2 with ⟨ho, hc, hr⟩ | ⟨k, hk, ho, hc, hr⟩ | ⟨k, _, ⟨e, ho⟩, _, _⟩
        · simp only [Except.ok.injEq] at ho
          subst ho
          rw [if_pos rfl]
          have hlast3 := Setup_last_marks P lastLevel (some manager) (some manager) s2
          have hargs3 := Setup_args P lastLevel (some manager) (some manager) none s2
          apply Post.bind (fun o _ t =>
            callArgsOf t = [(lastLevel, some manager, some manager, none)] ∧
            ((o = .ok true ∧ returnsOf t = [(lastLevel, true)]) ∨
             ((∃ e, o = .error e) ∧ returnsOf t = []))) ⟨hargs3.elim.1, hlast3.elim.2⟩
          · intro b3 s3 t3 h3
            apply Post.of_pure
            right
            refine ⟨?_, ?_⟩
            · simp only [callArgsOf_append, h1.1, hc, h3.1]
              rfl
            · rcases h3.2 with ⟨_, hret⟩ | ⟨⟨e, he⟩, _⟩
              · left
                simp only [returnsOf_append, h1.2, hr, hret]
                rw [show returnsOf [] = [] from rfl, List.append_nil,
                  falseReturns_succ startLevel fuel]
                rfl
              · exact absurd he (by simp)
          · intro e s3 t3 h3
            right
            refine ⟨?_, ?_⟩
            · simp only [callArgsOf_append, h1.1, hc, h3.1]
              rfl
            · rcases h3.2 with ⟨hbad, _⟩ | ⟨_, hret⟩
              · exact absurd hbad (by simp)
              · right
                refine ⟨⟨e, rfl⟩, ?_⟩
                simp only [returnsOf_append, h1.2, hr, hret]
                rw [List.append_nil, falseReturns_succ startLevel fuel]
                rfl
        · simp only [Except.ok.injEq] at ho
          subst ho
          rw [if_neg (by simp)]
          apply Post.of_pure
          left
          have hk1 : startLevel + 1 + (k : Int) = startLevel + ((k + 1 : Nat) : Int) := by omega
          refine ⟨k + 1, hk, ?_, Or.inl ?_⟩
          · simp only [callArgsOf_append, h1.1, hc]
            rw [show callArgsOf [] = [] from rfl, List.append_nil]
            rfl
          · simp only [returnsOf_append, h1.2, hr]
            rw [show returnsOf [] = [] from rfl, List.append_nil,
              falseReturns_succ startLevel k, hk1]
            rfl
        · exact absurd ho (by simp)
      · intro e s2 t2 h2
        rcases h2 with ⟨ho, _, _⟩ | ⟨k, _, ho, _, _⟩ | ⟨k, hk, _, hc, hr⟩
        · exact absurd ho (by simp)
        · exact absurd ho (by simp)
        · left
          refine ⟨k + 1, hk, ?_, Or.inr ⟨⟨e, rfl⟩, ?_⟩⟩
          · simp only [callArgsOf_append, h1.1, hc]
            rfl
          · simp only [returnsOf_append, h1.2, hr]
            rw [falseReturns_succ startLevel k]
            rfl
  · intro e s1 t1 h1
    left
    refine ⟨0, Nat.zero_le _, ?_, Or.inr ⟨⟨e, rfl⟩, ?_⟩⟩
    · rw [h1.1]
      rfl
    · rw [h1.2]
      rfl

/-- C25, amended: how the outer `Setup` drives the per-level procedure when its two
preconditions hold (`N = numDesiredLevels >= 2`, "A" available on the level
`startLevel`).  The first per-level call is on `startLevel` with no fine manager and the
manager as coarse and next manager; the calls of the loop are on the following level IDs,
each with the manager as fine, coarse and next manager.  Either the loop is exhausted, the
first call and its `N - 2` calls having all returned false: then one final call with no
next manager is made on the level `startLevel + N - 1`.  Or a call with a next manager, on
a level `startLevel + k` with `k <= N - 2`, is the last one, because it returned true or
because it raised: then no further call is made, and no call of the run has an absent next
manager. -/
theorem SetupLevels_call_arguments (P : Producers) (manager : Manager)
    (startLevel numDesiredLevels : Int) (s : HState) (p : LevelPtr)
    (hN : 2 ≤ numDesiredLevels) (h0 : 0 ≤ startLevel)
    (hp : s.Levels_[startLevel.toNat]? = some p) (hA : (s.heap p).IsAvailable "A" = true) :
    (∃ k : Nat, (k : Int) ≤ numDesiredLevels - 2 ∧
      callArgsOf (SetupLevels P manager startLevel numDesiredLevels s).tr =
        (startLevel, none, some manager, some manager) ::
          loopArgs manager (startLevel + 1) k ∧
      (∀ a ∈ callArgsOf (SetupLevels P manager startLevel numDesiredLevels s).tr,
        a.2.2.2 = some manager) ∧
      (returnsOf (SetupLevels P manager startLevel numDesiredLevels s).tr =
          falseReturns startLevel k ++ [(startLevel + (k : Int), true)] ∨
       returnsOf (SetupLevels P manager startLevel numDesiredLevels s).tr =
          falseReturns startLevel k)) ∨
    (callArgsOf (SetupLevels P manager startLevel numDesiredLevels s).tr =
        (startLevel, none, some manager, some manager) ::
          (loopArgs manager (startLevel + 1) (numDesiredLevels - 2).toNat ++
            [(startLevel + numDesiredLevels - 1, some manager, some manager, none)]) ∧
      (returnsOf (SetupLevels P manager startLevel numDesiredLevels s).tr =
          falseReturns startLevel (numDesiredLevels - 1).toNat ++
            [(startLevel + numDesiredLevels - 1, true)] ∨
       returnsOf (SetupLevels P manager startLevel numDesiredLevels s).tr =
          falseReturns startLevel (numDesiredLevels - 1).toNat)) := by
  rw [SetupLevels_run P manager startLevel numDesiredLevels s p hN h0 hp hA]
  simp only
  have hfuel : (startLevel + numDesiredLevels - 1 - (startLevel + 1)).toNat =
      (numDesiredLevels - 2).toNat := by
    congr 1
    omega
  have hfuel1 : (numDesiredLevels - 2).toNat + 1 = (numDesiredLevels - 1).toNat := by omega
  rcases (SetupCalls_args P manager startLevel (startLevel + numDesiredLevels - 1) (by omega)
    s).elim with ⟨k, hk, hc, hr⟩ | ⟨hc, hr⟩
  · left
    rw [hfuel] at hk
    refine ⟨k, by omega, hc, ?_, ?_⟩
    · intro a ha
      rw [hc] at ha
      rcases List.mem_cons.mp ha with ha | ha
      · rw [ha]
      · exact loopArgs_next manager a ha
    · rcases hr with hr | ⟨_, hr⟩
      · exact Or.inl hr
      · exact Or.inr hr
  · right
    rw [hfuel] at hc
    rw [hfuel, hfuel1] at hr
    refine ⟨hc, ?_⟩
    rcases hr with hr | ⟨_, hr⟩
    · exact Or.inl hr
    · exact Or.inr hr

/-- Witness for C25 as amended: three desired levels on the one-level hierarchy over a
1000-row operator; the loop is exhausted and the final call has no next manager. -/
theorem SetupLevels_call_arguments_witness :
    ((2 : Int) ≤ 3 ∧ (bigHierarchy.heap 0).IsAvailable "A" = true) ∧
    callArgsOf (SetupLevels halving 7 0 3 bigHierarchy).tr =
      [(0, none, some 7, some 7), (1, some 7, some 7, some 7), (2, some 7, some 7, none)] ∧
    ((∃ k : Nat, (k : Int) ≤ 3 - 2 ∧
      callArgsOf (SetupLevels halving 7 0 3 bigHierarchy).tr =
        (0, none, some 7, some 7) :: loopArgs 7 (0 + 1) k ∧
      (∀ a ∈ callArgsOf (SetupLevels halving 7 0 3 bigHierarchy).tr, a.2.2.2 = some 7) ∧
      (returnsOf (SetupLevels halving 7 0 3 bigHierarchy).tr =
          falseReturns 0 k ++ [(0 + (k : Int), true)] ∨
       returnsOf (SetupLevels halving 7 0 3 bigHierarchy).tr = falseReturns 0 k)) ∨
    (callArgsOf (SetupLevels halving 7 0 3 bigHierarchy).tr =
        (0, none, some 7, some 7) ::
          (loopArgs 7 (0 + 1) ((3 : Int) - 2).toNat ++ [(0 + 3 - 1, some 7, some 7, none)]) ∧
      (returnsOf (SetupLevels halving 7 0 3 bigHierarchy).tr =
          falseReturns 0 ((3 : Int) - 1).toNat ++ [(0 + 3 - 1, true)] ∨
       returnsOf (SetupLevels halving 7 0 3 bigHierarchy).tr =
          falseReturns 0 ((3 : Int) - 1).toNat))) :=
  ⟨⟨by decide, by decide!⟩, by decide!,
    SetupLevels_call_arguments halving 7 0 3 bigHierarchy 0 (by decide) (by decide)
      (by decide!) (by decide!)⟩

/-- Counterexample for C25: three desired levels on the one-level hierarchy over a
100-row operator.  The call of the loop on level 1, where the operator has 50 rows,
reports the last level; the outer `Setup` returns after it, and none of its per-level
calls has an absent next manager. -/
theorem SetupLevels_stops_without_final_call :
    (SetupLevels halving 7 0 3 mediumHierarchy).out = .ok () ∧
    returnsOf (SetupLevels halving 7 0 3 mediumHierarchy).tr = [(0, false), (1, true)] ∧
    callArgsOf (SetupLevels halving 7 0 3 mediumHierarchy).tr =
      [(0, none, some 7, some 7), (1, some 7, some 7, some 7)] := by
  decide!

end drive

section balance

theorem SetupRequestsFinest_trace (fine : Option Manager) (coarseMgr : Manager)
    (level : LevelPtr) (s : HState) :
    (SetupRequestsFinest fine coarseMgr level s).out = .ok () ∧
    (SetupRequestsFinest fine coarseMgr level s).tr = finestRequests fine coarseMgr level := by
  cases fine with
  | none => exact ⟨rfl, rfl⟩
  | some fm => exact ⟨rfl, rfl⟩

theorem SetupRequestsNext_trace (coarseLevelID : Int) (coarseMgr : Manager)
    (next : Option Manager) (s : HState) :
    Post (SetupRequestsNext coarseLevelID coarseMgr next) s (fun o _ t =>
      ∀ nx, o = .ok nx → t = nextRequests coarseMgr nx) := by
  unfold SetupRequestsNext
  cases next with
  | none =>
    apply Post.of_pure
    intro nx hnx
    simp only [Except.ok.injEq] at hnx
    subst hnx
    rfl
  | some nextMgr =>
    simp only
    apply Post.bind_getState
    have hadd : Post (if coarseLevelID + 1 > LastLevelID s then AddNewLevel else pure ()) s
        (fun _ _ t => t = []) := by
      split
      · show (AddNewLevel s).tr = []
        rw [AddNewLevel_run]
        split <;> rfl
      · rfl
    apply Post.bind _ hadd
    · intro _ s1 t1 h1
      subst h1
      apply Post.bind_LevelsAt
      · intro nl _ _
        rw [bind_eq]
        have hc := CheckLevel_run nl (coarseLevelID + 1) s1
        rcases hco : checkLevelOutcome s1 nl (coarseLevelID + 1) with e | u
        · rw [hco] at hc
          rw [← bind_eq]
          apply Post.bind_of_eq_error hc
          intro nx hnx
          exact absurd hnx (by simp)
        · rw [hco] at hc
          rw [← bind_eq]
          apply Post.bind_of_eq hc
          rw [bind_eq, ← bind_eq]
          apply Post.bind_of_eq (Request_run _ _ _)
          apply Post.bind_of_eq (Request_run _ _ _)
          apply Post.bind_of_eq (Request_run _ _ _)
          apply Post.of_pure
          intro nx hnx
          simp only [Except.ok.injEq] at hnx
          subst hnx
          rfl
      · intro _ nx hnx
        exact absurd hnx (by simp)
    · intro e s1 t1 _ nx hnx
      exact absurd hnx (by simp)

theorem BuildRAP_run (P : Producers) (fm cm : Manager) (fineLevel level : LevelPtr)
    (s : HState) :
    BuildRAP P fm cm fineLevel level s =
      ⟨match (P.BuildRAP fm cm fineLevel level s.heap).1 with
        | none => .ok ()
        | some msg => .error (.producer msg),
       s.setHeap (fun q => { s.heap q with store := (P.BuildRAP fm cm fineLevel level s.heap).2 q }),
       [.build (.TopRAPFactory fm cm) level]⟩ := rfl

theorem SetupBuildRAP_trace (P : Producers) (fine : Option Manager) (coarseMgr : Manager)
    (level : LevelPtr) (s : HState) :
    Post (SetupBuildRAP P fine coarseMgr level) s (fun o _ t =>
      o = .ok () → t = rapEvents fine coarseMgr level) := by
  unfold SetupBuildRAP
  cases fine with
  | none =>
    apply Post.of_pure
    intro _
    rfl
  | some fm =>
    simp only
    apply Post.bind_deref
    rcases hprev : (s.heap level).previousLevel with _ | fineLevel
    · apply Post.of_raise
      intro h
      exact absurd h (by simp)
    · simp only
      have hb := BuildRAP_run P fm coarseMgr fineLevel level s
      rcases hm : (P.BuildRAP fm coarseMgr fineLevel level s.heap).1 with _ | msg
      · rw [hm] at hb
        apply Post.bind_of_eq hb
        apply Post.of_eq (Release_run _ _ _)
        intro _
        rfl
      · rw [hm] at hb
        apply Post.bind_of_eq_error hb
        intro h
        exact absurd h (by simp)

theorem SetupTruncate_trace (coarseMgr : Manager) (next : Option (Manager × LevelPtr))
    (Ac : Option Matrix) (s : HState) :
    (SetupTruncate coarseMgr next Ac s).out =
      .ok (coarseEnough Ac s.maxCoarseSize_ || next.isNone) ∧
    (SetupTruncate coarseMgr next Ac s).tr =
      truncateEvents coarseMgr next (coarseEnough Ac s.maxCoarseSize_ || next.isNone) := by
  have key : Post (SetupTruncate coarseMgr next Ac) s (fun o _ t =>
      o = .ok (coarseEnough Ac s.maxCoarseSize_ || next.isNone) ∧
      t = truncateEvents coarseMgr next (coarseEnough Ac s.maxCoarseSize_ || next.isNone)) := by
    unfold SetupTruncate
    apply Post.bind_getState
    rcases hce : coarseEnough Ac s.maxCoarseSize_ with _ | _
    · rw [if_neg (by simp)]
      apply Post.of_pure
      cases next with
      | none => exact ⟨rfl, rfl⟩
      | some nx => exact ⟨rfl, rfl⟩
    · rw [if_pos rfl]
      cases next with
      | none =>
        apply Post.of_pure
        exact ⟨rfl, rfl⟩
      | some nx =>
        obtain ⟨nm, nl⟩ := nx
        simp only
        apply Post.bind_of_eq (Release_run _ _ _)
        apply Post.bind_of_eq (Release_run _ _ _)
        apply Post.bind_of_eq (Release_run _ _ _)
        apply Post.bind_popBack
        apply Post.of_pure
        exact ⟨rfl, rfl⟩
  exact key.elim

theorem SetupSmoother_trace (P : Producers) (coarseMgr : Manager) (level : LevelPtr)
    (isLastLevel : Bool) (Ac : Option Matrix) (s : HState) :
    Post (SetupSmoother P coarseMgr level isLastLevel Ac) s (fun o _ t =>
      o = .ok () → t = smootherEvents coarseMgr level isLastLevel Ac) := by
  unfold SetupSmoother smootherEvents
  have hstep : ∀ (v : String) (s0 : HState),
      Post (BuildSmoother P coarseMgr v level >>= fun _ =>
        Release level (.TopSmootherFactory coarseMgr v)) s0 (fun o _ t =>
        o = .ok () → t = [.build (.TopSmootherFactory coarseMgr v) level,
          .release level (.TopSmootherFactory coarseMgr v)]) := by
    intro v s0
    have hb := BuildSmoother_run P coarseMgr v level s0
    rcases hm : (P.BuildSmoother coarseMgr v level s0.heap).1 with _ | msg
    · rw [hm] at hb
      apply Post.bind_of_eq hb
      apply Post.of_eq (Release_run _ _ _)
      intro _
      rfl
    · rw [hm] at hb
      apply Post.bind_of_eq_error hb
      intro h
      exact absurd h (by simp)
  by_cases hl : (!isLastLevel) = true
  · rw [if_pos hl, if_pos hl]
    exact hstep "Smoother" s
  · rw [if_neg hl, if_neg hl]
    by_cases hA : Ac.isSome = true
    · rw [if_pos hA, if_pos hA]
      exact hstep "CoarseSolver" s
    · rw [if_neg hA, if_neg hA]
      apply Post.of_pure
      intro _
      rfl

theorem fetchAc_tr (level : LevelPtr) (s : HState) : (fetchAc level s).tr = [] := by
  have h := (show TrAll (fun _ => False) (fetchAc level) from TrAll.fetchAc_all level).run s
  rcases ht : (fetchAc level s).tr with _ | ⟨e, rest⟩
  · rfl
  · exact absurd (h e (by rw [ht]; exact List.mem_cons_self _ _)) id

theorem SetupThroughRAP_trace (P : Producers) (coarseLevelID : Int)
    (fine coarse next : Option Manager) (s : HState) :
    Post (SetupThroughRAP P coarseLevelID fine coarse next) s (fun o _ t =>
      ∀ cm p nx, o = .ok (cm, p, nx) →
        t = [.enterSetup coarseLevelID fine coarse next] ++
          (finestRequests fine cm p ++ (nextRequests cm nx ++ rapEvents fine cm p))) := by
  unfold SetupThroughRAP
  apply Post.bind (fun _ _ t => t = [.enterSetup coarseLevelID fine coarse next])
  · show (SetupInit coarseLevelID fine coarse next s).tr = _
    rw [SetupInit_run]
  · intro cl s1 t1 h1
    subst h1
    have hfin := SetupRequestsFinest_trace fine cl.1 cl.2 s1
    apply Post.bind_of_eq (Res.eq_of hfin.1 rfl hfin.2)
    apply Post.bind _ (SetupRequestsNext_trace coarseLevelID cl.1 next _)
    · intro nx s2 t2 h2
      have ht2 := h2 nx rfl
      subst ht2
      apply Post.bind _ (SetupBuildRAP_trace P fine cl.1 cl.2 s2)
      · intro _ s3 t3 h3
        have ht3 := h3 rfl
        subst ht3
        apply Post.of_pure
        intro cm p nx1 hr
        simp only [Except.ok.injEq, Prod.mk.injEq] at hr
        obtain ⟨h1, h2, h3⟩ := hr
        subst h1 h2 h3
        simp only [List.append_nil]
      · intro e s3 t3 _ cm p nx1 hr
        exact absurd hr (by simp)
    · intro e s2 t2 _ cm p nx1 hr
      exact absurd hr (by simp)
  · intro e s1 t1 _ cm p nx1 hr
    exact absurd hr (by simp)

theorem SetupFinish_trace (P : Producers) (coarseMgr : Manager) (level : LevelPtr)
    (next : Option (Manager × LevelPtr)) (s : HState) :
    Post (SetupFinish P coarseMgr level next) s (fun o _ t =>
      ∀ b, o = .ok b → ∃ Ac, (fetchAc level s).out = .ok Ac ∧
        b = (coarseEnough Ac s.maxCoarseSize_ || next.isNone) ∧
        t = truncateEvents coarseMgr next b ++ smootherEvents coarseMgr level b Ac) := by
  unfold SetupFinish
  rcases hAc : (fetchAc level s).out with e | Ac
  · apply Post.bind_of_eq_error (Res.eq_of hAc rfl rfl)
    intro b hb
    exact absurd hb (by simp)
  · apply Post.bind_of_eq (Res.eq_of hAc ((Unchanged.fetchAc_unchanged level).run s)
      (fetchAc_tr level s))
    have htr := SetupTruncate_trace coarseMgr next Ac s
    apply Post.bind_of_eq (Res.eq_of htr.1 rfl htr.2)
    apply Post.bind _ (SetupSmoother_trace P coarseMgr level _ Ac _)
    · intro _ s2 t2 h2
      have ht2 := h2 rfl
      subst ht2
      apply Post.of_pure
      intro b hb
      simp only [Except.ok.injEq] at hb
      subst hb
      refine ⟨Ac, rfl, rfl, ?_⟩
      simp only [List.nil_append, List.append_nil]
    · intro e s2 t2 _ b hb
      exact absurd hb (by simp)

/-- The trace of a per-level `Setup` call that returns, in full. -/
theorem Setup_trace {P : Producers} {coarseLevelID : Int} {fine coarse next : Option Manager}
    {s : HState} {b : Bool} (h : (Setup P coarseLevelID fine coarse next s).out = .ok b) :
    ∃ (cm : Manager) (p : LevelPtr) (nx : Option (Manager × LevelPtr)) (Ac : Option Matrix),
      (SetupThroughRAP P coarseLevelID fine coarse next s).out = .ok (cm, p, nx) ∧
      (fetchAc p (SetupThroughRAP P coarseLevelID fine coarse next s).st).out = .ok Ac ∧
      b = (coarseEnough Ac (SetupThroughRAP P coarseLevelID fine coarse next s).st.maxCoarseSize_
            || nx.isNone) ∧
      (Setup P coarseLevelID fine coarse next s).tr =
        setupTrace coarseLevelID fine coarse next cm p nx b Ac := by
  have key : Post (Setup P coarseLevelID fine coarse next) s (fun o _ t =>
      ∀ b, o = .ok b →
      ∃ (cm : Manager) (p : LevelPtr) (nx : Option (Manager × LevelPtr)) (Ac : Option Matrix),
        (SetupThroughRAP P coarseLevelID fine coarse next s).out = .ok (cm, p, nx) ∧
        (fetchAc p (SetupThroughRAP P coarseLevelID fine coarse next s).st).out = .ok Ac ∧
        b = (coarseEnough Ac
              (SetupThroughRAP P coarseLevelID fine coarse next s).st.maxCoarseSize_
              || nx.isNone) ∧
        t = setupTrace coarseLevelID fine coarse next cm p nx b Ac) := by
    unfold Setup
    rcases hout : (SetupThroughRAP P coarseLevelID fine coarse next s).out with e | r
    · apply Post.bind_of_eq_error (Res.eq_of hout rfl rfl)
      intro b hb
      exact absurd hb (by simp)
    · have ht0 := (SetupThroughRAP_trace P coarseLevelID fine coarse next s).elim r.1 r.2.1
        r.2.2 hout
      apply Post.bind_of_eq (Res.eq_of hout rfl ht0)
      apply Post.bind _ (SetupFinish_trace P r.1 r.2.1 r.2.2 _)
      · intro b1 s2 t2 h2
        apply Post.bind_emit
        apply Post.of_pure
        intro b hb
        simp only [Except.ok.injEq] at hb
        subst hb
        rcases h2 b1 rfl with ⟨Ac, hAc, hb1, htr⟩
        refine ⟨r.1, r.2.1, r.2.2, Ac, rfl, hAc, hb1, ?_⟩
        rw [htr]
        simp only [setupTrace, List.append_assoc, List.cons_append, List.nil_append]
      · intro e s2 t2 _ b hb
        exact absurd hb (by simp)
  exact key.elim b h

end balance

section chainLength

theorem SetupTruncate_length (coarseMgr : Manager) (next : Option (Manager × LevelPtr))
    (Ac : Option Matrix) (s : HState) :
    Post (SetupTruncate coarseMgr next Ac) s (fun o s1 _ =>
      ∀ b, o = .ok b → s1.Levels_.length =
        s.Levels_.length - (if b = true ∧ next.isSome = true then 1 else 0)) := by
  unfold SetupTruncate
  apply Post.bind_getState
  split
  · cases next with
    | none =>
      apply Post.of_pure
      intro b _
      simp
    | some nx =>
      simp only []
      have hJ := HeapStable.of_chain (fun (ch : List LevelPtr) => ch = s.Levels_)
      apply Post.bind_preserves (Preserves.Release_keeps hJ _ _) rfl
      · intro _ s1 _ h1
        apply Post.bind_preserves (Preserves.Release_keeps hJ _ _) h1
        · intro _ s2 _ h2
          apply Post.bind_preserves (Preserves.Release_keeps hJ _ _) h2
          · intro _ s3 _ h3
            apply Post.bind_popBack
            apply Post.of_pure
            intro b hb
            simp only [Except.ok.injEq] at hb
            subst hb
            show (s3.Levels_.dropLast).length = _
            rw [h3]
            simp
          · intro e s3 _ _ b hb
            exact absurd hb (by simp)
        · intro e s2 _ _ b hb
          exact absurd hb (by simp)
      · intro e s1 _ _ b hb
        exact absurd hb (by simp)
  · apply Post.of_pure
    intro b hb
    simp only [Except.ok.injEq] at hb
    subst hb
    cases next <;> simp

theorem SetupFinish_length (P : Producers) (coarseMgr : Manager) (level : LevelPtr)
    (next : Option (Manager × LevelPtr)) (s : HState) :
    Post (SetupFinish P coarseMgr level next) s (fun o s1 _ =>
      ∀ b, o = .ok b → s1.Levels_.length =
        s.Levels_.length - (if b = true ∧ next.isSome = true then 1 else 0)) := by
  unfold SetupFinish
  apply Post.bind_preserves (I := fun s1 => s1 = s) (Unchanged.fetchAc_unchanged level).preserves rfl
  · intro Ac s1 _ h1
    subst h1
    apply Post.bind _ (SetupTruncate_length coarseMgr next Ac s1)
    · intro b1 s2 _ h2
      have hJ := HeapStable.of_chain (fun (ch : List LevelPtr) => ch = s2.Levels_)
      apply Post.bind_preserves (Preserves.SetupSmoother_keeps hJ P coarseMgr level b1 Ac) rfl
      · intro _ s3 _ h3
        apply Post.of_pure
        intro b hb
        simp only [Except.ok.injEq] at hb
        subst hb
        rw [h3]
        exact h2 b1 rfl
      · intro e s3 _ _ b hb
        exact absurd hb (by simp)
    · intro e s2 _ _ b hb
      exact absurd hb (by simp)
  · intro e s1 _ _ b hb
    exact absurd hb (by simp)

theorem SetupRequestsNext_length (coarseLevelID : Int) (coarseMgr : Manager)
    (next : Option Manager) (s : HState) :
    Post (SetupRequestsNext coarseLevelID coarseMgr next) s (fun o s1 _ =>
      ∀ nx, o = .ok nx → nx.isSome = next.isSome ∧ s1.Levels_.length =
        s.Levels_.length +
          (if next.isSome = true ∧ coarseLevelID + 1 > LastLevelID s then 1 else 0)) := by
  unfold SetupRequestsNext
  cases next with
  | none =>
    apply Post.of_pure
    intro nx hnx
    simp only [Except.ok.injEq] at hnx
    subst hnx
    simp
  | some nm =>
    simp only []
    apply Post.bind_getState
    apply Post.bind (fun o s1 _ => o = .ok () → s1.Levels_.length =
        s.Levels_.length + (if coarseLevelID + 1 > LastLevelID s then 1 else 0))
    · by_cases hgt : coarseLevelID + 1 > LastLevelID s
      · rw [if_pos hgt, if_pos hgt]
        show (AddNewLevel s).out = .ok () → (AddNewLevel s).st.Levels_.length = _
        rw [AddNewLevel_run]
        split
        · intro h
          exact absurd h (by simp)
        · intro _
          rw [addNewLevelState_Levels]
          simp
      · rw [if_neg hgt, if_neg hgt]
        intro _
        rfl
    · intro _ s1 _ h1
      have hlen := h1 rfl
      apply Post.bind_LevelsAt
      · intro nl _ _
        have hchk := CheckLevel_run nl (coarseLevelID + 1) s1
        rcases hc : checkLevelOutcome s1 nl (coarseLevelID + 1) with e | _
        · rw [hc] at hchk
          apply Post.bind_of_eq_error hchk
          intro nx hnx
          exact absurd hnx (by simp)
        · rw [hc] at hchk
          apply Post.bind_of_eq hchk
          have hJ := HeapStable.of_chain (fun (ch : List LevelPtr) => ch = s1.Levels_)
          apply Post.bind_preserves (Preserves.Request_keeps hJ _ _) rfl
          · intro _ s2 _ h2
            apply Post.bind_preserves (Preserves.Request_keeps hJ _ _) h2
            · intro _ s3 _ h3
              apply Post.bind_preserves (Preserves.Request_keeps hJ _ _) h3
              · intro _ s4 _ h4
                apply Post.of_pure
                intro nx hnx
                simp only [Except.ok.injEq] at hnx
                subst hnx
                refine ⟨rfl, ?_⟩
                rw [h4, hlen]
                simp
              · intro e s4 _ _ nx hnx
                exact absurd hnx (by simp)
            · intro e s3 _ _ nx hnx
              exact absurd hnx (by simp)
          · intro e s2 _ _ nx hnx
            exact absurd hnx (by simp)
      · intro _ nx hnx
        exact absurd hnx (by simp)
    · intro e s1 _ _ nx hnx
      exact absurd hnx (by simp)

theorem SetupThroughRAP_length (P : Producers) (coarseLevelID : Int)
    (fine coarse next : Option Manager) (s : HState) :
    Post (SetupThroughRAP P coarseLevelID fine coarse next) s (fun o s1 _ =>
      ∀ r, o = .ok r → r.2.2.isSome = next.isSome ∧ s1.Levels_.length =
        s.Levels_.length +
          (if next.isSome = true ∧ coarseLevelID + 1 > LastLevelID s then 1 else 0)) := by
  unfold SetupThroughRAP
  apply Post.bind_preserves (I := fun s1 => s1 = s)
    (Unchanged.SetupInit_unchanged coarseLevelID fine coarse next).preserves rfl
  · intro cl s1 _ h1
    subst h1
    have hJ := HeapStable.of_chain (fun (ch : List LevelPtr) => ch = s1.Levels_)
    apply Post.bind_preserves (Preserves.SetupRequestsFinest_keeps hJ fine cl.1 cl.2) rfl
    · intro _ s2 _ h2
      apply Post.bind _ (SetupRequestsNext_length coarseLevelID cl.1 next s2)
      · intro nx s3 _ h3
        have hJ3 := HeapStable.of_chain (fun (ch : List LevelPtr) => ch = s3.Levels_)
        apply Post.bind_preserves (Preserves.SetupBuildRAP_keeps hJ3 P fine cl.1 cl.2) rfl
        · intro _ s4 _ h4
          apply Post.of_pure
          intro r hr
          simp only [Except.ok.injEq] at hr
          subst hr
          refine ⟨(h3 nx rfl).1, ?_⟩
          rw [h4, (h3 nx rfl).2]
          simp only [LastLevelID, h2]
        · intro e s4 _ _ r hr
          exact absurd hr (by simp)
      · intro e s3 _ _ r hr
        exact absurd hr (by simp)
    · intro e s2 _ _ r hr
      exact absurd hr (by simp)
  · intro e s1 _ _ r hr
    exact absurd hr (by simp)

/-- Length of the chain after a per-level `Setup` call that returns: a level is appended
when a next manager is given and `coarseLevelID + 1` exceeds `LastLevelID()`, and the last
entry is dropped when the call returns true with a next manager given. -/
theorem Setup_length (P : Producers) (coarseLevelID : Int)
    (fine coarse next : Option Manager) (s : HState) :
    Post (Setup P coarseLevelID fine coarse next) s (fun o s1 _ =>
      ∀ b, o = .ok b → s1.Levels_.length =
        s.Levels_.length +
          (if next.isSome = true ∧ coarseLevelID + 1 > LastLevelID s then 1 else 0) -
          (if b = true ∧ next.isSome = true then 1 else 0)) := by
  unfold Setup
  apply Post.bind _ (SetupThroughRAP_length P coarseLevelID fine coarse next s)
  · intro r s1 _ h1
    apply Post.bind _ (SetupFinish_length P r.1 r.2.1 r.2.2 s1)
    · intro b1 s2 _ h2
      apply Post.bind_emit
      apply Post.of_pure
      intro b hb
      simp only [Except.ok.injEq] at hb
      subst hb
      rw [h2 b1 rfl, (h1 r rfl).2, (h1 r rfl).1]
    · intro e s2 _ _ b hb
      exact absurd hb (by simp)
  · intro e s1 _ _ b hb
    exact absurd hb (by simp)

end chainLength

section returns

theorem checkLevelOutcome_wellFormed {s : HState} (h : WellFormed s) {i : Nat} {p : LevelPtr}
    (hp : s.Levels_[i]? = some p) : checkLevelOutcome s p (i : Int) = .ok () := by
  obtain ⟨hid, hprev⟩ := h i p hp
  have hi : i < s.Levels_.length := by
    rcases Nat.lt_or_ge i s.Levels_.length with hlt | hge
    · exact hlt
    · rw [List.getElem?_eq_none hge] at hp
      exact absurd hp (by simp)
  unfold checkLevelOutcome
  rw [if_neg (by simp [hid])]
  by_cases h0 : (i : Int) = 0
  · rw [if_pos h0]
  · rw [if_neg h0, if_pos (by omega)]
    have hpos : 0 < i := by omega
    have hidx : ((i : Int) - 1).toNat = i - 1 := by omega
    rw [hidx]
    have hlt : i - 1 < s.Levels_.length := by omega
    rw [List.getElem?_eq_getElem hlt]
    simp only []
    rw [if_neg]
    rw [hprev hpos, List.getElem?_eq_getElem hlt]
    simp

theorem setupInitOutcome_wellFormed {s : HState} (h : WellFormed s) {i : Nat}
    (hlen : s.Levels_.length = i + 1) (fine : Option Manager) (m : Manager)
    (hpos : fine ≠ none → 1 ≤ i) :
    ∃ p, s.Levels_[i]? = some p ∧ setupInitOutcome s (i : Int) fine (some m) = .ok (m, p) := by
  have hi : i < s.Levels_.length := by omega
  refine ⟨s.Levels_[i], List.getElem?_eq_getElem hi, ?_⟩
  have hp : s.Levels_[i]? = some s.Levels_[i] := List.getElem?_eq_getElem hi
  unfold setupInitOutcome
  simp only []
  rw [if_neg (by simp [LastLevelID, hlen]), if_pos (by omega)]
  simp only [Int.toNat_ofNat, hp, checkLevelOutcome_wellFormed h hp]
  cases fine with
  | none => rfl
  | some fm =>
    have h1 := hpos (by simp)
    simp only []
    rw [if_pos (by omega)]
    have hidx : ((i : Int) - 1).toNat = i - 1 := by omega
    have hlt : i - 1 < s.Levels_.length := by omega
    rw [hidx, List.getElem?_eq_getElem hlt]

theorem fetchAc_returns {level : LevelPtr} {s : HState}
    (h : ∀ id, ((s.heap level).store ⟨"A", none⟩).value ≠ some (.smoother id)) :
    ∃ Ac, fetchAc level s = ⟨.ok Ac, s, []⟩ := by
  rcases hv : ((s.heap level).store ⟨"A", none⟩).value with _ | v
  · refine ⟨none, ?_⟩
    have key : Post (fetchAc level) s (fun o s1 t => o = .ok none ∧ s1 = s ∧ t = []) := by
      unfold fetchAc
      apply Post.bind_deref
      rw [if_neg (by simp [Level.IsAvailable, hv])]
      exact ⟨rfl, rfl, rfl⟩
    exact Res.eq_of key.elim.1 key.elim.2.1 key.elim.2.2
  · cases v with
    | matrix Ac => exact ⟨Ac, fetchAc_stored hv⟩
    | smoother id => exact absurd hv (h id)

theorem SetupSmoother_returns (P : Producers)
    (hSm : ∀ mg v l heap, (P.BuildSmoother mg v l heap).1 = none)
    (coarseMgr : Manager) (level : LevelPtr) (isLastLevel : Bool) (Ac : Option Matrix)
    (s : HState) : (SetupSmoother P coarseMgr level isLastLevel Ac s).out = .ok () := by
  have step : ∀ v, Post (BuildSmoother P coarseMgr v level >>= fun _ =>
      Release level (.TopSmootherFactory coarseMgr v)) s (fun o _ _ => o = .ok ()) := by
    intro v
    have hrun := BuildSmoother_run P coarseMgr v level s
    rw [hSm coarseMgr v level s.heap] at hrun
    apply Post.bind_of_eq hrun
    apply Post.of_eq (Release_run _ _ _)
    rfl
  unfold SetupSmoother
  split
  · exact step "Smoother"
  · split
    · exact step "CoarseSolver"
    · rfl

theorem SetupFinish_returns (P : Producers)
    (hSm : ∀ mg v l heap, (P.BuildSmoother mg v l heap).1 = none)
    (coarseMgr : Manager) (level : LevelPtr) (next : Option (Manager × LevelPtr))
    (s : HState)
    (h : ∀ id, ((s.heap level).store ⟨"A", none⟩).value ≠ some (.smoother id)) :
    Post (SetupFinish P coarseMgr level next) s (fun o _ _ => ∃ b, o = .ok b) := by
  unfold SetupFinish
  obtain ⟨Ac, hAc⟩ := fetchAc_returns h
  apply Post.bind_of_eq hAc
  have htr := SetupTruncate_trace coarseMgr next Ac s
  apply Post.bind_of_eq (Res.eq_of htr.1 rfl htr.2)
  apply Post.bind_of_eq (Res.eq_of (SetupSmoother_returns P hSm coarseMgr level _ Ac _) rfl rfl)
  apply Post.of_pure
  exact ⟨_, rfl⟩

theorem SetupRequestsFinest_state (fine : Option Manager) (coarseMgr : Manager)
    (level : LevelPtr) (s : HState) :
    Post (SetupRequestsFinest fine coarseMgr level) s (fun o s1 _ =>
      o = .ok () ∧ s1.Levels_ = s.Levels_ ∧ s1.nextFree = s.nextFree ∧
      ∀ q name, SamePlain q name s s1) := by
  cases fine with
  | none =>
    have h := SetupRequestsFinest_run coarseMgr level s
    exact ⟨h.1, h.2.1, h.2.2.1, h.2.2.2.2.2.1⟩
  | some fm => exact ⟨rfl, rfl, rfl, fun q name => SamePlain.refl q name s⟩

theorem SetupRequestsNext_state (i : Nat) (coarseMgr : Manager) (next : Option Manager)
    (s : HState) (hlen : s.Levels_.length = i + 1) (p : LevelPtr) (hp : p < s.nextFree) :
    Post (SetupRequestsNext (i : Int) coarseMgr next) s (fun o s1 _ =>
      o = .ok (next.map (fun nm => (nm, s.nextFree))) ∧
      s1.Levels_ = s.Levels_ ++ (next.map (fun _ => s.nextFree)).toList ∧
      ∀ name, SamePlain p name s s1) := by
  cases next with
  | none => exact ⟨rfl, (List.append_nil _).symm, fun name => SamePlain.refl p name s⟩
  | some nm =>
    have hne : s.Levels_ ≠ [] := by
      intro h
      rw [h] at hlen
      simp at hlen
    have hlast : (i : Int) = LastLevelID s := by simp [LastLevelID, hlen]
    rw [hlast]
    apply Post.mono (SetupRequestsNext_grows coarseMgr nm s hne)
    rintro o s1 t ⟨ho, hL, _, hS, _⟩
    exact ⟨ho, hL, fun name => hS p name (Nat.ne_of_lt hp)⟩

/-- The first part of a per-level `Setup` call on the last level of a well-formed chain
returns when the RAP producer does; the next level, when a next manager is given, is a
new level appended to the chain; under "A" of the current level there is no smoother. -/
theorem SetupThroughRAP_returns (P : Producers)
    (hRAP : ∀ f c fl cl heap, (P.BuildRAP f c fl cl heap).1 = none ∧
      ∀ id, ((P.BuildRAP f c fl cl heap).2 cl ⟨"A", none⟩).value ≠ some (.smoother id))
    (m : Manager) (i : Nat) (fine next : Option Manager) (s : HState)
    (hI : Inv s) (hlen : s.Levels_.length = i + 1)
    (hfine : fine = none → ∀ p, s.Levels_[i]? = some p →
      ∀ id, ((s.heap p).store ⟨"A", none⟩).value ≠ some (.smoother id))
    (hpos : fine ≠ none → 1 ≤ i) :
    Post (SetupThroughRAP P (i : Int) fine (some m) next) s (fun o s1 _ =>
      ∃ p, s.Levels_[i]? = some p ∧
        o = .ok (m, p, next.map (fun nm => (nm, s.nextFree))) ∧
        s1.Levels_ = s.Levels_ ++ (next.map (fun _ => s.nextFree)).toList ∧
        ∀ id, ((s1.heap p).store ⟨"A", none⟩).value ≠ some (.smoother id)) := by
  unfold SetupThroughRAP
  obtain ⟨p, hp, hinit⟩ := setupInitOutcome_wellFormed hI.1 hlen fine m hpos
  have hrun := SetupInit_run (i : Int) fine (some m) next s
  rw [hinit] at hrun
  apply Post.bind_of_eq hrun
  have hpal : p < s.nextFree := hI.2 p (List.getElem?_mem hp)
  apply Post.bind (fun o s1 _ => (o = .ok () ∧ s1.Levels_ = s.Levels_ ∧
      s1.nextFree = s.nextFree ∧ ∀ q name, SamePlain q name s s1) ∧ Inv s1)
    ⟨SetupRequestsFinest_state fine m p s,
      (Preserves.SetupRequestsFinest_keeps HeapStable.inv_stable fine m p).run s hI⟩
  · rintro _ s1 _ ⟨⟨_, hL1, hF1, hS1⟩, hI1⟩
    apply Post.bind (fun o s2 _ => (o = .ok (next.map (fun nm => (nm, s1.nextFree))) ∧
        s2.Levels_ = s1.Levels_ ++ (next.map (fun _ => s1.nextFree)).toList ∧
        ∀ name, SamePlain p name s1 s2) ∧ Inv s2)
      ⟨SetupRequestsNext_state i m next s1 (by rw [hL1]; exact hlen) p (by rw [hF1]; exact hpal),
        (Preserves.SetupRequestsNext_keeps HeapStable.inv_stable Preserves.AddNewLevel_keeps
          (i : Int) m next).run s1 hI1⟩
    · rintro nx s2 _ ⟨⟨hnx, hL2, hS2⟩, hI2⟩
      simp only [Except.ok.injEq] at hnx
      subst hnx
      rw [hL1, hF1] at hL2
      have hp2 : s2.Levels_[i]? = some p := by
        rw [hL2, List.getElem?_append_left (by omega), hp]
      cases fine with
      | none =>
        apply Post.bind_pure
        apply Post.of_pure
        refine ⟨p, hp, by rw [hF1], hL2, ?_⟩
        intro id
        have h12 := hS2 "A"
        have h01 := hS1 p "A"
        unfold SamePlain at h12 h01
        rw [h12, h01]
        exact hfine rfl p hp id
      | some fm =>
        have h1 : 1 ≤ i := hpos (by simp)
        obtain ⟨_, hprev⟩ := hI2.1 i p hp2
        have hprev1 := hprev (by omega)
        have hlt : i - 1 < s2.Levels_.length := by
          have hi2 : i < s2.Levels_.length := by
            rcases Nat.lt_or_ge i s2.Levels_.length with hlt | hge
            · exact hlt
            · rw [List.getElem?_eq_none hge] at hp2
              exact absurd hp2 (by simp)
          omega
        rw [List.getElem?_eq_getElem hlt] at hprev1
        unfold SetupBuildRAP
        simp only []
        apply Post.bind
          (fun o s3 _ => o = .ok () ∧ s3.Levels_ = s2.Levels_ ∧
            ∀ id, ((s3.heap p).store ⟨"A", none⟩).value ≠ some (.smoother id))
        · apply Post.bind_deref
          rw [hprev1]
          simp only []
          have hb := BuildRAP_run P fm m (s2.Levels_[i - 1]) p s2
          rw [(hRAP fm m _ p s2.heap).1] at hb
          apply Post.bind_of_eq hb
          apply Post.of_eq (Release_run _ _ _)
          refine ⟨rfl, rfl, ?_⟩
          intro id
          simp only [setHeap_heap, Function.update_same, Level.Release_store_plain]
          exact (hRAP fm m _ p s2.heap).2 id
        · rintro _ s3 _ ⟨_, hL3, h3⟩
          apply Post.of_pure
          exact ⟨p, hp, by rw [hF1], by rw [hL3, hL2], h3⟩
        · rintro e s3 _ ⟨hbad, _⟩
          exact absurd hbad (by simp)
    · rintro e s2 _ ⟨⟨hbad, _⟩, _⟩
      exact absurd hbad (by simp)
  · rintro e s1 _ ⟨⟨hbad, _⟩, _⟩
    exact absurd hbad (by simp)

/-- A per-level `Setup` call on the last level of a well-formed chain returns when the
producers do. -/
theorem Setup_returns (P : Producers)
    (hRAP : ∀ f c fl cl heap, (P.BuildRAP f c fl cl heap).1 = none ∧
      ∀ id, ((P.BuildRAP f c fl cl heap).2 cl ⟨"A", none⟩).value ≠ some (.smoother id))
    (hSm : ∀ mg v l heap, (P.BuildSmoother mg v l heap).1 = none)
    (m : Manager) (i : Nat) (fine next : Option Manager) (s : HState)
    (hI : Inv s) (hlen : s.Levels_.length = i + 1)
    (hfine : fine = none → ∀ p, s.Levels_[i]? = some p →
      ∀ id, ((s.heap p).store ⟨"A", none⟩).value ≠ some (.smoother id))
    (hpos : fine ≠ none → 1 ≤ i) :
    ∃ b, (Setup P (i : Int) fine (some m) next s).out = .ok b := by
  have key : Post (Setup P (i : Int) fine (some m) next) s (fun o _ _ => ∃ b, o = .ok b) := by
    unfold Setup
    apply Post.bind _ (SetupThroughRAP_returns P hRAP m i fine next s hI hlen hfine hpos)
    · rintro r s1 _ ⟨p, _, hr, _, hA⟩
      simp only [Except.ok.injEq] at hr
      subst hr
      apply Post.bind _ (SetupFinish_returns P hSm m p _ s1 hA)
      · rintro b s2 _ _
        apply Post.bind_emit
        apply Post.of_pure
        exact ⟨b, rfl⟩
      · rintro e s2 _ ⟨b, hbad⟩
        exact absurd hbad (by simp)
    · rintro e s1 _ ⟨p, _, hbad, _⟩
      exact absurd hbad (by simp)
  exact key.elim

end returns

section oneLevelStart

/-- One call of the loop of the outer `Setup` on the last level `i` of a well-formed
chain: it returns, and the chain ends at level `i` when it reports the last level, at
level `i + 1` otherwise. -/
theorem Setup_step (P : Producers)
    (hRAP : ∀ f c fl cl heap, (P.BuildRAP f c fl cl heap).1 = none ∧
      ∀ id, ((P.BuildRAP f c fl cl heap).2 cl ⟨"A", none⟩).value ≠ some (.smoother id))
    (hSm : ∀ mg v l heap, (P.BuildSmoother mg v l heap).1 = none)
    (m : Manager) (i : Nat) (fine : Option Manager) (s : HState)
    (hI : Inv s) (hlen : s.Levels_.length = i + 1)
    (hfine : fine = none → ∀ p, s.Levels_[i]? = some p →
      ∀ id, ((s.heap p).store ⟨"A", none⟩).value ≠ some (.smoother id))
    (hpos : fine ≠ none → 1 ≤ i) :
    ∃ b, (Setup P (i : Int) fine (some m) (some m) s).out = .ok b ∧
      Inv (Setup P (i : Int) fine (some m) (some m) s).st ∧
      (Setup P (i : Int) fine (some m) (some m) s).st.Levels_.length =
        if b = true then i + 1 else i + 2 := by
  obtain ⟨b, hb⟩ := Setup_returns P hRAP hSm m i fine (some m) s hI hlen hfine hpos
  refine ⟨b, hb, (Preserves.inv_Setup P _ _ _ _).run s hI, ?_⟩
  have h := (Setup_length P (i : Int) fine (some m) (some m) s).elim b hb
  rw [h, hlen]
  have hlast : (i : Int) + 1 > LastLevelID s := by simp [LastLevelID, hlen]
  cases b <;> simp [hlast]

theorem SetupLoop_returns (P : Producers)
    (hRAP : ∀ f c fl cl heap, (P.BuildRAP f c fl cl heap).1 = none ∧
      ∀ id, ((P.BuildRAP f c fl cl heap).2 cl ⟨"A", none⟩).value ≠ some (.smoother id))
    (hSm : ∀ mg v l heap, (P.BuildSmoother mg v l heap).1 = none)
    (m : Manager) :
    ∀ (n i : Nat) (s : HState), Inv s → s.Levels_.length = i + 1 → 1 ≤ i →
      Post (SetupLoop P m n (i : Int)) s (fun o s1 _ =>
        (o = .ok (false, (i : Int) + (n : Int)) ∧ Inv s1 ∧ s1.Levels_.length = i + n + 1) ∨
        (∃ k : Nat, k < n ∧ o = .ok (true, (i : Int) + (k : Int)) ∧
          s1.Levels_.length = i + k + 1)) := by
  intro n
  induction n with
  | zero =>
    intro i s hI hlen _
    left
    exact ⟨by simp [SetupLoop, pure_eq, Act.pure], hI, hlen⟩
  | succ n ih =>
    intro i s hI hlen hi
    obtain ⟨b, hb, hI1, hlen1⟩ := Setup_step P hRAP hSm m i (some m) s hI hlen
      (fun h => absurd h (by simp)) (fun _ => hi)
    simp only [SetupLoop]
    apply Post.bind_of_eq (Res.eq_of hb rfl rfl)
    cases b with
    | true =>
      simp only [if_true]
      apply Post.of_pure
      right
      exact ⟨0, Nat.succ_pos n, by simp, by simpa using hlen1⟩
    | false =>
      simp only [Bool.false_eq_true, if_false]
      have hcast : (i : Int) + 1 = ((i + 1 : Nat) : Int) := by push_cast; rfl
      rw [hcast]
      apply Post.mono (ih (i + 1) _ hI1 (by simpa using hlen1) (by omega))
      rintro o s2 _ (⟨ho, hI2, hl2⟩ | ⟨k, hk, ho, hl2⟩)
      · left
        refine ⟨?_, hI2, ?_⟩
        · rw [ho]
          push_cast
          congr 2
          ring
        · omega
      · right
        refine ⟨k + 1, by omega, ?_, by omega⟩
        rw [ho]
        push_cast
        congr 2
        ring

/-- The per-level calls of the outer `Setup` on a one-level hierarchy all return, and
the chain is left with `iLevel + 1` levels. -/
theorem SetupCalls_returns (P : Producers)
    (hRAP : ∀ f c fl cl heap, (P.BuildRAP f c fl cl heap).1 = none ∧
      ∀ id, ((P.BuildRAP f c fl cl heap).2 cl ⟨"A", none⟩).value ≠ some (.smoother id))
    (hSm : ∀ mg v l heap, (P.BuildSmoother mg v l heap).1 = none)
    (m : Manager) (lastLevel : Int) (hlast : 1 ≤ lastLevel)
    (s : HState) (hI : Inv s) (hlen : s.Levels_.length = 1)
    (hA : ∀ p, s.Levels_[0]? = some p →
      ∀ id, ((s.heap p).store ⟨"A", none⟩).value ≠ some (.smoother id)) :
    Post (SetupCalls P m 0 lastLevel) s (fun o s1 _ =>
      ∃ iLevel : Int, o = .ok iLevel ∧ (s1.Levels_.length : Int) = iLevel + 1) := by
  obtain ⟨b, hb, hI1, hlen1⟩ := Setup_step P hRAP hSm m 0 none s hI hlen
    (fun _ => hA) (fun h => absurd rfl h)
  simp only [Nat.cast_zero] at hb hI1 hlen1
  unfold SetupCalls
  apply Post.bind_of_eq (Res.eq_of hb rfl rfl)
  cases b with
  | true =>
    simp only [Bool.true_eq_false, if_false]
    apply Post.of_pure
    refine ⟨0, rfl, ?_⟩
    simp only [if_true] at hlen1
    rw [hlen1]
    rfl
  | false =>
    simp only [if_true]
    simp only [Bool.false_eq_true, if_false] at hlen1
    have hcast : (0 : Int) + 1 = ((1 : Nat) : Int) := rfl
    rw [hcast]
    apply Post.bind _ (SetupLoop_returns P hRAP hSm m (lastLevel - ((1 : Nat) : Int)).toNat 1 _
      hI1 hlen1 (le_refl _))
    · rintro bi s2 _ (⟨ho, hI2, hl2⟩ | ⟨k, hk, ho, hl2⟩)
      · simp only [Except.ok.injEq] at ho
        subst ho
        simp only [if_true]
        have hL : lastLevel =
            ((1 + (lastLevel - ((1 : Nat) : Int)).toNat : Nat) : Int) := by
          push_cast
          omega
        obtain ⟨b2, hb2⟩ := Setup_returns P hRAP hSm m
          (1 + (lastLevel - ((1 : Nat) : Int)).toNat) (some m) none s2 hI2 hl2
          (fun h => absurd h (by simp)) (fun _ => by omega)
        rw [← hL] at hb2
        have hlen3 := (Setup_length P lastLevel (some m) (some m) none s2).elim b2 hb2
        apply Post.bind_of_eq (Res.eq_of hb2 rfl rfl)
        apply Post.of_pure
        refine ⟨_, rfl, ?_⟩
        rw [hlen3, hl2]
        simp only [Option.isSome_none, Bool.false_eq_true, false_and, and_false, if_false,
          Nat.add_zero, Nat.sub_zero]
        push_cast
        ring
      · simp only [Except.ok.injEq] at ho
        subst ho
        simp only [Bool.true_eq_false, if_false]
        apply Post.of_pure
        refine ⟨_, rfl, ?_⟩
        rw [hl2]
        push_cast
        ring
    · rintro e s2 _ (⟨hbad, _⟩ | ⟨k, _, hbad, _⟩)
      · exact absurd hbad (by simp)
      · exact absurd hbad (by simp)

end oneLevelStart

section lengthCheck

theorem SetupCalls_first_last (P : Producers) (m : Manager) (startLevel lastLevel : Int)
    (s : HState) (h : (Setup P startLevel none (some m) (some m) s).out = .ok true) :
    SetupCalls P m startLevel lastLevel s =
      ⟨.ok 0, (Setup P startLevel none (some m) (some m) s).st,
        (Setup P startLevel none (some m) (some m) s).tr⟩ := by
  have key : Post (SetupCalls P m startLevel lastLevel) s (fun o s1 t =>
      o = .ok 0 ∧ s1 = (Setup P startLevel none (some m) (some m) s).st ∧
      t = (Setup P startLevel none (some m) (some m) s).tr) := by
    unfold SetupCalls
    apply Post.bind_of_eq (Res.eq_of h rfl rfl)
    simp only [Bool.true_eq_false, if_false]
    apply Post.of_pure
    exact ⟨rfl, rfl, List.append_nil _⟩
  exact Res.eq_of key.elim.1 key.elim.2.1 key.elim.2.2

/-- C28: on a hierarchy that on entry is a well-formed chain of exactly one allocated
level holding a non-null "A", the outer `Setup` with `startLevel = 0` and
`numDesiredLevels = N >= 2` returns normally whenever the producers return normally (the
RAP producer leaving no smoother handle under "A" of the coarse level): the per-level
calls on the levels `0 .. k-1` return false, the call on level `k <= N-1` returns true, and
the chain is left with exactly `k + 1` levels, so the check of the chain length against
`iLevel + 1` passes.  In contrast, with `startLevel = s0 > 0` on a chain of `s0 + 1` levels
whose level `s0` holds "A", when the first per-level call reports the last level the chain
has again `s0 + 1` levels, the check compares it with `0 + 1`, and the outer `Setup`
raises "number of level". -/
theorem SetupLevels_chain_length (P : Producers)
    (hRAP : ∀ f c fl cl heap, (P.BuildRAP f c fl cl heap).1 = none ∧
      ∀ id, ((P.BuildRAP f c fl cl heap).2 cl ⟨"A", none⟩).value ≠ some (.smoother id))
    (hSm : ∀ mg v l heap, (P.BuildSmoother mg v l heap).1 = none)
    (m : Manager) (N : Int) (s : HState) (p : LevelPtr) (A : Matrix)
    (hN : 2 ≤ N) (hch : s.Levels_ = [p]) (hI : Inv s)
    (hA : ((s.heap p).store ⟨"A", none⟩).value = some (.matrix (some A))) :
    ((SetupLevels P m 0 N s).out = .ok () ∧
      ∃ k : Nat, (k : Int) ≤ N - 1 ∧
        returnsOf (SetupLevels P m 0 N s).tr = falseReturns 0 k ++ [((k : Int), true)] ∧
        (SetupLevels P m 0 N s).st.Levels_.length = k + 1) ∧
    ∀ (s0 : Int) (t : HState) (q : LevelPtr), 0 < s0 → (t.Levels_.length : Int) = s0 + 1 →
      t.Levels_[s0.toNat]? = some q → (t.heap q).IsAvailable "A" = true →
      (Setup P s0 none (some m) (some m) t).out = .ok true →
      (SetupLevels P m s0 N t).out =
        .error (.RuntimeError "MueLu::Hierarchy::Setup(): number of level") ∧
      ((SetupLevels P m s0 N t).st.Levels_.length : Int) = s0 + 1 ∧
      returnsOf (SetupLevels P m s0 N t).tr = [(s0, true)] := by
  constructor
  · have hp : s.Levels_[(0 : Int).toNat]? = some p := by simp [hch]
    have hAv : (s.heap p).IsAvailable "A" = true := by simp [Level.IsAvailable, hA]
    have hA0 : ∀ p1, s.Levels_[0]? = some p1 →
        ∀ id, ((s.heap p1).store ⟨"A", none⟩).value ≠ some (.smoother id) := by
      intro p1 hp1 id
      rw [hch] at hp1
      simp only [List.getElem?_cons_zero, Option.some.injEq] at hp1
      subst hp1
      rw [hA]
      simp
    rw [SetupLevels_run P m 0 N s p hN (le_refl _) hp hAv]
    obtain ⟨iLevel, ho, hl⟩ := (SetupCalls_returns P hRAP hSm m (0 + N - 1) (by omega) s hI
      (by simp [hch]) hA0).elim
    obtain ⟨k, hk, _, hcase⟩ := (SetupCalls_spec P m 0 (0 + N - 1) (by omega) s).elim
    rcases hcase with ⟨i, hoi, hik, hret⟩ | ⟨⟨e, he⟩, _⟩
    · rw [ho] at hoi
      simp only [Except.ok.injEq] at hoi
      have hki : iLevel = (k : Int) := by
        rcases hik with ⟨h1, h2⟩ | ⟨_, h2⟩
        · rw [hoi, h2, h1]
          rfl
        · rw [hoi, h2]
          simp
      simp only [ho]
      rw [if_neg (not_not.mpr hl)]
      refine ⟨rfl, k, by omega, ?_, by omega⟩
      rw [hret]
      simp
    · rw [ho] at he
      exact absurd he (by simp)
  · intro s0 t q h0 hlen hq hAv hcall
    rw [SetupLevels_run P m s0 N t q hN (le_of_lt h0) hq hAv,
      SetupCalls_first_last P m s0 (s0 + N - 1) t hcall]
    have hl := (Setup_length P s0 none (some m) (some m) t).elim true hcall
    have hlast : s0 + 1 > LastLevelID t := by
      simp only [LastLevelID]
      omega
    simp only [Option.isSome_some, hlast, and_self, if_true, Nat.add_sub_cancel] at hl
    have hm := (Setup_marks P s0 none (some m) (some m) t).elim
    rw [hcall] at hm
    refine ⟨?_, by rw [hl]; exact hlen, hm.2⟩
    simp only []
    rw [if_pos]
    rw [hl, hlen]
    omega

/-- Witness for C28: three desired levels on the one-level hierarchy over a 1000-row
operator, and the outer `Setup` from level 1 of a two-level hierarchy whose level 1 holds
a 10-row operator. -/
theorem SetupLevels_chain_length_witness :
    ((2 : Int) ≤ 3 ∧ bigHierarchy.Levels_ = [0] ∧
      ((bigHierarchy.heap 0).store ⟨"A", none⟩).value = some (.matrix (some bigMatrix))) ∧
    ((SetupLevels coarsening 7 0 3 bigHierarchy).out = .ok () ∧
      ∃ k : Nat, (k : Int) ≤ 3 - 1 ∧
        returnsOf (SetupLevels coarsening 7 0 3 bigHierarchy).tr =
          falseReturns 0 k ++ [((k : Int), true)] ∧
        (SetupLevels coarsening 7 0 3 bigHierarchy).st.Levels_.length = k + 1) ∧
    (SetupLevels coarsening 7 1 3 twoLevelHierarchy).out =
      .error (.RuntimeError "MueLu::Hierarchy::Setup(): number of level") :=
  have h := SetupLevels_chain_length coarsening
    (fun _ _ _ cl heap => ⟨rfl, fun id => by simp [coarsening, Level.Set]⟩)
    (fun _ _ _ _ => rfl) 7 3 bigHierarchy 0 bigMatrix (by decide) (by decide!)
    (show Reachable coarsening bigHierarchy from
      Reachable.constructA emptyHeap 0 (some bigMatrix)).inv (by decide!)
  ⟨⟨by decide, by decide!, by decide!⟩, h.1,
    (h.2 1 twoLevelHierarchy 1 (by decide) (by decide!) (by decide!) (by decide!)
      (by decide!)).1⟩

end lengthCheck

section counts

theorem setupTrace_smootherRequests (id : Int) (fine coarse next : Option Manager)
    (cm : Manager) (p : LevelPtr) (nx : Option (Manager × LevelPtr)) (b : Bool)
    (Ac : Option Matrix) (q : LevelPtr) :
    smootherRequests q (setupTrace id fine coarse next cm p nx b Ac) =
      (if p = q ∧ fine = none then 2 else 0) +
      (match nx with
       | some (_, nl) => if nl = q then 2 else 0
       | none => 0) := by
  rcases nx with _ | ⟨nm, nl⟩ <;> cases fine <;> cases b <;> cases Ac <;>
    by_cases hp : p = q <;>
    simp [smootherRequests, Event.isSmootherRequestOn, setupTrace, finestRequests, nextRequests,
      rapEvents, truncateEvents, smootherEvents, List.countP_cons, hp] <;>
    (split_ifs <;> omega)

theorem setupTrace_smootherReleases (id : Int) (fine coarse next : Option Manager)
    (cm : Manager) (p : LevelPtr) (nx : Option (Manager × LevelPtr)) (b : Bool)
    (Ac : Option Matrix) (q : LevelPtr) :
    smootherReleases q (setupTrace id fine coarse next cm p nx b Ac) =
      (if p = q ∧ (b = false ∨ Ac.isSome = true) then 1 else 0) +
      (match nx with
       | some (_, nl) => if nl = q ∧ b = true then 2 else 0
       | none => 0) := by
  rcases nx with _ | ⟨nm, nl⟩ <;> cases fine <;> cases b <;> cases Ac <;>
    by_cases hp : p = q <;>
    simp [smootherReleases, Event.isSmootherReleaseOn, setupTrace, finestRequests, nextRequests,
      rapEvents, truncateEvents, smootherEvents, List.countP_cons, hp] <;>
    (split_ifs <;> omega)

theorem setupTrace_levels (id : Int) (fine coarse next : Option Manager)
    (cm : Manager) (p : LevelPtr) (nx : Option (Manager × LevelPtr)) (b : Bool)
    (Ac : Option Matrix) :
    ∀ e ∈ setupTrace id fine coarse next cm p nx b Ac, ∀ l, e.level? = some l →
      l = p ∨ ∃ nm, nx = some (nm, l) := by
  intro e he l hl
  rcases nx with _ | ⟨nm, nl⟩ <;> cases fine <;> cases b <;> cases Ac <;>
    simp [setupTrace, finestRequests, nextRequests, rapEvents, truncateEvents,
      smootherEvents] at he <;>
    (repeat' (rcases he with he | he)) <;>
    (simp [Event.level?] at hl; try simp [hl])

end counts

section outstanding

theorem SetupTruncate_levels (coarseMgr : Manager) (next : Option (Manager × LevelPtr))
    (Ac : Option Matrix) (s : HState) :
    Post (SetupTruncate coarseMgr next Ac) s (fun o s1 _ =>
      ∀ b, o = .ok b → s1.Levels_ =
        if b = true ∧ next.isSome = true then s.Levels_.dropLast else s.Levels_) := by
  unfold SetupTruncate
  apply Post.bind_getState
  split
  · cases next with
    | none =>
      apply Post.of_pure
      intro b _
      simp
    | some nx =>
      simp only []
      have hJ := HeapStable.of_chain (fun (ch : List LevelPtr) => ch = s.Levels_)
      apply Post.bind_preserves (Preserves.Release_keeps hJ _ _) rfl
      · intro _ s1 _ h1
        apply Post.bind_preserves (Preserves.Release_keeps hJ _ _) h1
        · intro _ s2 _ h2
          apply Post.bind_preserves (Preserves.Release_keeps hJ _ _) h2
          · intro _ s3 _ h3
            apply Post.bind_popBack
            apply Post.of_pure
            intro b hb
            simp only [Except.ok.injEq] at hb
            subst hb
            show s3.Levels_.dropLast = _
            rw [h3]
            simp
          · intro e s3 _ _ b hb
            exact absurd hb (by simp)
        · intro e s2 _ _ b hb
          exact absurd hb (by simp)
      · intro e s1 _ _ b hb
        exact absurd hb (by simp)
  · apply Post.of_pure
    intro b hb
    simp only [Except.ok.injEq] at hb
    subst hb
    cases next <;> simp

theorem SetupFinish_levels (P : Producers) (coarseMgr : Manager) (level : LevelPtr)
    (next : Option (Manager × LevelPtr)) (s : HState) :
    Post (SetupFinish P coarseMgr level next) s (fun o s1 _ =>
      ∀ b, o = .ok b → s1.Levels_ =
        if b = true ∧ next.isSome = true then s.Levels_.dropLast else s.Levels_) := by
  unfold SetupFinish
  apply Post.bind_preserves (I := fun s1 => s1 = s) (Unchanged.fetchAc_unchanged level).preserves rfl
  · intro Ac s1 _ h1
    subst h1
    apply Post.bind _ (SetupTruncate_levels coarseMgr next Ac s1)
    · intro b1 s2 _ h2
      have hJ := HeapStable.of_chain (fun (ch : List LevelPtr) => ch = s2.Levels_)
      apply Post.bind_preserves (Preserves.SetupSmoother_keeps hJ P coarseMgr level b1 Ac) rfl
      · intro _ s3 _ h3
        apply Post.of_pure
        intro b hb
        simp only [Except.ok.injEq] at hb
        subst hb
        rw [h3]
        exact h2 b1 rfl
      · intro e s3 _ _ b hb
        exact absurd hb (by simp)
    · intro e s2 _ _ b hb
      exact absurd hb (by simp)
  · intro e s1 _ _ b hb
    exact absurd hb (by simp)

theorem Setup_levels {P : Producers} {coarseLevelID : Int} {fine coarse next : Option Manager}
    {s : HState} {b : Bool} {r : Manager × LevelPtr × Option (Manager × LevelPtr)}
    (h : (Setup P coarseLevelID fine coarse next s).out = .ok b)
    (hr : (SetupThroughRAP P coarseLevelID fine coarse next s).out = .ok r) :
    (Setup P coarseLevelID fine coarse next s).st.Levels_ =
      if b = true ∧ r.2.2.isSome = true then
        (SetupThroughRAP P coarseLevelID fine coarse next s).st.Levels_.dropLast
      else (SetupThroughRAP P coarseLevelID fine coarse next s).st.Levels_ := by
  have key : Post (Setup P coarseLevelID fine coarse next) s (fun o s2 _ =>
      ∀ b, o = .ok b → s2.Levels_ =
        if b = true ∧ r.2.2.isSome = true then
          (SetupThroughRAP P coarseLevelID fine coarse next s).st.Levels_.dropLast
        else (SetupThroughRAP P coarseLevelID fine coarse next s).st.Levels_) := by
    unfold Setup
    apply Post.bind_of_eq (Res.eq_of hr rfl rfl)
    apply Post.bind _ (SetupFinish_levels P r.1 r.2.1 r.2.2 _)
    · intro b1 s2 _ h2
      apply Post.bind_emit
      apply Post.of_pure
      intro b hb
      simp only [Except.ok.injEq] at hb
      subst hb
      exact h2 b1 rfl
    · intro e s2 _ _ b hb
      exact absurd hb (by simp)
  exact key.elim b h

/-- A per-level `Setup` call on the last level `i` of a well-formed chain, in full:
outcome, trace and chain.  The next level is the new level `s.nextFree`. -/
theorem Setup_step_trace (P : Producers)
    (hRAP : ∀ f c fl cl heap, (P.BuildRAP f c fl cl heap).1 = none ∧
      ∀ id, ((P.BuildRAP f c fl cl heap).2 cl ⟨"A", none⟩).value ≠ some (.smoother id))
    (hSm : ∀ mg v l heap, (P.BuildSmoother mg v l heap).1 = none)
    (m : Manager) (i : Nat) (fine next : Option Manager) (s : HState)
    (hI : Inv s) (hlen : s.Levels_.length = i + 1)
    (hfine : fine = none → ∀ p, s.Levels_[i]? = some p →
      ∀ id, ((s.heap p).store ⟨"A", none⟩).value ≠ some (.smoother id))
    (hpos : fine ≠ none → 1 ≤ i) :
    ∃ (b : Bool) (p : LevelPtr) (Ac : Option Matrix),
      (Setup P (i : Int) fine (some m) next s).out = .ok b ∧
      s.Levels_.getLast? = some p ∧ (next = none → b = true) ∧
      (Setup P (i : Int) fine (some m) next s).tr =
        setupTrace (i : Int) fine (some m) next m p (next.map (fun nm => (nm, s.nextFree)))
          b Ac ∧
      (Setup P (i : Int) fine (some m) next s).st.Levels_ =
        (if b = true then s.Levels_
         else s.Levels_ ++ (next.map (fun _ => s.nextFree)).toList) := by
  obtain ⟨b, hb⟩ := Setup_returns P hRAP hSm m i fine next s hI hlen hfine hpos
  obtain ⟨cm, p1, nx, Ac, hthr, _, hbv, htr⟩ := Setup_trace hb
  obtain ⟨p, hp, hout, hL, _⟩ :=
    (SetupThroughRAP_returns P hRAP m i fine next s hI hlen hfine hpos).elim
  rw [hthr] at hout
  simp only [Except.ok.injEq, Prod.mk.injEq] at hout
  obtain ⟨h1, h2, h3⟩ := hout
  subst h1 h2 h3
  have hlast : s.Levels_.getLast? = some p1 := by
    rw [List.getLast?_eq_getElem?, hlen]
    exact hp
  have hlev := Setup_levels hb hthr
  rw [hL] at hlev
  refine ⟨b, p1, Ac, hb, hlast, ?_, htr, ?_⟩
  · intro hn
    subst hn
    rw [hbv]
    simp
  · rw [hlev]
    cases next with
    | none =>
      simp
    | some nm =>
      cases b <;> simp



theorem smootherRequests_append (q : LevelPtr) (t1 t2 : List Event) :
    smootherRequests q (t1 ++ t2) = smootherRequests q t1 + smootherRequests q t2 :=
  List.countP_append _ _ _

theorem smootherReleases_append (q : LevelPtr) (t1 t2 : List Event) :
    smootherReleases q (t1 ++ t2) = smootherReleases q t1 + smootherReleases q t2 :=
  List.countP_append _ _ _

theorem smootherRequests_off {chain : List LevelPtr} {tr : List Event} (h : OnChain chain tr)
    {q : LevelPtr} (hq : q ∉ chain) : smootherRequests q tr = 0 := by
  unfold smootherRequests
  rw [List.countP_eq_zero]
  intro e he hreq
  cases e with
  | request l f =>
    cases f with
    | TopSmootherFactory mg v =>
      simp only [Event.isSmootherRequestOn, decide_eq_true_eq] at hreq
      subst hreq
      exact hq (h _ he l rfl)
    | TopRAPFactory f c => simp [Event.isSmootherRequestOn] at hreq
  | _ => simp [Event.isSmootherRequestOn] at hreq

theorem smootherReleases_off {chain : List LevelPtr} {tr : List Event} (h : OnChain chain tr)
    {q : LevelPtr} (hq : q ∉ chain) : smootherReleases q tr = 0 := by
  unfold smootherReleases
  rw [List.countP_eq_zero]
  intro e he hrel
  cases e with
  | release l f =>
    cases f with
    | TopSmootherFactory mg v =>
      simp only [Event.isSmootherReleaseOn, decide_eq_true_eq] at hrel
      subst hrel
      exact hq (h _ he l rfl)
    | TopRAPFactory f c => simp [Event.isSmootherReleaseOn] at hrel
  | _ => simp [Event.isSmootherReleaseOn] at hrel

/-- A per-level call that returns false hands the chain over to the next call: the new
last level holds two outstanding smoother requests, every level before it at least one. -/
theorem Pending.step_false {chain : List LevelPtr} {T0 : List Event} {p nl : LevelPtr}
    (id : Int) (fine coarse next : Option Manager) (cm nm : Manager) (Ac : Option Matrix)
    (hlast : chain.getLast? = some p) (hnl : nl ∉ chain) (hon : OnChain chain T0)
    (hpend : Pending (if fine = none then 0 else 2) chain T0) :
    OnChain (chain ++ [nl])
      (T0 ++ setupTrace id fine coarse next cm p (some (nm, nl)) false Ac) ∧
    Pending 2 (chain ++ [nl])
      (T0 ++ setupTrace id fine coarse next cm p (some (nm, nl)) false Ac) := by
  have hp : p ∈ chain := List.mem_of_mem_getLast? hlast
  constructor
  · intro e he l hl
    rcases List.mem_append.mp he with h0 | h1
    · exact List.mem_append_left _ (hon e h0 l hl)
    · rcases setupTrace_levels _ _ _ _ _ _ _ _ _ e h1 l hl with h | ⟨nm1, h⟩
      · rw [h]
        exact List.mem_append_left _ hp
      · simp only [Option.some.injEq, Prod.mk.injEq] at h
        rw [← h.2]
        simp
  · intro q hq
    rw [smootherRequests_append, smootherReleases_append, setupTrace_smootherRequests,
      setupTrace_smootherReleases, List.getLast?_concat]
    simp only [Option.some.injEq]
    by_cases hqn : nl = q
    · subst hqn
      have hpn : p ≠ nl := fun h => hnl (h ▸ hp)
      rw [smootherRequests_off hon hnl, smootherReleases_off hon hnl]
      simp [hpn]
    · have hqc : q ∈ chain := by
        rcases List.mem_append.mp hq with h | h
        · exact h
        · simp only [List.mem_singleton] at h
          exact absurd h.symm hqn
      have h0 := hpend q hqc
      rw [hlast] at h0
      by_cases hpq : p = q
      · subst hpq
        cases fine <;> simp [hqn] at h0 ⊢ <;> omega
      · have hne : ¬ (some p = some q) := by simpa using hpq
        simp only [hne, if_false] at h0
        simp [hqn, hpq]
        omega

/-- After a per-level call that returns true every level of the chain holds at least one
outstanding smoother request. -/
theorem Pending.step_true {chain : List LevelPtr} {T0 : List Event} {p : LevelPtr}
    (id : Int) (fine coarse next : Option Manager) (cm : Manager)
    (nx : Option (Manager × LevelPtr)) (Ac : Option Matrix)
    (hlast : chain.getLast? = some p) (hnl : ∀ nm nl, nx = some (nm, nl) → nl ∉ chain)
    (hpend : Pending (if fine = none then 0 else 2) chain T0) :
    ∀ q ∈ chain, smootherReleases q (T0 ++ setupTrace id fine coarse next cm p nx true Ac) + 1 ≤
      smootherRequests q (T0 ++ setupTrace id fine coarse next cm p nx true Ac) := by
  intro q hq
  rw [smootherRequests_append, smootherReleases_append, setupTrace_smootherRequests,
    setupTrace_smootherReleases]
  have h0 := hpend q hq
  rw [hlast] at h0
  have hnx : (match nx with
      | some (_, nl) => if nl = q ∧ true = true then 2 else 0
      | none => 0) = 0 := by
    rcases nx with _ | ⟨nm, nl⟩
    · rfl
    · have hne : nl ≠ q := fun h => hnl nm nl rfl (h ▸ hq)
      simp [hne]
  rw [hnx]
  by_cases hpq : p = q
  · subst hpq
    cases fine <;> cases Ac <;> simp at h0 ⊢ <;> omega
  · have hne : ¬ (some p = some q) := by simpa using hpq
    simp only [hne, if_false] at h0
    simp [hpq]
    omega


theorem nextFree_not_mem {s : HState} (hI : Inv s) : s.nextFree ∉ s.Levels_ :=
  fun h => Nat.lt_irrefl _ (hI.2 _ h)

theorem SetupLoop_pending (P : Producers)
    (hRAP : ∀ f c fl cl heap, (P.BuildRAP f c fl cl heap).1 = none ∧
      ∀ id, ((P.BuildRAP f c fl cl heap).2 cl ⟨"A", none⟩).value ≠ some (.smoother id))
    (hSm : ∀ mg v l heap, (P.BuildSmoother mg v l heap).1 = none) (m : Manager) :
    ∀ (n i : Nat) (s : HState) (T0 : List Event), Inv s → s.Levels_.length = i + 1 → 1 ≤ i →
      OnChain s.Levels_ T0 → Pending 2 s.Levels_ T0 →
      Post (SetupLoop P m n (i : Int)) s (fun o s1 t =>
        (o = .ok (false, (i : Int) + (n : Int)) ∧ Inv s1 ∧ s1.Levels_.length = i + n + 1 ∧
          OnChain s1.Levels_ (T0 ++ t) ∧ Pending 2 s1.Levels_ (T0 ++ t)) ∨
        (∃ k : Nat, o = .ok (true, (i : Int) + (k : Int)) ∧
          ∀ q ∈ s1.Levels_,
            smootherReleases q (T0 ++ t) + 1 ≤ smootherRequests q (T0 ++ t))) := by
  intro n
  induction n with
  | zero =>
    intro i s T0 hI hlen _ hon hpend
    left
    refine ⟨by simp [SetupLoop, pure_eq, Act.pure], hI, hlen, ?_, ?_⟩
    · simpa [SetupLoop, pure_eq, Act.pure] using hon
    · simpa [SetupLoop, pure_eq, Act.pure] using hpend
  | succ n ih =>
    intro i s T0 hI hlen hi hon hpend
    obtain ⟨b, p, Ac, hb, hlast, _, htr, hchain⟩ := Setup_step_trace P hRAP hSm m i (some m)
      (some m) s hI hlen (fun h => absurd h (by simp)) (fun _ => hi)
    have hI1 := (Preserves.inv_Setup P (i : Int) (some m) (some m) (some m)).run s hI
    simp only [SetupLoop]
    apply Post.bind_of_eq (Res.eq_of hb rfl htr)
    cases b with
    | true =>
      simp only [if_true]
      apply Post.of_pure
      right
      refine ⟨0, by simp, ?_⟩
      simp only [if_true] at hchain
      rw [hchain, List.append_nil]
      exact Pending.step_true (i : Int) (some m) (some m) (some m) m _ Ac hlast
        (fun nm nl h => by
          simp only [Option.map_some', Option.some.injEq, Prod.mk.injEq] at h
          rw [← h.2]
          exact nextFree_not_mem hI)
        (by simpa using hpend)
    | false =>
      simp only [Bool.false_eq_true, if_false]
      simp only [Bool.false_eq_true, if_false, Option.map_some', Option.toList_some] at hchain
      obtain ⟨hon1, hpend1⟩ := Pending.step_false (i : Int) (some m) (some m) (some m) m m Ac
        hlast (nextFree_not_mem hI) hon (by simpa using hpend)
      have hcast : (i : Int) + 1 = ((i + 1 : Nat) : Int) := by push_cast; rfl
      rw [hcast]
      rw [← hchain] at hon1 hpend1
      apply Post.mono (ih (i + 1) _ _ hI1 (by rw [hchain]; simp [hlen]) (by omega) hon1 hpend1)
      rintro o s2 t2 (⟨ho, hI2, hl2, hon2, hp2⟩ | ⟨k, ho, hq⟩)
      · left
        refine ⟨?_, hI2, by omega, ?_, ?_⟩
        · rw [ho]
          push_cast
          congr 2
          ring
        · rw [← List.append_assoc]
          exact hon2
        · rw [← List.append_assoc]
          exact hp2
      · right
        refine ⟨k + 1, ?_, ?_⟩
        · rw [ho]
          push_cast
          congr 2
          ring
        · rw [← List.append_assoc]
          exact hq

theorem SetupCalls_outstanding (P : Producers)
    (hRAP : ∀ f c fl cl heap, (P.BuildRAP f c fl cl heap).1 = none ∧
      ∀ id, ((P.BuildRAP f c fl cl heap).2 cl ⟨"A", none⟩).value ≠ some (.smoother id))
    (hSm : ∀ mg v l heap, (P.BuildSmoother mg v l heap).1 = none) (m : Manager)
    (lastLevel : Int) (hlast : 1 ≤ lastLevel)
    (s : HState) (hI : Inv s) (hlen : s.Levels_.length = 1)
    (hA : ∀ p, s.Levels_[0]? = some p →
      ∀ id, ((s.heap p).store ⟨"A", none⟩).value ≠ some (.smoother id)) :
    Post (SetupCalls P m 0 lastLevel) s (fun _ s1 t =>
      ∀ q ∈ s1.Levels_, smootherReleases q t + 1 ≤ smootherRequests q t) := by
  obtain ⟨b, p, Ac, hb, hlastp, _, htr, hchain⟩ := Setup_step_trace P hRAP hSm m 0 none
    (some m) s hI hlen (fun _ => hA) (fun h => absurd rfl h)
  have hI1 := (Preserves.inv_Setup P ((0 : Nat) : Int) none (some m) (some m)).run s hI
  simp only [Nat.cast_zero] at hb htr hchain hI1
  have hpend0 : Pending (if (none : Option Manager) = none then 0 else 2) s.Levels_ [] := by
    intro q hq
    obtain ⟨x, hx⟩ := List.length_eq_one.mp hlen
    rw [hx] at hq ⊢
    simp only [List.mem_singleton] at hq
    subst hq
    simp [smootherReleases, smootherRequests]
  unfold SetupCalls
  apply Post.bind_of_eq (Res.eq_of hb rfl htr)
  cases b with
  | true =>
    simp only [Bool.true_eq_false, if_false]
    apply Post.of_pure
    simp only [if_true] at hchain
    rw [hchain, List.append_nil]
    have h := @Pending.step_true _ [] _ (0 : Int) none (some m) (some m) m
      (some (m, s.nextFree)) Ac hlastp
      (fun nm nl h => by
        simp only [Option.some.injEq, Prod.mk.injEq] at h
        rw [← h.2]
        exact nextFree_not_mem hI) hpend0
    simpa using h
  | false =>
    simp only [if_true]
    simp only [Bool.false_eq_true, if_false, Option.map_some', Option.toList_some] at hchain
    obtain ⟨hon1, hpend1⟩ := @Pending.step_false _ [] _ _ (0 : Int) none (some m) (some m) m m
      Ac hlastp (nextFree_not_mem hI) (fun e he => absurd he (List.not_mem_nil e)) hpend0
    rw [← hchain] at hon1 hpend1
    have hcast : (0 : Int) + 1 = ((1 : Nat) : Int) := rfl
    rw [hcast]
    apply Post.bind _ (SetupLoop_pending P hRAP hSm m (lastLevel - ((1 : Nat) : Int)).toNat 1 _
      _ hI1 (by rw [hchain]; simp [hlen]) (le_refl _) hon1 hpend1)
    · rintro bi s2 t2 (⟨ho, hI2, hl2, hon2, hp2⟩ | ⟨k, ho, hq⟩)
      · simp only [Except.ok.injEq] at ho
        subst ho
        simp only [if_true]
        have hL : lastLevel =
            ((1 + (lastLevel - ((1 : Nat) : Int)).toNat : Nat) : Int) := by
          push_cast
          omega
        obtain ⟨b2, p2, Ac2, hb2, hlast2, hb2t, htr2, hchain2⟩ := Setup_step_trace P hRAP hSm m
          (1 + (lastLevel - ((1 : Nat) : Int)).toNat) (some m) none s2 hI2 hl2
          (fun h => absurd h (by simp)) (fun _ => by omega)
        rw [← hL] at hb2 htr2 hchain2
        have hbt := hb2t rfl
        subst hbt
        apply Post.bind_of_eq (Res.eq_of hb2 rfl htr2)
        apply Post.of_pure
        simp only [if_true] at hchain2
        rw [hchain2, List.append_nil]
        have h := Pending.step_true lastLevel (some m) (some m) none m none Ac2 hlast2
          (fun nm nl h => absurd h (by simp)) (by simpa using hp2)
        simpa [List.append_assoc] using h
      · simp only [Except.ok.injEq] at ho
        subst ho
        simp only [Bool.true_eq_false, if_false]
        apply Post.of_pure
        simpa [List.append_assoc] using hq
    · rintro e s2 t2 (⟨hbad, _⟩ | ⟨k, hbad, _⟩)
      · exact absurd hbad (by simp)
      · exact absurd hbad (by simp)

end outstanding

section perCall

theorem setupTrace_eventsOn_current (id : Int) (fine coarse next : Option Manager)
    (cm : Manager) (p : LevelPtr) (nx : Option (Manager × LevelPtr)) (b : Bool)
    (Ac : Option Matrix) (hne : ∀ nm nl, nx = some (nm, nl) → nl ≠ p) :
    eventsOn p (setupTrace id fine coarse next cm p nx b Ac) =
      finestRequests fine cm p ++ (rapEvents fine cm p ++ smootherEvents cm p b Ac) := by
  rcases nx with _ | ⟨nm, nl⟩
  · cases fine <;> cases b <;> cases Ac <;>
      simp [eventsOn, Event.level?, setupTrace, finestRequests, nextRequests, rapEvents,
        truncateEvents, smootherEvents, List.filter_cons]
  · have h := hne nm nl rfl
    cases fine <;> cases b <;> cases Ac <;>
      simp [eventsOn, Event.level?, setupTrace, finestRequests, nextRequests, rapEvents,
        truncateEvents, smootherEvents, List.filter_cons, h]

theorem setupTrace_eventsOn_next (id : Int) (fine coarse next : Option Manager)
    (cm nm : Manager) (p nl : LevelPtr) (b : Bool) (Ac : Option Matrix) (hne : nl ≠ p) :
    eventsOn nl (setupTrace id fine coarse next cm p (some (nm, nl)) b Ac) =
      nextRequests cm (some (nm, nl)) ++ truncateEvents cm (some (nm, nl)) b := by
  have h : p ≠ nl := fun h => hne h.symm
  cases fine <;> cases b <;> cases Ac <;>
    simp [eventsOn, Event.level?, setupTrace, finestRequests, nextRequests, rapEvents,
      truncateEvents, smootherEvents, List.filter_cons, h]

theorem setupTrace_release_counts (id : Int) (fine coarse next : Option Manager)
    (cm : Manager) (p : LevelPtr) (nx : Option (Manager × LevelPtr)) (b : Bool)
    (Ac : Option Matrix) (hne : ∀ nm nl, nx = some (nm, nl) → nl ≠ p) :
    (setupTrace id fine coarse next cm p nx b Ac).count
        (.release p (.TopSmootherFactory cm "Smoother")) = (if b = true then 0 else 1) ∧
    (setupTrace id fine coarse next cm p nx b Ac).count
        (.release p (.TopSmootherFactory cm "CoarseSolver")) =
      (if b = true ∧ Ac.isSome = true then 1 else 0) ∧
    (∀ f c, (setupTrace id fine coarse next cm p nx b Ac).count
        (.release p (.TopRAPFactory f c)) = if fine = some f ∧ cm = c then 1 else 0) ∧
    (∀ f c, (setupTrace id fine coarse next cm p nx b Ac).count
        (.build (.TopRAPFactory f c) p) = if fine = some f ∧ cm = c then 1 else 0) := by
  rcases nx with _ | ⟨nm, nl⟩
  · cases fine <;> cases b <;> cases Ac <;>
      simp [setupTrace, finestRequests, nextRequests, rapEvents, truncateEvents, smootherEvents,
        List.count_cons]
  · have h := hne nm nl rfl
    cases fine <;> cases b <;> cases Ac <;>
      simp [setupTrace, finestRequests, nextRequests, rapEvents, truncateEvents, smootherEvents,
        List.count_cons, h]

end perCall

section balanceClaim

theorem SetupThroughRAP_keeps_entry (P : Producers) (coarseLevelID : Int)
    (fine coarse next : Option Manager) (s : HState) (k : Nat) (p : LevelPtr)
    (hp : s.Levels_[k]? = some p) :
    (SetupThroughRAP P coarseLevelID fine coarse next s).st.Levels_[k]? = some p := by
  have hJ := HeapStable.of_chain (fun (ch : List LevelPtr) => ch[k]? = some p)
  have hA : Preserves (fun s => s.Levels_[k]? = some p) AddNewLevel := by
    constructor
    intro s1 h1
    rw [AddNewLevel_run]
    split
    · exact h1
    · show (addNewLevelState s1).Levels_[k]? = some p
      have hk : k < s1.Levels_.length := (List.getElem?_eq_some.mp h1).1
      rw [addNewLevelState_Levels, List.getElem?_append_left hk, h1]
  exact (Preserves.SetupThroughRAP_keeps hJ hA P coarseLevelID fine coarse next).run s hp

/-- C29: the requests and releases of a per-level `Setup` call that returns, on a
well-formed chain.  On its own level `p = Levels_[coarseLevelID]` the call places the
Smoother and the CoarseSolver request exactly when no fine manager is given (two smoother
requests, none otherwise); on the next level, when a next manager is given, it places the
RAP, the Smoother and the CoarseSolver request, and releases the three exactly when it
returns true.  On its own level it releases at most one of the two smoother requests: the
Smoother request exactly when it returns false, the CoarseSolver request exactly when it
returns true with a non-null "A".  The RAP request of its own level is released once,
exactly when a fine manager is given; the RAP producer is then built once, on the level
whose previous level is `Levels_[coarseLevelID - 1]`, immediately before that release.
Consequently, when the outer `Setup` runs from level 0 on a one-level hierarchy with
producers that return normally, it returns and every level of the final chain holds at
least one more smoother request than releases. -/
theorem Setup_requests_not_balanced (P : Producers) (coarseLevelID : Int)
    (fine coarse next : Option Manager) (s : HState) (b : Bool) (hI : Inv s)
    (h : (Setup P coarseLevelID fine coarse next s).out = .ok b) :
    (∃ (cm : Manager) (p : LevelPtr) (nx : Option (Manager × LevelPtr)) (Ac : Option Matrix),
      coarse = some cm ∧ 0 ≤ coarseLevelID ∧ s.Levels_[coarseLevelID.toNat]? = some p ∧
      (fetchAc p (SetupThroughRAP P coarseLevelID fine coarse next s).st).out = .ok Ac ∧
      (nx = none ↔ next = none) ∧
      (∀ nm nl, nx = some (nm, nl) → next = some nm ∧ nl ≠ p ∧
        eventsOn nl (Setup P coarseLevelID fine coarse next s).tr =
          nextRequests cm nx ++ truncateEvents cm nx b ∧
        smootherRequests nl (Setup P coarseLevelID fine coarse next s).tr = 2 ∧
        smootherReleases nl (Setup P coarseLevelID fine coarse next s).tr =
          (if b = true then 2 else 0)) ∧
      eventsOn p (Setup P coarseLevelID fine coarse next s).tr =
        finestRequests fine cm p ++ (rapEvents fine cm p ++ smootherEvents cm p b Ac) ∧
      smootherRequests p (Setup P coarseLevelID fine coarse next s).tr =
        (if fine = none then 2 else 0) ∧
      smootherReleases p (Setup P coarseLevelID fine coarse next s).tr =
        (if b = false ∨ Ac.isSome = true then 1 else 0) ∧
      smootherReleases p (Setup P coarseLevelID fine coarse next s).tr ≤ 1 ∧
      (Setup P coarseLevelID fine coarse next s).tr.count
          (.release p (.TopSmootherFactory cm "Smoother")) = (if b = true then 0 else 1) ∧
      (Setup P coarseLevelID fine coarse next s).tr.count
          (.release p (.TopSmootherFactory cm "CoarseSolver")) =
        (if b = true ∧ Ac.isSome = true then 1 else 0) ∧
      (∀ f c, (Setup P coarseLevelID fine coarse next s).tr.count
          (.release p (.TopRAPFactory f c)) = if fine = some f ∧ cm = c then 1 else 0) ∧
      (∀ f c, (Setup P coarseLevelID fine coarse next s).tr.count
          (.build (.TopRAPFactory f c) p) = if fine = some f ∧ cm = c then 1 else 0) ∧
      (∀ fm, fine = some fm → 1 ≤ coarseLevelID ∧
        (s.heap p).previousLevel = s.Levels_[(coarseLevelID - 1).toNat]? ∧
        ∃ t1 t2, (Setup P coarseLevelID fine coarse next s).tr =
          t1 ++ [.build (.TopRAPFactory fm cm) p, .release p (.TopRAPFactory fm cm)] ++ t2)) ∧
    (∀ (m : Manager) (N : Int) (t : HState) (q0 : LevelPtr) (A : Matrix),
      (∀ f c fl cl heap, (P.BuildRAP f c fl cl heap).1 = none ∧
        ∀ id, ((P.BuildRAP f c fl cl heap).2 cl ⟨"A", none⟩).value ≠ some (.smoother id)) →
      (∀ mg v l heap, (P.BuildSmoother mg v l heap).1 = none) →
      2 ≤ N → t.Levels_ = [q0] → Inv t →
      ((t.heap q0).store ⟨"A", none⟩).value = some (.matrix (some A)) →
      (SetupLevels P m 0 N t).out = .ok () ∧
      ∀ q ∈ (SetupLevels P m 0 N t).st.Levels_,
        smootherReleases q (SetupLevels P m 0 N t).tr + 1 ≤
          smootherRequests q (SetupLevels P m 0 N t).tr) := by
  constructor
  · obtain ⟨cm, p, nx, Ac, hthr, hfetch, _, htr⟩ := Setup_trace h
    obtain ⟨hcm, h0, hp, _, hfpos, hnx, hnext⟩ := SetupThroughRAP_ok hthr
    have hI1 : Inv (SetupThroughRAP P coarseLevelID fine coarse next s).st :=
      (Preserves.SetupThroughRAP_keeps HeapStable.inv_stable Preserves.AddNewLevel_keeps
        P coarseLevelID fine coarse next).run s hI
    have hp1 := SetupThroughRAP_keeps_entry P coarseLevelID fine coarse next s _ p hp
    have hne : ∀ nm nl, nx = some (nm, nl) → nl ≠ p := by
      intro nm nl hx hpl
      subst hpl
      have hid1 := (hI1.1 _ _ (hnext nm nl hx).2).1
      have hid0 := (hI1.1 _ _ hp1).1
      rw [hid1] at hid0
      omega
    have hreq := setupTrace_smootherRequests coarseLevelID fine coarse next cm p nx b Ac
    have hrel := setupTrace_smootherReleases coarseLevelID fine coarse next cm p nx b Ac
    have hcnt := setupTrace_release_counts coarseLevelID fine coarse next cm p nx b Ac hne
    have hrelp : smootherReleases p (setupTrace coarseLevelID fine coarse next cm p nx b Ac) =
        (if b = false ∨ Ac.isSome = true then 1 else 0) := by
      rw [hrel p]
      rcases nx with _ | ⟨nm, nl⟩
      · simp
      · simp [hne nm nl rfl]
    rw [htr]
    refine ⟨cm, p, nx, Ac, hcm, h0, hp, hfetch, hnx, ?_,
      setupTrace_eventsOn_current _ _ _ _ _ _ _ _ _ hne, ?_, hrelp, ?_,
      hcnt.1, hcnt.2.1, hcnt.2.2.1, hcnt.2.2.2, ?_⟩
    · intro nm nl hx
      have hnl := hne nm nl hx
      have hpn : p ≠ nl := fun hh => hnl hh.symm
      subst hx
      refine ⟨(hnext nm nl rfl).1, hnl, setupTrace_eventsOn_next _ _ _ _ _ _ _ _ _ _ hnl, ?_, ?_⟩
      · rw [hreq nl]
        simp [hpn]
      · rw [hrel nl]
        simp [hpn]
    · rw [hreq p]
      rcases nx with _ | ⟨nm, nl⟩
      · simp
      · simp [hne nm nl rfl]
    · rw [hrelp]
      split <;> omega
    · intro fm hfm
      subst hfm
      have h1 : 1 ≤ coarseLevelID := hfpos (by simp)
      refine ⟨h1, ?_, ?_⟩
      · have hw := (hI.1 _ _ hp).2 (by omega)
        rw [hw]
        congr 1
        omega
      · refine ⟨[.enterSetup coarseLevelID (some fm) coarse next] ++ nextRequests cm nx,
          truncateEvents cm nx b ++ (smootherEvents cm p b Ac ++
            [.returnSetup coarseLevelID b]), ?_⟩
        simp [setupTrace, finestRequests, rapEvents, List.append_assoc]
  · intro m N t q0 A hRAP hSm hN hch hIt hA
    have hp : t.Levels_[(0 : Int).toNat]? = some q0 := by simp [hch]
    have hAv : (t.heap q0).IsAvailable "A" = true := by simp [Level.IsAvailable, hA]
    have hA0 : ∀ p1, t.Levels_[0]? = some p1 →
        ∀ id, ((t.heap p1).store ⟨"A", none⟩).value ≠ some (.smoother id) := by
      intro p1 hp1 id
      rw [hch] at hp1
      simp only [List.getElem?_cons_zero, Option.some.injEq] at hp1
      subst hp1
      rw [hA]
      simp
    rw [SetupLevels_run P m 0 N t q0 hN (le_refl _) hp hAv]
    obtain ⟨iLevel, ho, hl⟩ := (SetupCalls_returns P hRAP hSm m (0 + N - 1) (by omega) t hIt
      (by simp [hch]) hA0).elim
    refine ⟨?_, (SetupCalls_outstanding P hRAP hSm m (0 + N - 1) (by omega) t hIt
      (by simp [hch]) hA0).elim⟩
    simp only [ho]
    rw [if_neg (not_not.mpr hl)]

/-- Witness for C29: the first per-level call on the one-level hierarchy over a 1000-row
operator, and the outer `Setup` with three desired levels on it. -/
theorem Setup_requests_not_balanced_witness :
    (Setup coarsening 0 none (some 7) (some 7) bigHierarchy).out = .ok false ∧
    (∃ p, bigHierarchy.Levels_[(0 : Int).toNat]? = some p ∧
      smootherRequests p (Setup coarsening 0 none (some 7) (some 7) bigHierarchy).tr = 2 ∧
      smootherReleases p (Setup coarsening 0 none (some 7) (some 7) bigHierarchy).tr ≤ 1) ∧
    ((SetupLevels coarsening 7 0 3 bigHierarchy).out = .ok () ∧
      ∀ q ∈ (SetupLevels coarsening 7 0 3 bigHierarchy).st.Levels_,
        smootherReleases q (SetupLevels coarsening 7 0 3 bigHierarchy).tr + 1 ≤
          smootherRequests q (SetupLevels coarsening 7 0 3 bigHierarchy).tr) :=
  have hI : Inv bigHierarchy := (show Reachable coarsening bigHierarchy from
      Reachable.constructA emptyHeap 0 (some bigMatrix)).inv
  have h := Setup_requests_not_balanced coarsening 0 none (some 7) (some 7) bigHierarchy false
    hI (by decide!)
  ⟨by decide!,
   let ⟨_, p, _, _, _, _, hp, _, _, _, _, hreq, _, hrel, _⟩ := h.1
   ⟨p, hp, hreq, hrel⟩,
   h.2 7 3 bigHierarchy 0 bigMatrix
     (fun _ _ _ cl heap => ⟨rfl, fun id => by simp [coarsening, Level.Set]⟩)
     (fun _ _ _ _ => rfl) (by decide) (by decide!) hI (by decide!)⟩

end balanceClaim

section store

/-- C22: the request counting of a level's artifact store.  `Request` increments the
counter of its slot and changes no stored value and no keep flag; `Release` decrements the
counter, keeps the keep flag and every other slot, keeps the value while the counter is
still positive or the slot is flagged keep, and frees it when the counter is zero and the
slot is not kept.  For a slot that starts with no outstanding request, `Request; Request;
produce; Release` leaves the produced value available with counter 1, and a further
`Release` leaves the counter at 0 and frees the value exactly when the slot is not kept. -/
theorem Level.request_release_lifetime (l : Level) (k : Key) (v : Value)
    (h0 : (l.store k).requestCount = 0) :
    ((((l.Request k).Request k).Produce k v).Release k).store k =
      ⟨some v, 1, (l.store k).keep⟩ ∧
    (((((l.Request k).Request k).Produce k v).Release k).Release k).store k =
      ⟨if (l.store k).keep = true then some v else none, 0, (l.store k).keep⟩ ∧
    (((((((l.Request k).Request k).Produce k v).Release k).Release k).store k).value = none ↔
      (l.store k).keep = false) ∧
    (∀ (l1 : Level) (k2 : Key),
      ((l1.Request k).store k2).value = (l1.store k2).value ∧
      ((l1.Request k).store k2).keep = (l1.store k2).keep ∧
      ((l1.Request k).store k2).requestCount =
        (l1.store k2).requestCount + (if k2 = k then 1 else 0)) ∧
    (∀ (l1 : Level),
      ((l1.Release k).store k).requestCount = (l1.store k).requestCount - 1 ∧
      ((l1.Release k).store k).keep = (l1.store k).keep ∧
      ((0 < ((l1.Release k).store k).requestCount ∨ (l1.store k).keep = true) →
        ((l1.Release k).store k).value = (l1.store k).value) ∧
      ((((l1.Release k).store k).requestCount = 0 ∧ (l1.store k).keep = false) →
        ((l1.Release k).store k).value = none) ∧
      ∀ k2, k2 ≠ k → (l1.Release k).store k2 = l1.store k2) := by
  have h3 : ((((l.Request k).Request k).Produce k v).Release k).store k =
      ⟨some v, 1, (l.store k).keep⟩ := by
    simp [Level.Request, Level.Release, Level.Produce, h0]
  have h4 : (((((l.Request k).Request k).Produce k v).Release k).Release k).store k =
      ⟨if (l.store k).keep = true then some v else none, 0, (l.store k).keep⟩ := by
    rw [Level.Release]
    simp only [Function.update_same, h3]
    cases hk : (l.store k).keep <;> simp
  refine ⟨h3, h4, ?_, ?_, ?_⟩
  · rw [h4]
    cases hk : (l.store k).keep <;> simp
  · intro l1 k2
    by_cases h : k2 = k
    · subst h
      simp [Level.Request]
    · simp [Level.Request, Function.update_noteq h, h]
  · intro l1
    refine ⟨by simp [Level.Release], by simp [Level.Release], ?_, ?_, ?_⟩
    · intro h
      simp only [Level.Release, Function.update_same] at h ⊢
      rw [if_neg]
      rintro ⟨h1, h2⟩
      rcases h with h | h
      · omega
      · rw [h2] at h
        exact absurd h (by simp)
    · rintro ⟨h1, h2⟩
      simp only [Level.Release, Function.update_same] at h1 ⊢
      rw [if_pos ⟨h1, h2⟩]
    · intro k2 h
      simp [Level.Release, Function.update_noteq h]

/-- Witness for C22: the plain slot "A" of a new level, with a null operator produced. -/
theorem Level.request_release_lifetime_witness :
    (Level.new.store ⟨"A", none⟩).requestCount = 0 ∧
    ((((Level.new.Request ⟨"A", none⟩).Request ⟨"A", none⟩).Produce ⟨"A", none⟩
        (.matrix none)).Release ⟨"A", none⟩).store ⟨"A", none⟩ =
      ⟨some (.matrix none), 1, false⟩ ∧
    (((((Level.new.Request ⟨"A", none⟩).Request ⟨"A", none⟩).Produce ⟨"A", none⟩
        (.matrix none)).Release ⟨"A", none⟩).Release ⟨"A", none⟩).store ⟨"A", none⟩ =
      ⟨none, 0, false⟩ :=
  have h := Level.request_release_lifetime Level.new ⟨"A", none⟩ (.matrix none) rfl
  ⟨rfl, h.1, h.2.1⟩

end store
end MueLu

namespace ROL

section tables
variable {K V : Type} [LinearOrderedField K] [AddCommGroup V] [Module K V]

theorem moment_conditions (p : Nat) (hp : 1 ≤ p ∧ p ≤ 4) :
    weightsAt K (p - 1) 0 + moment K p 0 = 0 ∧ moment K p 1 = 1 ∧
    ∀ m, 2 ≤ m → m ≤ p → moment K p m = 0 := by
  obtain ⟨h1, h4⟩ := hp
  interval_cases p
  · refine ⟨?_, ?_, ?_⟩
    · norm_num [moment, weightsAt, weights, offset, stepsAt, steps, List.range_succ]
    · norm_num [moment, weightsAt, weights, offset, stepsAt, steps, List.range_succ]
    · intro m h2 hm
      omega
  · refine ⟨?_, ?_, ?_⟩
    · norm_num [moment, weightsAt, weights, offset, stepsAt, steps, List.range_succ]
    · norm_num [moment, weightsAt, weights, offset, stepsAt, steps, List.range_succ]
    · intro m h2 hm
      interval_cases m
      norm_num [moment, weightsAt, weights, offset, stepsAt, steps, List.range_succ]
  · refine ⟨?_, ?_, ?_⟩
    · norm_num [moment, weightsAt, weights, offset, stepsAt, steps, List.range_succ]
    · norm_num [moment, weightsAt, weights, offset, stepsAt, steps, List.range_succ]
    · intro m h2 hm
      interval_cases m <;>
      norm_num [moment, weightsAt, weights, offset, stepsAt, steps, List.range_succ]
  · refine ⟨?_, ?_, ?_⟩
    · norm_num [moment, weightsAt, weights, offset, stepsAt, steps, List.range_succ]
    · norm_num [moment, weightsAt, weights, offset, stepsAt, steps, List.range_succ]
    · intro m h2 hm
      interval_cases m <;>
      norm_num [moment, weightsAt, weights, offset, stepsAt, steps, List.range_succ]

theorem gradientStep_line (obj : Objective K V) (tol : K) (x d : V) (eta : K) (order : Nat)
    (t acc : K) (j : Nat) :
    gradientStep obj tol d eta order (x + t • d, acc) j =
      (x + (lineStep (fun t => obj.value (x + t • d) tol) eta order (t, acc) j).1 • d,
        (lineStep (fun t => obj.value (x + t • d) tol) eta order (t, acc) j).2) := by
  have hx : x + t • d + (eta * ((stepsAt (order - 1) j : Int) : K)) • d =
      x + (t + eta * ((stepsAt (order - 1) j : Int) : K)) • d := by
    rw [add_assoc, ← add_smul]
  unfold gradientStep lineStep
  simp only [hx]
  by_cases hw : weightsAt K (order - 1) (j + 1) = 0
  · simp [hw]
  · simp [hw]

theorem gradientStep_foldl (obj : Objective K V) (tol : K) (x d : V) (eta : K) (order : Nat) :
    ∀ (js : List Nat) (t acc : K),
      js.foldl (gradientStep obj tol d eta order) (x + t • d, acc) =
        (x + (js.foldl (lineStep (fun t => obj.value (x + t • d) tol) eta order) (t, acc)).1 • d,
          (js.foldl (lineStep (fun t => obj.value (x + t • d) tol) eta order) (t, acc)).2) := by
  intro js
  induction js with
  | nil => intro t acc; rfl
  | cons j js ih =>
    intro t acc
    rw [List.foldl_cons, gradientStep_line, ih, List.foldl_cons]

/-- The value `gCheck[i][2]` in terms of the objective along the line `x + t d`. -/
theorem gradientFD_line (obj : Objective K V) (tol : K) (x d : V) (eta : K) (order : Nat) :
    gradientFD obj tol x d eta order =
      ((List.range order).foldl (lineStep (fun t => obj.value (x + t • d) tol) eta order)
        (0, weightsAt K (order - 1) 0 * obj.value (x + (0 : K) • d) tol)).2 / eta := by
  unfold gradientFD
  have h0 : x = x + (0 : K) • d := by rw [zero_smul, add_zero]
  conv_lhs => rw [h0]
  rw [gradientStep_foldl]

theorem gradientFD_exact (obj : Objective K V) (tol : K) (x d : V) (p : Nat)
    (hp : 1 ≤ p ∧ p ≤ 4) (a : Nat → K)
    (hpoly : ∀ t : K, obj.value (x + t • d) tol = ∑ m in Finset.range (p + 1), a m * t ^ m)
    (eta : K) (heta : eta ≠ 0) : gradientFD obj tol x d eta p = a 1 := by
  rw [gradientFD_line]
  obtain ⟨h1, h4⟩ := hp
  interval_cases p
  · simp only [List.range_succ, List.range_zero, List.nil_append, List.foldl_cons,
      List.foldl_nil, List.cons_append, lineStep, hpoly, Finset.sum_range_succ,
      Finset.sum_range_zero]
    norm_num [weightsAt, weights, stepsAt, steps]
    field_simp
    try ring
  · simp only [List.range_succ, List.range_zero, List.nil_append, List.foldl_cons,
      List.foldl_nil, List.cons_append, lineStep, hpoly, Finset.sum_range_succ,
      Finset.sum_range_zero]
    norm_num [weightsAt, weights, stepsAt, steps]
    field_simp
    try ring
  · simp only [List.range_succ, List.range_zero, List.nil_append, List.foldl_cons,
      List.foldl_nil, List.cons_append, lineStep, hpoly, Finset.sum_range_succ,
      Finset.sum_range_zero]
    norm_num [weightsAt, weights, stepsAt, steps]
    field_simp
    try ring
  · simp only [List.range_succ, List.range_zero, List.nil_append, List.foldl_cons,
      List.foldl_nil, List.cons_append, lineStep, hpoly, Finset.sum_range_succ,
      Finset.sum_range_zero]
    norm_num [weightsAt, weights, stepsAt, steps]
    field_simp
    try ring

theorem gradientRows_exact (obj : Objective K V) (tol : K) (x d : V) (dtg a1 : K) (p : Nat)
    (h : ∀ eta : K, eta ≠ 0 → gradientFD obj tol x d eta p = a1) :
    ∀ (n : Nat) (eta : K), eta ≠ 0 →
      gradientRows obj tol x d dtg p n eta =
        (List.range n).map (fun i => [eta * (1 / 10) ^ i, dtg, a1, |a1 - dtg|]) := by
  intro n
  induction n with
  | zero => intro eta _; rfl
  | succ n ih =>
    intro eta heta
    have h10 : eta * (1 / 10 : K) ≠ 0 := mul_ne_zero heta (by norm_num)
    rw [gradientRows, h eta heta, ih _ h10, List.range_succ_eq_map, List.map_cons,
      List.map_map]
    congr 1
    · simp
    · apply List.map_congr_left
      intro i _
      simp only [Function.comp, pow_succ]
      congr 1
      ring

/-- C24: the finite-difference tables of `checkGradient` and `checkHessVec` have the
order their comments state.  For every order `p` in 1..4, with the offsets `c_j`
accumulated from `steps[p-1][0..j]` and the weights `w_j = weights[p-1][j+1]`, the weight
`weights[p-1][0]` of the offset 0 and the `w_j` sum to 0, the `w_j c_j` sum to 1, and the
`w_j c_j^m` sum to 0 for `2 <= m <= p`.  Hence, in exact arithmetic, for an objective that
along the direction `d` is a polynomial of degree at most `p` with coefficients `a`, the
value `gCheck[i][2]` is the directional derivative `a 1` for every nonzero step size, in
particular in every row of `checkGradient`, whose step sizes are the powers of `1/10`.
Both functions raise `invalid_argument` for every order below 1 or above 4, and return
for the orders 1 to 4. -/
theorem checkGradient_tables_order (K V : Type) [LinearOrderedField K] [AddCommGroup V]
    [Module K V] :
    (∀ p : Nat, 1 ≤ p → p ≤ 4 →
      weightsAt K (p - 1) 0 + moment K p 0 = 0 ∧ moment K p 1 = 1 ∧
      ∀ m, 2 ≤ m → m ≤ p → moment K p m = 0) ∧
    (∀ (obj : Objective K V) (ops : VectorOps K V) (tol : K) (x g d : V) (p : Nat)
        (a : Nat → K) (numSteps : Nat), 1 ≤ p → p ≤ 4 →
      (∀ t : K, obj.value (x + t • d) tol = ∑ m in Finset.range (p + 1), a m * t ^ m) →
      (∀ eta : K, eta ≠ 0 → gradientFD obj tol x d eta p = a 1) ∧
      checkGradient obj ops tol x g d numSteps (p : Int) =
        .ok ((List.range numSteps).map (fun i =>
          [(1 / 10 : K) ^ i, ops.dot d (ops.dual (obj.gradient x tol)), a 1,
            |a 1 - ops.dot d (ops.dual (obj.gradient x tol))|]))) ∧
    (∀ (obj : Objective K V) (ops : VectorOps K V) (tol : K) (x g d : V) (numSteps : Nat)
        (order : Int),
      ((order < 1 ∨ order > 4) →
        checkGradient obj ops tol x g d numSteps order =
          .error (.invalid_argument "Error: finite difference order must be 1,2,3, or 4") ∧
        checkHessVec obj ops tol x g d numSteps order =
          .error (.invalid_argument "Error: finite difference order must be 1,2,3, or 4")) ∧
      ((1 ≤ order ∧ order ≤ 4) →
        (∃ rows, checkGradient obj ops tol x g d numSteps order = .ok rows ∧
          rows.length = numSteps) ∧
        (∃ rows, checkHessVec obj ops tol x g d numSteps order = .ok rows ∧
          rows.length = numSteps))) := by
  refine ⟨fun p h1 h4 => moment_conditions p ⟨h1, h4⟩, ?_, ?_⟩
  · intro obj ops tol x g d p a numSteps h1 h4 hpoly
    have hfd : ∀ eta : K, eta ≠ 0 → gradientFD obj tol x d eta p = a 1 :=
      fun eta heta => gradientFD_exact obj tol x d p ⟨h1, h4⟩ a hpoly eta heta
    refine ⟨hfd, ?_⟩
    unfold checkGradient
    rw [if_neg (by omega)]
    simp only [Int.toNat_ofNat]
    rw [gradientRows_exact obj tol x d _ (a 1) p hfd numSteps 1 one_ne_zero]
    simp
  · intro obj ops tol x g d numSteps order
    constructor
    · intro h
      exact ⟨by simp [checkGradient, h], by simp [checkHessVec, h]⟩
    · intro h
      have hn : ¬ (order < 1 ∨ order > 4) := by omega
      have hg : ∀ (dtg : K) (n : Nat) (eta : K),
          (gradientRows obj tol x d dtg order.toNat n eta).length = n := by
        intro dtg n
        induction n with
        | zero => intro eta; rfl
        | succ n ih => intro eta; simp [gradientRows, ih]
      have hh : ∀ (Hv : V) (n : Nat) (eta : K),
          (hessVecRows obj ops tol x d Hv order.toNat n eta).length = n := by
        intro Hv n
        induction n with
        | zero => intro eta; rfl
        | succ n ih => intro eta; simp [hessVecRows, ih]
      refine ⟨⟨gradientRows obj tol x d (ops.dot d (ops.dual (obj.gradient x tol)))
          order.toNat numSteps 1, ?_, hg _ _ _⟩,
        ⟨hessVecRows obj ops tol x d (obj.hessVec d x tol) order.toNat numSteps 1, ?_,
          hh _ _ _⟩⟩
      · simp only [checkGradient, if_neg hn]
      · simp only [checkHessVec, if_neg hn]

/-- Witness for C24: the objective `x ↦ x^2` on the rationals at `x = 3` in the direction
`d = 1` is the polynomial `9 + 6 t + t^2` along the line; the check of order 2 returns
the derivative 6 in both rows, and order 5 is rejected. -/
theorem checkGradient_tables_order_witness :
    checkGradient square rationalOps 0 3 0 1 2 ((2 : Nat) : Int) =
      .ok [[1, 6, 6, 0], [1 / 10, 6, 6, 0]] ∧
    checkGradient square rationalOps 0 3 0 1 2 5 =
      .error (.invalid_argument "Error: finite difference order must be 1,2,3, or 4") :=
  have h := checkGradient_tables_order ℚ ℚ
  ⟨by
    have h2 := (h.2.1 square rationalOps 0 3 0 1 2 (fun m => if m = 0 then 9 else if m = 1 then 6
      else 1) 2 (by decide) (by decide) (fun t => by
        simp [square, Finset.sum_range_succ]
        ring)).2
    rw [h2]
    simp [square, rationalOps, List.range_succ]
    norm_num,
   ((h.2.2 square rationalOps 0 3 0 1 2 5).1 (by decide)).1⟩

end tables

end ROL

namespace Example

theorem entry_cons {K : Type} [CommRing K] (c : Nat) (v : K) (rest : Row K) (col : Nat) :
    entry ((c, v) :: rest) col = (if c = col then v else 0) + entry rest col := by
  unfold entry
  by_cases h : c = col
  · simp [List.filter_cons, h]
  · simp [List.filter_cons, h]

theorem entry_absent {K : Type} [CommRing K] (b : Row K) (col : Nat)
    (h : ∀ e ∈ b, e.1 ≠ col) : entry b col = 0 := by
  induction b with
  | nil => rfl
  | cons e rest ih =>
    obtain ⟨c, v⟩ := e
    rw [entry_cons, if_neg (h (c, v) (List.mem_cons_self _ _)),
      ih (fun e he => h e (List.mem_cons_of_mem _ he)), add_zero]

theorem cols_set {K : Type} (c : Row K) (p : Nat) (e : Nat × K) (v : K)
    (h : (c)[p]? = some e) : cols (c.set p (e.1, v)) = cols c := by
  unfold cols
  rw [List.map_set]
  apply List.ext_getElem?
  intro n
  rw [List.getElem?_set]
  by_cases hn : p = n
  · subst hn
    have hlt : p < (List.map Prod.fst c).length := by
      rw [List.length_map]
      exact (List.getElem?_eq_some.mp h).1
    rw [if_pos rfl, if_pos hlt, List.getElem?_map, h]
    rfl
  · rw [if_neg hn]

theorem valueAt_set {K : Type} [CommRing K] (c : Row K) (p : Nat) (x : Nat × K) (n : Nat)
    (hp : p < c.length) : valueAt (c.set p x) n = if p = n then x.2 else valueAt c n := by
  unfold valueAt
  rw [List.getElem?_set]
  by_cases hn : p = n
  · subst hn
    rw [if_pos rfl, if_pos hp, if_pos rfl]
    rfl
  · rw [if_neg hn, if_neg hn]

theorem nodup_index_eq {l : List Nat} (h : l.Nodup) {i j a : Nat} (hi : l[i]? = some a)
    (hj : l[j]? = some a) : i = j := by
  obtain ⟨hi1, hi2⟩ := List.getElem?_eq_some.mp hi
  obtain ⟨hj1, hj2⟩ := List.getElem?_eq_some.mp hj
  exact (List.Nodup.getElem_inj_iff h).mp (hi2.trans hj2.symm)

theorem gemmRow_stop {K : Type} [CommRing K] (Index : List Nat → Nat → Int → Int)
    (alpha vi : K) (b : Row K) (idx : Int) (c : Row K) (h : idx ≤ -2) :
    gemmRow Index alpha vi b idx c = some c := by
  cases b with
  | nil => rfl
  | cons e rest =>
    obtain ⟨cj, vj⟩ := e
    rw [gemmRow, if_neg (by omega)]

/-- The scan of a row `b` of `B` over a row `c` of `C` adds to every stored value of `c`
the product of `alpha`, the value `vi` and the entry of `b` in the column of the value;
the columns of `c` stay as they are. -/
theorem gemmRow_spec {K : Type} [CommRing K] (Index : List Nat → Nat → Int → Int)
    (alpha vi : K) :
    ∀ (b : Row K) (idx : Int) (c : Row K), (cols c).Nodup → -2 < idx →
      ScanOk Index (cols c) idx (cols b) →
      ∃ c1, gemmRow Index alpha vi b idx c = some c1 ∧ cols c1 = cols c ∧
        ∀ p col, (cols c)[p]? = some col →
          valueAt c1 p = valueAt c p + alpha * vi * entry b col := by
  intro b
  induction b with
  | nil =>
    intro idx c _ _ _
    refine ⟨c, rfl, rfl, ?_⟩
    intro p col _
    simp [entry]
  | cons e rest ih =>
    obtain ⟨cj, vj⟩ := e
    intro idx c hnd hidx hscan
    have hscan1 : ScanOk Index (cols c) idx (cj :: cols rest) := hscan
    obtain ⟨h1, h2, h3, h4⟩ := hscan1
    rw [gemmRow, if_pos (by omega)]
    rw [show List.map Prod.fst c = cols c from rfl]
    by_cases hr : Index (cols c) cj idx ≥ 0
    · have hcol := h1 hr
      have hget : ∃ e, (c)[(Index (cols c) cj idx).toNat]? = some e ∧ e.1 = cj := by
        have hcol1 : (List.map Prod.fst c)[(Index (cols c) cj idx).toNat]? = some cj := hcol
        rw [List.getElem?_map] at hcol1
        rcases hc : (c)[(Index (cols c) cj idx).toNat]? with _ | e
        · rw [hc] at hcol1
          exact absurd hcol1 (by simp)
        · rw [hc] at hcol1
          simp only [Option.map_some', Option.some.injEq] at hcol1
          exact ⟨e, rfl, hcol1⟩
      obtain ⟨e, he, hecol⟩ := hget
      have hp0 : (Index (cols c) cj idx).toNat < c.length := (List.getElem?_eq_some.mp he).1
      rw [if_pos hr, he]
      simp only []
      have hcols := cols_set c _ e (e.2 + alpha * vi * vj) he
      obtain ⟨c1, hc1, hc1cols, hc1val⟩ := ih (Index (cols c) cj idx)
        (c.set (Index (cols c) cj idx).toNat (e.1, e.2 + alpha * vi * vj))
        (by rw [hcols]; exact hnd) (by omega) (by rw [hcols]; exact h4 (by omega))
      refine ⟨c1, hc1, by rw [hc1cols, hcols], ?_⟩
      intro p col hp
      rw [hc1val p col (by rw [hcols]; exact hp), valueAt_set _ _ _ _ hp0, entry_cons]
      by_cases hpp : (Index (cols c) cj idx).toNat = p
      · rw [if_pos hpp]
        rw [hpp] at hcol he
        rw [hcol] at hp
        simp only [Option.some.injEq] at hp
        rw [if_pos hp]
        have hv : valueAt c p = e.2 := by
          unfold valueAt
          rw [he]
          rfl
        rw [hv]
        simp only []
        ring
      · rw [if_neg hpp]
        have hne : cj ≠ col := by
          intro hcc
          subst hcc
          exact hpp (nodup_index_eq hnd hcol hp)
        rw [if_neg hne]
        ring
    · have hneg : Index (cols c) cj idx < 0 := by omega
      have habs := h2 hneg
      rw [if_neg hr]
      have hcj : ∀ (p col : Nat), (cols c)[p]? = some col → cj ≠ col := by
        intro p col hp hcc
        rw [hcc] at habs
        exact habs (List.getElem?_mem hp)
      by_cases hstop : Index (cols c) cj idx ≤ -2
      · refine ⟨c, gemmRow_stop Index alpha vi rest _ c hstop, rfl, ?_⟩
        intro p col hp
        rw [entry_cons, if_neg (hcj p col hp), entry_absent rest col]
        · ring
        · intro e he hcc
          have hmem : e.1 ∈ cols rest := List.mem_map_of_mem Prod.fst he
          rw [hcc] at hmem
          exact h3 hstop col hmem (List.getElem?_mem hp)
      · obtain ⟨c1, hc1, hc1cols, hc1val⟩ := ih (Index (cols c) cj idx) c hnd (by omega)
          (h4 (by omega))
        refine ⟨c1, hc1, hc1cols, ?_⟩
        intro p col hp
        rw [hc1val p col hp, entry_cons, if_neg (hcj p col hp)]
        ring

theorem pattern_set {K : Type} (C : CrsMat K) (r : Nat) (c c1 : Row K)
    (hc : C[r]? = some c) (h : cols c1 = cols c) : pattern (C.set r c1) = pattern C := by
  unfold pattern
  rw [List.map_set]
  apply List.ext_getElem?
  intro n
  rw [List.getElem?_set]
  by_cases hn : r = n
  · subst hn
    have hlt : r < (List.map cols C).length := by
      rw [List.length_map]
      exact (List.getElem?_eq_some.mp hc).1
    rw [if_pos rfl, if_pos hlt, List.getElem?_map, hc, h]
    rfl
  · rw [if_neg hn]

theorem rowAt_set {K : Type} (C : CrsMat K) (r : Nat) (c1 : Row K) (n : Nat)
    (hr : r < C.length) : rowAt (C.set r c1) n = if r = n then c1 else rowAt C n := by
  unfold rowAt
  rw [List.getElem?_set]
  by_cases hn : r = n
  · subst hn
    rw [if_pos rfl, if_pos hr, if_pos rfl]
    rfl
  · rw [if_neg hn, if_neg hn]

theorem pattern_rowAt {K : Type} (C : CrsMat K) (r : Nat) :
    ((pattern C)[r]?).getD [] = cols (rowAt C r) := by
  unfold pattern rowAt
  rw [List.getElem?_map]
  cases (C)[r]? <;> rfl

/-- The loop over the entries of a row `a` of `A` adds to the stored value of `C` in row
`r` and column `col` the product of `alpha`, the conjugated entry of `a` in column `r`
and the entry of `b` in column `col`; the pattern of `C` stays as it is. -/
theorem gemmCols_spec {K : Type} [CommRing K] (Index : List Nat → Nat → Int → Int)
    (conj : K → K) (alpha : K) (b : Row K) :
    ∀ (a : Row K) (C : CrsMat K), (∀ cs ∈ pattern C, cs.Nodup) →
      (∀ e ∈ a, e.1 < (pattern C).length) →
      (∀ cs ∈ pattern C, ScanOk Index cs 0 (cols b)) →
      ∃ C1, gemmCols Index conj alpha b a C = some C1 ∧ pattern C1 = pattern C ∧
        ∀ (r p col : Nat), (cols (rowAt C r))[p]? = some col →
          valueAt (rowAt C1 r) p = valueAt (rowAt C r) p +
            alpha * entry (a.map (fun e => (e.1, conj e.2))) r * entry b col := by
  intro a
  induction a with
  | nil =>
    intro C _ _ _
    refine ⟨C, rfl, rfl, ?_⟩
    intro r p col _
    simp [entry]
  | cons e rest ih =>
    obtain ⟨ri, v⟩ := e
    intro C hnd hshape hscan
    have hri : ri < C.length := by
      have h := hshape (ri, v) (List.mem_cons_self _ _)
      unfold pattern at h
      rw [List.length_map] at h
      exact h
    have hc : C[ri]? = some C[ri] := List.getElem?_eq_getElem hri
    have hmem : cols C[ri] ∈ pattern C := List.mem_map_of_mem cols (List.getElem_mem hri)
    obtain ⟨c1, hc1, hc1cols, hc1val⟩ := gemmRow_spec Index alpha (conj v) b 0 C[ri]
      (hnd _ hmem) (by omega) (hscan _ hmem)
    have hpat := pattern_set C ri C[ri] c1 hc hc1cols
    obtain ⟨C1, hC1, hC1pat, hC1val⟩ := ih (C.set ri c1) (by rw [hpat]; exact hnd)
      (by rw [hpat]; exact fun e he => hshape e (List.mem_cons_of_mem _ he))
      (by rw [hpat]; exact hscan)
    refine ⟨C1, ?_, by rw [hC1pat, hpat], ?_⟩
    · rw [gemmCols, hc]
      simp only []
      rw [hc1]
      exact hC1
    · intro r p col hp
      have hrow : rowAt C ri = C[ri] := by
        unfold rowAt
        rw [hc]
        rfl
      have hp1 : (cols (rowAt (C.set ri c1) r))[p]? = some col := by
        rw [rowAt_set C ri c1 r hri]
        by_cases hr : ri = r
        · rw [if_pos hr, hc1cols, ← hrow, hr]
          exact hp
        · rw [if_neg hr]
          exact hp
      rw [hC1val r p col hp1, rowAt_set C ri c1 r hri, List.map_cons, entry_cons]
      by_cases hr : ri = r
      · rw [if_pos hr, if_pos hr]
        subst hr
        rw [hrow] at hp ⊢
        rw [hc1val p col hp]
        ring
      · rw [if_neg hr, if_neg hr]
        ring

theorem product_cons {K : Type} [CommRing K] (conj : K → K) (a b : Row K) (A B : CrsMat K)
    (i j : Nat) :
    product conj (a :: A) (b :: B) i j =
      entry (a.map (fun e => (e.1, conj e.2))) i * entry b j + product conj A B i j := by
  unfold product
  rw [List.zip_cons_cons, List.map_cons, List.sum_cons]

/-- The loop over the rows of `A` adds to the stored value of `C` in row `r` and column
`col` the product of `alpha` and the sum, over the rows still to visit, of the conjugated
entry of the row of `A` in column `r` times the entry of the row of `B` in column `col`. -/
theorem gemmLoop_spec {K : Type} [CommRing K] (Index : List Nat → Nat → Int → Int)
    (conj : K → K) (alpha : K) (B : CrsMat K) :
    ∀ (A : CrsMat K) (k : Nat) (C : CrsMat K), A.length + k ≤ B.length →
      (∀ cs ∈ pattern C, cs.Nodup) →
      (∀ a ∈ A, ∀ e ∈ a, e.1 < (pattern C).length) →
      (∀ b ∈ B, ∀ cs ∈ pattern C, ScanOk Index cs 0 (cols b)) →
      ∃ C1, gemmLoop Index conj alpha B A k C = some C1 ∧ pattern C1 = pattern C ∧
        ∀ (r p col : Nat), (cols (rowAt C r))[p]? = some col →
          valueAt (rowAt C1 r) p = valueAt (rowAt C r) p +
            alpha * product conj A (B.drop k) r col := by
  intro A
  induction A with
  | nil =>
    intro k C _ _ _ _
    refine ⟨C, rfl, rfl, ?_⟩
    intro r p col _
    simp [product]
  | cons a rest ih =>
    intro k C hlen hnd hshape hscan
    have hk : k < B.length := by
      rw [List.length_cons] at hlen
      omega
    have hb : B[k]? = some B[k] := List.getElem?_eq_getElem hk
    obtain ⟨C1, hC1, hC1pat, hC1val⟩ := gemmCols_spec Index conj alpha B[k] a C hnd
      (hshape a (List.mem_cons_self _ _)) (hscan B[k] (List.getElem_mem hk))
    obtain ⟨C2, hC2, hC2pat, hC2val⟩ := ih (k + 1) C1
      (by rw [List.length_cons] at hlen; omega) (by rw [hC1pat]; exact hnd)
      (by rw [hC1pat]; exact fun a1 ha1 => hshape a1 (List.mem_cons_of_mem _ ha1))
      (by rw [hC1pat]; exact hscan)
    refine ⟨C2, ?_, by rw [hC2pat, hC1pat], ?_⟩
    · rw [gemmLoop, hb]
      simp only []
      rw [hC1]
      exact hC2
    · intro r p col hp
      have hp1 : (cols (rowAt C1 r))[p]? = some col := by
        rw [← pattern_rowAt, hC1pat, pattern_rowAt]
        exact hp
      rw [hC2val r p col hp1, hC1val r p col hp, List.drop_eq_getElem_cons hk, product_cons]
      ring

theorem ScanOk_lookup (ccols : List Nat) :
    ∀ (bcols : List Nat) (idx : Int), ScanOk lookupIndex ccols idx bcols := by
  intro bcols
  induction bcols with
  | nil => intro idx; trivial
  | cons col rest ih =>
    intro idx
    refine ⟨?_, ?_, ?_, fun _ => ih _⟩
    · intro h
      unfold lookupIndex at h ⊢
      by_cases hm : col ∈ ccols
      · rw [if_pos hm]
        simp only [Int.toNat_ofNat]
        exact List.getElem?_indexOf hm
      · rw [if_neg hm] at h
        omega
    · intro h
      unfold lookupIndex at h
      by_cases hm : col ∈ ccols
      · rw [if_pos hm] at h
        omega
      · exact hm
    · intro h
      unfold lookupIndex at h
      by_cases hm : col ∈ ccols
      · rw [if_pos hm] at h
        omega
      · rw [if_neg hm] at h
        omega

theorem pattern_scaleValues {K : Type} [CommRing K] (beta : K) (C : CrsMat K) :
    pattern (scaleValues beta C) = pattern C := by
  unfold pattern scaleValues cols
  rw [List.map_map]
  apply List.map_congr_left
  intro r _
  simp only [Function.comp, List.map_map]
  rfl

theorem rowAt_scaleValues {K : Type} [CommRing K] (beta : K) (C : CrsMat K) (r : Nat) :
    rowAt (scaleValues beta C) r = (rowAt C r).map (fun e => (e.1, beta * e.2)) := by
  unfold rowAt scaleValues
  rw [List.getElem?_map]
  cases (C)[r]? <;> rfl

/-- C23: `Gemm<ConjTranspose, NoTranspose, ForRightBlocked>::invoke(alpha, A, B, beta, C)`
computes the sparse product on the pattern of `C`.  For `A` and `B` with the same number
of rows, the column indices of `A` naming rows of `C`, rows of `C` without duplicate
column entries, `scale(beta, C)` multiplying every stored value by `beta`, and `Index`
answering the scans of the rows of `B` over the rows of `C` correctly, the call returns 0,
the pattern of `C` is unchanged (products outside it are dropped), and the stored entry
of `C` in row `r` and column `col` ends with `beta` times its old value plus `alpha` times
the sum over the rows `k` of `conj(A(k, r)) * B(k, col)`, an entry that is not stored
counting as zero.  `A` and `B` are only read. -/
theorem invoke_computes_product {K : Type} [CommRing K] (scale : K → CrsMat K → CrsMat K)
    (Index : List Nat → Nat → Int → Int) (conj : K → K) (alpha : K) (A B : CrsMat K)
    (beta : K) (C : CrsMat K) (hrows : A.length = B.length)
    (hshape : ∀ a ∈ A, ∀ e ∈ a, e.1 < C.length)
    (hnd : ∀ c ∈ C, (cols c).Nodup)
    (hscale : scale beta C = scaleValues beta C)
    (hscan : ∀ b ∈ B, ∀ c ∈ C, ScanOk Index (cols c) 0 (cols b)) :
    ∃ C1, invoke scale Index conj alpha A B beta C = some (C1, 0) ∧
      pattern C1 = pattern C ∧
      ∀ (r p col : Nat) (c : Row K) (v : K), C[r]? = some c → (c)[p]? = some (col, v) →
        ∃ c1, C1[r]? = some c1 ∧
          (c1)[p]? = some (col, beta * v + alpha * product conj A B r col) := by
  have hpat0 := pattern_scaleValues beta C
  have hmemp : ∀ cs ∈ pattern C, ∃ c ∈ C, cs = cols c := by
    intro cs hcs
    unfold pattern at hcs
    obtain ⟨c, hc, rfl⟩ := List.mem_map.mp hcs
    exact ⟨c, hc, rfl⟩
  obtain ⟨C1, hC1, hC1pat, hC1val⟩ := gemmLoop_spec Index conj alpha B A 0
    (scaleValues beta C) (by omega)
    (by
      rw [hpat0]
      intro cs hcs
      obtain ⟨c, hc, rfl⟩ := hmemp cs hcs
      exact hnd c hc)
    (by
      rw [hpat0]
      intro a ha e he
      unfold pattern
      rw [List.length_map]
      exact hshape a ha e he)
    (by
      rw [hpat0]
      intro b hb cs hcs
      obtain ⟨c, hc, rfl⟩ := hmemp cs hcs
      exact hscan b hb c hc)
  rw [hpat0] at hC1pat
  refine ⟨C1, ?_, hC1pat, ?_⟩
  · unfold invoke
    rw [hscale, hC1]
  · intro r p col c v hc hp
    have hrow : rowAt C r = c := by
      unfold rowAt
      rw [hc]
      rfl
    have hcol : (cols (rowAt (scaleValues beta C) r))[p]? = some col := by
      rw [← pattern_rowAt, hpat0, pattern_rowAt, hrow]
      unfold cols
      rw [List.getElem?_map, hp]
      rfl
    have hval := hC1val r p col hcol
    rw [List.drop_zero] at hval
    have hv0 : valueAt (rowAt (scaleValues beta C) r) p = beta * v := by
      rw [rowAt_scaleValues, hrow]
      unfold valueAt
      rw [List.getElem?_map, hp]
      rfl
    rw [hv0] at hval
    have hcols1 : cols (rowAt C1 r) = cols c := by
      rw [← pattern_rowAt, hC1pat, pattern_rowAt, hrow]
    have hc1 : ∃ c1, C1[r]? = some c1 := by
      rcases h : (C1)[r]? with _ | c1
      · exfalso
        have hnil : rowAt C1 r = [] := by
          unfold rowAt
          rw [h]
          rfl
        rw [hnil] at hcols1
        have hcp : (cols c)[p]? = some col := by
          unfold cols
          rw [List.getElem?_map, hp]
          rfl
        rw [← hcols1] at hcp
        simp [cols] at hcp
      · exact ⟨c1, rfl⟩
    obtain ⟨c1, hc1⟩ := hc1
    have hrow1 : rowAt C1 r = c1 := by
      unfold rowAt
      rw [hc1]
      rfl
    rw [hrow1] at hcols1 hval
    refine ⟨c1, hc1, ?_⟩
    have hcp : (cols c1)[p]? = some col := by
      rw [hcols1]
      unfold cols
      rw [List.getElem?_map, hp]
      rfl
    unfold cols at hcp
    rw [List.getElem?_map] at hcp
    rcases he : (c1)[p]? with _ | e
    · rw [he] at hcp
      exact absurd hcp (by simp)
    · rw [he] at hcp
      simp only [Option.map_some', Option.some.injEq] at hcp
      unfold valueAt at hval
      rw [he] at hval
      simp only [Option.map_some', Option.getD_some] at hval
      rw [← hval, ← hcp]

/-- Witness for C23: a one-row `A` and `B` with two entries each and a `C` with three
stored entries, over the integers, with `alpha = 2` and `beta = 3`. -/
theorem invoke_computes_product_witness :
    (([[(0, 1), (1, 2)]] : CrsMat Int).length = ([[(0, 3), (1, 4)]] : CrsMat Int).length) ∧
    invoke scaleValues lookupIndex id (2 : Int) [[(0, 1), (1, 2)]] [[(0, 3), (1, 4)]] 3
        [[(0, 10)], [(0, 0), (1, 1)]] =
      some ([[(0, 36)], [(0, 12), (1, 19)]], 0) ∧
    ∃ C1, invoke scaleValues lookupIndex id (2 : Int) [[(0, 1), (1, 2)]] [[(0, 3), (1, 4)]] 3
        [[(0, 10)], [(0, 0), (1, 1)]] = some (C1, 0) ∧
      pattern C1 = pattern ([[(0, 10)], [(0, 0), (1, 1)]] : CrsMat Int) :=
  have h := invoke_computes_product scaleValues lookupIndex id (2 : Int) [[(0, 1), (1, 2)]]
    [[(0, 3), (1, 4)]] 3 [[(0, 10)], [(0, 0), (1, 1)]] rfl (by decide) (by decide) rfl
    (fun _ _ _ _ => ScanOk_lookup _ _ _)
  ⟨rfl, by decide, let ⟨C1, h1, h2, _⟩ := h
    ⟨C1, h1, h2⟩⟩

end Example
